import Mathlib

/-!
# Support routines and decoders of the reference-clock demodulators

A shallow embedding of `ntp_fp.h` / `ntp_fp.c` (fixed-point time, parsers and
formatters), of `caljulian.c` (calendar), and of the burst decoder of `chu.c`
and the restart logic of `wwv.c`.  Machine words are natural numbers; every
32-bit operation reduces modulo `2 ^ 32` explicitly.  C strings are lists of
byte values, the terminating NUL being the end of the list.
-/

namespace Refclock

/-! ## Definitions -/

/-- The `l_fp` pair of `ntp_fp.h`: unsigned integral part and unsigned fraction. -/
structure l_fp where
  l_ui : Nat
  l_uf : Nat
deriving DecidableEq, Repr

/-- Both halves of an `l_fp` are 32-bit words. -/
def l_fp.wf (v : l_fp) : Prop := v.l_ui < 2 ^ 32 ∧ v.l_uf < 2 ^ 32

instance (v : l_fp) : Decidable v.wf := by
  unfold l_fp.wf
  infer_instance

/-- The 64-bit unsigned number an `l_fp` stands for (integer half in the high word). -/
def l_fp.toNat (v : l_fp) : Nat := v.l_ui * 2 ^ 32 + v.l_uf

/-- The 64-bit two's-complement number an `l_fp` stands for. -/
def l_fp.toInt (v : l_fp) : Int :=
  if v.toNat < 2 ^ 63 then (v.toNat : Int) else (v.toNat : Int) - 2 ^ 64

/-- Unary minus on a 32-bit word: `-((s_fp)(x))` stored back into 32 bits
(two's-complement wraparound, also at `0x80000000`). -/
def neg32 (x : Nat) : Nat := (2 ^ 32 - x % 2 ^ 32) % 2 ^ 32

/-- Bitwise complement `~x` of a 32-bit word. -/
def not32 (x : Nat) : Nat := 0xffffffff - x % 2 ^ 32

/-- `M_NEG(v_i, v_f)`: `v = -v`. -/
def M_NEG (v_i v_f : Nat) : Nat × Nat :=
  if v_f = 0 then
    (neg32 v_i, v_f)
  else
    (not32 v_i, neg32 v_f)

/-- `M_ADD(r_i, r_f, a_i, a_f)`: `r += a`. -/
def M_ADD (r_i r_f a_i a_f : Nat) : Nat × Nat :=
  let lo_tmp := (r_f &&& 0xffff) + (a_f &&& 0xffff)
  let hi_tmp := ((r_f >>> 16) &&& 0xffff) + ((a_f >>> 16) &&& 0xffff)
  let hi_tmp := if lo_tmp &&& 0x10000 ≠ 0 then hi_tmp + 1 else hi_tmp
  let r_f := ((hi_tmp &&& 0xffff) <<< 16) ||| (lo_tmp &&& 0xffff)
  let r_i := (r_i + a_i) % 2 ^ 32
  let r_i := if hi_tmp &&& 0x10000 ≠ 0 then (r_i + 1) % 2 ^ 32 else r_i
  (r_i, r_f)

/-- `M_SUB(r_i, r_f, a_i, a_f)`: `r -= a`.  The arithmetic right shift of the
negated signed fraction followed by `& 0xffff` selects bits 16..31 of its
two's-complement image. -/
def M_SUB (r_i r_f a_i a_f : Nat) : Nat × Nat :=
  if a_f = 0 then
    ((r_i + neg32 a_i) % 2 ^ 32, r_f)
  else
    let lo_tmp := (r_f &&& 0xffff) + (neg32 a_f &&& 0xffff)
    let hi_tmp := ((r_f >>> 16) &&& 0xffff) + ((neg32 a_f >>> 16) &&& 0xffff)
    let hi_tmp := if lo_tmp &&& 0x10000 ≠ 0 then hi_tmp + 1 else hi_tmp
    let r_f := ((hi_tmp &&& 0xffff) <<< 16) ||| (lo_tmp &&& 0xffff)
    let r_i := (r_i + not32 a_i) % 2 ^ 32
    let r_i := if hi_tmp &&& 0x10000 ≠ 0 then (r_i + 1) % 2 ^ 32 else r_i
    (r_i, r_f)

/-- `M_LSHIFT(v_i, v_f)`: `v <<= 1`. -/
def M_LSHIFT (v_i v_f : Nat) : Nat × Nat :=
  let v_i := (v_i <<< 1) % 2 ^ 32
  let v_i := if v_f &&& 0x80000000 ≠ 0 then v_i ||| 0x1 else v_i
  (v_i, (v_f <<< 1) % 2 ^ 32)

/-- `L_ADD(r, a)`. -/
def L_ADD (r a : l_fp) : l_fp :=
  let p := M_ADD r.l_ui r.l_uf a.l_ui a.l_uf
  ⟨p.1, p.2⟩

/-- `L_SUB(r, a)`. -/
def L_SUB (r a : l_fp) : l_fp :=
  let p := M_SUB r.l_ui r.l_uf a.l_ui a.l_uf
  ⟨p.1, p.2⟩

/-- `L_NEG(v)`. -/
def L_NEG (v : l_fp) : l_fp :=
  let p := M_NEG v.l_ui v.l_uf
  ⟨p.1, p.2⟩

/-- `L_LSHIFT(v)`. -/
def L_LSHIFT (v : l_fp) : l_fp :=
  let p := M_LSHIFT v.l_ui v.l_uf
  ⟨p.1, p.2⟩

/-- `FRACTION_PREC`: the number of fraction bits of an `l_fp`. -/
def FRACTION_PREC : Nat := 32
/-- `LOW_MASK`: the low 16 bits of a word. -/
def LOW_MASK : Nat := (1 <<< (FRACTION_PREC / 2)) - 1
/-- `HIGH_MASK`: the high 16 bits of a 32-bit word. -/
def HIGH_MASK : Nat := (LOW_MASK <<< (FRACTION_PREC / 2)) % 2 ^ 32

/-- Store into a C array: `none` when the index is outside the array. -/
def wr (c : List Nat) (k v : Nat) : Option (List Nat) :=
  if k < c.length then some (c.set k v) else none

/-- The carry test written inline, twice, in the loop body of `mfp_mul`: does
the 32-bit sum `x + y` carry out?  `carry` is the lowest bit at which both
summands can be set. -/
def carryOut (x y carry : Nat) : Bool :=
  (((x >>> 1) + (y >>> 1) + (if x &&& y &&& carry ≠ 0 then 1 else 0)) % 2 ^ 32)
    &&& (1 <<< (FRACTION_PREC - 1)) ≠ 0

/-- One pass of the loop body of `mfp_mul` for the limb pair `(i, j)`: the partial
product `a[i] * b[j]` is added into `c[low_index]`, `c[mid_index]`, and a carry
out of the latter increments `c[high_index]`.  An access outside `c[0..4]` gives
`none`. -/
def mfp_mul_step (a b c : List Nat) (i j : Nat) : Option (List Nat) := do
  let low_index := (i + j) / 2
  let mid_index := 1 + low_index
  let high_index := 1 + mid_index
  let ai ← a.get? i
  let bj ← b.get? j
  let result_low := (ai * bj) % 2 ^ 32
  let odd := (i + j) &&& 1 ≠ 0
  let result_high := if odd then result_low >>> (FRACTION_PREC / 2) else 0
  let carry := if odd then 1 <<< (FRACTION_PREC / 2) else 1
  let result_low := if odd then (result_low <<< (FRACTION_PREC / 2)) % 2 ^ 32 else result_low
  let cl ← c.get? low_index
  let result_high := if carryOut cl result_low carry then (result_high + 1) % 2 ^ 32 else result_high
  let c ← wr c low_index ((cl + result_low) % 2 ^ 32)
  let cm ← c.get? mid_index
  let c ←
    if carryOut cm result_high 1 then
      (do
        let ch ← c.get? high_index
        wr c high_index ((ch + 1) % 2 ^ 32))
    else some c
  let cm ← c.get? mid_index
  wr c mid_index ((cm + result_high) % 2 ^ 32)

/-- The double loop `for (i = 0; i < 4; i++) for (j = 0; j < 4; j++)` of `mfp_mul`. -/
def mfp_mul_loop (a b c : List Nat) : Option (List Nat) :=
  (List.range 4).foldlM (fun c i => (List.range 4).foldlM (fun c j => mfp_mul_step a b c i j) c) c


/-- `mfp_mul`: product of two signed 32.32 values, the result pair `(*o_i, *o_f)`.
The signed words are held by their 32-bit two's-complement images, so
`a_i < 0` reads `2 ^ 31 ≤ a_i`. -/
def mfp_mul (a_i a_f b_i b_f : Nat) : Option (Nat × Nat) := do
  let neg := false
  let a_neg : Bool := 2 ^ 31 ≤ a_i
  let neg := if a_neg then true else neg
  let av := if a_neg then M_NEG a_i a_f else (a_i, a_f)
  let b_neg : Bool := 2 ^ 31 ≤ b_i
  let neg := if b_neg then !neg else neg
  let bv := if b_neg then M_NEG b_i b_f else (b_i, b_f)
  let a := [av.2 &&& LOW_MASK, (av.2 &&& HIGH_MASK) >>> (FRACTION_PREC / 2),
    av.1 &&& LOW_MASK, (av.1 &&& HIGH_MASK) >>> (FRACTION_PREC / 2)]
  let b := [bv.2 &&& LOW_MASK, (bv.2 &&& HIGH_MASK) >>> (FRACTION_PREC / 2),
    bv.1 &&& LOW_MASK, (bv.1 &&& HIGH_MASK) >>> (FRACTION_PREC / 2)]
  let c ← mfp_mul_loop a b [0, 0, 0, 0, 0]
  let c1 ← c.get? 1
  let c2 ← c.get? 2
  let c3 ← c.get? 3
  let r := if c3 ≠ 0 then ((1 <<< (FRACTION_PREC - 1)) - 1, not32 0) else (c2, c1)
  let r := if neg then M_NEG r.1 r.2 else r
  some r

/-- Magnitude of the signed 64-bit number an `l_fp` stands for. -/
def l_fp.mag (v : l_fp) : Nat := v.toInt.natAbs

/-- The claim's reference value for a product: `sign(a*b)` times
`floor(|a| * |b| / 2^32)`, in units of `2^-32`. -/
def truncProd (a b : l_fp) : Int :=
  (a.toInt * b.toInt).sign * ((a.mag * b.mag / 2 ^ 32 : Nat) : Int)

/-- The four 16-bit limbs of a 64-bit magnitude, least significant first. -/
def limbs16 (n : Nat) : List Nat :=
  [n % 2 ^ 16, n / 2 ^ 16 % 2 ^ 16, n / 2 ^ 32 % 2 ^ 16, n / 2 ^ 48 % 2 ^ 16]

/-- Value of a little-endian list of 32-bit limbs. -/
def limbsVal : List Nat → Nat
  | [] => 0
  | x :: xs => x + 2 ^ 32 * limbsVal xs

/-! ### String parsers of `ntp_fp.c` -/

/-- `ntp_isspace(c)` for an `int` argument holding a byte: a blank (32) or one
of the control characters 9..13; the unsigned difference wraps modulo `2^32`. -/
def ntp_isspace (c : Nat) : Bool :=
  c = 32 || decide ((c + 2 ^ 32 - 9) % 2 ^ 32 ≤ 13 - 9)

/-- `ntp_isdigit(c)` for an `int` argument holding a byte (`'0'` is 48). -/
def ntp_isdigit (c : Nat) : Bool :=
  decide ((c + 2 ^ 32 - 48) % 2 ^ 32 < 10)

/-- `*cp`: the byte under the pointer; the end of the list is the terminating NUL. -/
def peek : List Nat → Nat
  | [] => 0
  | c :: _ => c

/-- `while (ntp_isspace((int)*cp)) cp++;` -/
def skipSpaces : List Nat → List Nat
  | [] => []
  | c :: cs => if ntp_isspace c then skipSpaces cs else c :: cs

/-- `while (ntp_isdigit((int)*cp)) cp++;` -/
def skipDigits : List Nat → List Nat
  | [] => []
  | c :: cs => if ntp_isdigit c then skipDigits cs else c :: cs

/-- `ten_to_the_n[10]`, the table of powers of ten (entry 0 is 0). -/
def ten_to_the_n : List Nat :=
  [0, 10, 100, 1000, 10000, 100000, 1000000, 10000000, 100000000, 1000000000]

/-- The integer-part loop of `atolfp`:
`while (*cp != 0 && (ind = (*cp - 0x30)) <= 9) { dec_i = dec_i * 10 + ind; cp++; }`
with `ind` an `unsigned char`. -/
def atolfp_int (dec_i : Nat) : List Nat → Nat × List Nat
  | [] => (dec_i, [])
  | c :: cs =>
    let ind := (c + 256 - 0x30) % 256
    if c ≠ 0 ∧ ind ≤ 9 then
      let dec_i := ((dec_i <<< 3) % 2 ^ 32 + (dec_i <<< 1) % 2 ^ 32) % 2 ^ 32
      atolfp_int ((dec_i + ind) % 2 ^ 32) cs
    else (dec_i, c :: cs)

/-- The fraction loop of `atolfp`, which stops after nine digits:
`while (ndec < 9 && *cp != 0 && (ind = (*cp - 0x30)) <= 9) { ndec++; ... }`. -/
def atolfp_frac (ndec dec_f : Nat) : List Nat → Nat × Nat × List Nat
  | [] => (ndec, dec_f, [])
  | c :: cs =>
    let ind := (c + 256 - 0x30) % 256
    if ndec < 9 ∧ c ≠ 0 ∧ ind ≤ 9 then
      let dec_f := ((dec_f <<< 3) % 2 ^ 32 + (dec_f <<< 1) % 2 ^ 32) % 2 ^ 32
      atolfp_frac (ndec + 1) ((dec_f + ind) % 2 ^ 32) cs
    else (ndec, dec_f, c :: cs)

/-- The bit-by-bit division of `atolfp`:
`while (bit != 0) { dec_f <<= 1; if (dec_f >= ten_fact) { tmp |= bit; dec_f -= ten_fact; } bit >>= 1; }`.
The first argument bounds the number of passes; `none` when it runs out. -/
def atolfp_bits (ten_fact : Nat) : Nat → Nat → Nat → Nat → Option (Nat × Nat)
  | 0, bit, dec_f, tmp => if bit ≠ 0 then none else some (dec_f, tmp)
  | fuel + 1, bit, dec_f, tmp =>
    if bit ≠ 0 then
      let dec_f := (dec_f <<< 1) % 2 ^ 32
      let tmp1 := if dec_f ≥ ten_fact then tmp ||| bit else tmp
      let dec_f1 := if dec_f ≥ ten_fact then (dec_f + 2 ^ 32 - ten_fact) % 2 ^ 32 else dec_f
      atolfp_bits ten_fact fuel (bit >>> 1) dec_f1 tmp1
    else some (dec_f, tmp)

/-- The scaling block `if (ndec > 0) { ... }` of `atolfp`: the fraction digits
`dec_f` become a binary fraction, rounded; `none` if the table index were out of
range or the division loop out of passes. -/
def atolfp_scale (ndec dec_f : Nat) : Option Nat :=
  if ndec > 0 then do
    let ten_fact ← ten_to_the_n.get? ndec
    let r ← atolfp_bits ten_fact 32 0x80000000 dec_f 0
    let tmp := if (r.1 <<< 1) % 2 ^ 32 > ten_fact then (r.2 + 1) % 2 ^ 32 else r.2
    some tmp
  else some dec_f

/-- The end of `atolfp` (from `if (ndec > 0)` on): scale the fraction, apply the
sign, store and return 1. -/
def atolfp_finish (isneg : Bool) (dec_i ndec dec_f : Nat) : Option (Nat × l_fp) :=
  (atolfp_scale ndec dec_f).bind fun dec_f =>
    some (1, ⟨(if isneg then M_NEG dec_i dec_f else (dec_i, dec_f)).1,
      (if isneg then M_NEG dec_i dec_f else (dec_i, dec_f)).2⟩)

/-- `atolfp(str, lfp)`: the return code and the contents of `*lfp` afterwards.
Bytes: 45 is `-`, 43 is `+`, 46 is `.`. -/
def atolfp (str : List Nat) (lfp : l_fp) : Option (Nat × l_fp) :=
  let cp := skipSpaces str
  let isneg : Bool := peek cp = 45
  let cp := if peek cp = 45 then cp.tail else cp
  let cp := if peek cp = 43 then cp.tail else cp
  if peek cp ≠ 46 ∧ ¬ ntp_isdigit (peek cp) then some (0, lfp)
  else
    let r := atolfp_int 0 cp
    if peek r.2 ≠ 0 ∧ ¬ ntp_isspace (peek r.2) then
      if peek r.2 ≠ 46 then some (0, lfp)
      else
        let f := atolfp_frac 0 0 r.2.tail
        let cp := skipDigits f.2.2
        if peek cp ≠ 0 ∧ ¬ ntp_isspace (peek cp) then some (0, lfp)
        else atolfp_finish isneg r.1 f.1 f.2.1
    else atolfp_finish isneg r.1 0 0

/-- The string `"0123456789abcdefABCDEF"` of `hextolfp`. -/
def hexdigits : List Nat :=
  [48, 49, 50, 51, 52, 53, 54, 55, 56, 57, 97, 98, 99, 100, 101, 102, 65, 66, 67, 68, 69, 70]

/-- `strchr(s, c)` as the offset of the first occurrence of `c` in `s`, `none`
for NULL; for `c = 0` it is the offset of the terminator. -/
def strchr : List Nat → Nat → Option Nat
  | [], c => if c = 0 then some 0 else none
  | x :: xs, c => if x = c then some 0 else (strchr xs c).map (· + 1)

/-- A digit loop of `hextolfp`, `n` being `cp - cpstart`:
`while (*cp != 0 && (cp - cpstart) < 8 && (ind = strchr(digits, *cp)) != NULL) { ... }`.
Returns the count, the value, `ind` and the pointer. -/
def hextolfp_scan (n dec : Nat) (ind : Option Nat) : List Nat → Nat × Nat × Option Nat × List Nat
  | [] => (n, dec, ind, [])
  | c :: cs =>
    if c ≠ 0 ∧ n < 8 then
      match strchr hexdigits c with
      | some k =>
        hextolfp_scan (n + 1) (((dec <<< 4) % 2 ^ 32 + (if k > 15 then k - 6 else k)) % 2 ^ 32)
          (some k) cs
      | none => (n, dec, none, c :: cs)
    else (n, dec, ind, c :: cs)

/-- `hextolfp(str, lfp)`: the return code and the contents of `*lfp` afterwards. -/
def hextolfp (str : List Nat) (lfp : l_fp) : Nat × l_fp :=
  let cp := skipSpaces str
  let r1 := hextolfp_scan 0 0 none cp
  if r1.1 < 8 ∨ r1.2.2.1 = none then (0, lfp)
  else
    let cp := if peek r1.2.2.2 = 46 then r1.2.2.2.tail else r1.2.2.2
    let r2 := hextolfp_scan 0 0 r1.2.2.1 cp
    if r2.1 < 8 ∨ r2.2.2.1 = none then (0, lfp)
    else if peek r2.2.2.2 ≠ 0 ∧ ¬ ntp_isspace (peek r2.2.2.2) then (0, lfp)
    else (1, ⟨r1.2.1, r2.2.1⟩)

/-- `mstolfp(str, lfp)`: the decimal point is moved three places to the left in
a copy `buf[100]` of the number, which is handed to `atolfp`.  `ndig` is
`cpdec - cp`, the length of the leading run of digits.  `none` when the copy,
with its terminating NUL, does not fit the 100 bytes of `buf`. -/
def mstolfp (str : List Nat) (lfp : l_fp) : Option (Nat × l_fp) :=
  let cp := skipSpaces str
  let buf : List Nat := if peek cp = 45 then [45] else []
  let cp := if peek cp = 45 then cp.tail else cp
  if peek cp ≠ 46 ∧ ¬ ntp_isdigit (peek cp) then some (0, lfp)
  else
    let ndig := cp.length - (skipDigits cp).length
    let buf := if ndig > 3 then buf ++ cp.take (ndig - 3) else buf ++ [48]
    let cp := if ndig > 3 then cp.drop (ndig - 3) else cp
    let ndig := if ndig > 3 then 3 else ndig
    let buf := buf ++ [46]
    let buf := if ndig < 3 then buf ++ List.replicate (3 - ndig) 48 else buf
    let buf := buf ++ cp.take ndig
    let cp := cp.drop ndig
    let frac := if peek cp = 46 then
      cp.tail.take (cp.tail.length - (skipDigits cp.tail).length) else []
    let cp := if peek cp = 46 then skipDigits cp.tail else cp
    let buf := buf ++ frac
    if buf.length + 1 > 100 then none
    else if peek cp ≠ 0 ∧ ¬ ntp_isspace (peek cp) then some (0, lfp)
    else atolfp buf lfp

/-- Decimal value of a list of ASCII digits, most significant first. -/
def decVal (ds : List Nat) : Nat := ds.foldl (fun acc c => 10 * acc + (c - 48)) 0

/-- Value of one hexadecimal digit byte: `'a'..'f'` (97..102) and `'A'..'F'`
(65..70) are 10..15. -/
def hexDigitVal (c : Nat) : Nat := if 97 ≤ c then c - 87 else if 65 ≤ c then c - 55 else c - 48

/-- Value of a list of hexadecimal ASCII digits, most significant first. -/
def hexVal (ds : List Nat) : Nat := ds.foldl (fun acc c => 16 * acc + hexDigitVal c) 0

/-- A byte that is a decimal digit, `'0'..'9'`. -/
def isDigitByte (c : Nat) : Prop := 48 ≤ c ∧ c ≤ 57

/-- A byte that is a hexadecimal digit, `'0'..'9'`, `'a'..'f'`, `'A'..'F'`. -/
def isHexByte (c : Nat) : Prop := (48 ≤ c ∧ c ≤ 57) ∨ (97 ≤ c ∧ c ≤ 102) ∨ (65 ≤ c ∧ c ≤ 70)

/-- A whitespace byte: blank, or one of the control characters 9..13. -/
def isSpaceByte (c : Nat) : Prop := c = 32 ∨ (9 ≤ c ∧ c ≤ 13)

/-- The contents of a C string: bytes, none of them NUL. -/
def isCStr (s : List Nat) : Prop := ∀ c ∈ s, 0 < c ∧ c < 256

instance (c : Nat) : Decidable (isDigitByte c) := by
  unfold isDigitByte
  infer_instance

instance (c : Nat) : Decidable (isHexByte c) := by
  unfold isHexByte
  infer_instance

instance (c : Nat) : Decidable (isSpaceByte c) := by
  unfold isSpaceByte
  infer_instance

instance (s : List Nat) : Decidable (isCStr s) := by
  unfold isCStr
  infer_instance

/-- What may follow a number: the end of the string, or a whitespace byte and
then anything. -/
def numberEnds (t : List Nat) : Prop := t = [] ∨ ∃ c r, t = c :: r ∧ isSpaceByte c

/-- The form of the strings `atolfp` accepts: optional whitespace, at most one
sign, then digits, or digits around a dot (either side may be empty), ended by
the end of the string or by a whitespace byte. -/
def atolfpForm (s : List Nat) : Prop :=
  ∃ ws sg ds rest, s = ws ++ (sg ++ (ds ++ rest)) ∧ (∀ c ∈ ws, isSpaceByte c) ∧
    (sg = [] ∨ sg = [45] ∨ sg = [43]) ∧ (∀ c ∈ ds, isDigitByte c) ∧
    ((ds ≠ [] ∧ numberEnds rest) ∨
      (∃ fs rest2, rest = 46 :: (fs ++ rest2) ∧ (∀ c ∈ fs, isDigitByte c) ∧ numberEnds rest2))

/-- The form of the strings `hextolfp` accepts: optional whitespace, eight
hexadecimal digits, an optional dot, eight hexadecimal digits, ended by the end
of the string or by a whitespace byte. -/
def hextolfpForm (s h1 h2 : List Nat) : Prop :=
  ∃ ws dot rest, s = ws ++ (h1 ++ (dot ++ (h2 ++ rest))) ∧ (∀ c ∈ ws, isSpaceByte c) ∧
    h1.length = 8 ∧ (∀ c ∈ h1, isHexByte c) ∧ (dot = [] ∨ dot = [46]) ∧
    h2.length = 8 ∧ (∀ c ∈ h2, isHexByte c) ∧ numberEnds rest

/-! ### Formatters of `ntp_fp.c` -/

/-- The rounding step of `dofptoa` and `dolfptoa`, entered with `tp` one past the
last digit: `*(--tp) += 1; while (*tp >= 10) { *tp = 0; *(--tp) += 1; }`.
Returns the buffer and the final `tp`; `none` if `tp` would leave the buffer.
Cells are `uint8_t`. -/
def carryUp (cbuf : List Nat) : Nat → Option (List Nat × Nat)
  | 0 => none
  | tp + 1 =>
    (cbuf.get? tp).bind fun x =>
      if (x + 1) % 256 ≥ 10 then
        (wr cbuf tp 0).bind fun cbuf => carryUp cbuf tp
      else
        (wr cbuf tp ((x + 1) % 256)).bind fun cbuf => some (cbuf, tp)

/-- The output loop of `dofptoa` and `dolfptoa`:
`while (cp < cpend) { if (cp == cpdec) *bp++ = '.'; *bp++ = (char)(*cp++ + '0'); }`.
The first argument bounds the number of passes. -/
def emitDigits (cbuf : List Nat) (cpdec cpend : Nat) : Nat → Nat → Option (List Nat)
  | 0, cp => if cp < cpend then none else some []
  | fuel + 1, cp =>
    if cp < cpend then
      (cbuf.get? cp).bind fun x =>
        (emitDigits cbuf cpdec cpend fuel (cp + 1)).bind fun rest =>
          some ((if cp = cpdec then [46] else []) ++ ((x + 48) % 256) :: rest)
    else some []

/-- The integer loop of `dofptoa` on the 16-bit `sv`:
`do { tmp = sv; sv = (uint16_t)(sv / ten); *(--cp) = (uint8_t)(tmp - ((sv << 3) + (sv << 1))); } while (sv != 0);`
The operands of the subtraction are promoted to `int`; the difference is the
last decimal digit, never negative. -/
def dofptoa_int : Nat → Nat → List Nat → Nat → Option (List Nat × Nat)
  | 0, _, _, _ => none
  | fuel + 1, sv, cbuf, cp =>
    let tmp := sv
    let sv := (sv / 10) % 2 ^ 16
    if cp = 0 then none
    else
      (wr cbuf (cp - 1) ((tmp - ((sv <<< 3) + (sv <<< 1))) % 256)).bind fun cbuf =>
        if sv ≠ 0 then dofptoa_int fuel sv cbuf (cp - 1) else some (cbuf, cp - 1)

/-- The fraction loop of `dofptoa`, run `dec` times:
`do { val &= 0xffff; val = (val << 3) + (val << 1); *cpend++ = (uint8_t)(val >> 16); } while (--dec > 0);` -/
def dofptoa_frac : Nat → Nat → List Nat → Nat → Option (Nat × List Nat × Nat)
  | 0, val, cbuf, cpend => some (val, cbuf, cpend)
  | dec + 1, val, cbuf, cpend =>
    let val := val &&& 0xffff
    let val := ((val <<< 3) + (val <<< 1)) % 2 ^ 32
    (wr cbuf cpend ((val >>> 16) % 256)).bind fun cbuf =>
      dofptoa_frac dec val cbuf (cpend + 1)

/-- The leading-zero loop of `dofptoa`: `while (cp < (cpdec - 1) && *cp == 0) cp++;` -/
def dofptoa_strip (cbuf : List Nat) (cpdec : Nat) : Nat → Nat → Option Nat
  | 0, _ => none
  | fuel + 1, cp =>
    if cp < cpdec - 1 then
      (cbuf.get? cp).bind fun x =>
        if x = 0 then dofptoa_strip cbuf cpdec fuel (cp + 1) else some cp
    else some cp

/-- A value stored into a `short`. -/
def toShort (x : Int) : Int := (x + 32768) % 65536 - 32768

/-- `dofptoa(fpv, neg, ndec, msec)`: the characters of the returned string.
`cbuf` has 12 cells; pointers into it are indices. -/
def dofptoa (fpv : Nat) (neg : Bool) (ndec : Int) (msec : Bool) : Option (List Nat) :=
  let cbuf := List.replicate 12 0
  let cpend := 5
  let val := fpv
  (if val &&& 0xffff0000 = 0 then some (cbuf, 4)
    else dofptoa_int 16 ((val >>> 16) % 2 ^ 16) cbuf 5).bind fun r =>
  let cbuf := r.1
  let cp := r.2
  let dec : Int := if msec then (if toShort (ndec + 3) < 3 then 3 else toShort (ndec + 3)) else ndec
  let cpdec := if msec then 8 else cpend
  let dec : Int := if dec > 6 then 6 else dec
  (if dec > 0 then dofptoa_frac dec.toNat val cbuf cpend else some (val, cbuf, cpend)).bind fun r =>
  let val := r.1
  let cbuf := r.2.1
  let cpend := r.2.2
  (if val &&& 0x8000 ≠ 0 then (carryUp cbuf cpend).map (fun q => q.1) else some cbuf).bind
    fun cbuf =>
  (dofptoa_strip cbuf cpdec 12 cp).bind fun cp =>
  (emitDigits cbuf cpdec cpend 12 cp).bind fun out =>
  some ((if neg then [45] else []) ++ out)

/-- The first integer loop of `dolfptoa`, on the 32-bit `lwork`:
`do { ltmp = lwork; lwork /= lten; ltmp -= (lwork << 3) + (lwork << 1); *--cp = (uint8_t)ltmp; } while (lwork & 0xffff0000);` -/
def dolfptoa_int32 : Nat → Nat → List Nat → Nat → Option (Nat × List Nat × Nat)
  | 0, _, _, _ => none
  | fuel + 1, lwork, cbuf, cp =>
    let ltmp := lwork
    let lwork := lwork / 10
    let ltmp := (ltmp + 2 ^ 32 - ((lwork <<< 3) % 2 ^ 32 + (lwork <<< 1) % 2 ^ 32) % 2 ^ 32) % 2 ^ 32
    if cp = 0 then none
    else
      (wr cbuf (cp - 1) (ltmp % 256)).bind fun cbuf =>
        if lwork &&& 0xffff0000 ≠ 0 then dolfptoa_int32 fuel lwork cbuf (cp - 1)
        else some (lwork, cbuf, cp - 1)

/-- The second integer loop of `dolfptoa`, on the 16-bit `swork`:
`do { stmp = swork; swork = (uint16_t)(swork / sten); stmp = (uint16_t)(stmp - ((swork << 3) + (swork << 1))); *--cp = (uint8_t)stmp; } while (swork != 0);` -/
def dolfptoa_int16 : Nat → Nat → List Nat → Nat → Option (List Nat × Nat)
  | 0, _, _, _ => none
  | fuel + 1, swork, cbuf, cp =>
    let stmp := swork
    let swork := (swork / 10) % 2 ^ 16
    let stmp := (stmp + 2 ^ 32 - ((swork <<< 3) + (swork <<< 1))) % 2 ^ 16
    if cp = 0 then none
    else
      (wr cbuf (cp - 1) (stmp % 256)).bind fun cbuf =>
        if swork ≠ 0 then dolfptoa_int16 fuel swork cbuf (cp - 1) else some (cbuf, cp - 1)

/-- The fraction loop of `dolfptoa`:
`while (dec > 0) { dec--; work.l_ui = 0; L_LSHIFT(&work); ftmp = work; L_LSHIFT(&work); L_LSHIFT(&work); L_ADD(&work, &ftmp); *cpend++ = (uint8_t)work.l_ui; if (work.l_uf == 0) break; }`
Returns what is left of `dec`, `work`, the buffer and `cpend`. -/
def dolfptoa_frac : Nat → l_fp → List Nat → Nat → Option (Nat × l_fp × List Nat × Nat)
  | 0, work, cbuf, cpend => some (0, work, cbuf, cpend)
  | dec + 1, work, cbuf, cpend =>
    let work : l_fp := ⟨0, work.l_uf⟩
    let work := L_LSHIFT work
    let ftmp := work
    let work := L_LSHIFT work
    let work := L_LSHIFT work
    let work := L_ADD work ftmp
    (wr cbuf cpend (work.l_ui % 256)).bind fun cbuf =>
      if work.l_uf = 0 then some (dec, work, cbuf, cpend + 1)
      else dolfptoa_frac dec work cbuf (cpend + 1)

/-- The leading-zero loop of `dolfptoa`:
`while (cp < cpdec) { if (*cp != 0) break; cp++; }` -/
def dolfptoa_strip (cbuf : List Nat) (cpdec : Nat) : Nat → Nat → Option Nat
  | 0, _ => none
  | fuel + 1, cp =>
    if cp < cpdec then
      (cbuf.get? cp).bind fun x =>
        if x ≠ 0 then some cp else dolfptoa_strip cbuf cpdec fuel (cp + 1)
    else some cp

/-- `dolfptoa(fpi, fpv, neg, ndec, msec)`: the characters of the returned string.
`cbuf` has 24 cells; pointers into it are indices. -/
def dolfptoa (fpi fpv : Nat) (neg : Bool) (ndec : Int) (msec : Bool) : Option (List Nat) :=
  let cbuf := List.replicate 24 0
  let fpi := fpi &&& 0xffffffff
  let fpv := fpv &&& 0xffffffff
  let cpend := 10
  (if fpi &&& 0xffff0000 ≠ 0 then dolfptoa_int32 32 fpi cbuf 10 else some (fpi, cbuf, 10)).bind
    fun r =>
  (if r.1 ≠ 0 then dolfptoa_int16 16 (r.1 % 2 ^ 16) r.2.1 r.2.2 else some (r.2.1, r.2.2)).bind
    fun r =>
  let cbuf := r.1
  let cp := r.2
  let dec : Int := if msec then (if ndec + 3 < 3 then 3 else ndec + 3)
    else (if ndec < 0 then 0 else ndec)
  let cpdec := if msec then 13 else 10
  let dec : Int := if dec > 12 then 12 else dec
  (if fpv ≠ 0 then
      (dolfptoa_frac dec.toNat ⟨0, fpv⟩ cbuf cpend).bind fun f =>
        (if f.2.1.l_uf &&& 0x80000000 ≠ 0 then
            (carryUp f.2.2.1 f.2.2.2).bind fun q =>
              some (q.1, if q.2 < cp then q.2 else cp)
          else some (f.2.2.1, cp)).bind fun q =>
        some (q.1, q.2, f.2.2.2, f.1)
    else some (cbuf, cp, cpend, dec.toNat)).bind fun r =>
  let cbuf := r.1
  let cp := r.2.1
  let cpend := r.2.2.1 + r.2.2.2
  (dolfptoa_strip cbuf cpdec 24 cp).bind fun cp =>
  let cp := if cp = cpdec then cp - 1 else cp
  (emitDigits cbuf cpdec cpend 24 cp).bind fun out =>
  some ((if neg then [45] else []) ++ out)

/-! ### Digit buffers of the formatters -/

/-- Cell `i` of a digit buffer (0 outside). -/
def cell (cbuf : List Nat) (i : Nat) : Nat := cbuf.getD i 0

/-- Decimal value of the first `n` cells of a digit buffer. -/
def bufVal (cbuf : List Nat) : Nat → Nat
  | 0 => 0
  | n + 1 => bufVal cbuf n * 10 + cell cbuf n

/-- Invariant of the integer loops of `dolfptoa`: `w` is what is left of `fpi`,
its digits so far are in cells `cp .. 9`. -/
def IntInv (fpi w : Nat) (cbuf : List Nat) (cp : Nat) : Prop :=
  cbuf.length = 24 ∧ cp ≤ 10 ∧ (∀ i < cp, cell cbuf i = 0) ∧ (∀ i, 10 ≤ i → cell cbuf i = 0) ∧
    (∀ i, cell cbuf i < 10) ∧ w * 10 ^ (10 - cp) + bufVal cbuf 10 = fpi ∧ w < 10 ^ cp

/-- Invariant of the fraction loop of `dolfptoa` for the value `X = fpi * 2^32 + fpv`:
the cells before `cpend` hold the integer part of `X * 10^(cpend - 10) / 2^32`,
`uf` is the fraction left. -/
def FracInv (X cp uf : Nat) (cbuf : List Nat) (cpend : Nat) : Prop :=
  cbuf.length = 24 ∧ 10 ≤ cpend ∧ (∀ i, cpend ≤ i → cell cbuf i = 0) ∧
    (∀ i < cp, cell cbuf i = 0) ∧ (∀ i, cell cbuf i < 10) ∧
    bufVal cbuf cpend * 2 ^ 32 + uf = X * 10 ^ (cpend - 10) ∧ uf < 2 ^ 32

/-- The characters of cells `lo .. lo + n - 1`. -/
def digitsOf (cbuf : List Nat) : Nat → Nat → List Nat
  | _, 0 => []
  | lo, n + 1 => (cell cbuf lo + 48) :: digitsOf cbuf (lo + 1) n

/-- State of `dolfptoa` before the output: the first `10 + d` cells hold the
number `N`, with nothing before `cp`. -/
def FinalInv (N d : Nat) (cbuf : List Nat) (cp : Nat) : Prop :=
  cbuf.length = 24 ∧ cp ≤ 10 ∧ (∀ i < cp, cell cbuf i = 0) ∧ (∀ i, cell cbuf i < 10) ∧
    bufVal cbuf (10 + d) = N

/-! ### Calendar conversions of `caljulian.c` -/

/-- The `struct calendar` of `ntp_fp.h`: `year` and `yearday` are `uint16_t`,
`month` and `monthday` are `uint8_t`. -/
structure calendar where
  year : Nat
  yearday : Nat
  month : Nat
  monthday : Nat
deriving DecidableEq, Repr

/-- `DAY_NTP_STARTS` of `caljulian.c`. -/
def DAY_NTP_STARTS : Int := 693596

/-- `caljulian(calendar_day, jt)`: the value stored in `*jt`.  `calendar_day` is
a signed `time_t`, so `/` and `%` on it truncate toward zero; the counts
`n400 .. n1`, `sclday` and `isleap` are `uint32_t`. -/
def caljulian (calendar_day : Int) : calendar :=
  let calendar_day := calendar_day + (DAY_NTP_STARTS - 1)
  let n400 := (Int.tdiv calendar_day 146097 % 2 ^ 32).toNat
  let calendar_day := Int.tmod calendar_day 146097
  let n100 := (Int.tdiv calendar_day 36524 % 2 ^ 32).toNat
  let calendar_day := Int.tmod calendar_day 36524
  let n4 := (Int.tdiv calendar_day 1461 % 2 ^ 32).toNat
  let calendar_day := Int.tmod calendar_day 1461
  let n1 := (Int.tdiv calendar_day 365 % 2 ^ 32).toNat
  let calendar_day := Int.tmod calendar_day 365
  let year := ((400 * n400 + 100 * n100 + 4 * n4 + n1 + 1) % 2 ^ 32) % 2 ^ 16
  let year := if (n100 ||| n1) > 3 then (year + 65535) % 2 ^ 16 else year
  let yearday := if (n100 ||| n1) > 3 then 365 else (calendar_day % 2 ^ 16).toNat
  let sclday := ((calendar_day * 7 + 217) % 2 ^ 32).toNat
  let isleap := if n1 = 3 ∧ (n4 ≠ 24 ∨ n100 = 3) then 1 else 0
  let sclday := if calendar_day ≥ ((31 + 28 + isleap : Nat) : Int)
    then (sclday + (2 - isleap) * 7) % 2 ^ 32 else sclday
  { year := year
    yearday := yearday
    month := ((sclday / 214 + 2 ^ 32 - 1) % 2 ^ 32) % 256
    monthday := (((sclday % 214) / 7 + 1) % 2 ^ 32) % 256 }

/-- The table `days_before[13]` of `caljulian.c`. -/
def days_before : List Nat := [0, 31, 59, 90, 120, 151, 181, 212, 243, 273, 304, 334, 365]

/-- `ymd2yd(y, m, d)`; the arguments are `uint32_t`, the result is the `int`
that `d` converts to.  `none` when `m` is outside the table. -/
def ymd2yd (y m d : Nat) : Option Int :=
  (days_before.get? m).bind fun b =>
    let d : Nat := (d + b) % 2 ^ 32
    let d : Nat := if (y % 4 = 0 ∧ y % 100 ≠ 0) ∨ y % 400 = 0 then
        (if m = 2 then (d + 1) % 2 ^ 32 else d)
      else d
    some (if d < 2 ^ 31 then (d : Int) else (d : Int) - 2 ^ 32)

/-! ### Restart and channel selection of `wwv.c` -/

namespace Wwv

def MSYNC : Nat := 0x0001
def SSYNC : Nat := 0x0002
def DSYNC : Nat := 0x0004
def INSYNC : Nat := 0x0008
def FGATE : Nat := 0x0010
def DGATE : Nat := 0x0020
def BGATE : Nat := 0x0040
def METRIC : Nat := 0x0080
def LEPSEC : Nat := 0x1000
def SELV : Nat := 0x0100
def SELH : Nat := 0x0200
def ACQSN : Int := 6
def DATA : Int := 15
def SYNCH : Int := 40
def PANIC : Int := 2 * 1440
def MTHR : ℚ := 13
def QTHR : ℚ := 2500
def QSNR : ℚ := 10
def AMAX : Nat := 6
def MINAVG : Int := 8
def MAXGAIN : Int := 16383
def NCHAN : Nat := 4
def DCHAN : Nat := 3
def qsy : List Nat := [5, 10, 15, 20]

/-- Bitwise complement `~m` of an `int` mask, as a 32-bit pattern. -/
def compl (m : Nat) : Nat := 0xffffffff ^^^ m

/-- The `struct sync` of `wwv.c`.  Values of type `float` and `double` are kept
as the rational numbers they denote. -/
structure sync where
  epoch : ℚ
  maxeng : ℚ
  noieng : ℚ
  pos : Int
  lastpos : Int
  mepoch : Int
  amp : ℚ
  syneng : ℚ
  synmax : ℚ
  synsnr : ℚ
  metric : ℚ
  reach : Nat
  count : Int
  select : Nat
  refid : List Nat
deriving DecidableEq

/-- The `struct chan` of `wwv.c`. -/
structure chan where
  gain : Int
  wwv : sync
  wwvh : sync
deriving DecidableEq

/-- The fields of `struct wwvunit` that `wwv_newgame`, `wwv_newchan` and the
`SYNC3` case of `wwv_rsec` read or write.  `sptr` points into `mitig`: it is the
channel index and whether the station is the `wwvh` member. -/
structure wwvunit where
  freq : ℚ
  pdelay : ℚ
  errflg : Int
  watch : Int
  gain : Int
  avgint : Int
  mitig : List chan
  sptr : Option (Nat × Bool)
  dchan : Nat
  schan : Nat
  achan : Nat
  digcnt : Int
  status : Nat
  alarm : Nat
  errcnt : Int
  fudgetime1 : ℚ
  fudgetime2 : ℚ
deriving DecidableEq

/-- A `struct sync` after `memset(.., 0, ..)`. -/
def sync.zero : sync :=
  ⟨0, 0, 0, 0, 0, 0, 0, 0, 0, 0, 0, 0, 0, 0, []⟩

/-- A `struct chan` after `memset(.., 0, ..)`. -/
def chan.zero : chan := ⟨0, sync.zero, sync.zero⟩

/-- One pass of the search loop of `wwv_newchan` on channel `i`; the state is
`(rank, sp, j)`, with `sp` the station pointed at and its `select` word. -/
def wwv_newchan_step (c : chan) (i : Nat) (st : ℚ × Option ((Nat × Bool) × Nat) × Nat) :
    ℚ × Option ((Nat × Bool) × Nat) × Nat :=
  let st := if c.wwvh.metric ≥ st.1 then (c.wwvh.metric, some ((i, true), c.wwvh.select), i)
    else st
  if c.wwv.metric ≥ st.1 then (c.wwv.metric, some ((i, false), c.wwv.select), i) else st

/-- The search loop of `wwv_newchan`: `for (i = 0; i < NCHAN; i++)`. -/
def wwv_newchan_scan (mitig : List chan) :
    Nat → Nat → ℚ × Option ((Nat × Bool) × Nat) × Nat →
      Option (ℚ × Option ((Nat × Bool) × Nat) × Nat)
  | 0, _, st => some st
  | n + 1, i, st =>
    (mitig.get? i).bind fun c => wwv_newchan_scan mitig n (i + 1) (wwv_newchan_step c i st)

/-- `wwv_newchan(up)`: the unit afterwards and the value returned. -/
def wwv_newchan (up : wwvunit) : Option (wwvunit × Bool) :=
  (wwv_newchan_scan up.mitig NCHAN 0 (0, none, 0)).bind fun r =>
  let rank := r.1
  let sp := r.2.1
  let j := r.2.2
  let up := { up with status := up.status &&& compl (SELV ||| SELH) }
  if rank < MTHR then
    let up := { up with dchan := (up.dchan + 1) % NCHAN }
    let up := if up.status &&& METRIC ≠ 0 then { up with status := up.status &&& compl METRIC }
      else up
    some (up, false)
  else
    sp.bind fun s =>
    let up := { up with dchan := j, sptr := some s.1, status := up.status ||| METRIC }
    let up :=
      if s.2 &&& SELV ≠ 0 then
        { up with status := up.status ||| SELV, pdelay := up.fudgetime1 }
      else if s.2 &&& SELH ≠ 0 then
        { up with status := up.status ||| SELH, pdelay := up.fudgetime2 }
      else { up with pdelay := 0 }
    some (up, true)

/-- The text `snprintf(refid, 5, "W?%.0f", floorf(qsy[i]))` leaves in `refid`. -/
def refidText (second : Nat) (mhz : Nat) : List Nat :=
  ([87, second] ++ (Nat.toDigits 10 mhz).map Char.toNat).take 4

/-- `wwv_newgame(up)`. -/
def wwv_newgame (up : wwvunit) : Option wwvunit :=
  let up := if up.status ≠ 0 then { up with errflg := 1 } else up
  let up := { up with watch := 0, status := 0, alarm := 0 }
  let up := { up with avgint := MINAVG }
  let up := { up with freq := 0 }
  let up := { up with gain := MAXGAIN / 2 }
  let mitig := List.replicate NCHAN chan.zero
  let mitig := (List.range NCHAN).foldl (fun (m : List chan) i =>
      m.modify (fun cp =>
        { cp with
          gain := up.gain
          wwv := { cp.wwv with select := SELV, refid := refidText 86 (qsy.getD i 0) }
          wwvh := { cp.wwvh with select := SELH, refid := refidText 72 (qsy.getD i 0) } }) i)
    mitig
  let up := { up with mitig := mitig }
  let up := { up with dchan := (DCHAN + NCHAN - 1) % NCHAN }
  (wwv_newchan up).bind fun r =>
  let up := r.1
  some { up with schan := up.dchan }

/-- How a case of the `switch` of `wwv_rsec` ends: with `return`, or with
`break` into the code after the `switch`. -/
inductive Exit where
  | returned (up : wwvunit)
  | break (up : wwvunit)
deriving DecidableEq

/-- The station update of the `SYNC3` case, done for `cp->wwv` and for
`cp->wwvh`.  `wwv_snr` and `wwv_metric` are floating-point routines and are
parameters. -/
def sync3_station (wwv_snr : ℚ → ℚ → ℚ) (wwv_metric : sync → ℚ) (status : Nat) (sp : sync) :
    sync :=
  let sp := { sp with synsnr := wwv_snr sp.synmax sp.amp }
  let sp := { sp with reach := (sp.reach <<< 1) % 2 ^ 32 }
  let sp := if sp.reach &&& (1 <<< AMAX) ≠ 0 then { sp with count := sp.count - 1 } else sp
  let sp :=
    if sp.synmax ≥ QTHR ∧ sp.synsnr ≥ QSNR ∧ status &&& (DGATE ||| BGATE) = 0 then
      { sp with reach := sp.reach ||| 1, count := sp.count + 1 }
    else sp
  { sp with metric := wwv_metric sp }

/-- The stations and counters of the unit after the first part of `case SYNC3:`,
up to `up->errcnt = up->digcnt = up->alarm = 0;`. -/
def sync3_update (wwv_snr : ℚ → ℚ → ℚ) (wwv_metric : sync → ℚ) (up : wwvunit) :
    Option wwvunit :=
  (up.mitig.get? up.achan).bind fun cp =>
  let cp := { cp with wwv := sync3_station wwv_snr wwv_metric up.status cp.wwv }
  let cp := { cp with wwvh := sync3_station wwv_snr wwv_metric up.status cp.wwvh }
  some { up with mitig := up.mitig.set up.achan cp, errcnt := 0, digcnt := 0, alarm := 0 }

/-- The `case SYNC3:` block of `wwv_rsec`. -/
def wwv_rsec_SYNC3 (wwv_snr : ℚ → ℚ → ℚ) (wwv_metric : sync → ℚ) (up : wwvunit) :
    Option Exit :=
  (sync3_update wwv_snr wwv_metric up).bind fun up =>
  if up.status &&& INSYNC ≠ 0 then
    if up.watch > PANIC then (wwv_newgame up).map Exit.returned
    else (wwv_newchan up).map fun r => Exit.break r.1
  else if up.status &&& DSYNC ≠ 0 then
    if up.watch > SYNCH then (wwv_newgame up).map Exit.returned
    else (wwv_newchan up).map fun r => Exit.break r.1
  else if up.watch > DATA then (wwv_newgame up).map Exit.returned
  else (wwv_newchan up).map fun r => Exit.break r.1

/-- The channel table `wwv_newgame` builds. -/
def newgame_mitig : List chan :=
  (List.range NCHAN).map fun i =>
    { gain := MAXGAIN / 2
      wwv := { sync.zero with select := SELV, refid := refidText 86 (qsy.getD i 0) }
      wwvh := { sync.zero with select := SELH, refid := refidText 72 (qsy.getD i 0) } }

/-- A unit that found the minute units digit (`MSYNC` and `DSYNC` lit) 41
minutes ago and is not synchronized. -/
def stalled : wwvunit :=
  { freq := 0
    pdelay := 0
    errflg := 0
    watch := 41
    gain := 8191
    avgint := 8
    mitig := newgame_mitig
    sptr := none
    dchan := 3
    schan := 3
    achan := 0
    digcnt := 0
    status := MSYNC ||| DSYNC
    alarm := 0
    errcnt := 0
    fudgetime1 := 0
    fudgetime2 := 0 }

end Wwv

/-! ### Burst decoder of `chu.c` -/

namespace Chu

def BURST : Nat := 11
def MINCHAR : Nat := 9
def MINDIST : Int := 28
def MINSYNC : Int := 8
def MINSTAMP : Nat := 20
def MAXSTAGE : Nat := 60
def RUNT : Nat := 0x0001
def NOISE : Nat := 0x0002
def BFRAME : Nat := 0x0004
def BFORMAT : Nat := 0x0008
def AFRAME : Nat := 0x0010
def AFORMAT : Nat := 0x0020
def DECODE : Nat := 0x0040
def STAMP : Nat := 0x0080
def AVALID : Nat := 0x0100
def BVALID : Nat := 0x0200
def INSYNC : Nat := 0x0400
def METRIC : Nat := 0x0800

/-- The string `hexchar[] = "0123456789abcdef_*="` of `chu.c`. -/
def hexchar : List Nat :=
  [48, 49, 50, 51, 52, 53, 54, 55, 56, 57, 97, 98, 99, 100, 101, 102, 95, 42, 61]

/-- The fields of `struct chuunit` that the burst decoder (`chu_burst`, `chu_a`,
`chu_b`, `chu_major`, `chu_clear`) reads or writes.  `decode` is
`uint8_t[20][16]`, `cstamp` has `BURST` cells, `tstamp` has `MAXSTAGE` cells and
`cbuf` has `BURST` cells, each holding a character `hexhex & 0xff`.  The `int`
counters `ntstamp`, `ndx`, `prevsec` and `burstcnt` are cleared and then only
incremented, and `dst`, `year`, `day`, `hour`, `min`, `sec` are only assigned
non-negative values: they are natural numbers. -/
structure chuunit where
  decode : List (List Nat)
  cstamp : List l_fp
  tstamp : List l_fp
  charstamp : l_fp
  status : Nat
  cbuf : List Nat
  ntstamp : Nat
  ndx : Nat
  prevsec : Nat
  burdist : Int
  syndist : Int
  burstcnt : Nat
  dst : Nat
  year : Nat
  day : Nat
  hour : Nat
  min : Nat
  sec : Nat
deriving DecidableEq

/-- The loop of `chu_dist`, `n` passes to go:
`if ((temp & 0x1) == 0) val++; else val--; temp >>= 1;` -/
def chu_dist_loop : Nat → Nat → Int → Int
  | 0, _, val => val
  | n + 1, temp, val =>
    chu_dist_loop n (temp >>> 1) (if temp &&& 0x1 = 0 then val + 1 else val - 1)

/-- `chu_dist(x, y)`. -/
def chu_dist (x y : Nat) : Int :=
  chu_dist_loop 8 (x ^^^ y) 0

/-- The read `cbuf[i]` of the character buffer at an `int` index. -/
def rdc (cbuf : List Nat) (i : Int) : Option Nat :=
  if 0 ≤ i then cbuf.get? i.toNat else none

/-- The number of digits `printf` writes for `v` in base `b`; a 32-bit value has
at most `n + 1` of them. -/
def ndigits (b : Nat) : Nat → Nat → Nat
  | 0, _ => 1
  | n + 1, v => if v < b then 1 else 1 + ndigits b n (v / b)

/-- The length of what `%0wx` (or `%wx`) writes for `v`. -/
def lenX (w v : Nat) : Nat := max w (ndigits 16 7 v)

/-- The length of what `%wd` writes for `v`. -/
def lenD (w : Nat) (v : Int) : Nat := max w ((if v < 0 then 1 else 0) + ndigits 10 9 v.natAbs)

/-- The trace loop of `chu_a` and `chu_b`, from character `i` on, with `n`
passes to go; `cb` is the room left in `tbuf` and `chars` is `strlen(p)`:
`chars = strlen(p); if (cb < chars + 1) return; cb -= chars; p += chars; snprintf(p, cb, "%02x", up->cbuf[i]);`
The result is `false` when the loop ends in `return`. -/
def traceLoop (cbuf : List Nat) : Nat → Nat → Nat → Nat → Option Bool
  | 0, _, _, _ => some true
  | n + 1, i, cb, chars =>
    if cb < chars + 1 then some false
    else
      (cbuf.get? i).bind fun c =>
        traceLoop cbuf n (i + 1) (cb - chars) (min (lenX 2 c) (cb - chars - 1))

/-- `chu_b(up, nchar)`.  The trace line starts with
`"chuB %04x %4.0f %2d %2d "` in the 80 bytes of `tbuf`. -/
def chu_b (up : chuunit) (nchar : Nat) : Option chuunit :=
  let hdr := 5 + lenX 4 up.status + 1 + 4 + 1 + lenD 2 nchar + 1 + lenD 2 (-up.burdist) + 1
  (traceLoop up.cbuf nchar 0 80 (min hdr 79)).bind fun fits =>
  if ¬ fits then some up
  else if up.burdist > -40 then some { up with status := up.status ||| BFRAME }
  else
    (up.cbuf.get? 3).bind fun c3 =>
    (up.cbuf.get? 2).bind fun c2 =>
    (up.cbuf.get? 4).bind fun c4 =>
    some { up with year := (c3 <<< 8) ||| c2, dst := c4 }

/-- One pass of the phase search of `chu_a`, for the alignment `i`; the state is
`(up->syndist, k)`. -/
def chu_a_phase (cbuf : List Nat) (nchar : Nat) (i : Int) (st : Int × Int) :
    Option (Int × Int) :=
  (rdc cbuf (i + 4)).bind fun c =>
  let temp := c &&& 0xf
  (if i ≥ 0 then (rdc cbuf i).bind fun c => some (temp ||| ((c &&& 0xf) <<< 4))
    else some temp).bind fun temp =>
  let val := chu_dist temp 0x63
  (rdc cbuf (i + 5)).bind fun c =>
  let temp := (c &&& 0xf) <<< 4
  (if i + 9 < nchar then (rdc cbuf (i + 9)).bind fun c => some (temp ||| (c &&& 0xf))
    else some temp).bind fun temp =>
  let val := val + chu_dist temp 0x63
  some (if val > st.1 then (val, i) else st)

/-- The phase search of `chu_a`: `up->syndist = k = 0; for (i = -1; i < 2; i++) ..`. -/
def chu_a_sync (cbuf : List Nat) (nchar : Nat) : Option (Int × Int) :=
  (chu_a_phase cbuf nchar (-1) (0, 0)).bind fun st =>
  (chu_a_phase cbuf nchar 0 st).bind fun st =>
  chu_a_phase cbuf nchar 1 st

/-- The second number `temp` of `chu_a`: the high digit of `cbuf[k + 4]`, or 0
when it is not in 2..9 or the repetition at `cbuf[k + 9]` is missing or differs. -/
def chu_a_second (cbuf : List Nat) (nchar : Nat) (k : Int) : Option Nat :=
  (rdc cbuf (k + 4)).bind fun c =>
  let temp := (c >>> 4) &&& 0xf
  if temp < 2 ∨ temp > 9 ∨ k + 9 ≥ nchar then some 0
  else (rdc cbuf (k + 9)).bind fun c => some (if temp ≠ ((c >>> 4) &&& 0xf) then 0 else temp)

/-- The timestamp loop of `chu_a`, `n` passes to go:
`for (; i < nchar && i < k + 10; i++) { up->tstamp[up->ntstamp] = up->cstamp[i]; L_SUB(&up->tstamp[up->ntstamp], &offset); L_ADD(&offset, &up->charstamp); if (up->ntstamp < MAXSTAGE - 1) up->ntstamp++; }` -/
def chu_a_stamps (cstamp : List l_fp) (charstamp : l_fp) (nchar : Nat) (k : Int) :
    Nat → Nat → l_fp → List l_fp → Nat → Option (List l_fp × Nat)
  | 0, _, _, tstamp, ntstamp => some (tstamp, ntstamp)
  | n + 1, i, offset, tstamp, ntstamp =>
    if i < nchar ∧ (i : Int) < k + 10 then
      (cstamp.get? i).bind fun cs =>
        if ntstamp < tstamp.length then
          chu_a_stamps cstamp charstamp nchar k n (i + 1) (L_ADD offset charstamp)
            (tstamp.set ntstamp (L_SUB cs offset))
            (if ntstamp < MAXSTAGE - 1 then ntstamp + 1 else ntstamp)
        else none
    else some (tstamp, ntstamp)

/-- One pass of the inner loops of the seconds advance of `chu_a` on a row:
`for (j = 15; j > 0; j--) row[j] = row[j - 1]; row[0] = 0;` -/
def shiftRow (row : List Nat) : List Nat :=
  (0 :: row).take row.length

/-- The seconds advance of `chu_a`, `n` passes to go; the state is
`(up->decode, up->prevsec)`:
`while (temp > up->prevsec) { .. shift rows 9 and 19 ..; up->prevsec++; }`
Since `prevsec` is not negative, `temp` passes are enough. -/
def chu_a_advance (temp : Nat) : Nat → List (List Nat) × Nat → List (List Nat) × Nat
  | 0, st => st
  | n + 1, st =>
    if temp > st.2 then
      chu_a_advance temp n (((st.1.modify shiftRow 9).modify shiftRow 19), st.2 + 1)
    else st

/-- The increment `up->decode[i][d]++` of a `uint8_t` cell. -/
def bump (decode : List (List Nat)) (i d : Nat) : List (List Nat) :=
  decode.modify (fun row => row.modify (fun x => (x + 1) % 256) d) i

/-- The stash loop of `chu_a`, from character `j` on, with `n` passes to go:
`if (i < 0 || i > 18) { i += 2; continue; } up->decode[i][up->cbuf[j] & 0xf]++; i++; up->decode[i][(up->cbuf[j] >> 4) & 0xf]++; i++;` -/
def chu_a_stash (cbuf : List Nat) : Nat → Nat → Int → List (List Nat) →
    Option (List (List Nat))
  | 0, _, _, decode => some decode
  | n + 1, j, i, decode =>
    if i < 0 ∨ i > 18 then chu_a_stash cbuf n (j + 1) (i + 2) decode
    else
      (cbuf.get? j).bind fun c =>
        chu_a_stash cbuf n (j + 1) (i + 2)
          (bump (bump decode i.toNat (c &&& 0xf)) (i.toNat + 1) ((c >>> 4) &&& 0xf))

/-- `chu_a(up, nchar)`.  The trace line starts with
`"chuA %04x %4.0f %2d %2d %2d %2d %1d "` in the 80 bytes of `tbuf`. -/
def chu_a (up : chuunit) (nchar : Nat) : Option chuunit :=
  (chu_a_sync up.cbuf nchar).bind fun st =>
  let up := { up with syndist := st.1 }
  let k := st.2
  (chu_a_second up.cbuf nchar k).bind fun temp =>
  let hdr := 5 + lenX 4 up.status + 1 + 4 + 1 + lenD 2 nchar + 1 + lenD 2 up.burdist + 1 +
    lenD 2 k + 1 + lenD 2 up.syndist + 1 + lenD 1 temp + 1
  (traceLoop up.cbuf nchar 0 80 (min hdr 79)).bind fun fits =>
  if ¬ fits then some up
  else if up.syndist < MINSYNC then some { up with status := up.status ||| AFRAME }
  else
    (if temp = 0 then some { up with status := up.status ||| AFORMAT }
      else
        let up := { up with status := up.status ||| AVALID, sec := 30 + temp }
        let offset : l_fp := if k < 0 then up.charstamp else ⟨30 + temp, 0⟩
        let i := if k < 0 then 0 else if k > 0 then 1 else 0
        (chu_a_stamps up.cstamp up.charstamp nchar k nchar i offset up.tstamp up.ntstamp).bind
          fun r =>
        let up := { up with tstamp := r.1, ntstamp := r.2 }
        let a := chu_a_advance temp temp (up.decode, up.prevsec)
        some { up with decode := a.1, prevsec := a.2 }).bind fun up =>
    (chu_a_stash up.cbuf nchar 0 (-(2 * k)) up.decode).bind fun decode =>
    some { up with decode := decode, burstcnt := up.burstcnt + 1 }

/-- The loop of `chu_burst`, `n` passes to go:
`for (i = 0; i < 5 && i < up->ndx - 5; i++) up->burdist += chu_dist(up->cbuf[i], up->cbuf[i + 5]);` -/
def chu_burst_loop (cbuf : List Nat) (ndx : Nat) : Nat → Nat → Int → Option Int
  | 0, _, burdist => some burdist
  | n + 1, i, burdist =>
    if (i : Int) < (ndx : Int) - 5 then
      (cbuf.get? i).bind fun x =>
        (cbuf.get? (i + 5)).bind fun y =>
          chu_burst_loop cbuf ndx n (i + 1) (burdist + chu_dist x y)
    else some burdist

/-- `chu_burst(up)`. -/
def chu_burst (up : chuunit) : Option chuunit :=
  if up.ndx < MINCHAR then some { up with status := up.status ||| RUNT }
  else
    (chu_burst_loop up.cbuf up.ndx 5 0 0).bind fun burdist =>
    let up := { up with burdist := burdist }
    if up.burdist ≥ MINDIST then chu_a up up.ndx
    else if up.burdist ≤ -MINDIST then chu_b up up.ndx
    else some { up with status := up.status ||| NOISE }

/-- The cell `up->decode[i][j]`. -/
def cellAt (decode : List (List Nat)) (i j : Nat) : Nat :=
  (decode.getD i []).getD j 0

/-- The inner loop of `chu_major` on row `i`, from column `j` on, with `n`
passes to go; the state is `(val1, k)`:
`temp = up->decode[i][j] + up->decode[i + 10][j]; if (temp > val1) { val1 = temp; k = j; }` -/
def chu_major_row (decode : List (List Nat)) (i : Nat) : Nat → Nat → Nat × Nat → Nat × Nat
  | 0, _, st => st
  | n + 1, j, st =>
    let temp := cellAt decode i j + cellAt decode (i + 10) j
    chu_major_row decode i n (j + 1) (if temp > st.1 then (temp, j) else st)

/-- The outer loop of `chu_major`, from row `i` on, with `n` passes to go; the
state is `(up->status, metric, code)`. -/
def chu_major_rows (decode : List (List Nat)) (burstcnt : Nat) :
    Nat → Nat → Nat × Nat × List Nat → Nat × Nat × List Nat
  | 0, _, st => st
  | n + 1, i, st =>
    let r := chu_major_row decode i 16 0 (0, 0)
    let status := if r.1 ≤ burstcnt then st.1 ||| DECODE else st.1
    chu_major_rows decode burstcnt n (i + 1)
      (status, st.2.1 + r.1, st.2.2.set i (hexchar.getD r.2 0))

/-- The array `code` of `chu_major` after its loop. -/
def chu_major_code (up : chuunit) : List Nat :=
  (chu_major_rows up.decode up.burstcnt 9 0 (up.status, 0, List.replicate 11 0)).2.2

/-- `chu_major(up)`: the unit afterwards and the metric returned. -/
def chu_major (up : chuunit) : chuunit × Nat :=
  let r := chu_major_rows up.decode up.burstcnt 9 0 (up.status, 0, List.replicate 11 0)
  let code := r.2.2
  let up := { up with status := r.1 }
  let up := { up with day := code.getD 1 0 * 100 + code.getD 2 0 * 10 + code.getD 3 0 }
  let up := { up with hour := code.getD 4 0 * 10 + code.getD 5 0 }
  let up := { up with min := code.getD 6 0 * 10 + code.getD 7 0 }
  let up := if up.ntstamp < MINSTAMP then { up with status := up.status ||| STAMP } else up
  (up, r.2.1)

/-- `chu_clear(up)`. -/
def chu_clear (up : chuunit) : chuunit :=
  { up with
    ndx := 0
    prevsec := 0
    burstcnt := 0
    ntstamp := 0
    status := up.status &&& (INSYNC ||| METRIC)
    decode := List.replicate 20 (List.replicate 16 0) }

/-- The sizes of the arrays of a unit, the range of its characters and of its
timestamp count. -/
def chuunit.wf (up : chuunit) : Prop :=
  up.cbuf.length = BURST ∧ (∀ c ∈ up.cbuf, c < 256) ∧ up.cstamp.length = BURST ∧
    up.tstamp.length = MAXSTAGE ∧ up.ntstamp < MAXSTAGE

instance (up : chuunit) : Decidable up.wf := by
  unfold chuunit.wf
  infer_instance

/-- The number of one bits among the `n` low bits of `v`. -/
def popcount : Nat → Nat → Nat
  | 0, _ => 0
  | n + 1, v => v % 2 + popcount n (v / 2)

/-- The burst distance over the first `n` pairs of characters. -/
def pairDist (cbuf : List Nat) (n : Nat) : Int :=
  ((List.range n).map fun i => chu_dist (cell cbuf i) (cell cbuf (i + 5))).sum

/-- The distance `val` that the phase search of `chu_a` finds for the
alignment `i`. -/
def phaseVal (cbuf : List Nat) (nchar : Nat) (i : Int) : Int :=
  chu_dist
      (if i ≥ 0 then (cell cbuf (i + 4).toNat &&& 0xf) ||| ((cell cbuf i.toNat &&& 0xf) <<< 4)
        else cell cbuf (i + 4).toNat &&& 0xf) 0x63 +
    chu_dist
      (if i + 9 < nchar then
          ((cell cbuf (i + 5).toNat &&& 0xf) <<< 4) ||| (cell cbuf (i + 9).toNat &&& 0xf)
        else (cell cbuf (i + 5).toNat &&& 0xf) <<< 4) 0x63

/-- The phase search of `chu_a` in closed form. -/
def syncVal (cbuf : List Nat) (nchar : Nat) : Int × Int :=
  let st : Int × Int := (0, 0)
  let st := if phaseVal cbuf nchar (-1) > st.1 then (phaseVal cbuf nchar (-1), -1) else st
  let st := if phaseVal cbuf nchar 0 > st.1 then (phaseVal cbuf nchar 0, 0) else st
  if phaseVal cbuf nchar 1 > st.1 then (phaseVal cbuf nchar 1, 1) else st

/-- The second number `temp` of `chu_a` in closed form. -/
def secondVal (cbuf : List Nat) (nchar : Nat) (k : Int) : Nat :=
  if (cell cbuf (k + 4).toNat >>> 4) &&& 0xf < 2 ∨ (cell cbuf (k + 4).toNat >>> 4) &&& 0xf > 9 ∨
      k + 9 ≥ nchar then 0
  else if (cell cbuf (k + 4).toNat >>> 4) &&& 0xf ≠ (cell cbuf (k + 9).toNat >>> 4) &&& 0xf then 0
  else (cell cbuf (k + 4).toNat >>> 4) &&& 0xf

/-- A unit with cleared matrix, timestamps and counters that holds `ndx`
characters `cbuf` in its buffer. -/
def unitWith (cbuf : List Nat) (ndx : Nat) : chuunit :=
  { decode := List.replicate 20 (List.replicate 16 0)
    cstamp := List.replicate 11 ⟨0, 0⟩
    tstamp := List.replicate 60 ⟨0, 0⟩
    charstamp := ⟨0, 157482134⟩
    status := 0
    cbuf := cbuf
    ntstamp := 0
    ndx := ndx
    prevsec := 0
    burdist := 0
    syndist := 0
    burstcnt := 0
    dst := 0
    year := 0
    day := 0
    hour := 0
    min := 0
    sec := 0 }

/-- The format A burst `06851292930685129293` of the comment in `chu.c`, in a
buffer of `BURST` cells. -/
def burstA : List Nat := [0x06, 0x85, 0x12, 0x92, 0x93, 0x06, 0x85, 0x12, 0x92, 0x93, 0]

/-- The nine characters `1091891300ef6e76ec` in a buffer of `BURST` cells. -/
def burstB : List Nat := [0x10, 0x91, 0x89, 0x13, 0x00, 0xef, 0x6e, 0x76, 0xec, 0, 0]

/-- The format B burst `1091891300ef6e76ec` completed by its tenth character
`ff`, the inverse of `00`. -/
def burstB10 : List Nat := [0x10, 0x91, 0x89, 0x13, 0x00, 0xef, 0x6e, 0x76, 0xec, 0xff, 0]

/-- The count `decode[i][j] + decode[i + 10][j]` that `chu_major` looks at. -/
def rowCount (decode : List (List Nat)) (i j : Nat) : Nat :=
  cellAt decode i j + cellAt decode (i + 10) j

/-- A matrix after four bursts in which row 0 (with row 10) counts the digit 1
three times and the digit 2 five times. -/
def splitVote : chuunit :=
  { unitWith burstA 0 with
    burstcnt := 4
    decode :=
      ((List.replicate 20 (List.replicate 16 0)).set 0
        [0, 1, 3, 0, 0, 0, 0, 0, 0, 0, 0, 0, 0, 0, 0, 0]).set 10
        [0, 2, 2, 0, 0, 0, 0, 0, 0, 0, 0, 0, 0, 0, 0, 0] }

/-- The format A burst `0685129213 0685129213`, whose seconds digit is 1. -/
def burstBadSecond : List Nat :=
  [0x06, 0x85, 0x12, 0x92, 0x13, 0x06, 0x85, 0x12, 0x92, 0x13, 0]

end Chu

/-! ### Time code decoder of `irig.c`; median filter, sort, offset filter and clock digits of `wwv.c` -/

namespace Irig

def SUBFLD : Nat := 10

def FIELD : Nat := 100

def MINTC : Int := 2

def MAXTC : Int := 10

def SECOND : Nat := 8000

def IRIG_B : ℚ := ((103 : ℚ) / 100 + 268 / 100) / 1000

def IRIG_E : ℚ := ((347 : ℚ) / 100 + 268 / 100) / 1000

def BIT0 : Nat := 0

def BIT1 : Nat := 1

def BITP : Nat := 2

def IRIG_ERR_SYNCH : Nat := 0x08

def IRIG_ERR_DECODE : Nat := 0x10

def IRIG_ERR_CHECK : Nat := 0x20

def IRIG_ERR_SIGERR : Nat := 0x80

/-- The table `hexchar[] = "0123456789abcdef"` of `irig.c`, as character codes. -/
def hexchar : List Nat :=
  [48, 49, 50, 51, 52, 53, 54, 55, 56, 57, 97, 98, 99, 100, 101, 102]

structure irigunit where
  timecode : List Nat
  timestamp : l_fp
  refstamp : l_fp
  chrstamp : l_fp
  prvstamp : l_fp
  exing : ℚ
  yxing : ℚ
  fdelay : ℚ
  decim : Nat
  envphase : Int
  envxing : Int
  tc : Int
  tcount : Int
  badcnt : Int
  errflg : Nat
  dcycles : Nat
  lastbit : Nat
  second : Int
  frmcnt : Nat
  xptr : Nat
  bits : Nat
  pp_year : Int
  pp_day : Int
  pp_hour : Int
  pp_minute : Int
  pp_second : Int
  pp_lastref : l_fp
  pp_lastrec : l_fp
deriving DecidableEq

def irig_start : irigunit :=
  { timecode := List.replicate (2 * SUBFLD + 1) 0
    timestamp := ⟨0, 0⟩, refstamp := ⟨0, 0⟩, chrstamp := ⟨0, 0⟩, prvstamp := ⟨0, 0⟩
    exing := 0, yxing := 0, fdelay := 0
    decim := 1
    envphase := 0, envxing := 0
    tc := MINTC
    tcount := 0, badcnt := 0, errflg := 0, dcycles := 0, lastbit := 0, second := 0
    frmcnt := 0, xptr := 0, bits := 0
    pp_year := 0, pp_day := 0, pp_hour := 0, pp_minute := 0, pp_second := 0
    pp_lastref := ⟨0, 0⟩, pp_lastrec := ⟨0, 0⟩ }

/-- The value `up->timecode[i] - 0x30` of `irig_decode`, an `int`. -/
def tcdigit (up : irigunit) (i : Nat) : Int := (up.timecode.getD i 0 : Int) - 0x30

/-- End of second in `irig_decode`: the fields decoded from the timecode. -/
def irig_decode_fields (up : irigunit) : irigunit :=
  let up := { up with xptr := 2 * SUBFLD }
  let up := { up with pp_year := tcdigit up 6 * 10 + tcdigit up 7 }
  let up := { up with pp_day := tcdigit up 11 * 100 + tcdigit up 12 * 10 + tcdigit up 13 }
  let up := { up with pp_hour := tcdigit up 14 * 10 + tcdigit up 15 }
  let up := { up with pp_minute := tcdigit up 16 * 10 + tcdigit up 17 }
  { up with pp_second := tcdigit up 18 * 10 + tcdigit up 19 }

/-- End of second in `irig_decode`: the alarms. -/
def irig_decode_alarm (up : irigunit) : irigunit :=
  let syncdig := tcdigit up 8
  let up := { up with second := ((up.second + (up.decim : Int)) % 2 ^ 32) % 60 }
  let up :=
    if up.pp_day = 0 ∨ (up.pp_year ≠ 0 ∧ syncdig = 0) then
      { up with errflg := up.errflg ||| IRIG_ERR_SIGERR }
    else up
  let up :=
    if up.pp_second ≠ up.second then { up with errflg := up.errflg ||| IRIG_ERR_CHECK } else up
  { up with second := up.pp_second }

/-- End of second in `irig_decode`: wind the clock and clear the error flags. -/
def irig_decode_wind (up : irigunit) : irigunit :=
  let up :=
    if up.errflg = 0 ∧ up.tc = MAXTC then
      let up := { up with pp_lastref := up.pp_lastrec }
      { up with pp_lastrec := up.refstamp }
    else up
  { up with errflg := 0 }

/-- The block `if (up->frmcnt == 0) { ... }` of `irig_decode`. -/
def irig_decode_second (up : irigunit) : irigunit :=
  irig_decode_wind (irig_decode_alarm (irig_decode_fields up))

/-- The first part of `irig_decode`: assemble frame bits. -/
def irig_decode_bits (up : irigunit) (bit : Nat) : irigunit :=
  let up := { up with bits := up.bits >>> 1 }
  let up :=
    if bit = BIT1 then { up with bits := up.bits ||| 0x200 }
    else if bit = BITP ∧ up.lastbit = BITP then
      let up := if up.frmcnt ≠ 1 then { up with errflg := up.errflg ||| IRIG_ERR_SYNCH } else up
      let up := { up with frmcnt := 1 }
      { up with refstamp := up.prvstamp }
    else up
  { up with lastbit := bit }

/-- The two hexadecimal digits `irig_decode` writes at the end of a frame. -/
def irig_decode_digits (up : irigunit) : irigunit :=
  let temp := up.bits
  let temp := if up.frmcnt = 10 then temp >>> 1 else temp
  if 2 ≤ up.xptr then
    let up := { up with xptr := up.xptr - 1 }
    let up := { up with timecode := up.timecode.set up.xptr (hexchar.getD (temp &&& 0xf) 0) }
    let up := { up with xptr := up.xptr - 1 }
    { up with timecode := up.timecode.set up.xptr (hexchar.getD ((temp >>> 5) &&& 0xf) 0) }
  else up

/-- The second part of `irig_decode`: end of frame, end of second, frame count. -/
def irig_decode_end (up : irigunit) : irigunit :=
  let up :=
    if up.frmcnt % SUBFLD = 0 then
      let up := irig_decode_digits up
      if up.frmcnt = 0 then irig_decode_second up else up
    else up
  { up with frmcnt := (up.frmcnt + 1) % FIELD }

/-- `irig_decode(up, bit)`. -/
def irig_decode (up : irigunit) (bit : Nat) : irigunit :=
  irig_decode_end (irig_decode_bits up bit)

def irig_baud_pll (DTOLFP : ℚ → l_fp) (up : irigunit) : irigunit :=
  let up := { up with exing := -up.yxing }
  let up :=
    if |up.envxing - up.envphase| ≤ 1 then
      let up := { up with tcount := up.tcount + 1 }
      if up.tcount > 20 * up.tc then
        let up := { up with tc := up.tc + 1 }
        let up := if up.tc > MAXTC then { up with tc := MAXTC } else up
        let up := { up with tcount := 0 }
        { up with envxing := up.envphase }
      else { up with exing := up.exing - ((up.envxing - up.envphase : Int) : ℚ) }
    else
      let up := { up with tcount := 0 }
      { up with envxing := up.envphase }
  let up := { up with prvstamp := up.chrstamp }
  let dtemp : ℚ := (up.decim : ℚ) * (up.exing / (SECOND : ℚ)) + up.fdelay
  let ltemp := DTOLFP dtemp
  let up := { up with chrstamp := up.timestamp }
  { up with chrstamp := L_SUB up.chrstamp ltemp }

def irig_baud (DTOLFP : ℚ → l_fp) (up : irigunit) (_bits : Int) : irigunit :=
  let up := irig_baud_pll DTOLFP up
  let sw := up.dcycles &&& 0xff
  if sw = 0x00 ∨ sw = 0x80 then irig_decode up BIT0
  else if sw = 0xc0 ∨ sw = 0xe0 ∨ sw = 0xf0 then irig_decode up BIT1
  else if sw = 0xf8 ∨ sw = 0xfc ∨ sw = 0xfe then irig_decode up BITP
  else
    let up := irig_decode up BIT0
    { up with errflg := up.errflg ||| IRIG_ERR_DECODE }

inductive Filter where
  | irig_e
  | irig_b
deriving DecidableEq, Repr

/-- The decimation at the end of `irig_rf(up, sample)`: the unit afterwards and the filter
with which `irig_base` is called, if it is.  `fdelay` is a `float` and `IRIG_E` a `double`
constant; `==` compares their values.  The value of a `float` has a power of two for
denominator and `IRIG_E` has not (`irig_rf_float`), so the first branch, kept as the source
has it, is not taken on a unit whose `fdelay` the program has written. -/
def irig_rf (up : irigunit) : irigunit × Option Filter :=
  if up.fdelay = IRIG_E then
    let up := { up with badcnt := (up.badcnt + 1).tmod 10 }
    if up.badcnt = 0 then (up, some Filter.irig_e) else (up, none)
  else
    let up := { up with badcnt := up.badcnt + 1 }
    if up.badcnt = 0 then (up, some Filter.irig_b) else (up, none)

/-- The four bits of a BCD digit, least significant first. -/
def bcd4 (d : Nat) : List Nat := [d % 2, d / 2 % 2, d / 4 % 2, d / 8 % 2]

/-- A frame of ten code elements: a BCD digit, an index bit, a second BCD digit and the
closing position identifier. -/
def bcdField (a b : Nat) : List Nat := bcd4 a ++ [0] ++ bcd4 b ++ [BITP]

/-- The first frame of a second: the reference position identifier, the seconds units, an
index bit, three bits of seconds tens and the closing position identifier. -/
def firstField (a b : Nat) : List Nat := [BITP] ++ bcd4 a ++ [0] ++ (bcd4 b).take 3 ++ [BITP]

/-- The 100 code elements of one second: position identifiers at 0, 9, 19, .., 99, BCD least
significant bit first, the year in the frame of elements 60 to 68 where `irig_decode` reads
it. -/
def irig_frame (year day hour minute second : Nat) : List Nat :=
  firstField (second % 10) (second / 10) ++ bcdField (minute % 10) (minute / 10)
  ++ bcdField (hour % 10) (hour / 10) ++ bcdField (day % 10) (day / 10 % 10)
  ++ bcdField (day / 100) 0 ++ bcdField 0 0
  ++ bcdField (year % 10) (year / 10) ++ bcdField 0 0 ++ bcdField 0 0 ++ bcdField 0 0

/-- The same second with the year in the frame of elements 50 to 58. -/
def irig_frame_std (year day hour minute second : Nat) : List Nat :=
  firstField (second % 10) (second / 10) ++ bcdField (minute % 10) (minute / 10)
  ++ bcdField (hour % 10) (hour / 10) ++ bcdField (day % 10) (day / 10 % 10)
  ++ bcdField (day / 100) 0 ++ bcdField (year % 10) (year / 10)
  ++ bcdField 0 0 ++ bcdField 0 0 ++ bcdField 0 0 ++ bcdField 0 0

def decode_run (up : irigunit) (l : List Nat) : irigunit := l.foldl irig_decode up

/-- The unit with the register, the last code element and the frame count replaced. -/
def withReg (up : irigunit) (bits lastbit frmcnt : Nat) : irigunit :=
  { up with bits := bits, lastbit := lastbit, frmcnt := frmcnt }

/-- The unit between two frames: the last code element was a position identifier. -/
def atField (up : irigunit) (tc : List Nat) (xptr bits frmcnt : Nat) : irigunit :=
  { up with timecode := tc, xptr := xptr, bits := bits, lastbit := BITP, frmcnt := frmcnt }

/-- The timecode after the two digits of a frame have been written below `xptr`. -/
def writeDigits (tc : List Nat) (xptr temp : Nat) : List Nat :=
  (tc.set (xptr - 1) (hexchar.getD (temp % 16) 0)).set (xptr - 2) (hexchar.getD (temp / 32 % 16) 0)

/-- What of the unit decides where `irig_decode` writes and which flags it raises: whether
the last code element was a position identifier, the frame count, the timecode pointer and
the error flags. -/
structure skel where
  lastP : Bool
  frmcnt : Nat
  xptr : Nat
  errflg : Nat
deriving DecidableEq

def skel_of (up : irigunit) : skel :=
  ⟨decide (up.lastbit = BITP), up.frmcnt, up.xptr, up.errflg⟩

/-- One call of `irig_decode` seen on the `skel`: `p` tells whether the code element is a
position identifier. -/
def skelStep (s : skel) (p : Bool) : skel :=
  let mark := p && s.lastP
  let err := if mark ∧ s.frmcnt ≠ 1 then s.errflg ||| IRIG_ERR_SYNCH else s.errflg
  let frm := if mark then 1 else s.frmcnt
  if frm % SUBFLD = 0 then
    if frm = 0 then ⟨p, 1, 2 * SUBFLD, 0⟩
    else ⟨p, (frm + 1) % FIELD, if 2 ≤ s.xptr then s.xptr - 2 else s.xptr, err⟩
  else ⟨p, (frm + 1) % FIELD, s.xptr, err⟩

/-- Where the position identifiers of a second stand: elements 0, 9, 19, .., 99. -/
def piPattern : List Bool := (List.range 100).map fun i => decide (i = 0 ∨ i % 10 = 9)

/-- The timecode after the digits `a` (units) and `b` (tens) have been written below
`xptr`. -/
def writeBCD (tc : List Nat) (xptr a b : Nat) : List Nat :=
  (tc.set (xptr - 1) (hexchar.getD a 0)).set (xptr - 2) (hexchar.getD b 0)

/-- Frame synchronisation. -/
def InSync (up : irigunit) : Prop :=
  up.lastbit = BITP ∧ up.frmcnt = 1 ∧ up.xptr = 2 * SUBFLD ∧ up.bits < 1024 ∧
    up.timecode.length = 2 * SUBFLD + 1 ∧ up.errflg = 0

instance (up : irigunit) : Decidable (InSync up) := by
  unfold InSync
  infer_instance

end Irig

namespace Wwv

def STHR : ℚ := 2500

def SSNR : ℚ := 15 / 2

/-- The `static` variables of `wwv_endpoc` used up to the candidate epoch. -/
structure endpoc where
  epoch_mf : List Int
  tepoch : Int
  scount : Int
  syncnt : Int
  maxrun : Int
  avgcnt : Int
deriving DecidableEq

/-- The statics of `wwv_endpoc` when the program starts. -/
def endpoc.zero : endpoc := ⟨[0, 0, 0], 0, 0, 0, 0, 0⟩

/-- The three-stage median filter of `wwv_endpoc`. -/
def wwv_endpoc_filter (st : endpoc) (epopos : Int) : endpoc :=
  let mf := st.epoch_mf
  let mf := mf.set 2 (mf.getD 1 0)
  let mf := mf.set 1 (mf.getD 0 0)
  let mf := mf.set 0 epopos
  let st := { st with epoch_mf := mf }
  if mf.getD 0 0 > mf.getD 1 0 then
    if mf.getD 1 0 > mf.getD 2 0 then { st with tepoch := mf.getD 1 0 }
    else if mf.getD 2 0 > mf.getD 0 0 then { st with tepoch := mf.getD 0 0 }
    else { st with tepoch := mf.getD 2 0 }
  else
    if mf.getD 1 0 < mf.getD 2 0 then { st with tepoch := mf.getD 1 0 }
    else if mf.getD 2 0 < mf.getD 0 0 then { st with tepoch := mf.getD 0 0 }
    else { st with tepoch := mf.getD 2 0 }

/-- `wwv_endpoc(up, epopos)` up to the candidate epoch `tepoch`: the status word of the unit
and the statics after the gates and the median filter, and whether the gates let the call
through (the run-length and frequency code that follows reads `tepoch` and does not write
it or `epoch_mf`).  `epomax` and `eposnr` are the float fields of the unit. -/
def wwv_endpoc (status : Nat) (epomax eposnr : ℚ) (st : endpoc) (epopos : Int) :
    Nat × endpoc × Bool :=
  let st := { st with scount := st.scount + 1 }
  if epomax < STHR ∨ eposnr < SSNR then
    let status := status &&& compl (SSYNC ||| FGATE)
    let st := { st with avgcnt := 0, syncnt := 0, maxrun := 0 }
    (status, st, false)
  else if status &&& (SELV ||| SELH) = 0 then (status, st, false)
  else (status, wwv_endpoc_filter st epopos, true)

/-- The statics after a sequence of calls of `wwv_endpoc`, each with the status word, the
amplitude, the SNR and the position of that second. -/
def wwv_endpoc_run (st : endpoc) : List (Nat × ℚ × ℚ × Int) → endpoc
  | [] => st
  | c :: l => wwv_endpoc_run (wwv_endpoc c.1 c.2.1 c.2.2.1 st c.2.2.2).2.1 l

/-- A call that passes the gates of `wwv_endpoc`. -/
def passes (c : Nat × ℚ × ℚ × Int) : Prop :=
  ¬ (c.2.1 < STHR ∨ c.2.2.1 < SSNR) ∧ c.1 &&& (SELV ||| SELH) ≠ 0

/-- The middle one of three values in ascending order. -/
def median3 (a b c : Int) : Int := ([a, b, c].insertionSort (· ≤ ·)).getD 1 0

/-- The first loop of `Shellsort_dbl`: `do { inc = 3 * inc + 1; } while (inc <= n);` on
32-bit unsigned values.  `none` when the loop has not ended after `fuel` rounds. -/
def shell_gap (n : Nat) : Nat → Nat → Option Nat
  | 0, _ => none
  | fuel + 1, inc =>
    let inc := (3 * inc + 1) % 2 ^ 32
    if inc ≤ n then shell_gap n fuel inc else some inc

/-- The element `in[k - 1]` for an `int` k: `none` outside the array. -/
def shell_rd {α : Type} (a : List α) (k : Nat) : Option α :=
  if 1 ≤ k ∧ k < 2 ^ 31 then a[k - 1]? else none

/-- The store `in[k - 1] = x` for an `int` k: `none` outside the array. -/
def shell_wr {α : Type} (a : List α) (k : Nat) (x : α) : Option (List α) :=
  if 1 ≤ k ∧ k < 2 ^ 31 ∧ k - 1 < a.length then some (a.set (k - 1) x) else none

/-- The loop `while (in[j-inc-1] > v) { in[j-1] = in[j-inc-1]; j -= inc; if (j <= inc)
break; }`; the index `j - inc - 1` and `j -= inc` are computed on 32-bit unsigned values. -/
def shell_while {α : Type} [LinearOrder α] (inc : Nat) (v : α) :
    Nat → List α → Nat → Option (List α × Nat)
  | 0, _, _ => none
  | fuel + 1, a, j =>
    match a[(j + 2 ^ 32 - inc - 1) % 2 ^ 32]? with
    | none => none
    | some x =>
      if x > v then
        match shell_wr a j x with
        | none => none
        | some a =>
          let j := (j + 2 ^ 32 - inc) % 2 ^ 32
          if j ≤ inc then some (a, j) else shell_while inc v fuel a j
      else some (a, j)

/-- The loop `for (i = inc + 1; i <= n; i++) { v = in[i-1]; j = i; while ..; in[j-1] = v; }`
from the current `i` on. -/
def shell_for {α : Type} [LinearOrder α] (n inc fuel : Nat) :
    Nat → List α → Nat → Option (List α)
  | 0, _, _ => none
  | k + 1, a, i =>
    if i ≤ n then
      match shell_rd a i with
      | none => none
      | some v =>
        match shell_while inc v fuel a i with
        | none => none
        | some (a, j) =>
          match shell_wr a j v with
          | none => none
          | some a => if i + 1 < 2 ^ 31 then shell_for n inc fuel k a (i + 1) else none
    else some a

/-- The second loop of `Shellsort_dbl`: `do { inc = inc / 3; for ..; } while (inc > 1);`. -/
def shell_pass {α : Type} [LinearOrder α] (n fuel : Nat) :
    Nat → List α → Nat → Option (List α)
  | 0, _, _ => none
  | k + 1, a, inc =>
    let inc := inc / 3
    match shell_for n inc fuel fuel a ((inc + 1) % 2 ^ 32) with
    | none => none
    | some a => if inc > 1 then shell_pass n fuel k a inc else some a

/-- `Shellsort_dbl(in, n)`: the array after the call, `none` when the call reads or writes
outside the array or a loop has not ended after `fuel` rounds. -/
def Shellsort_dbl {α : Type} [LinearOrder α] (fuel : Nat) (inp : List α) (n : Nat) :
    Option (List α) :=
  (shell_gap n fuel 1).bind fun inc => shell_pass n fuel fuel inp inc

/-- The gap sequence 1, 4, 13, 40, .. of `Shellsort_dbl`. -/
def gap : Nat → Nat
  | 0 => 1
  | m + 1 => 3 * gap m + 1

/-- The first `m` cells of `a` are in ascending order. -/
def SortedTo {α : Type} [LinearOrder α] (a : List α) (m : Nat) : Prop :=
  ∀ p q x y, p ≤ q → q < m → a[p]? = some x → a[q]? = some y → x ≤ y

/-- The insertion loop with gap 1 at its head: the cells below `j - 1` are those of `a0`,
the cells from `j` to `i - 1` are the cells of `a0` moved up by one, all above `v`. -/
def InsInv {α : Type} [LinearOrder α] (a0 : List α) (i : Nat) (v : α) (a : List α) (j : Nat) :
    Prop :=
  a.length = a0.length ∧ j ≤ i ∧
    (∀ p, p + 1 < j → a[p]? = a0[p]?) ∧
    (∀ p, j ≤ p → p < i → a[p]? = a0[p - 1]?) ∧
    (∀ p y, j ≤ p + 1 → p + 1 < i → a0[p]? = some y → v < y)

def PDELAY : ℚ := ((91 : ℚ) / 100 + 47 / 10 - 45 / 100) / 1000

/-- A 32-bit word read as `int32_t`. -/
def toInt32 (x : Nat) : Int :=
  if x % 2 ^ 32 < 2 ^ 31 then ((x % 2 ^ 32 : Nat) : Int) else ((x % 2 ^ 32 : Nat) : Int) - 2 ^ 32

/-- `LFPTOD(v, d)` of `ntp_fp.h`, with the rational the double stands for. -/
def LFPTOD (v : l_fp) : ℚ :=
  if toInt32 v.l_ui < 0 then
    -((toInt32 (M_NEG v.l_ui v.l_uf).1 : ℚ) + ((M_NEG v.l_ui v.l_uf).2 : ℚ) / 4294967296)
  else (toInt32 v.l_ui : ℚ) + (v.l_uf : ℚ) / 4294967296

/-- The fields of `struct wwvunit` that the offset filter reads or writes. -/
structure wwvfilter where
  timestamp : l_fp
  pdelay : ℚ
  filter : List ℚ
  coderecv : Nat
  codeproc : Nat
  jitter : ℚ
  disp : ℚ
deriving DecidableEq

/-- The filter as the driver keeps it: 64 cells, both pointers inside. -/
def wwvfilter.wf (up : wwvfilter) : Prop :=
  up.filter.length = 64 ∧ up.coderecv < 64 ∧ up.codeproc < 64

instance (up : wwvfilter) : Decidable up.wf := by
  unfold wwvfilter.wf
  infer_instance

/-- `wwv_process_offset(up, lasttim)`. -/
def wwv_process_offset (up : wwvfilter) (lasttim : Nat) : wwvfilter :=
  let lftemp : l_fp := ⟨lasttim % 2 ^ 32, 0⟩
  let lftemp := L_SUB lftemp up.timestamp
  let doffset := LFPTOD lftemp
  let up := { up with coderecv := (up.coderecv + 1) &&& 63 }
  let up := { up with filter := up.filter.set up.coderecv (doffset + PDELAY + up.pdelay) }
  if up.coderecv = up.codeproc then { up with codeproc := (up.codeproc + 1) &&& 63 } else up

/-- The loop `while (up->codeproc != up->coderecv) { .. off[n++] = up->filter[up->codeproc]; }`
of `wwv_sample`; `off` holds the `n` cells written so far. -/
def wwv_sample_drain : Nat → wwvfilter → List ℚ → Option (wwvfilter × List ℚ)
  | 0, _, _ => none
  | fuel + 1, up, off =>
    if up.codeproc ≠ up.coderecv then
      let up := { up with codeproc := (up.codeproc + 1) &&& 63 }
      match up.filter[up.codeproc]? with
      | none => none
      | some x => if off.length < 64 then wwv_sample_drain fuel up (off ++ [x]) else none
    else some (up, off)

/-- The loop `while ((j - i) > m) { .. }` of `wwv_sample` on 32-bit unsigned `i`, `j`. -/
def wwv_sample_trim (off : List ℚ) (m : Nat) : Nat → Nat → Nat → Option (Nat × Nat)
  | 0, _, _ => none
  | fuel + 1, i, j =>
    if (j + 2 ^ 32 - i) % 2 ^ 32 > m then
      match off[((j + i) % 2 ^ 32) >>> 1]?, off[(j + 2 ^ 32 - 1) % 2 ^ 32]?, off[i]? with
      | some offset, some hi, some lo =>
        if hi - offset < offset - lo then wwv_sample_trim off m fuel ((i + 1) % 2 ^ 32) j
        else wwv_sample_trim off m fuel i ((j + 2 ^ 32 - 1) % 2 ^ 32)
      | _, _, _ => none
    else some (i, j)

/-- The loop `for (k = i; k < j; k++) { .. }` of `wwv_sample` with `c` rounds to go: the sum
`offs2` and the sum of squared differences `up->jitter`. -/
def wwv_sample_sum (off : List ℚ) (i : Nat) : Nat → Nat → ℚ × ℚ → Option (ℚ × ℚ)
  | 0, _, s => some s
  | c + 1, k, s =>
    match off[k]? with
    | none => none
    | some x =>
      if k > i then
        match off[k - 1]? with
        | none => none
        | some y => wwv_sample_sum off i c (k + 1) (s.1 + x, s.2 + (x - y) * (x - y))
      else wwv_sample_sum off i c (k + 1) (s.1 + x, s.2)

/-- `wwv_sample(up)`: the unit afterwards, the value returned and the offset `offs2` written
to the monitor line (`none` when the function returns before computing it).  `sqrt` is the
library routine. -/
def wwv_sample (sqrt : ℚ → ℚ) (fuel : Nat) (up : wwvfilter) :
    Option (wwvfilter × Nat × Option ℚ) :=
  match wwv_sample_drain fuel up [] with
  | none => none
  | some (up, off) =>
    let n := off.length
    if n = 0 then some (up, 0, none)
    else
      match Shellsort_dbl fuel off n with
      | none => none
      | some off =>
        let m := n - (n * 2) / 5
        match wwv_sample_trim off m fuel 0 n with
        | none => none
        | some (i, j) =>
          match wwv_sample_sum off i (j - i) i (0, 0) with
          | none => none
          | some (offs2, jitter) =>
            let offs2 := offs2 / (m : ℚ)
            let up := { up with jitter := jitter }
            let up := { up with jitter := up.jitter * (m : ℚ) }
            let up := { up with jitter := (m : ℚ) * sqrt (1 / up.jitter) }
            some (up, n, some offs2)

/-- The sample a push stores: the offset of `lasttim` from the timestamp, plus the delays. -/
def sampleOf (pdelay : ℚ) (p : l_fp × Nat) : ℚ :=
  LFPTOD (L_SUB ⟨p.2 % 2 ^ 32, 0⟩ p.1) + PDELAY + pdelay

/-- A sequence of pushes, each at its own audio timestamp. -/
def push_all (up : wwvfilter) (ps : List (l_fp × Nat)) : wwvfilter :=
  ps.foldl (fun u p => wwv_process_offset { u with timestamp := p.1 } p.2) up

/-- The filter with the eight samples of the example waiting in cells 1 to 8. -/
def filter8 : wwvfilter :=
  { timestamp := ⟨0, 0⟩, pdelay := 0
    filter := [0, 1, 11 / 10, 12 / 10, 13 / 10, 100, -100, 15 / 10, 16 / 10] ++
      List.replicate 55 0
    coderecv := 8, codeproc := 0, jitter := 0, disp := 0 }

/-- An empty filter: both pointers at cell 0. -/
def filter0 : wwvfilter :=
  { timestamp := ⟨0, 0⟩, pdelay := 0, filter := List.replicate 64 0
    coderecv := 0, codeproc := 0, jitter := 0, disp := 0 }

/-- The eight samples of the example in ascending order. -/
def sorted8 : List ℚ := [-100, 1, 11 / 10, 12 / 10, 13 / 10, 15 / 10, 16 / 10, 100]

def CMPERR : Nat := 0x1

def NINERR : Nat := 0x4

def SYNERR : Nat := 0x8

def BTHR : ℚ := 1000

def BSNR : ℚ := 3 / 2

def BCMP : Int := 3

def TCONST : ℚ := 16

def MAXAMP : ℚ := 6000

def MAXSNR : ℚ := 20

def MN : Nat := 0

def HR : Nat := 2

def DA : Nat := 4

def YR : Nat := 7

def IDLE : Nat := 0

def COEF : Nat := 1

def COEF1 : Nat := 2

def COEF2 : Nat := 3

def DECIM9 : Nat := 4

def DECIM6 : Nat := 5

def DECIM3 : Nat := 6

def DECIM2 : Nat := 7

def MSCBIT : Nat := 8

def MSC20 : Nat := 9

def MSC21 : Nat := 10

def MIN1 : Nat := 11

def MIN2 : Nat := 12

def SYNC2 : Nat := 13

def SYNC3 : Nat := 14

def DUT1 : Nat := 0x01

def DUT2 : Nat := 0x02

def DUT4 : Nat := 0x04

def DUTS : Nat := 0x08

def DST1 : Nat := 0x10

def DST2 : Nat := 0x20

def SECWAR : Nat := 0x40

/-- The table `progx[]`: case switch number and argument for each second 0 to 60. -/
def progx : List (Nat × Nat) :=
  [(SYNC2, 0), (SYNC3, 0), (MSCBIT, DST2), (MSCBIT, SECWAR), (COEF, 0), (COEF, 1), (COEF, 2),
   (COEF, 3), (DECIM9, YR), (IDLE, 0),
   (COEF1, 0), (COEF1, 1), (COEF1, 2), (COEF1, 3), (DECIM9, MN), (COEF, 0), (COEF, 1),
   (COEF, 2), (COEF2, 3), (DECIM6, MN + 1),
   (COEF, 0), (COEF, 1), (COEF, 2), (COEF, 3), (DECIM9, HR), (COEF, 0), (COEF, 1),
   (COEF2, 2), (COEF2, 3), (DECIM2, HR + 1),
   (COEF, 0), (COEF, 1), (COEF, 2), (COEF, 3), (DECIM9, DA), (COEF, 0), (COEF, 1),
   (COEF, 2), (COEF, 3), (DECIM9, DA + 1),
   (COEF, 0), (COEF, 1), (COEF2, 2), (COEF2, 3), (DECIM3, DA + 2), (IDLE, 0), (IDLE, 0),
   (IDLE, 0), (IDLE, 0), (IDLE, 0),
   (MSCBIT, DUTS), (COEF, 0), (COEF, 1), (COEF, 2), (COEF, 3), (MSC20, DST1), (MSCBIT, DUT1),
   (MSCBIT, DUT2), (MSC21, DUT4), (MIN1, 0),
   (MIN2, 0)]

/-- The table `bcd9[][4]`, with its backstop row. -/
def bcd9 : List (List ℚ) :=
  [[-1/4, -1/4, -1/4, -1/4], [1/4, -1/4, -1/4, -1/4], [-1/4, 1/4, -1/4, -1/4],
   [1/4, 1/4, -1/4, -1/4], [-1/4, -1/4, 1/4, -1/4], [1/4, -1/4, 1/4, -1/4],
   [-1/4, 1/4, 1/4, -1/4], [1/4, 1/4, 1/4, -1/4], [-1/4, -1/4, -1/4, 1/4],
   [1/4, -1/4, -1/4, 1/4], [0, 0, 0, 0]]

/-- The table `bcd6[][4]`, with its backstop row. -/
def bcd6 : List (List ℚ) :=
  [[-1/3, -1/3, -1/3, 0], [1/3, -1/3, -1/3, 0], [-1/3, 1/3, -1/3, 0], [1/3, 1/3, -1/3, 0],
   [-1/3, -1/3, 1/3, 0], [1/3, -1/3, 1/3, 0], [-1/3, 1/3, 1/3, 0], [0, 0, 0, 0]]

/-- The table `bcd3[][4]`, with its backstop row. -/
def bcd3 : List (List ℚ) :=
  [[-1/2, -1/2, 0, 0], [1/2, -1/2, 0, 0], [-1/2, 1/2, 0, 0], [1/2, 1/2, 0, 0], [0, 0, 0, 0]]

/-- The table `bcd2[][4]`, with its backstop row. -/
def bcd2 : List (List ℚ) :=
  [[-1/2, -1/2, 0, 0], [1/2, -1/2, 0, 0], [-1/2, 1/2, 0, 0], [0, 0, 0, 0]]

/-- `struct decvec`; the floats are kept as rationals. -/
structure decvec where
  radix : Int
  digit : Int
  count : Int
  digprb : ℚ
  digsnr : ℚ
  like : List ℚ
deriving DecidableEq

instance : Inhabited decvec := ⟨⟨0, 0, 0, 0, 0, []⟩⟩

/-- The fields of `struct wwvunit`, and the statics `bcddld` and `bitvec` of `wwv_rsec`,
that the clock state machine reads or writes in seconds 2 to 60. -/
structure wwvclock where
  decvec : List decvec
  rsec : Nat
  digcnt : Int
  status : Nat
  alarm : Nat
  misc : Nat
  bcddld : List ℚ
  bitvec : List ℚ
deriving DecidableEq

/-- `wwv_snr(signal, noise)`; `to_dB` is the float routine of that name. -/
def wwv_snr (to_dB : ℚ → ℚ) (signal noise : ℚ) : ℚ :=
  if signal ≤ 0 then 0
  else if noise ≤ 0 then MAXSNR
  else if to_dB (signal / noise) > MAXSNR then MAXSNR else to_dB (signal / noise)

/-- The correlation loop `for (i = 0; tab[i][0] != 0; i++)` of `wwv_corr4` from row `i` on:
likelihood vector, `topmax`, `nxtmax` and `mldigit`. -/
def wwv_corr4_loop (data : List ℚ) :
    List (List ℚ) → Nat → List ℚ × ℚ × ℚ × Int → Option (List ℚ × ℚ × ℚ × Int)
  | [], _, _ => none
  | row :: tab, i, (like, topmax, nxtmax, mldigit) =>
    if row.getD 0 0 ≠ 0 then
      let acc := (List.range 4).foldl (fun a j => a + data.getD j 0 * row.getD j 0) 0
      match like[i]? with
      | none => none
      | some l =>
        let acc := l + (acc - l) / TCONST
        let like := like.set i acc
        if acc > topmax then wwv_corr4_loop data tab (i + 1) (like, acc, topmax, (i : Int))
        else if acc > nxtmax then wwv_corr4_loop data tab (i + 1) (like, topmax, acc, mldigit)
        else wwv_corr4_loop data tab (i + 1) (like, topmax, nxtmax, mldigit)
    else some (like, topmax, nxtmax, mldigit)

/-- The second half of `wwv_corr4`: the maximum-likelihood digit against the clock digit. -/
def wwv_corr4_compare (up : wwvclock) (vp : decvec) (mldigit : Int) : wwvclock × decvec :=
  if vp.digprb < BTHR ∨ vp.digsnr < BSNR then
    ({ up with status := up.status ||| BGATE }, vp)
  else if vp.digit ≠ mldigit then
    let up := { up with alarm := up.alarm ||| CMPERR }
    let vp := if vp.count > 0 then { vp with count := vp.count - 1 } else vp
    let vp := if vp.count = 0 then { vp with digit := mldigit } else vp
    (up, vp)
  else
    let vp := if vp.count < BCMP then { vp with count := vp.count + 1 } else vp
    if vp.count = BCMP then
      let up := { up with status := up.status ||| DSYNC }
      ({ up with digcnt := up.digcnt + 1 }, vp)
    else (up, vp)

/-- `wwv_corr4(up, &up->decvec[arg], data, tab)`; `snr` is `wwv_snr`. -/
def wwv_corr4 (snr : ℚ → ℚ → ℚ) (up : wwvclock) (arg : Nat) (data : List ℚ)
    (tab : List (List ℚ)) : Option wwvclock :=
  match up.decvec[arg]? with
  | none => none
  | some vp =>
    match wwv_corr4_loop data tab 0 (vp.like, -MAXAMP, -MAXAMP, 0) with
    | none => none
    | some (like, topmax, nxtmax, mldigit) =>
      let vp := { vp with like := like }
      let vp := { vp with digprb := topmax }
      let vp := { vp with digsnr := snr topmax nxtmax }
      let r := wwv_corr4_compare up vp mldigit
      some { r.1 with decvec := r.1.decvec.set arg r.2 }

/-- A float stored into an `int`: the fraction is dropped. -/
def truncInt (x : ℚ) : Int := x.num.tdiv x.den

/-- `carry(dp)`: the digit vector afterwards and the value returned.  `radix` is one of 3, 4,
6 and 10 (`wwv_start`), so the rotation stays inside `like[10]`. -/
def carry (dp : decvec) : decvec × Int :=
  let dp := { dp with digit := dp.digit + 1 }
  let dp := if dp.digit = dp.radix then { dp with digit := 0 } else dp
  let r := dp.radix.toNat
  let temp := truncInt (dp.like.getD (r - 1) 0)
  let dp := { dp with like := ((temp : ℚ) :: dp.like.take (r - 1)) ++ dp.like.drop r }
  (dp, dp.digit)

/-- `carry(&up->decvec[k])`. -/
def carryAt (up : wwvclock) (k : Nat) : wwvclock × Int :=
  let r := carry (up.decvec.getD k default)
  ({ up with decvec := up.decvec.set k r.1 }, r.2)

/-- `while (carry(&up->decvec[k]) != target);`. -/
def carry_until (target : Int) (k : Nat) : Nat → wwvclock → Option wwvclock
  | 0, _ => none
  | fuel + 1, up =>
    let r := carryAt up k
    if r.2 ≠ target then carry_until target k fuel r.1 else some r.1

/-- The digit of position `k` of the decoding matrix. -/
def digitAt (up : wwvclock) (k : Nat) : Int := (up.decvec.getD k default).digit

/-- The statement `if (temp == 0) temp = carry(&up->decvec[k]);`, with `r` the clock and
`temp`. -/
def carry_if (r : wwvclock × Int) (k : Nat) : wwvclock × Int :=
  if r.2 = 0 then carryAt r.1 k else r

/-- The year rollover at the end of `wwv_tsec`. -/
def wwv_tsec_year (fuel : Nat) (up : wwvclock) : Option wwvclock :=
  (carry_until 1 DA fuel up).bind fun up =>
  (carry_until 0 (DA + 1) fuel up).bind fun up =>
  (carry_until 0 (DA + 2) fuel up).bind fun up =>
  some (carry_if (carryAt up YR) (YR + 1)).1

/-- The day rollover of `wwv_tsec`; `day` is the local variable before `day++`. -/
def wwv_tsec_day (isleap : Int) (fuel : Nat) (up : wwvclock) (day : Int) : Option wwvclock :=
  (carry_until 0 HR fuel up).bind fun up =>
  (carry_until 0 (HR + 1) fuel up).bind fun up =>
  let day := day + 1
  let r := carry_if (carry_if (carryAt up DA) (DA + 1)) (DA + 2)
  if day ≠ (if isleap ≠ 0 then 365 else 366) then some r.1
  else wwv_tsec_year fuel r.1

/-- `wwv_tsec(up)`.  The local `isleap` is read without ever being assigned, so its value is
a parameter; `fuel` bounds the `while (carry(..) != ..);` loops. -/
def wwv_tsec (isleap : Int) (fuel : Nat) (up : wwvclock) : Option wwvclock :=
  let r := carryAt up MN
  if r.1.status &&& DSYNC = 0 then some r.1
  else
    let up := (carry_if (carry_if (carry_if r (MN + 1)) HR) (HR + 1)).1
    let minute := digitAt up MN + digitAt up (MN + 1) * 10 + digitAt up HR * 60 +
      digitAt up (HR + 1) * 600
    let day := digitAt up DA + digitAt up (DA + 1) * 10 + digitAt up (DA + 2) * 100
    if minute ≠ 1440 then some up
    else wwv_tsec_day isleap fuel up day

/-- The alarm and status part of `wwv_clock(up)` (the time latch and the offset filter that
follow write neither the status nor the alarm nor the decoding matrix). -/
def wwv_clock (up : wwvclock) : wwvclock :=
  let up := if up.status &&& SSYNC = 0 then { up with alarm := up.alarm ||| SYNERR } else up
  let up := if up.digcnt < 9 then { up with alarm := up.alarm ||| NINERR } else up
  if up.alarm = 0 then { up with status := up.status ||| INSYNC } else up

/-- The miscellaneous-bit test of cases `MSCBIT`, `MSC20` and `MSC21` of `wwv_rsec`. -/
def wwv_rsec_misc (up : wwvclock) (nsec arg : Nat) : wwvclock :=
  if up.bitvec.getD nsec 0 > BTHR then
    let up := if up.misc &&& arg = 0 then { up with alarm := up.alarm ||| CMPERR } else up
    { up with misc := up.misc ||| arg }
  else if up.bitvec.getD nsec 0 < -BTHR then
    let up := if up.misc &&& arg ≠ 0 then { up with alarm := up.alarm ||| CMPERR } else up
    { up with misc := up.misc &&& compl arg }
  else { up with status := up.status ||| BGATE }

/-- The head of `wwv_rsec`: the second counter and the bit likelihood vector. -/
def wwv_rsec_tick (up : wwvclock) (bit : ℚ) : wwvclock :=
  let nsec := up.rsec
  let up := { up with rsec := up.rsec + 1 }
  { up with
    bitvec := up.bitvec.set nsec (up.bitvec.getD nsec 0 + (bit - up.bitvec.getD nsec 0) / TCONST) }

/-- The `switch (sw)` of `wwv_rsec` for the seconds 2 to 60 (cases `SYNC2` and `SYNC3` of
seconds 0 and 1 work on the channel data and are not part of this view: `none`). -/
def wwv_rsec_switch (snr : ℚ → ℚ → ℚ) (isleap : Int) (fuel : Nat) (up : wwvclock)
    (nsec : Nat) (bit : ℚ) : Option wwvclock :=
  match progx[nsec]? with
  | none => none
  | some (sw, arg) =>
    if sw = IDLE then some up
    else if sw = COEF1 then some { up with bcddld := up.bcddld.set arg bit }
    else if sw = COEF then
      if up.status &&& DSYNC ≠ 0 then some { up with bcddld := up.bcddld.set arg bit }
      else some { up with bcddld := up.bcddld.set arg 0 }
    else if sw = COEF2 then some { up with bcddld := up.bcddld.set arg 0 }
    else if sw = DECIM2 then wwv_corr4 snr up arg up.bcddld bcd2
    else if sw = DECIM3 then wwv_corr4 snr up arg up.bcddld bcd3
    else if sw = DECIM6 then wwv_corr4 snr up arg up.bcddld bcd6
    else if sw = DECIM9 then wwv_corr4 snr up arg up.bcddld bcd9
    else if sw = MSC20 then
      (wwv_corr4 snr up (YR + 1) up.bcddld bcd9).map fun up => wwv_rsec_misc up nsec arg
    else if sw = MSCBIT then some (wwv_rsec_misc up nsec arg)
    else if sw = MSC21 then
      let up := wwv_rsec_misc up nsec arg
      some { up with status := up.status &&& compl (SELV ||| SELH) }
    else if sw = MIN1 ∧ up.status &&& LEPSEC ≠ 0 then some up
    else if sw = MIN1 ∨ sw = MIN2 then
      let up := { up with status := up.status &&& compl LEPSEC }
      (wwv_tsec isleap fuel up).map fun up => wwv_clock { up with rsec := 0 }
    else none

/-- `wwv_rsec(up, bit)` in the seconds 2 to 60. -/
def wwv_rsec (snr : ℚ → ℚ → ℚ) (isleap : Int) (fuel : Nat) (up : wwvclock) (bit : ℚ) :
    Option wwvclock :=
  wwv_rsec_switch snr isleap fuel (wwv_rsec_tick up bit) up.rsec bit

/-- Seconds in a row: one bit per second. -/
def wwv_rsec_run (snr : ℚ → ℚ → ℚ) (isleap : Int) (fuel : Nat) :
    wwvclock → List ℚ → Option wwvclock
  | up, [] => some up
  | up, bit :: bits =>
    (wwv_rsec snr isleap fuel up bit).bind fun up => wwv_rsec_run snr isleap fuel up bits

/-- The decoding matrix as `wwv_start` leaves it: zero but for the radix of each digit. -/
def decvec_start : List decvec :=
  [⟨10, 0, 0, 0, 0, List.replicate 10 0⟩, ⟨6, 0, 0, 0, 0, List.replicate 10 0⟩,
   ⟨10, 0, 0, 0, 0, List.replicate 10 0⟩, ⟨3, 0, 0, 0, 0, List.replicate 10 0⟩,
   ⟨10, 0, 0, 0, 0, List.replicate 10 0⟩, ⟨10, 0, 0, 0, 0, List.replicate 10 0⟩,
   ⟨4, 0, 0, 0, 0, List.replicate 10 0⟩, ⟨10, 0, 0, 0, 0, List.replicate 10 0⟩,
   ⟨10, 0, 0, 0, 0, List.replicate 10 0⟩]

/-- The clock state machine after `wwv_start`. -/
def clock_start : wwvclock :=
  { decvec := decvec_start, rsec := 0, digcnt := 0, status := 0, alarm := 0, misc := 0
    bcddld := List.replicate 4 0, bitvec := List.replicate 61 0 }

/-- The decoding matrix with the given digits yy ddd hh:mm, least significant first. -/
def clock_at (status : Nat) (mn0 mn1 hr0 hr1 da0 da1 da2 yr0 yr1 : Int) : wwvclock :=
  { clock_start with
    status := status
    decvec :=
      [⟨10, mn0, 0, 0, 0, List.replicate 10 0⟩, ⟨6, mn1, 0, 0, 0, List.replicate 10 0⟩,
       ⟨10, hr0, 0, 0, 0, List.replicate 10 0⟩, ⟨3, hr1, 0, 0, 0, List.replicate 10 0⟩,
       ⟨10, da0, 0, 0, 0, List.replicate 10 0⟩, ⟨10, da1, 0, 0, 0, List.replicate 10 0⟩,
       ⟨4, da2, 0, 0, 0, List.replicate 10 0⟩, ⟨10, yr0, 0, 0, 0, List.replicate 10 0⟩,
       ⟨10, yr1, 0, 0, 0, List.replicate 10 0⟩] }

/-- The digits of the matrix, least significant first. -/
def digits (up : wwvclock) : List Int := up.decvec.map fun v => v.digit

/-- The `count` of each digit position. -/
def counts (up : wwvclock) : List Int := up.decvec.map fun v => v.count

/-- The second in which each digit position is correlated (`progx`): position `k` of the
decoding matrix is the argument of the `DECIM` case of second `digsec[k]`, and the year tens
are correlated by `MSC20` in second 55. -/
def digsec : List Nat := [14, 19, 24, 29, 34, 39, 44, 8, 55]

/-- Position `k` has been correlated before second `n` of this minute and stands at `BCMP`. -/
def hit (up : wwvclock) (n k : Nat) : Nat :=
  if digsec.getD k 0 < n ∧ (counts up).getD k 0 = BCMP then 1 else 0

/-- The number of positions correlated before second `n` that stand at `BCMP`. -/
def counted (up : wwvclock) (n : Nat) : Nat := ∑ k in Finset.range 9, hit up n k

/-- `n` calls of `wwv_corr4` in a row on position `arg`, with the same data. -/
def wwv_corr4_run (snr : ℚ → ℚ → ℚ) (arg : Nat) (data : List ℚ) (tab : List (List ℚ))
    (up : wwvclock) : Nat → Option wwvclock
  | 0 => some up
  | n + 1 => (wwv_corr4_run snr arg data tab up n).bind fun u => wwv_corr4 snr u arg data tab

/-- The correlation of position `arg` finds no positive runner-up: `nxtmax <= 0`, so that
`wwv_snr` answers without calling `to_dB`. -/
def quiet (arg : Nat) (data : List ℚ) (tab : List (List ℚ)) (up : wwvclock) : Bool :=
  match up.decvec[arg]? with
  | none => true
  | some vp =>
    match wwv_corr4_loop data tab 0 (vp.like, -MAXAMP, -MAXAMP, 0) with
    | none => true
    | some r => decide (r.2.2.1 ≤ 0)

/-- The first `n` calls of `wwv_corr4_run`, with `to_dB` never called, are all quiet. -/
def quietRun (arg : Nat) (data : List ℚ) (tab : List (List ℚ)) (up : wwvclock) (n : Nat) :
    Bool :=
  match wwv_corr4_run (wwv_snr fun _ => 0) arg data tab up n with
  | none => true
  | some u => quiet arg data tab u

/-- A clock in step with the signal: every likelihood vector points at digit 0 with full
amplitude, every digit is compared, the bit vector holds zeros at full amplitude. -/
def clock_locked : wwvclock :=
  { decvec := decvec_start.map fun v =>
      { v with count := 3, like := 6000 :: List.replicate 9 0 }
    rsec := 2, digcnt := 0, status := MSYNC ||| SSYNC ||| DSYNC, alarm := 0, misc := 0
    bcddld := List.replicate 4 0, bitvec := List.replicate 61 (-6000) }

/-- The clock `clock_locked` one minute of zero bits at full amplitude later. -/
def clock_locked_next : wwvclock :=
  (wwv_rsec_run (wwv_snr fun x => x) 0 0 clock_locked (List.replicate 58 (-6000))).getD
    clock_locked

/-- What `carry` and `wwv_tsec` leave alone. -/
def frame (up : wwvclock) : List Int × Int × Nat × Nat :=
  (counts up, up.digcnt, up.alarm, up.status)

/-- A second that leaves the counts and the digit counter alone. -/
def Keep (up up1 : wwvclock) : Prop :=
  counts up1 = counts up ∧ up1.digcnt = up.digcnt ∧
    up1.status &&& INSYNC = up.status &&& INSYNC ∧ up1.rsec = up.rsec + 1

/-- A second that correlates position `k`. -/
def Corr (up up1 : wwvclock) (k : Nat) : Prop :=
  ∃ c : Int, k < (counts up).length ∧ counts up1 = (counts up).set k c ∧
    ((0 ≤ (counts up).getD k 0 ∧ (counts up).getD k 0 ≤ BCMP) → 0 ≤ c ∧ c ≤ BCMP) ∧
    (up1.digcnt = up.digcnt ∨ (up1.digcnt = up.digcnt + 1 ∧ c = BCMP)) ∧
    up1.status &&& INSYNC = up.status &&& INSYNC ∧ up1.rsec = up.rsec + 1

/-- Every count is between 0 and `BCMP`. -/
def Bounded (up : wwvclock) : Prop := ∀ c ∈ counts up, 0 ≤ c ∧ c ≤ BCMP

instance (up : wwvclock) : Decidable (Bounded up) := by
  unfold Bounded; infer_instance

end Wwv

/-! ## Theorems -/

/-! ### Word-level facts -/

theorem and_ffff (x : Nat) : x &&& 0xffff = x % 65536 :=
  Nat.and_pow_two_sub_one_eq_mod x 16

theorem shr16 (x : Nat) : x >>> 16 = x / 65536 :=
  Nat.shiftRight_eq_div_pow x 16

theorem shl16_or (h l : Nat) (hl : l < 65536) : (h <<< 16) ||| l = h * 65536 + l := by
  rw [Nat.shiftLeft_eq, Nat.mul_comm]
  exact (@Nat.mul_add_lt_is_or 16 l hl h).symm

theorem and_bit_ne_zero (x i : Nat) : x &&& 2 ^ i ≠ 0 ↔ x / 2 ^ i % 2 = 1 := by
  rw [Nat.and_two_pow, Nat.testBit_to_div_mod]
  have hp : 0 < 2 ^ i := Nat.two_pow_pos i
  by_cases h : x / 2 ^ i % 2 = 1
  · simp [h]
  · simp [h]

theorem and_10000_ne_zero (x : Nat) : x &&& 0x10000 ≠ 0 ↔ x / 65536 % 2 = 1 :=
  and_bit_ne_zero x 16

theorem and_80000000_ne_zero (x : Nat) : x &&& 0x80000000 ≠ 0 ↔ x / 2147483648 % 2 = 1 :=
  and_bit_ne_zero x 31

/-- `M_ADD` is addition of the 64-bit pairs modulo `2 ^ 64`. -/
theorem M_ADD_spec (r_i r_f a_i a_f : Nat) (hrf : r_f < 2 ^ 32) (haf : a_f < 2 ^ 32) :
    (M_ADD r_i r_f a_i a_f).2 = (r_f + a_f) % 2 ^ 32 ∧
    (M_ADD r_i r_f a_i a_f).1 = (r_i + a_i + (r_f + a_f) / 2 ^ 32) % 2 ^ 32 := by
  simp only [M_ADD, and_ffff, shr16, and_10000_ne_zero]
  have h1 : (r_f % 65536 + a_f % 65536) % 65536 < 65536 := Nat.mod_lt _ (by norm_num)
  split_ifs with c1 c2 c2
  all_goals rw [shl16_or _ _ h1]
  all_goals norm_num at *
  all_goals omega

/-- `M_SUB` is subtraction of the 64-bit pairs modulo `2 ^ 64`. -/
theorem M_SUB_spec (r_i r_f a_i a_f : Nat) (hrf : r_f < 2 ^ 32)
    (hai : a_i < 2 ^ 32) (haf : a_f < 2 ^ 32) :
    (M_SUB r_i r_f a_i a_f).1 * 2 ^ 32 + (M_SUB r_i r_f a_i a_f).2 =
      (r_i * 2 ^ 32 + r_f + (2 ^ 64 - (a_i * 2 ^ 32 + a_f))) % 2 ^ 64 ∧
    (M_SUB r_i r_f a_i a_f).1 < 2 ^ 32 ∧ (M_SUB r_i r_f a_i a_f).2 < 2 ^ 32 := by
  unfold M_SUB
  by_cases hz : a_f = 0
  · simp only [hz, if_true, neg32]
    norm_num at *
    omega
  · simp only [hz, if_false, and_ffff, shr16, and_10000_ne_zero, neg32, not32]
    have h1 : (r_f % 65536 + (2 ^ 32 - a_f % 2 ^ 32) % 2 ^ 32 % 65536) % 65536 < 65536 :=
      Nat.mod_lt _ (by norm_num)
    split_ifs with c1 c2 c2
    all_goals rw [shl16_or _ _ h1]
    all_goals norm_num at *
    all_goals omega

/-- `M_NEG` is negation of the 64-bit pair modulo `2 ^ 64`. -/
theorem M_NEG_spec (v_i v_f : Nat) (hi : v_i < 2 ^ 32) (hf : v_f < 2 ^ 32) :
    (M_NEG v_i v_f).1 * 2 ^ 32 + (M_NEG v_i v_f).2 = (2 ^ 64 - (v_i * 2 ^ 32 + v_f)) % 2 ^ 64 ∧
    (M_NEG v_i v_f).1 < 2 ^ 32 ∧ (M_NEG v_i v_f).2 < 2 ^ 32 := by
  unfold M_NEG
  by_cases hz : v_f = 0
  · simp only [hz, if_true, neg32]
    norm_num at *
    omega
  · simp only [hz, if_false, neg32, not32]
    norm_num at *
    omega

theorem l_fp_ext_of_toNat (a b : l_fp) (ha : a.wf) (hb : b.wf) (h : a.toNat = b.toNat) :
    a = b := by
  obtain ⟨ai, af⟩ := a
  obtain ⟨bi, bf⟩ := b
  simp only [l_fp.wf, l_fp.toNat] at ha hb h
  norm_num at ha hb h
  have h1 : ai = bi := by omega
  have h2 : af = bf := by omega
  rw [h1, h2]

theorem L_NEG_wf (v : l_fp) (hv : v.wf) : (L_NEG v).wf :=
  (M_NEG_spec v.l_ui v.l_uf hv.1 hv.2).2

theorem L_NEG_toNat (v : l_fp) (hv : v.wf) :
    (L_NEG v).toNat = (2 ^ 64 - v.toNat) % 2 ^ 64 :=
  (M_NEG_spec v.l_ui v.l_uf hv.1 hv.2).1

theorem L_NEG_involutive (v : l_fp) (hv : v.wf) : L_NEG (L_NEG v) = v := by
  apply l_fp_ext_of_toNat _ _ (L_NEG_wf _ (L_NEG_wf v hv)) hv
  rw [L_NEG_toNat _ (L_NEG_wf v hv), L_NEG_toNat v hv]
  have hlt : v.toNat < 2 ^ 64 := by
    have h1 := hv.1
    have h2 := hv.2
    simp only [l_fp.toNat]
    norm_num at *
    omega
  norm_num at *
  omega

/-! ### The schoolbook multiplication -/

theorem and_and_bit_ne_zero (x y i : Nat) :
    x &&& y &&& 2 ^ i ≠ 0 ↔ (x / 2 ^ i % 2 = 1 ∧ y / 2 ^ i % 2 = 1) := by
  rw [Nat.and_two_pow]
  have hp : 0 < 2 ^ i := Nat.two_pow_pos i
  rw [Nat.testBit_and, Nat.testBit_to_div_mod, Nat.testBit_to_div_mod]
  by_cases h : x / 2 ^ i % 2 = 1 <;> by_cases h2 : y / 2 ^ i % 2 = 1 <;> simp [h, h2]

theorem carryOut_even (x y : Nat) (hx : x < 4294967296) (hy : y < 4294967296) :
    (carryOut x y 1 = true) = (4294967296 ≤ x + y) := by
  have e2 := and_and_bit_ne_zero x y 0
  simp only [pow_zero, Nat.div_one] at e2
  have e1 : (1 <<< (FRACTION_PREC - 1)) = 2 ^ 31 := by decide
  simp only [carryOut, decide_eq_true_eq, eq_iff_iff]
  rw [e1, and_bit_ne_zero, Nat.shiftRight_eq_div_pow, Nat.shiftRight_eq_div_pow]
  by_cases h : x &&& y &&& 1 ≠ 0
  · have h3 := e2.mp h
    rw [if_pos h]
    norm_num at *
    omega
  · have h3 := fun hh => h (e2.mpr hh)
    rw [if_neg h]
    norm_num at *
    omega

theorem carryOut_odd (x y : Nat) (hx : x < 4294967296) (hy : y < 4294967296)
    (hy0 : y % 65536 = 0) :
    (carryOut x y 65536 = true) = (4294967296 ≤ x + y) := by
  have e2 := and_and_bit_ne_zero x y 16
  have e1 : (1 <<< (FRACTION_PREC - 1)) = 2 ^ 31 := by decide
  have e3 : (65536 : Nat) = 2 ^ 16 := by norm_num
  simp only [carryOut, decide_eq_true_eq, eq_iff_iff]
  rw [e1, e3, and_bit_ne_zero, Nat.shiftRight_eq_div_pow, Nat.shiftRight_eq_div_pow]
  by_cases h : x &&& y &&& 2 ^ 16 ≠ 0
  · have h3 := e2.mp h
    rw [if_pos h]
    norm_num at *
    omega
  · have h3 := fun hh => h (e2.mpr hh)
    rw [if_neg h]
    norm_num at *
    omega

theorem carryOut_even_false (x y : Nat) (hx : x < 4294967296) (hy : y < 4294967296) :
    (carryOut x y 1 = false) = (x + y < 4294967296) := by
  have h := carryOut_even x y hx hy
  cases hc : carryOut x y 1
  · rw [hc] at h
    simp only [eq_iff_iff, true_iff]
    simp only [eq_iff_iff, Bool.false_eq_true, false_iff] at h
    omega
  · rw [hc] at h
    simp only [eq_iff_iff, Bool.true_eq_false, false_iff]
    simp only [eq_iff_iff, true_iff] at h
    omega

set_option maxHeartbeats 1000000 in
theorem mfp_mul_step_spec (a b : List Nat) (i j x y c0 c1 c2 c3 c4 : Nat)
    (ha : a.get? i = some x) (hb : b.get? j = some y) (hij : i + j ≤ 6)
    (hx : x < 2 ^ 16) (hy : y < 2 ^ 16)
    (hc0 : c0 < 2 ^ 32) (hc1 : c1 < 2 ^ 32) (hc2 : c2 < 2 ^ 32) (hc3 : c3 < 2 ^ 32)
    (hc4 : c4 < 2 ^ 32)
    (hroom : limbsVal [c0, c1, c2, c3, c4] + x * y * 2 ^ (16 * (i + j))
      < 2 ^ (if i + j < 2 then 96 else 128)) :
    ∃ d0 d1 d2 d3 d4, mfp_mul_step a b [c0, c1, c2, c3, c4] i j = some [d0, d1, d2, d3, d4] ∧
      d0 < 2 ^ 32 ∧ d1 < 2 ^ 32 ∧ d2 < 2 ^ 32 ∧ d3 < 2 ^ 32 ∧ d4 < 2 ^ 32 ∧
      limbsVal [d0, d1, d2, d3, d4] = limbsVal [c0, c1, c2, c3, c4] +
        x * y * 2 ^ (16 * (i + j)) := by
  have hp := Nat.mul_le_mul (Nat.le_of_lt_succ hx) (Nat.le_of_lt_succ hy)
  unfold mfp_mul_step
  simp only [ha, hb, Option.bind_eq_bind, Option.some_bind]
  generalize i + j = s at *
  clear ha hb
  interval_cases s
  all_goals simp [wr, limbsVal, FRACTION_PREC] at hroom ⊢
  all_goals split_ifs
  all_goals simp (disch := omega) only [carryOut_even, carryOut_odd, carryOut_even_false] at *
  all_goals first
    | (refine ⟨_, _, _, _, _, rfl, ?_, ?_, ?_, ?_, ?_, ?_⟩ <;> omega)
    | (refine ⟨_, _, _, _, _, ⟨?_, rfl, rfl, rfl, rfl, rfl⟩, ?_, ?_, ?_, ?_, ?_, ?_⟩ <;> omega)


set_option maxHeartbeats 4000000 in
theorem mfp_mul_loop_spec (a0 a1 a2 a3 b0 b1 b2 b3 : Nat)
    (ha0 : a0 < 2 ^ 16) (ha1 : a1 < 2 ^ 16) (ha2 : a2 < 2 ^ 16) (ha3 : a3 < 2 ^ 16)
    (hb0 : b0 < 2 ^ 16) (hb1 : b1 < 2 ^ 16) (hb2 : b2 < 2 ^ 16) (hb3 : b3 < 2 ^ 16) :
    ∃ d0 d1 d2 d3, mfp_mul_loop [a0, a1, a2, a3] [b0, b1, b2, b3] [0, 0, 0, 0, 0]
        = some [d0, d1, d2, d3, 0] ∧
      d0 < 2 ^ 32 ∧ d1 < 2 ^ 32 ∧ d2 < 2 ^ 32 ∧ d3 < 2 ^ 32 ∧
      d0 + 2 ^ 32 * d1 + 2 ^ 64 * d2 + 2 ^ 96 * d3 =
        (a0 + 2 ^ 16 * a1 + 2 ^ 32 * a2 + 2 ^ 48 * a3) *
        (b0 + 2 ^ 16 * b1 + 2 ^ 32 * b2 + 2 ^ 48 * b3) := by
  have p00 := Nat.mul_le_mul (Nat.le_of_lt_succ ha0) (Nat.le_of_lt_succ hb0)
  have p01 := Nat.mul_le_mul (Nat.le_of_lt_succ ha0) (Nat.le_of_lt_succ hb1)
  have p02 := Nat.mul_le_mul (Nat.le_of_lt_succ ha0) (Nat.le_of_lt_succ hb2)
  have p03 := Nat.mul_le_mul (Nat.le_of_lt_succ ha0) (Nat.le_of_lt_succ hb3)
  have p10 := Nat.mul_le_mul (Nat.le_of_lt_succ ha1) (Nat.le_of_lt_succ hb0)
  have p11 := Nat.mul_le_mul (Nat.le_of_lt_succ ha1) (Nat.le_of_lt_succ hb1)
  have p12 := Nat.mul_le_mul (Nat.le_of_lt_succ ha1) (Nat.le_of_lt_succ hb2)
  have p13 := Nat.mul_le_mul (Nat.le_of_lt_succ ha1) (Nat.le_of_lt_succ hb3)
  have p20 := Nat.mul_le_mul (Nat.le_of_lt_succ ha2) (Nat.le_of_lt_succ hb0)
  have p21 := Nat.mul_le_mul (Nat.le_of_lt_succ ha2) (Nat.le_of_lt_succ hb1)
  have p22 := Nat.mul_le_mul (Nat.le_of_lt_succ ha2) (Nat.le_of_lt_succ hb2)
  have p23 := Nat.mul_le_mul (Nat.le_of_lt_succ ha2) (Nat.le_of_lt_succ hb3)
  have p30 := Nat.mul_le_mul (Nat.le_of_lt_succ ha3) (Nat.le_of_lt_succ hb0)
  have p31 := Nat.mul_le_mul (Nat.le_of_lt_succ ha3) (Nat.le_of_lt_succ hb1)
  have p32 := Nat.mul_le_mul (Nat.le_of_lt_succ ha3) (Nat.le_of_lt_succ hb2)
  have p33 := Nat.mul_le_mul (Nat.le_of_lt_succ ha3) (Nat.le_of_lt_succ hb3)
  have v0 : limbsVal [0, 0, 0, 0, 0] = 0 := by simp [limbsVal]
  obtain ⟨d0_1, d1_1, d2_1, d3_1, d4_1, e1, hd0_1, hd1_1, hd2_1, hd3_1, hd4_1, v1⟩ :=
    mfp_mul_step_spec [a0, a1, a2, a3] [b0, b1, b2, b3] 0 0 a0 b0 0 0 0 0 0 rfl rfl
      (by norm_num) ha0 hb0 (by norm_num) (by norm_num) (by norm_num) (by norm_num) (by norm_num)
      (by rw [v0]; norm_num; omega)
  rw [v0] at v1
  clear v0 
  obtain ⟨d0_2, d1_2, d2_2, d3_2, d4_2, e2, hd0_2, hd1_2, hd2_2, hd3_2, hd4_2, v2⟩ :=
    mfp_mul_step_spec [a0, a1, a2, a3] [b0, b1, b2, b3] 0 1 a0 b1 d0_1 d1_1 d2_1 d3_1 d4_1 rfl rfl
      (by norm_num) ha0 hb1 hd0_1 hd1_1 hd2_1 hd3_1 hd4_1
      (by rw [v1]; norm_num; omega)
  rw [v1] at v2
  clear v1 hd0_1 hd1_1 hd2_1 hd3_1 hd4_1
  obtain ⟨d0_3, d1_3, d2_3, d3_3, d4_3, e3, hd0_3, hd1_3, hd2_3, hd3_3, hd4_3, v3⟩ :=
    mfp_mul_step_spec [a0, a1, a2, a3] [b0, b1, b2, b3] 0 2 a0 b2 d0_2 d1_2 d2_2 d3_2 d4_2 rfl rfl
      (by norm_num) ha0 hb2 hd0_2 hd1_2 hd2_2 hd3_2 hd4_2
      (by rw [v2]; norm_num; omega)
  rw [v2] at v3
  clear v2 hd0_2 hd1_2 hd2_2 hd3_2 hd4_2
  obtain ⟨d0_4, d1_4, d2_4, d3_4, d4_4, e4, hd0_4, hd1_4, hd2_4, hd3_4, hd4_4, v4⟩ :=
    mfp_mul_step_spec [a0, a1, a2, a3] [b0, b1, b2, b3] 0 3 a0 b3 d0_3 d1_3 d2_3 d3_3 d4_3 rfl rfl
      (by norm_num) ha0 hb3 hd0_3 hd1_3 hd2_3 hd3_3 hd4_3
      (by rw [v3]; norm_num; omega)
  rw [v3] at v4
  clear v3 hd0_3 hd1_3 hd2_3 hd3_3 hd4_3
  obtain ⟨d0_5, d1_5, d2_5, d3_5, d4_5, e5, hd0_5, hd1_5, hd2_5, hd3_5, hd4_5, v5⟩ :=
    mfp_mul_step_spec [a0, a1, a2, a3] [b0, b1, b2, b3] 1 0 a1 b0 d0_4 d1_4 d2_4 d3_4 d4_4 rfl rfl
      (by norm_num) ha1 hb0 hd0_4 hd1_4 hd2_4 hd3_4 hd4_4
      (by rw [v4]; norm_num; omega)
  rw [v4] at v5
  clear v4 hd0_4 hd1_4 hd2_4 hd3_4 hd4_4
  obtain ⟨d0_6, d1_6, d2_6, d3_6, d4_6, e6, hd0_6, hd1_6, hd2_6, hd3_6, hd4_6, v6⟩ :=
    mfp_mul_step_spec [a0, a1, a2, a3] [b0, b1, b2, b3] 1 1 a1 b1 d0_5 d1_5 d2_5 d3_5 d4_5 rfl rfl
      (by norm_num) ha1 hb1 hd0_5 hd1_5 hd2_5 hd3_5 hd4_5
      (by rw [v5]; norm_num; omega)
  rw [v5] at v6
  clear v5 hd0_5 hd1_5 hd2_5 hd3_5 hd4_5
  obtain ⟨d0_7, d1_7, d2_7, d3_7, d4_7, e7, hd0_7, hd1_7, hd2_7, hd3_7, hd4_7, v7⟩ :=
    mfp_mul_step_spec [a0, a1, a2, a3] [b0, b1, b2, b3] 1 2 a1 b2 d0_6 d1_6 d2_6 d3_6 d4_6 rfl rfl
      (by norm_num) ha1 hb2 hd0_6 hd1_6 hd2_6 hd3_6 hd4_6
      (by rw [v6]; norm_num; omega)
  rw [v6] at v7
  clear v6 hd0_6 hd1_6 hd2_6 hd3_6 hd4_6
  obtain ⟨d0_8, d1_8, d2_8, d3_8, d4_8, e8, hd0_8, hd1_8, hd2_8, hd3_8, hd4_8, v8⟩ :=
    mfp_mul_step_spec [a0, a1, a2, a3] [b0, b1, b2, b3] 1 3 a1 b3 d0_7 d1_7 d2_7 d3_7 d4_7 rfl rfl
      (by norm_num) ha1 hb3 hd0_7 hd1_7 hd2_7 hd3_7 hd4_7
      (by rw [v7]; norm_num; omega)
  rw [v7] at v8
  clear v7 hd0_7 hd1_7 hd2_7 hd3_7 hd4_7
  obtain ⟨d0_9, d1_9, d2_9, d3_9, d4_9, e9, hd0_9, hd1_9, hd2_9, hd3_9, hd4_9, v9⟩ :=
    mfp_mul_step_spec [a0, a1, a2, a3] [b0, b1, b2, b3] 2 0 a2 b0 d0_8 d1_8 d2_8 d3_8 d4_8 rfl rfl
      (by norm_num) ha2 hb0 hd0_8 hd1_8 hd2_8 hd3_8 hd4_8
      (by rw [v8]; norm_num; omega)
  rw [v8] at v9
  clear v8 hd0_8 hd1_8 hd2_8 hd3_8 hd4_8
  obtain ⟨d0_10, d1_10, d2_10, d3_10, d4_10, e10, hd0_10, hd1_10, hd2_10, hd3_10, hd4_10, v10⟩ :=
    mfp_mul_step_spec [a0, a1, a2, a3] [b0, b1, b2, b3] 2 1 a2 b1 d0_9 d1_9 d2_9 d3_9 d4_9 rfl rfl
      (by norm_num) ha2 hb1 hd0_9 hd1_9 hd2_9 hd3_9 hd4_9
      (by rw [v9]; norm_num; omega)
  rw [v9] at v10
  clear v9 hd0_9 hd1_9 hd2_9 hd3_9 hd4_9
  obtain ⟨d0_11, d1_11, d2_11, d3_11, d4_11, e11, hd0_11, hd1_11, hd2_11, hd3_11, hd4_11, v11⟩ :=
    mfp_mul_step_spec [a0, a1, a2, a3] [b0, b1, b2, b3] 2 2 a2 b2 d0_10 d1_10 d2_10 d3_10 d4_10 rfl rfl
      (by norm_num) ha2 hb2 hd0_10 hd1_10 hd2_10 hd3_10 hd4_10
      (by rw [v10]; norm_num; omega)
  rw [v10] at v11
  clear v10 hd0_10 hd1_10 hd2_10 hd3_10 hd4_10
  obtain ⟨d0_12, d1_12, d2_12, d3_12, d4_12, e12, hd0_12, hd1_12, hd2_12, hd3_12, hd4_12, v12⟩ :=
    mfp_mul_step_spec [a0, a1, a2, a3] [b0, b1, b2, b3] 2 3 a2 b3 d0_11 d1_11 d2_11 d3_11 d4_11 rfl rfl
      (by norm_num) ha2 hb3 hd0_11 hd1_11 hd2_11 hd3_11 hd4_11
      (by rw [v11]; norm_num; omega)
  rw [v11] at v12
  clear v11 hd0_11 hd1_11 hd2_11 hd3_11 hd4_11
  obtain ⟨d0_13, d1_13, d2_13, d3_13, d4_13, e13, hd0_13, hd1_13, hd2_13, hd3_13, hd4_13, v13⟩ :=
    mfp_mul_step_spec [a0, a1, a2, a3] [b0, b1, b2, b3] 3 0 a3 b0 d0_12 d1_12 d2_12 d3_12 d4_12 rfl rfl
      (by norm_num) ha3 hb0 hd0_12 hd1_12 hd2_12 hd3_12 hd4_12
      (by rw [v12]; norm_num; omega)
  rw [v12] at v13
  clear v12 hd0_12 hd1_12 hd2_12 hd3_12 hd4_12
  obtain ⟨d0_14, d1_14, d2_14, d3_14, d4_14, e14, hd0_14, hd1_14, hd2_14, hd3_14, hd4_14, v14⟩ :=
    mfp_mul_step_spec [a0, a1, a2, a3] [b0, b1, b2, b3] 3 1 a3 b1 d0_13 d1_13 d2_13 d3_13 d4_13 rfl rfl
      (by norm_num) ha3 hb1 hd0_13 hd1_13 hd2_13 hd3_13 hd4_13
      (by rw [v13]; norm_num; omega)
  rw [v13] at v14
  clear v13 hd0_13 hd1_13 hd2_13 hd3_13 hd4_13
  obtain ⟨d0_15, d1_15, d2_15, d3_15, d4_15, e15, hd0_15, hd1_15, hd2_15, hd3_15, hd4_15, v15⟩ :=
    mfp_mul_step_spec [a0, a1, a2, a3] [b0, b1, b2, b3] 3 2 a3 b2 d0_14 d1_14 d2_14 d3_14 d4_14 rfl rfl
      (by norm_num) ha3 hb2 hd0_14 hd1_14 hd2_14 hd3_14 hd4_14
      (by rw [v14]; norm_num; omega)
  rw [v14] at v15
  clear v14 hd0_14 hd1_14 hd2_14 hd3_14 hd4_14
  obtain ⟨d0_16, d1_16, d2_16, d3_16, d4_16, e16, hd0_16, hd1_16, hd2_16, hd3_16, hd4_16, v16⟩ :=
    mfp_mul_step_spec [a0, a1, a2, a3] [b0, b1, b2, b3] 3 3 a3 b3 d0_15 d1_15 d2_15 d3_15 d4_15 rfl rfl
      (by norm_num) ha3 hb3 hd0_15 hd1_15 hd2_15 hd3_15 hd4_15
      (by rw [v15]; norm_num; omega)
  rw [v15] at v16
  clear v15 hd0_15 hd1_15 hd2_15 hd3_15 hd4_15
  simp only [limbsVal] at v16
  norm_num at v16
  have hz : d4_16 = 0 := by omega
  subst hz
  refine ⟨d0_16, d1_16, d2_16, d3_16, ?_, hd0_16, hd1_16, hd2_16, hd3_16, ?_⟩
  · have hr : List.range 4 = [0, 1, 2, 3] := rfl
    simp only [mfp_mul_loop, hr, List.foldlM, Option.bind_eq_bind, Option.some_bind,
      Option.pure_def, e1, e2, e3, e4, e5, e6, e7, e8, e9, e10, e11, e12, e13, e14, e15, e16]
  · have hexp : (a0 + 2 ^ 16 * a1 + 2 ^ 32 * a2 + 2 ^ 48 * a3) *
        (b0 + 2 ^ 16 * b1 + 2 ^ 32 * b2 + 2 ^ 48 * b3) =
        a0 * b0 + 2 ^ 16 * (a0 * b1) + 2 ^ 32 * (a0 * b2) + 2 ^ 48 * (a0 * b3) +
        2 ^ 16 * (a1 * b0) + 2 ^ 32 * (a1 * b1) + 2 ^ 48 * (a1 * b2) + 2 ^ 64 * (a1 * b3) +
        2 ^ 32 * (a2 * b0) + 2 ^ 48 * (a2 * b1) + 2 ^ 64 * (a2 * b2) + 2 ^ 80 * (a2 * b3) +
        2 ^ 48 * (a3 * b0) + 2 ^ 64 * (a3 * b1) + 2 ^ 80 * (a3 * b2) + 2 ^ 96 * (a3 * b3) := by
      ring
    rw [hexp]
    norm_num
    omega

theorem and_high_shr16 (x : Nat) : (x &&& 0xffff0000) >>> 16 = x / 65536 % 65536 := by
  have h : ∀ a b : Nat, (a &&& b) >>> 16 = (a >>> 16) &&& (b >>> 16) := by
    intro a b
    apply Nat.eq_of_testBit_eq
    intro i
    simp only [Nat.testBit_shiftRight, Nat.testBit_and]
  rw [h, Nat.shiftRight_eq_div_pow]
  exact Nat.and_pow_two_sub_one_eq_mod (x / 2 ^ 16) 16

/-- The operand preparation of `mfp_mul`: sign test and `M_NEG` leave the magnitude. -/
theorem mfp_mul_operand (v : l_fp) (hv : v.wf) :
    (if ((2 ^ 31 ≤ v.l_ui : Bool) = true) then M_NEG v.l_ui v.l_uf else (v.l_ui, v.l_uf)).1 < 2 ^ 32 ∧
    (if ((2 ^ 31 ≤ v.l_ui : Bool) = true) then M_NEG v.l_ui v.l_uf else (v.l_ui, v.l_uf)).2 < 2 ^ 32 ∧
    (if ((2 ^ 31 ≤ v.l_ui : Bool) = true) then M_NEG v.l_ui v.l_uf else (v.l_ui, v.l_uf)).1 * 2 ^ 32 +
      (if ((2 ^ 31 ≤ v.l_ui : Bool) = true) then M_NEG v.l_ui v.l_uf else (v.l_ui, v.l_uf)).2 = v.mag ∧
    ((2 ^ 31 ≤ v.l_ui) ↔ v.toInt < 0) := by
  obtain ⟨vi, vf⟩ := v
  obtain ⟨hi, hf⟩ := hv
  simp only at hi hf
  have hn := M_NEG_spec vi vf hi hf
  simp only [l_fp.mag, l_fp.toInt, l_fp.toNat, decide_eq_true_eq]
  by_cases h : 2 ^ 31 ≤ vi
  · rw [if_pos h]
    have h2 : ¬ (vi * 2 ^ 32 + vf < 2 ^ 63) := by norm_num at *; omega
    rw [if_neg h2]
    norm_num at *
    omega
  · rw [if_neg h]
    have h2 : (vi * 2 ^ 32 + vf < 2 ^ 63) := by norm_num at *; omega
    rw [if_pos h2]
    norm_num at *
    omega


/-- What `mfp_mul` returns, for all operands: the limbs `c[2]:c[1]` of the exact
product of the magnitudes unless `c[3]` is set, then the sign. -/
theorem mfp_mul_core (a b : l_fp) (ha : a.wf) (hb : b.wf) :
    mfp_mul a.l_ui a.l_uf b.l_ui b.l_uf = some
      (if (a.toInt < 0) ≠ (b.toInt < 0) then
        M_NEG (if a.mag * b.mag / 2 ^ 96 ≠ 0 then ((0x7fffffff : Nat), (0xffffffff : Nat))
          else (a.mag * b.mag / 2 ^ 64 % 2 ^ 32, a.mag * b.mag / 2 ^ 32 % 2 ^ 32)).1
          (if a.mag * b.mag / 2 ^ 96 ≠ 0 then ((0x7fffffff : Nat), (0xffffffff : Nat))
          else (a.mag * b.mag / 2 ^ 64 % 2 ^ 32, a.mag * b.mag / 2 ^ 32 % 2 ^ 32)).2
      else
        (if a.mag * b.mag / 2 ^ 96 ≠ 0 then ((0x7fffffff : Nat), (0xffffffff : Nat))
          else (a.mag * b.mag / 2 ^ 64 % 2 ^ 32, a.mag * b.mag / 2 ^ 32 % 2 ^ 32))) := by
  obtain ⟨ha1, ha2, ha3, ha4⟩ := mfp_mul_operand a ha
  obtain ⟨hb1, hb2, hb3, hb4⟩ := mfp_mul_operand b hb
  unfold mfp_mul
  dsimp only
  generalize (if ((2 ^ 31 ≤ a.l_ui : Bool) = true) then M_NEG a.l_ui a.l_uf else (a.l_ui, a.l_uf)) = av at *
  generalize (if ((2 ^ 31 ≤ b.l_ui : Bool) = true) then M_NEG b.l_ui b.l_uf else (b.l_ui, b.l_uf)) = bv at *
  obtain ⟨avi, avf⟩ := av
  obtain ⟨bvi, bvf⟩ := bv
  simp only at ha1 ha2 ha3 hb1 hb2 hb3
  have hL : LOW_MASK = 0xffff := by decide
  have hH : HIGH_MASK = 0xffff0000 := by decide
  have hF : FRACTION_PREC / 2 = 16 := by decide
  simp only [hL, hH, hF, and_ffff, and_high_shr16]
  obtain ⟨d0, d1, d2, d3, hloop, hd0, hd1, hd2, hd3, hval⟩ :=
    mfp_mul_loop_spec (avf % 65536) (avf / 65536 % 65536) (avi % 65536) (avi / 65536 % 65536)
      (bvf % 65536) (bvf / 65536 % 65536) (bvi % 65536) (bvi / 65536 % 65536)
      (by omega) (by omega) (by omega) (by omega) (by omega) (by omega) (by omega) (by omega)
  have eA : avf % 65536 + 2 ^ 16 * (avf / 65536 % 65536) + 2 ^ 32 * (avi % 65536) +
      2 ^ 48 * (avi / 65536 % 65536) = a.mag := by
    rw [← ha3]
    norm_num at *
    omega
  have eB : bvf % 65536 + 2 ^ 16 * (bvf / 65536 % 65536) + 2 ^ 32 * (bvi % 65536) +
      2 ^ 48 * (bvi / 65536 % 65536) = b.mag := by
    rw [← hb3]
    norm_num at *
    omega
  rw [eA, eB] at hval
  rw [hloop]
  generalize a.mag * b.mag = P at *
  have e1 : d1 = P / 2 ^ 32 % 2 ^ 32 := by norm_num at *; omega
  have e2 : d2 = P / 2 ^ 64 % 2 ^ 32 := by norm_num at *; omega
  have e3 : d3 = P / 2 ^ 96 := by norm_num at *; omega
  subst e1 e2 e3
  have hmax : (1 <<< (FRACTION_PREC - 1)) - 1 = 0x7fffffff := by decide
  have hnot : not32 0 = 0xffffffff := by decide
  simp only [Option.bind_eq_bind, Option.some_bind, List.get?_cons_succ, List.get?_cons_zero,
    hmax, hnot]
  norm_num at ha4 hb4
  by_cases hA : 2147483648 ≤ a.l_ui <;> by_cases hB : 2147483648 ≤ b.l_ui
  all_goals
    have hA2 := hA
    have hB2 := hB
    rw [ha4] at hA2
    rw [hb4] at hB2
    simp [hA, hB, hA2, hB2]

theorem mfp_mul_result_pos (T : Nat) (hT : T < 2 ^ 63) :
    (⟨T / 2 ^ 32 % 2 ^ 32, T % 2 ^ 32⟩ : l_fp).wf ∧
    (⟨T / 2 ^ 32 % 2 ^ 32, T % 2 ^ 32⟩ : l_fp).toInt = (T : Int) := by
  simp only [l_fp.wf, l_fp.toInt, l_fp.toNat]
  have h1 : T / 2 ^ 32 % 2 ^ 32 * 2 ^ 32 + T % 2 ^ 32 = T := by norm_num at *; omega
  rw [h1, if_pos hT]
  exact ⟨⟨Nat.mod_lt _ (by norm_num), Nat.mod_lt _ (by norm_num)⟩, rfl⟩

theorem mfp_mul_result_neg (T : Nat) (hT : T ≤ 2 ^ 63) :
    (⟨(M_NEG (T / 2 ^ 32 % 2 ^ 32) (T % 2 ^ 32)).1,
      (M_NEG (T / 2 ^ 32 % 2 ^ 32) (T % 2 ^ 32)).2⟩ : l_fp).wf ∧
    (⟨(M_NEG (T / 2 ^ 32 % 2 ^ 32) (T % 2 ^ 32)).1,
      (M_NEG (T / 2 ^ 32 % 2 ^ 32) (T % 2 ^ 32)).2⟩ : l_fp).toInt = -(T : Int) := by
  have hn := M_NEG_spec (T / 2 ^ 32 % 2 ^ 32) (T % 2 ^ 32) (Nat.mod_lt _ (by norm_num))
    (Nat.mod_lt _ (by norm_num))
  have h1 : T / 2 ^ 32 % 2 ^ 32 * 2 ^ 32 + T % 2 ^ 32 = T := by norm_num at *; omega
  rw [h1] at hn
  simp only [l_fp.wf, l_fp.toInt, l_fp.toNat]
  refine ⟨⟨hn.2.1, hn.2.2⟩, ?_⟩
  rw [hn.1]
  by_cases hz : T = 0
  · subst hz
    norm_num
  · have h2 : ¬ ((2 ^ 64 - T) % 2 ^ 64 < 2 ^ 63) := by norm_num at *; omega
    rw [if_neg h2]
    norm_num at *
    omega

theorem mfp_mul_finish_pos (P : Nat) (hP : P / 2 ^ 32 < 2 ^ 63) :
    ∃ r : l_fp, some (if P / 2 ^ 96 ≠ 0 then ((0x7fffffff : Nat), (0xffffffff : Nat))
          else (P / 2 ^ 64 % 2 ^ 32, P / 2 ^ 32 % 2 ^ 32)) = some (r.l_ui, r.l_uf) ∧ r.wf ∧
      r.toInt = ((P / 2 ^ 32 : Nat) : Int) := by
  have h0 : P / 2 ^ 96 = 0 := by norm_num at *; omega
  have h1 : P / 2 ^ 64 = P / 2 ^ 32 / 2 ^ 32 := by norm_num at *; omega
  have h := mfp_mul_result_pos (P / 2 ^ 32) hP
  rw [h0, h1]
  exact ⟨⟨P / 2 ^ 32 / 2 ^ 32 % 2 ^ 32, P / 2 ^ 32 % 2 ^ 32⟩, by simp, h.1, h.2⟩

theorem mfp_mul_finish_neg (P : Nat) (hP : P / 2 ^ 32 ≤ 2 ^ 63) :
    ∃ r : l_fp, some (M_NEG (if P / 2 ^ 96 ≠ 0 then ((0x7fffffff : Nat), (0xffffffff : Nat))
          else (P / 2 ^ 64 % 2 ^ 32, P / 2 ^ 32 % 2 ^ 32)).1
          (if P / 2 ^ 96 ≠ 0 then ((0x7fffffff : Nat), (0xffffffff : Nat))
          else (P / 2 ^ 64 % 2 ^ 32, P / 2 ^ 32 % 2 ^ 32)).2) = some (r.l_ui, r.l_uf) ∧ r.wf ∧
      r.toInt = -((P / 2 ^ 32 : Nat) : Int) := by
  have h0 : P / 2 ^ 96 = 0 := by norm_num at *; omega
  have h1 : P / 2 ^ 64 = P / 2 ^ 32 / 2 ^ 32 := by norm_num at *; omega
  have h := mfp_mul_result_neg (P / 2 ^ 32) hP
  rw [h0, h1]
  exact ⟨⟨(M_NEG (P / 2 ^ 32 / 2 ^ 32 % 2 ^ 32) (P / 2 ^ 32 % 2 ^ 32)).1,
    (M_NEG (P / 2 ^ 32 / 2 ^ 32 % 2 ^ 32) (P / 2 ^ 32 % 2 ^ 32)).2⟩, by simp, h.1, h.2⟩

/-- The loop of `mfp_mul` on the 16-bit limbs of two 64-bit numbers ends with the
32-bit limbs of their exact product. -/
theorem mfp_mul_loop_limbs (A B : Nat) (hA : A < 2 ^ 64) (hB : B < 2 ^ 64) :
    mfp_mul_loop (limbs16 A) (limbs16 B) [0, 0, 0, 0, 0] =
      some [A * B % 2 ^ 32, A * B / 2 ^ 32 % 2 ^ 32, A * B / 2 ^ 64 % 2 ^ 32,
        A * B / 2 ^ 96 % 2 ^ 32, 0] := by
  obtain ⟨d0, d1, d2, d3, hloop, hd0, hd1, hd2, hd3, hval⟩ :=
    mfp_mul_loop_spec (A % 2 ^ 16) (A / 2 ^ 16 % 2 ^ 16) (A / 2 ^ 32 % 2 ^ 16)
      (A / 2 ^ 48 % 2 ^ 16) (B % 2 ^ 16) (B / 2 ^ 16 % 2 ^ 16) (B / 2 ^ 32 % 2 ^ 16)
      (B / 2 ^ 48 % 2 ^ 16)
      (Nat.mod_lt _ (by norm_num)) (Nat.mod_lt _ (by norm_num)) (Nat.mod_lt _ (by norm_num))
      (Nat.mod_lt _ (by norm_num)) (Nat.mod_lt _ (by norm_num)) (Nat.mod_lt _ (by norm_num))
      (Nat.mod_lt _ (by norm_num)) (Nat.mod_lt _ (by norm_num))
  have eA : A % 2 ^ 16 + 2 ^ 16 * (A / 2 ^ 16 % 2 ^ 16) + 2 ^ 32 * (A / 2 ^ 32 % 2 ^ 16) +
      2 ^ 48 * (A / 2 ^ 48 % 2 ^ 16) = A := by
    norm_num at *
    omega
  have eB : B % 2 ^ 16 + 2 ^ 16 * (B / 2 ^ 16 % 2 ^ 16) + 2 ^ 32 * (B / 2 ^ 32 % 2 ^ 16) +
      2 ^ 48 * (B / 2 ^ 48 % 2 ^ 16) = B := by
    norm_num at *
    omega
  rw [eA, eB] at hval
  unfold limbs16
  rw [hloop]
  generalize A * B = P at *
  have e0 : d0 = P % 2 ^ 32 := by norm_num at *; omega
  have e1 : d1 = P / 2 ^ 32 % 2 ^ 32 := by norm_num at *; omega
  have e2 : d2 = P / 2 ^ 64 % 2 ^ 32 := by norm_num at *; omega
  have e3 : d3 = P / 2 ^ 96 % 2 ^ 32 := by norm_num at *; omega
  rw [e0, e1, e2, e3]

theorem l_fp_mag_lt (v : l_fp) (hv : v.wf) : v.mag < 2 ^ 64 := by
  obtain ⟨h1, h2⟩ := hv
  simp only [l_fp.mag, l_fp.toInt, l_fp.toNat]
  split_ifs <;> norm_num at * <;> omega

theorem l_fp_mag_zero (v : l_fp) (h : v.toInt = 0) : v.mag = 0 := by
  simp [l_fp.mag, h]

/-- C4: when `sign(a*b) * floor(|a|*|b| / 2^32)` fits a signed 32.32 value,
`mfp_mul` returns exactly that value; the four-limb schoolbook loop run on the
16-bit limbs of the magnitudes ends with the 32-bit limbs of their exact 128-bit
product, of which `c[2]:c[1]` is taken. -/
theorem mfp_mul_exact_product (a b : l_fp) (ha : a.wf) (hb : b.wf)
    (hfit : -(2 ^ 63) ≤ truncProd a b ∧ truncProd a b < 2 ^ 63) :
    (∃ r : l_fp, mfp_mul a.l_ui a.l_uf b.l_ui b.l_uf = some (r.l_ui, r.l_uf) ∧ r.wf ∧
      r.toInt = truncProd a b) ∧
    mfp_mul_loop (limbs16 a.mag) (limbs16 b.mag) [0, 0, 0, 0, 0] =
      some [a.mag * b.mag % 2 ^ 32, a.mag * b.mag / 2 ^ 32 % 2 ^ 32,
        a.mag * b.mag / 2 ^ 64 % 2 ^ 32, a.mag * b.mag / 2 ^ 96 % 2 ^ 32, 0] := by
  refine ⟨?_, mfp_mul_loop_limbs a.mag b.mag (l_fp_mag_lt a ha) (l_fp_mag_lt b hb)⟩
  rw [mfp_mul_core a b ha hb]
  obtain ⟨hlo, hhi⟩ := hfit
  unfold truncProd at *
  rw [Int.sign_mul] at *
  rcases lt_trichotomy a.toInt 0 with hA | hA | hA <;>
    rcases lt_trichotomy b.toInt 0 with hB | hB | hB
  · have nA := Int.sign_eq_neg_one_of_neg hA
    have nB := Int.sign_eq_neg_one_of_neg hB
    rw [nA, nB] at hlo hhi ⊢
    simp only [hA, hB, ne_eq, not_true_eq_false, if_false]
    have h := mfp_mul_finish_pos (a.mag * b.mag) (by omega)
    simpa using h
  · have nA := Int.sign_eq_neg_one_of_neg hA
    rw [nA, hB, l_fp_mag_zero b hB]
    simp only [hA, ne_eq, if_true]
    have h := mfp_mul_finish_neg 0 (by norm_num)
    simpa using h
  · have nA := Int.sign_eq_neg_one_of_neg hA
    have nB := Int.sign_eq_one_of_pos hB
    have hB2 : ¬ b.toInt < 0 := by omega
    rw [nA, nB] at hlo hhi ⊢
    simp only [hA, hB2, ne_eq, if_true]
    have h := mfp_mul_finish_neg (a.mag * b.mag) (by omega)
    simpa using h
  · have nB := Int.sign_eq_neg_one_of_neg hB
    rw [nB, hA, l_fp_mag_zero a hA]
    simp only [hB, ne_eq, if_true]
    have h := mfp_mul_finish_neg 0 (by norm_num)
    simpa using h
  · rw [hA, hB, l_fp_mag_zero a hA]
    have h := mfp_mul_finish_pos 0 (by norm_num)
    simpa using h
  · have hB2 : ¬ b.toInt < 0 := by omega
    rw [hA, l_fp_mag_zero a hA]
    simp only [hB2, ne_eq, if_false]
    have h := mfp_mul_finish_pos 0 (by norm_num)
    simpa using h
  · have nA := Int.sign_eq_one_of_pos hA
    have nB := Int.sign_eq_neg_one_of_neg hB
    have hA2 : ¬ a.toInt < 0 := by omega
    rw [nA, nB] at hlo hhi ⊢
    simp only [hA2, hB, ne_eq, if_true]
    have h := mfp_mul_finish_neg (a.mag * b.mag) (by omega)
    simpa using h
  · have hA2 : ¬ a.toInt < 0 := by omega
    rw [hB, l_fp_mag_zero b hB]
    simp only [hA2, ne_eq, if_false]
    have h := mfp_mul_finish_pos 0 (by norm_num)
    simpa using h
  · have nA := Int.sign_eq_one_of_pos hA
    have nB := Int.sign_eq_one_of_pos hB
    have hA2 : ¬ a.toInt < 0 := by omega
    have hB2 : ¬ b.toInt < 0 := by omega
    rw [nA, nB] at hlo hhi ⊢
    simp only [hA2, hB2, ne_eq, if_false]
    have h := mfp_mul_finish_pos (a.mag * b.mag) (by omega)
    simpa using h

/-! ### Bytes -/

theorem ntp_isspace_iff (c : Nat) (hc : c < 256) : ntp_isspace c = true ↔ isSpaceByte c := by
  simp only [ntp_isspace, isSpaceByte, Bool.or_eq_true, decide_eq_true_eq]
  norm_num
  omega

theorem ntp_isdigit_iff (c : Nat) (hc : c < 256) : ntp_isdigit c = true ↔ isDigitByte c := by
  simp only [ntp_isdigit, isDigitByte, decide_eq_true_eq]
  norm_num
  omega

theorem ind_le_iff (c : Nat) (hc : c < 256) : (c + 256 - 0x30) % 256 ≤ 9 ↔ isDigitByte c := by
  simp only [isDigitByte]
  omega

theorem ind_eq (c : Nat) (hc : isDigitByte c) : (c + 256 - 0x30) % 256 = c - 48 := by
  simp only [isDigitByte] at hc
  omega

theorem mul10_32 (x : Nat) :
    ((x <<< 3) % 2 ^ 32 + (x <<< 1) % 2 ^ 32) % 2 ^ 32 = (10 * x) % 2 ^ 32 := by
  simp only [Nat.shiftLeft_eq]
  norm_num
  omega

theorem isCStr_cons {c : Nat} {s : List Nat} (h : isCStr (c :: s)) :
    (0 < c ∧ c < 256) ∧ isCStr s := by
  refine ⟨h c (List.mem_cons_self _ _), fun x hx => h x (List.mem_cons_of_mem _ hx)⟩

theorem isCStr_append {s t : List Nat} (h : isCStr (s ++ t)) : isCStr s ∧ isCStr t :=
  ⟨fun x hx => h x (List.mem_append_left _ hx), fun x hx => h x (List.mem_append_right _ hx)⟩

/-! ### Decimal value -/

theorem decVal_foldl (ds : List Nat) (acc : Nat) :
    ds.foldl (fun acc c => 10 * acc + (c - 48)) acc = acc * 10 ^ ds.length + decVal ds := by
  induction ds generalizing acc with
  | nil => simp [decVal]
  | cons d ds ih =>
    simp only [List.foldl_cons, List.length_cons, decVal]
    rw [ih, ih (10 * 0 + (d - 48))]
    ring

theorem decVal_nil : decVal [] = 0 := rfl

theorem decVal_cons (d : Nat) (ds : List Nat) :
    decVal (d :: ds) = (d - 48) * 10 ^ ds.length + decVal ds := by
  have h : decVal (d :: ds) = ds.foldl (fun acc c => 10 * acc + (c - 48)) (10 * 0 + (d - 48)) :=
    rfl
  rw [h, decVal_foldl]
  simp

theorem decVal_lt (ds : List Nat) (h : ∀ c ∈ ds, isDigitByte c) : decVal ds < 10 ^ ds.length := by
  induction ds with
  | nil => simp [decVal]
  | cons d ds ih =>
    rw [decVal_cons, List.length_cons, pow_succ]
    have h1 := ih (fun c hc => h c (List.mem_cons_of_mem _ hc))
    have h2 := h d (List.mem_cons_self _ _)
    simp only [isDigitByte] at h2
    have h3 : d - 48 ≤ 9 := by omega
    nlinarith [Nat.mul_le_mul_right (10 ^ ds.length) h3]

/-! ### The scanning loops -/

theorem skipSpaces_of_not_space (s : List Nat) (h : ntp_isspace (peek s) = false) :
    skipSpaces s = s := by
  cases s with
  | nil => rfl
  | cons c cs =>
    simp only [peek] at h
    simp [skipSpaces, h]

theorem skipSpaces_append (ws s : List Nat) (h : ∀ c ∈ ws, ntp_isspace c = true) :
    skipSpaces (ws ++ s) = skipSpaces s := by
  induction ws with
  | nil => rfl
  | cons c cs ih =>
    have hc := h c (List.mem_cons_self _ _)
    simp only [List.cons_append, skipSpaces, hc, if_true]
    exact ih (fun x hx => h x (List.mem_cons_of_mem _ hx))

theorem skipSpaces_spec (s : List Nat) :
    ∃ ws, s = ws ++ skipSpaces s ∧ (∀ c ∈ ws, ntp_isspace c = true) ∧
      ntp_isspace (peek (skipSpaces s)) = false := by
  induction s with
  | nil => exact ⟨[], rfl, by simp, by decide⟩
  | cons c cs ih =>
    by_cases hc : ntp_isspace c = true
    · obtain ⟨ws, h1, h2, h3⟩ := ih
      refine ⟨c :: ws, ?_, ?_, ?_⟩
      · simp only [skipSpaces, hc, if_true, List.cons_append]
        rw [← h1]
      · intro x hx
        rcases List.mem_cons.mp hx with rfl | hx
        · exact hc
        · exact h2 x hx
      · simpa [skipSpaces, hc] using h3
    · refine ⟨[], ?_, by simp, ?_⟩
      · simp [skipSpaces, hc]
      · simp only [skipSpaces, hc]
        simpa [peek] using hc

theorem skipDigits_append (fs s : List Nat) (h : ∀ c ∈ fs, ntp_isdigit c = true) :
    skipDigits (fs ++ s) = skipDigits s := by
  induction fs with
  | nil => rfl
  | cons c cs ih =>
    have hc := h c (List.mem_cons_self _ _)
    simp only [List.cons_append, skipDigits, hc, if_true]
    exact ih (fun x hx => h x (List.mem_cons_of_mem _ hx))

theorem skipDigits_of_not_digit (s : List Nat) (h : ntp_isdigit (peek s) = false) :
    skipDigits s = s := by
  cases s with
  | nil => rfl
  | cons c cs =>
    simp only [peek] at h
    simp [skipDigits, h]

theorem skipDigits_spec (s : List Nat) :
    ∃ fs, s = fs ++ skipDigits s ∧ (∀ c ∈ fs, ntp_isdigit c = true) ∧
      ntp_isdigit (peek (skipDigits s)) = false := by
  induction s with
  | nil => exact ⟨[], rfl, by simp, by decide⟩
  | cons c cs ih =>
    by_cases hc : ntp_isdigit c = true
    · obtain ⟨ws, h1, h2, h3⟩ := ih
      refine ⟨c :: ws, ?_, ?_, ?_⟩
      · simp only [skipDigits, hc, if_true, List.cons_append]
        rw [← h1]
      · intro x hx
        rcases List.mem_cons.mp hx with rfl | hx
        · exact hc
        · exact h2 x hx
      · simpa [skipDigits, hc] using h3
    · refine ⟨[], ?_, by simp, ?_⟩
      · simp [skipDigits, hc]
      · simp only [skipDigits, hc]
        simpa [peek] using hc


theorem isDigitByte_lt {c : Nat} (h : isDigitByte c) : 0 < c ∧ c < 256 := by
  simp only [isDigitByte] at h
  omega

theorem acc_step_mod (acc d p v : Nat) :
    (((10 * acc) % 2 ^ 32 + d) % 2 ^ 32 * p + v) % 2 ^ 32 =
      (acc * (p * 10) + (d * p + v)) % 2 ^ 32 := by
  have h1 : ((10 * acc) % 2 ^ 32 + d) % 2 ^ 32 = (10 * acc + d) % 2 ^ 32 := by omega
  rw [h1, Nat.add_mod, Nat.mul_mod, Nat.mod_mod, ← Nat.mul_mod, ← Nat.add_mod]
  congr 1
  ring

theorem atolfp_int_cons (acc c : Nat) (cs : List Nat) :
    atolfp_int acc (c :: cs) =
      if c ≠ 0 ∧ (c + 256 - 0x30) % 256 ≤ 9 then
        atolfp_int ((((acc <<< 3) % 2 ^ 32 + (acc <<< 1) % 2 ^ 32) % 2 ^ 32 +
          (c + 256 - 0x30) % 256) % 2 ^ 32) cs
      else (acc, c :: cs) := rfl

theorem atolfp_frac_cons (n acc c : Nat) (cs : List Nat) :
    atolfp_frac n acc (c :: cs) =
      if n < 9 ∧ c ≠ 0 ∧ (c + 256 - 0x30) % 256 ≤ 9 then
        atolfp_frac (n + 1) ((((acc <<< 3) % 2 ^ 32 + (acc <<< 1) % 2 ^ 32) % 2 ^ 32 +
          (c + 256 - 0x30) % 256) % 2 ^ 32) cs
      else (n, acc, c :: cs) := rfl

/-- The integer loop of `atolfp` over a run of digits. -/
theorem atolfp_int_append (ds rest : List Nat) (acc : Nat) (hacc : acc < 2 ^ 32)
    (h : ∀ c ∈ ds, isDigitByte c) :
    atolfp_int acc (ds ++ rest) =
      atolfp_int ((acc * 10 ^ ds.length + decVal ds) % 2 ^ 32) rest := by
  induction ds generalizing acc with
  | nil =>
    simp only [List.nil_append, List.length_nil, pow_zero, mul_one, decVal_nil, add_zero]
    rw [Nat.mod_eq_of_lt hacc]
  | cons d ds ih =>
    have hd := h d (List.mem_cons_self _ _)
    have hd0 := isDigitByte_lt hd
    have c1 : d ≠ 0 ∧ (d + 256 - 0x30) % 256 ≤ 9 :=
      ⟨by omega, (ind_le_iff d hd0.2).mpr hd⟩
    rw [List.cons_append, atolfp_int_cons, if_pos c1]
    rw [ih _ (Nat.mod_lt _ (by norm_num)) (fun c hc => h c (List.mem_cons_of_mem _ hc))]
    rw [mul10_32, ind_eq d hd, decVal_cons, List.length_cons, pow_succ 10 ds.length, acc_step_mod]

theorem atolfp_int_stop (rest : List Nat) (acc : Nat)
    (h : peek rest = 0 ∨ ¬ (peek rest + 256 - 0x30) % 256 ≤ 9) :
    atolfp_int acc rest = (acc, rest) := by
  cases rest with
  | nil => rfl
  | cons c cs =>
    simp only [peek] at h
    have c1 : ¬ (c ≠ 0 ∧ (c + 256 - 0x30) % 256 ≤ 9) := by
      rcases h with h | h
      · exact fun hh => hh.1 h
      · exact fun hh => h hh.2
    rw [atolfp_int_cons, if_neg c1]

theorem atolfp_int_spec (s : List Nat) (acc : Nat) (hs : isCStr s) :
    ∃ ds, s = ds ++ (atolfp_int acc s).2 ∧ (∀ c ∈ ds, isDigitByte c) ∧
      ¬ isDigitByte (peek (atolfp_int acc s).2) := by
  induction s generalizing acc with
  | nil => exact ⟨[], rfl, by simp, by simp [atolfp_int, peek, isDigitByte]⟩
  | cons c cs ih =>
    obtain ⟨hc, hcs⟩ := isCStr_cons hs
    by_cases hd : isDigitByte c
    · have c1 : c ≠ 0 ∧ (c + 256 - 0x30) % 256 ≤ 9 := ⟨by omega, (ind_le_iff c hc.2).mpr hd⟩
      rw [atolfp_int_cons, if_pos c1]
      obtain ⟨ds, h1, h2, h3⟩ := ih
        ((((acc <<< 3) % 2 ^ 32 + (acc <<< 1) % 2 ^ 32) % 2 ^ 32 + (c + 256 - 0x30) % 256) % 2 ^ 32)
        hcs
      refine ⟨c :: ds, ?_, ?_, h3⟩
      · rw [List.cons_append, ← h1]
      · intro x hx
        rcases List.mem_cons.mp hx with rfl | hx
        · exact hd
        · exact h2 x hx
    · have c1 : ¬ (c ≠ 0 ∧ (c + 256 - 0x30) % 256 ≤ 9) := by
        intro hh
        exact hd ((ind_le_iff c hc.2).mp hh.2)
      rw [atolfp_int_cons, if_neg c1]
      exact ⟨[], rfl, by simp, by simpa [peek] using hd⟩

/-- The fraction loop of `atolfp` over a run of at most `9 - ndec` digits. -/
theorem atolfp_frac_append (fs rest : List Nat) (n acc : Nat) (hacc : acc < 2 ^ 32)
    (h : ∀ c ∈ fs, isDigitByte c) (hn : n + fs.length ≤ 9) :
    atolfp_frac n acc (fs ++ rest) =
      atolfp_frac (n + fs.length) ((acc * 10 ^ fs.length + decVal fs) % 2 ^ 32) rest := by
  induction fs generalizing acc n with
  | nil =>
    simp only [List.nil_append, List.length_nil, pow_zero, mul_one, decVal_nil, add_zero]
    rw [Nat.mod_eq_of_lt hacc]
  | cons d ds ih =>
    have hd := h d (List.mem_cons_self _ _)
    have hd0 := isDigitByte_lt hd
    simp only [List.length_cons] at hn
    have c1 : n < 9 ∧ d ≠ 0 ∧ (d + 256 - 0x30) % 256 ≤ 9 :=
      ⟨by omega, by omega, (ind_le_iff d hd0.2).mpr hd⟩
    rw [List.cons_append, atolfp_frac_cons, if_pos c1]
    rw [ih _ _ (Nat.mod_lt _ (by norm_num)) (fun c hc => h c (List.mem_cons_of_mem _ hc))
      (by omega)]
    rw [mul10_32, ind_eq d hd, decVal_cons, List.length_cons, pow_succ 10 ds.length, acc_step_mod]
    congr 1
    omega

theorem atolfp_frac_stop (rest : List Nat) (n acc : Nat)
    (h : 9 ≤ n ∨ peek rest = 0 ∨ ¬ (peek rest + 256 - 0x30) % 256 ≤ 9) :
    atolfp_frac n acc rest = (n, acc, rest) := by
  cases rest with
  | nil => rfl
  | cons c cs =>
    simp only [peek] at h
    have c1 : ¬ (n < 9 ∧ c ≠ 0 ∧ (c + 256 - 0x30) % 256 ≤ 9) := by
      rcases h with h | h | h
      · omega
      · exact fun hh => hh.2.1 h
      · exact fun hh => h hh.2.2
    rw [atolfp_frac_cons, if_neg c1]

theorem atolfp_frac_spec (s : List Nat) (n acc : Nat) (hs : isCStr s) (hn : n ≤ 9) :
    ∃ fs, s = fs ++ (atolfp_frac n acc s).2.2 ∧ (∀ c ∈ fs, isDigitByte c) ∧
      (atolfp_frac n acc s).1 ≤ 9 := by
  induction s generalizing acc n with
  | nil => exact ⟨[], rfl, by simp, by simpa [atolfp_frac] using hn⟩
  | cons c cs ih =>
    obtain ⟨hc, hcs⟩ := isCStr_cons hs
    by_cases c1 : n < 9 ∧ c ≠ 0 ∧ (c + 256 - 0x30) % 256 ≤ 9
    · rw [atolfp_frac_cons, if_pos c1]
      obtain ⟨ds, h1, h2, h3⟩ := ih (n + 1)
        ((((acc <<< 3) % 2 ^ 32 + (acc <<< 1) % 2 ^ 32) % 2 ^ 32 + (c + 256 - 0x30) % 256) % 2 ^ 32)
        hcs (by omega)
      refine ⟨c :: ds, ?_, ?_, h3⟩
      · rw [List.cons_append, ← h1]
      · intro x hx
        rcases List.mem_cons.mp hx with rfl | hx
        · exact (ind_le_iff _ hc.2).mp c1.2.2
        · exact h2 x hx
    · rw [atolfp_frac_cons, if_neg c1]
      exact ⟨[], rfl, by simp, hn⟩

/-! ### The bit-by-bit division -/

theorem atolfp_bits_spec (T : Nat) (hT2 : T ≤ 2 ^ 31) :
    ∀ n q r, r < T → ∃ r1 t1, atolfp_bits T n (2 ^ n / 2) r (q * 2 ^ n) = some (r1, t1) ∧
      t1 * T + r1 = (q * T + r) * 2 ^ n ∧ r1 < T := by
  intro n
  induction n with
  | zero =>
    intro q r hr
    exact ⟨r, q * 2 ^ 0, by simp [atolfp_bits], by ring, hr⟩
  | succ n ih =>
    intro q r hr
    have hb : 2 ^ (n + 1) / 2 = 2 ^ n := by
      rw [pow_succ]
      exact Nat.mul_div_cancel _ (by norm_num)
    have hpos : 0 < 2 ^ n := Nat.two_pow_pos n
    have hb0 : (2 : Nat) ^ n ≠ 0 := by omega
    have hsh : (r <<< 1) % 2 ^ 32 = 2 * r := by
      rw [Nat.shiftLeft_eq]
      norm_num at *
      omega
    have hbit : (2 : Nat) ^ n >>> 1 = 2 ^ n / 2 := by
      rw [Nat.shiftRight_eq_div_pow, pow_one]
    simp only [atolfp_bits, hb, hb0, ne_eq, not_false_eq_true, if_true, hsh, hbit]
    by_cases hge : 2 * r ≥ T
    · have hor : q * 2 ^ (n + 1) ||| 2 ^ n = (2 * q + 1) * 2 ^ n := by
        have := @Nat.mul_add_lt_is_or (n + 1) (2 ^ n) (by rw [pow_succ]; omega) q
        rw [Nat.mul_comm q, ← this]
        ring
      have hsub : (2 * r + 2 ^ 32 - T) % 2 ^ 32 = 2 * r - T := by
        norm_num at *
        omega
      simp only [hge, if_true, hor, hsub]
      obtain ⟨r1, t1, h1, h2, h3⟩ := ih (2 * q + 1) (2 * r - T) (by omega)
      refine ⟨r1, t1, h1, ?_, h3⟩
      rw [h2, pow_succ]
      have : (2 * q + 1) * T + (2 * r - T) = 2 * (q * T + r) := by
        have : (2 * q + 1) * T = 2 * (q * T) + T := by ring
        omega
      rw [this]
      ring
    · have hq : q * 2 ^ (n + 1) = (2 * q) * 2 ^ n := by ring
      simp only [hge, if_false, hq]
      obtain ⟨r1, t1, h1, h2, h3⟩ := ih (2 * q) (2 * r) (by omega)
      refine ⟨r1, t1, h1, ?_, h3⟩
      rw [h2, pow_succ]
      ring

theorem ten_to_the_n_get (k : Nat) (h1 : 1 ≤ k) (h9 : k ≤ 9) :
    ten_to_the_n.get? k = some (10 ^ k) := by
  interval_cases k <;> rfl

theorem natAbs_round_down (t r F T : Nat) (hv : t * T + r = F * 2 ^ 32) :
    ((t : Int) * T - 2 ^ 32 * (F : Int)).natAbs = r := by
  have h : (t : Int) * T - 2 ^ 32 * (F : Int) = -(r : Int) := by
    have := congrArg (fun n : Nat => (n : Int)) hv
    simp only at this
    push_cast at this
    linarith
  rw [h, Int.natAbs_neg, Int.natAbs_ofNat]

theorem natAbs_round_up (t r F T : Nat) (hv : t * T + r = F * 2 ^ 32) (hr : r ≤ T) :
    (((t + 1 : Nat) : Int) * T - 2 ^ 32 * (F : Int)).natAbs = T - r := by
  have h : ((t + 1 : Nat) : Int) * T - 2 ^ 32 * (F : Int) = ((T - r : Nat) : Int) := by
    have := congrArg (fun n : Nat => (n : Int)) hv
    simp only at this
    push_cast at this
    rw [Nat.cast_sub hr]
    push_cast
    linarith
  rw [h, Int.natAbs_ofNat]

set_option maxHeartbeats 800000 in
/-- With `1 ≤ ndec ≤ 9` fraction digits of value `F`, the end of `atolfp` stores the
integer nearest to `2^32 * F / 10^ndec`. -/
theorem atolfp_finish_frac (dec_i k F : Nat) (h1 : 1 ≤ k) (h9 : k ≤ 9) (hF : F < 10 ^ k) :
    ∃ uf, atolfp_finish false dec_i k F = some (1, ⟨dec_i, uf⟩) ∧ uf < 2 ^ 32 ∧
      2 * ((uf : Int) * ((10 ^ k : Nat) : Int) - 2 ^ 32 * (F : Int)).natAbs < 10 ^ k := by
  have hT : (10 : Nat) ^ k ≤ 2 ^ 31 := by
    interval_cases k <;> norm_num
  obtain ⟨r1, t1, hb, hv, hr⟩ := atolfp_bits_spec (10 ^ k) hT 32 0 F hF
  have hbit : (2 : Nat) ^ 32 / 2 = 0x80000000 := by norm_num
  rw [hbit] at hb
  simp only [zero_mul] at hb
  have hk : k > 0 := h1
  simp only [atolfp_finish, atolfp_scale, hk, if_true, ten_to_the_n_get k h1 h9,
    Option.bind_eq_bind, Option.some_bind, hb, Bool.false_eq_true, if_false]
  have hsh : (r1 <<< 1) % 2 ^ 32 = 2 * r1 := by
    rw [Nat.shiftLeft_eq]
    norm_num at *
    omega
  rw [hsh]
  simp only [zero_mul, zero_add] at hv
  clear hb hsh hbit
  have hbound : t1 + 1 < 2 ^ 32 := by
    clear hr
    interval_cases k
    all_goals
      simp only [Nat.reducePow] at hv hF ⊢
      omega
  have hnotie : 2 * r1 ≠ 10 ^ k := by
    clear hbound hF
    interval_cases k
    all_goals
      simp only [Nat.reducePow] at hv hr ⊢
      omega
  split_ifs with hc
  · refine ⟨(t1 + 1) % 2 ^ 32, rfl, Nat.mod_lt _ (by norm_num), ?_⟩
    rw [Nat.mod_eq_of_lt hbound, natAbs_round_up t1 r1 F (10 ^ k) hv (Nat.le_of_lt hr)]
    omega
  · refine ⟨t1, rfl, by omega, ?_⟩
    rw [natAbs_round_down t1 r1 F (10 ^ k) hv]
    omega

theorem isDigitByte_isdigit {c : Nat} (h : isDigitByte c) : ntp_isdigit c = true :=
  (ntp_isdigit_iff c (isDigitByte_lt h).2).mpr h

theorem isDigitByte_not_space {c : Nat} (h : isDigitByte c) : ntp_isspace c = false := by
  have h2 := ntp_isspace_iff c (isDigitByte_lt h).2
  simp only [isSpaceByte, isDigitByte] at h h2
  cases hc : ntp_isspace c
  · rfl
  · have := h2.mp hc
    omega

theorem peek_cons (c : Nat) (cs : List Nat) : peek (c :: cs) = c := rfl

theorem peek_nil : peek [] = 0 := rfl

theorem peek_append_cons (ds : List Nat) (d : Nat) (rest : List Nat) :
    peek (ds ++ d :: rest) = d ∨ ∃ c ∈ ds, peek (ds ++ d :: rest) = c := by
  cases ds with
  | nil => exact Or.inl rfl
  | cons c cs => exact Or.inr ⟨c, List.mem_cons_self _ _, rfl⟩

/-- `atolfp` on `digits . digits`: the integer part is read in full, the first
nine fraction digits are read and the others skipped. -/
theorem atolfp_digits_dot_digits (ds fs : List Nat) (lfp : l_fp)
    (hds : ∀ c ∈ ds, isDigitByte c) (hfs : ∀ c ∈ fs, isDigitByte c) (hI : decVal ds < 2 ^ 32) :
    atolfp (ds ++ 46 :: fs) lfp =
      atolfp_finish false (decVal ds) (min fs.length 9) (decVal (fs.take 9)) := by
  have hp : peek (ds ++ 46 :: fs) = 46 ∨ isDigitByte (peek (ds ++ 46 :: fs)) := by
    rcases peek_append_cons ds 46 fs with h | ⟨c, hc, h⟩
    · exact Or.inl h
    · exact Or.inr (h ▸ hds c hc)
  have hsp : ntp_isspace (peek (ds ++ 46 :: fs)) = false := by
    rcases hp with h | h
    · rw [h]
      decide
    · exact isDigitByte_not_space h
  have h45 : peek (ds ++ 46 :: fs) ≠ 45 := by
    rcases hp with h | h
    · rw [h]
      decide
    · simp only [isDigitByte] at h
      omega
  have h43 : peek (ds ++ 46 :: fs) ≠ 43 := by
    rcases hp with h | h
    · rw [h]
      decide
    · simp only [isDigitByte] at h
      omega
  have hstart : ¬ (peek (ds ++ 46 :: fs) ≠ 46 ∧ ¬ ntp_isdigit (peek (ds ++ 46 :: fs)) = true) := by
    rcases hp with h | h
    · exact fun hh => hh.1 h
    · exact fun hh => hh.2 (isDigitByte_isdigit h)
  have hint : atolfp_int 0 (ds ++ 46 :: fs) = (decVal ds, 46 :: fs) := by
    rw [atolfp_int_append ds (46 :: fs) 0 (by norm_num) hds, zero_mul, zero_add,
      Nat.mod_eq_of_lt hI]
    exact atolfp_int_stop (46 :: fs) (decVal ds) (Or.inr (by rw [peek_cons]; decide))
  have hfl : (fs.take 9).length = min fs.length 9 := by
    rw [List.length_take, Nat.min_comm]
  have htake : ∀ c ∈ fs.take 9, isDigitByte c := fun c hc => hfs c (List.mem_of_mem_take hc)
  have hdrop : ∀ c ∈ fs.drop 9, isDigitByte c := fun c hc => hfs c (List.mem_of_mem_drop hc)
  have hF : decVal (fs.take 9) < 2 ^ 32 := by
    have h1 := decVal_lt (fs.take 9) htake
    have h2 : (10 : Nat) ^ (fs.take 9).length ≤ 10 ^ 9 :=
      Nat.pow_le_pow_right (by norm_num) (by rw [hfl]; exact Nat.min_le_right _ _)
    have h3 : (10 : Nat) ^ 9 < 2 ^ 32 := by norm_num
    omega
  have hfrac : atolfp_frac 0 0 fs = (min fs.length 9, decVal (fs.take 9), fs.drop 9) := by
    conv_lhs => rw [← List.take_append_drop 9 fs]
    rw [atolfp_frac_append (fs.take 9) (fs.drop 9) 0 0 (by norm_num) htake
      (by rw [hfl]; have := Nat.min_le_right fs.length 9; omega)]
    rw [zero_mul, zero_add, zero_add, Nat.mod_eq_of_lt hF, hfl]
    apply atolfp_frac_stop
    by_cases h9 : 9 ≤ fs.length
    · exact Or.inl (by rw [Nat.min_eq_right h9])
    · have : fs.drop 9 = [] := List.drop_eq_nil_of_le (by omega)
      rw [this]
      exact Or.inr (Or.inl rfl)
  have hskip : skipDigits (fs.drop 9) = [] := by
    have := skipDigits_append (fs.drop 9) [] (fun c hc => isDigitByte_isdigit (hdrop c hc))
    rw [List.append_nil] at this
    rw [this]
    rfl
  unfold atolfp
  simp only [skipSpaces_of_not_space _ hsp, h45, h43, if_false, hstart, hint, peek_cons, peek_nil,
    List.tail_cons, hfrac, hskip]
  have h46 : ntp_isspace 46 = false := by decide
  simp [h46]

theorem atolfp_bits_some (T : Nat) :
    ∀ n r t, ∃ res, atolfp_bits T n (2 ^ n / 2) r t = some res := by
  intro n
  induction n with
  | zero =>
    intro r t
    exact ⟨(r, t), by simp [atolfp_bits]⟩
  | succ n ih =>
    intro r t
    have hb : 2 ^ (n + 1) / 2 = 2 ^ n := by
      rw [pow_succ]
      exact Nat.mul_div_cancel _ (by norm_num)
    have hb0 : (2 : Nat) ^ n ≠ 0 := by
      have := Nat.two_pow_pos n
      omega
    have hbit : (2 : Nat) ^ n >>> 1 = 2 ^ n / 2 := by
      rw [Nat.shiftRight_eq_div_pow, pow_one]
    simp only [atolfp_bits, hb, hb0, ne_eq, not_false_eq_true, if_true, hbit]
    exact ih _ _

/-- The end of `atolfp` always stores a value and returns 1. -/
theorem atolfp_finish_some (isneg : Bool) (dec_i ndec dec_f : Nat) (h9 : ndec ≤ 9) :
    ∃ v, atolfp_finish isneg dec_i ndec dec_f = some (1, v) := by
  unfold atolfp_finish atolfp_scale
  by_cases hk : ndec > 0
  · obtain ⟨res, hres⟩ := atolfp_bits_some (10 ^ ndec) 32 dec_f 0
    have hbit : (2 : Nat) ^ 32 / 2 = 0x80000000 := by norm_num
    rw [hbit] at hres
    simp only [hk, if_true, ten_to_the_n_get ndec hk h9, Option.bind_eq_bind, Option.some_bind,
      hres]
    exact ⟨_, rfl⟩
  · simp only [hk, if_false, Option.bind_eq_bind, Option.some_bind]
    exact ⟨_, rfl⟩

theorem bind_ret_one {α β : Type} (X : Option α) (f : α → β) (r : Nat) (v : β)
    (h : X.bind (fun a => some (1, f a)) = some (r, v)) : r = 1 := by
  cases X with
  | none => simp at h
  | some x =>
    simp only [Option.some_bind, Option.some.injEq, Prod.mk.injEq] at h
    exact h.1.symm

theorem atolfp_finish_ret (isneg : Bool) (dec_i ndec dec_f r : Nat) (v : l_fp)
    (h : atolfp_finish isneg dec_i ndec dec_f = some (r, v)) : r = 1 :=
  bind_ret_one _ _ r v h

theorem atolfp_frac_ndec_le (s : List Nat) (n acc : Nat) (hn : n ≤ 9) :
    (atolfp_frac n acc s).1 ≤ 9 := by
  induction s generalizing acc n with
  | nil => exact hn
  | cons c cs ih =>
    rw [atolfp_frac_cons]
    split_ifs with c1
    · exact ih _ _ (by omega)
    · exact hn

theorem skipDigits_frac (s : List Nat) (n acc : Nat) (hs : isCStr s) :
    skipDigits (atolfp_frac n acc s).2.2 = skipDigits s := by
  induction s generalizing acc n with
  | nil => rfl
  | cons c cs ih =>
    obtain ⟨hc, hcs⟩ := isCStr_cons hs
    rw [atolfp_frac_cons]
    split_ifs with c1
    · rw [ih _ _ hcs]
      have hd : ntp_isdigit c = true := isDigitByte_isdigit ((ind_le_iff c hc.2).mp c1.2.2)
      simp [skipDigits, hd]
    · rfl

theorem numberEnds_of_peek (t : List Nat) (ht : isCStr t)
    (h : ¬ (peek t ≠ 0 ∧ ¬ ntp_isspace (peek t) = true)) : numberEnds t := by
  cases t with
  | nil => exact Or.inl rfl
  | cons c r =>
    obtain ⟨hc, _⟩ := isCStr_cons ht
    rw [peek_cons] at h
    refine Or.inr ⟨c, r, rfl, ?_⟩
    have : ntp_isspace c = true := by
      by_contra hn
      exact h ⟨by omega, hn⟩
    exact (ntp_isspace_iff c hc.2).mp this

theorem peek_of_numberEnds (t : List Nat) (ht : isCStr t) (h : numberEnds t) :
    ¬ (peek t ≠ 0 ∧ ¬ ntp_isspace (peek t) = true) := by
  rcases h with rfl | ⟨c, r, rfl, hc⟩
  · exact fun hh => hh.1 rfl
  · obtain ⟨hc2, _⟩ := isCStr_cons ht
    rw [peek_cons]
    exact fun hh => hh.2 ((ntp_isspace_iff c hc2.2).mpr hc)

theorem numberEnds_not_digit (t : List Nat) (h : numberEnds t) : ¬ isDigitByte (peek t) := by
  rcases h with rfl | ⟨c, r, rfl, hc⟩
  · simp [peek, isDigitByte]
  · rw [peek_cons]
    simp only [isSpaceByte] at hc
    simp only [isDigitByte]
    omega

/-- `atolfp` never fails to return: 0 with `*lfp` untouched, or 1. -/
theorem atolfp_total (s : List Nat) (lfp : l_fp) :
    atolfp s lfp = some (0, lfp) ∨ ∃ v, atolfp s lfp = some (1, v) := by
  unfold atolfp
  dsimp only
  split_ifs
  all_goals first
    | exact Or.inl rfl
    | exact Or.inr (atolfp_finish_some _ _ _ _ (atolfp_frac_ndec_le _ _ _ (by norm_num)))
    | exact Or.inr (atolfp_finish_some _ _ _ _ (by norm_num))

theorem isSpaceByte_isspace {c : Nat} (h : isSpaceByte c) : ntp_isspace c = true := by
  have hc : c < 256 := by
    simp only [isSpaceByte] at h
    omega
  exact (ntp_isspace_iff c hc).mpr h

/-- From the form to success: every string of the accepted form makes `atolfp`
return 1. -/
theorem atolfp_of_form (s : List Nat) (lfp : l_fp) (hs : isCStr s) (hf : atolfpForm s) :
    ∃ v, atolfp s lfp = some (1, v) := by
  obtain ⟨ws, sg, ds, rest, rfl, hws, hsg, hds, hrest⟩ := hf
  have hrest_cstr : isCStr rest := (isCStr_append (isCStr_append (isCStr_append hs).2).2).2
  -- the head of `ds ++ rest` is a digit or the dot
  have hp : peek (ds ++ rest) = 46 ∨ isDigitByte (peek (ds ++ rest)) := by
    cases ds with
    | nil =>
      rcases hrest with ⟨h, _⟩ | ⟨fs, rest2, rfl, _, _⟩
      · exact absurd rfl h
      · exact Or.inl rfl
    | cons d ds => exact Or.inr (hds d (List.mem_cons_self _ _))
  have hY45 : peek (ds ++ rest) ≠ 45 := by
    rcases hp with h | h
    · rw [h]; decide
    · simp only [isDigitByte] at h; omega
  have hY43 : peek (ds ++ rest) ≠ 43 := by
    rcases hp with h | h
    · rw [h]; decide
    · simp only [isDigitByte] at h; omega
  have hYsp : ntp_isspace (peek (ds ++ rest)) = false := by
    rcases hp with h | h
    · rw [h]; decide
    · exact isDigitByte_not_space h
  have hstart : ¬ (peek (ds ++ rest) ≠ 46 ∧ ¬ ntp_isdigit (peek (ds ++ rest)) = true) := by
    rcases hp with h | h
    · exact fun hh => hh.1 h
    · exact fun hh => hh.2 (isDigitByte_isdigit h)
  -- the integer loop stops at `rest`
  have hrest_nd : ¬ isDigitByte (peek rest) := by
    rcases hrest with ⟨_, h⟩ | ⟨fs, rest2, rfl, _, _⟩
    · exact numberEnds_not_digit rest h
    · rw [peek_cons]; decide
  have hint : (atolfp_int 0 (ds ++ rest)).2 = rest := by
    rw [atolfp_int_append ds rest 0 (by norm_num) hds]
    rw [atolfp_int_stop rest _ ?_]
    cases rest with
    | nil => exact Or.inl rfl
    | cons c cs =>
      refine Or.inr ?_
      rw [peek_cons] at hrest_nd ⊢
      exact fun hh => hrest_nd ((ind_le_iff c (isCStr_cons hrest_cstr).1.2).mp hh)
  -- after the sign the pointer is at `ds ++ rest`
  have hskip : skipSpaces (ws ++ (sg ++ (ds ++ rest))) = sg ++ (ds ++ rest) := by
    rw [skipSpaces_append ws _ (fun c hc => isSpaceByte_isspace (hws c hc))]
    apply skipSpaces_of_not_space
    rcases hsg with rfl | rfl | rfl
    · exact hYsp
    · show ntp_isspace 45 = false
      decide
    · show ntp_isspace 43 = false
      decide
  have hbody : ∀ isneg : Bool,
      ∃ v, (if peek (ds ++ rest) ≠ 46 ∧ ¬ ntp_isdigit (peek (ds ++ rest)) = true then some (0, lfp)
        else
          if peek (atolfp_int 0 (ds ++ rest)).2 ≠ 0 ∧
              ¬ ntp_isspace (peek (atolfp_int 0 (ds ++ rest)).2) = true then
            if peek (atolfp_int 0 (ds ++ rest)).2 ≠ 46 then some (0, lfp)
            else
              if peek (skipDigits (atolfp_frac 0 0 (atolfp_int 0 (ds ++ rest)).2.tail).2.2) ≠ 0 ∧
                  ¬ ntp_isspace (peek (skipDigits
                    (atolfp_frac 0 0 (atolfp_int 0 (ds ++ rest)).2.tail).2.2)) = true then
                some (0, lfp)
              else atolfp_finish isneg (atolfp_int 0 (ds ++ rest)).1
                (atolfp_frac 0 0 (atolfp_int 0 (ds ++ rest)).2.tail).1
                (atolfp_frac 0 0 (atolfp_int 0 (ds ++ rest)).2.tail).2.1
          else atolfp_finish isneg (atolfp_int 0 (ds ++ rest)).1 0 0) = some (1, v) := by
    intro isneg
    rw [if_neg hstart, hint]
    rcases hrest with ⟨_, hend⟩ | ⟨fs, rest2, rfl, hfs, hend⟩
    · rw [if_neg (peek_of_numberEnds rest hrest_cstr hend)]
      exact atolfp_finish_some _ _ _ _ (by norm_num)
    · have h46 : peek (46 :: (fs ++ rest2)) ≠ 0 ∧ ¬ ntp_isspace (peek (46 :: (fs ++ rest2))) = true := by
        rw [peek_cons]
        decide
      have hcs2 : isCStr (fs ++ rest2) := (isCStr_cons hrest_cstr).2
      rw [if_pos h46, if_neg (by rw [peek_cons]; decide), List.tail_cons,
        skipDigits_frac _ _ _ hcs2,
        skipDigits_append fs rest2 (fun c hc => isDigitByte_isdigit (hfs c hc)),
        skipDigits_of_not_digit rest2 ?_,
        if_neg (peek_of_numberEnds rest2 (isCStr_append hcs2).2 hend)]
      · exact atolfp_finish_some _ _ _ _ (atolfp_frac_ndec_le _ _ _ (by norm_num))
      · have hnd := numberEnds_not_digit rest2 hend
        cases hx : ntp_isdigit (peek rest2)
        · rfl
        · exfalso
          cases rest2 with
          | nil => simp [peek, ntp_isdigit] at hx
          | cons c cs =>
            rw [peek_cons] at hx hnd
            exact hnd ((ntp_isdigit_iff c ((isCStr_cons (isCStr_append hcs2).2).1.2)).mp hx)
  unfold atolfp
  dsimp only
  rw [hskip]
  rcases hsg with rfl | rfl | rfl
  · simp only [List.nil_append, hY45, hY43, if_false]
    exact hbody _
  · simp only [List.cons_append, List.nil_append, peek_cons, if_true, List.tail_cons, hY43,
      if_false]
    exact hbody _
  · have h1 : peek (43 :: (ds ++ rest)) ≠ 45 := by
      rw [peek_cons]
      decide
    simp only [List.cons_append, List.nil_append, h1, if_false, peek_cons, if_true,
      List.tail_cons]
    exact hbody _

theorem cons_of_peek_ne_zero (t : List Nat) (h : peek t ≠ 0) : t = peek t :: t.tail := by
  cases t with
  | nil => exact absurd rfl h
  | cons c cs => rfl

theorem allSpaceByte_of_isspace (ws : List Nat) (hc : isCStr ws)
    (h : ∀ c ∈ ws, ntp_isspace c = true) : ∀ c ∈ ws, isSpaceByte c :=
  fun c hcm => (ntp_isspace_iff c (hc c hcm).2).mp (h c hcm)

theorem allDigitByte_of_isdigit (fs : List Nat) (hc : isCStr fs)
    (h : ∀ c ∈ fs, ntp_isdigit c = true) : ∀ c ∈ fs, isDigitByte c :=
  fun c hcm => (ntp_isdigit_iff c (hc c hcm).2).mp (h c hcm)

/-- The part of `atolfp` after the sign: if it returns 1 on `Y`, then `Y` is
digits, or digits around a dot, properly ended. -/
theorem atolfp_body_form (Y : List Nat) (lfp : l_fp) (isneg : Bool) (v : l_fp) (hY : isCStr Y)
    (h : (if peek Y ≠ 46 ∧ ¬ ntp_isdigit (peek Y) = true then some (0, lfp)
        else
          if peek (atolfp_int 0 Y).2 ≠ 0 ∧ ¬ ntp_isspace (peek (atolfp_int 0 Y).2) = true then
            if peek (atolfp_int 0 Y).2 ≠ 46 then some (0, lfp)
            else
              if peek (skipDigits (atolfp_frac 0 0 (atolfp_int 0 Y).2.tail).2.2) ≠ 0 ∧
                  ¬ ntp_isspace (peek (skipDigits
                    (atolfp_frac 0 0 (atolfp_int 0 Y).2.tail).2.2)) = true then
                some (0, lfp)
              else atolfp_finish isneg (atolfp_int 0 Y).1
                (atolfp_frac 0 0 (atolfp_int 0 Y).2.tail).1
                (atolfp_frac 0 0 (atolfp_int 0 Y).2.tail).2.1
          else atolfp_finish isneg (atolfp_int 0 Y).1 0 0) = some (1, v)) :
    ∃ ds rest, Y = ds ++ rest ∧ (∀ c ∈ ds, isDigitByte c) ∧
      ((ds ≠ [] ∧ numberEnds rest) ∨
        (∃ fs rest2, rest = 46 :: (fs ++ rest2) ∧ (∀ c ∈ fs, isDigitByte c) ∧ numberEnds rest2)) := by
  obtain ⟨ds, hds1, hds2, hds3⟩ := atolfp_int_spec Y 0 hY
  have hR : isCStr (atolfp_int 0 Y).2 := by
    have := hY
    rw [hds1] at this
    exact (isCStr_append this).2
  generalize (atolfp_int 0 Y).2 = R at *
  generalize (atolfp_int 0 Y).1 = dec_i at *
  refine ⟨ds, R, hds1, hds2, ?_⟩
  split_ifs at h with c1 c2 c3 c4
  · simp at h
  · simp at h
  · simp at h
  · -- a dot follows the integer digits
    right
    have h46 : peek R = 46 := not_not.mp c3
    have hRc : R = 46 :: R.tail := by
      have := cons_of_peek_ne_zero R c2.1
      rw [h46] at this
      exact this
    have hT : isCStr R.tail := by
      have := hR
      rw [hRc] at this
      exact (isCStr_cons this).2
    rw [skipDigits_frac _ _ _ hT] at c4
    obtain ⟨fs, hfs1, hfs2, _⟩ := skipDigits_spec R.tail
    have hfs_c : isCStr fs := by
      have := hT
      rw [hfs1] at this
      exact (isCStr_append this).1
    have hr2_c : isCStr (skipDigits R.tail) := by
      have := hT
      rw [hfs1] at this
      exact (isCStr_append this).2
    refine ⟨fs, skipDigits R.tail, ?_, allDigitByte_of_isdigit fs hfs_c hfs2,
      numberEnds_of_peek _ hr2_c c4⟩
    rw [← hfs1]
    exact hRc
  · -- the number ends after the integer digits
    left
    refine ⟨?_, numberEnds_of_peek R hR c2⟩
    rintro rfl
    rw [List.nil_append] at hds1
    rw [← hds1] at c2
    have hend := numberEnds_of_peek Y hY c2
    have hnd := numberEnds_not_digit Y hend
    rcases hend with rfl | ⟨c, r, rfl, hc⟩
    · exact c1 ⟨by decide, by decide⟩
    · rw [peek_cons] at c1 hnd
      apply c1
      refine ⟨?_, ?_⟩
      · simp only [isSpaceByte] at hc
        omega
      · intro hd
        exact hnd ((ntp_isdigit_iff c (isCStr_cons hY).1.2).mp hd)

/-- From success to the form, for strings that do not start (after whitespace)
with the sign pair `-+`. -/
theorem atolfp_form_of_success (s : List Nat) (lfp v : l_fp) (hs : isCStr s)
    (hsign : ¬ ∃ ws r, (∀ c ∈ ws, isSpaceByte c) ∧ s = ws ++ 45 :: 43 :: r)
    (h : atolfp s lfp = some (1, v)) : atolfpForm s := by
  obtain ⟨ws, hws1, hws2, hws3⟩ := skipSpaces_spec s
  have hws_c : isCStr ws := by
    have := hs
    rw [hws1] at this
    exact (isCStr_append this).1
  have hX_c : isCStr (skipSpaces s) := by
    have := hs
    rw [hws1] at this
    exact (isCStr_append this).2
  have hwsB := allSpaceByte_of_isspace ws hws_c hws2
  unfold atolfp at h
  dsimp only at h
  generalize skipSpaces s = X at *
  by_cases h45 : peek X = 45
  · -- a minus sign
    have hXc : X = 45 :: X.tail := by
      have := cons_of_peek_ne_zero X (by rw [h45]; decide)
      rw [h45] at this
      exact this
    have hT : isCStr X.tail := by
      have := hX_c
      rw [hXc] at this
      exact (isCStr_cons this).2
    have h43 : peek X.tail ≠ 43 := by
      intro h43
      apply hsign
      refine ⟨ws, X.tail.tail, hwsB, ?_⟩
      have hTc : X.tail = 43 :: X.tail.tail := by
        have := cons_of_peek_ne_zero X.tail (by rw [h43]; decide)
        rw [h43] at this
        exact this
      rw [← hTc, ← hXc]
      exact hws1
    rw [if_pos h45, if_neg h43] at h
    obtain ⟨ds, rest, e, hds, hr⟩ := atolfp_body_form X.tail lfp _ v hT h
    refine ⟨ws, [45], ds, rest, ?_, hwsB, Or.inr (Or.inl rfl), hds, hr⟩
    rw [← e, List.singleton_append, ← hXc]
    exact hws1
  · by_cases h43 : peek X = 43
    · have hXc : X = 43 :: X.tail := by
        have := cons_of_peek_ne_zero X (by rw [h43]; decide)
        rw [h43] at this
        exact this
      have hT : isCStr X.tail := by
        have := hX_c
        rw [hXc] at this
        exact (isCStr_cons this).2
      rw [if_neg h45, if_pos h43] at h
      obtain ⟨ds, rest, e, hds, hr⟩ := atolfp_body_form X.tail lfp _ v hT h
      refine ⟨ws, [43], ds, rest, ?_, hwsB, Or.inr (Or.inr rfl), hds, hr⟩
      rw [← e, List.singleton_append, ← hXc]
      exact hws1
    · rw [if_neg h45, if_neg h43] at h
      obtain ⟨ds, rest, e, hds, hr⟩ := atolfp_body_form X lfp _ v hX_c h
      refine ⟨ws, [], ds, rest, ?_, hwsB, Or.inl rfl, hds, hr⟩
      rw [← e, List.nil_append]
      exact hws1

/-! ### `hextolfp` -/

theorem strchr_hex (c : Nat) (h : isHexByte c) :
    ∃ k, strchr hexdigits c = some k ∧ (if k > 15 then k - 6 else k) = hexDigitVal c := by
  simp only [isHexByte] at h
  rcases h with ⟨h1, h2⟩ | ⟨h1, h2⟩ | ⟨h1, h2⟩
  all_goals
    interval_cases c
    all_goals exact ⟨_, rfl, rfl⟩

theorem strchr_none (s : List Nat) (c : Nat) (h : c ∉ s) (h0 : c ≠ 0) : strchr s c = none := by
  induction s with
  | nil => simp [strchr, h0]
  | cons x xs ih =>
    have hx : x ≠ c := fun e => h (e ▸ List.mem_cons_self _ _)
    have hxs : c ∉ xs := fun e => h (List.mem_cons_of_mem _ e)
    simp [strchr, hx, ih hxs]

theorem strchr_not_hex (c : Nat) (h : ¬ isHexByte c) (h0 : c ≠ 0) :
    strchr hexdigits c = none := by
  apply strchr_none _ _ _ h0
  simp only [isHexByte] at h
  simp only [hexdigits, List.mem_cons, List.mem_singleton, List.not_mem_nil, or_false]
  omega

theorem isHexByte_lt {c : Nat} (h : isHexByte c) : 0 < c ∧ c < 256 := by
  simp only [isHexByte] at h
  omega

theorem hexVal_foldl (ds : List Nat) (acc : Nat) :
    ds.foldl (fun acc c => 16 * acc + hexDigitVal c) acc =
      acc * 16 ^ ds.length + hexVal ds := by
  induction ds generalizing acc with
  | nil => simp [hexVal]
  | cons d ds ih =>
    simp only [List.foldl_cons, List.length_cons, hexVal]
    rw [ih, ih (16 * 0 + _)]
    ring

theorem hexVal_cons (d : Nat) (ds : List Nat) :
    hexVal (d :: ds) = hexDigitVal d * 16 ^ ds.length + hexVal ds := by
  have h : hexVal (d :: ds) =
      ds.foldl (fun acc c => 16 * acc + hexDigitVal c) (16 * 0 + hexDigitVal d) := rfl
  rw [h, hexVal_foldl]
  simp

theorem hexDigitVal_lt (c : Nat) (h : isHexByte c) : hexDigitVal c < 16 := by
  simp only [isHexByte] at h
  simp only [hexDigitVal]
  split_ifs <;> omega

theorem hexVal_lt (ds : List Nat) (h : ∀ c ∈ ds, isHexByte c) : hexVal ds < 16 ^ ds.length := by
  induction ds with
  | nil => simp [hexVal]
  | cons d ds ih =>
    rw [hexVal_cons, List.length_cons, pow_succ]
    have h1 := ih (fun c hc => h c (List.mem_cons_of_mem _ hc))
    have h2 := hexDigitVal_lt d (h d (List.mem_cons_self _ _))
    have h3 : hexDigitVal d ≤ 15 := by omega
    nlinarith [Nat.mul_le_mul_right (16 ^ ds.length) h3]

theorem hextolfp_scan_cons (n dec c : Nat) (ind : Option Nat) (cs : List Nat) :
    hextolfp_scan n dec ind (c :: cs) =
      if c ≠ 0 ∧ n < 8 then
        match strchr hexdigits c with
        | some k =>
          hextolfp_scan (n + 1)
            (((dec <<< 4) % 2 ^ 32 + (if k > 15 then k - 6 else k)) % 2 ^ 32) (some k) cs
        | none => (n, dec, none, c :: cs)
      else (n, dec, ind, c :: cs) := rfl

theorem hex_step_mod (acc d p v : Nat) :
    (((acc <<< 4) % 2 ^ 32 + d) % 2 ^ 32 * p + v) % 2 ^ 32 =
      (acc * (p * 16) + (d * p + v)) % 2 ^ 32 := by
  have h1 : ((acc <<< 4) % 2 ^ 32 + d) % 2 ^ 32 = (16 * acc + d) % 2 ^ 32 := by
    rw [Nat.shiftLeft_eq]
    norm_num
    omega
  rw [h1, Nat.add_mod, Nat.mul_mod, Nat.mod_mod, ← Nat.mul_mod, ← Nat.add_mod]
  congr 1
  ring

/-- What a digit loop of `hextolfp` does on any string: it reads a run of at
most `8 - n` hexadecimal digits. -/
theorem hextolfp_scan_spec (s : List Nat) (n dec : Nat) (ind : Option Nat) (hs : isCStr s)
    (hn : n ≤ 8) (hdec : dec < 2 ^ 32) :
    ∃ hd, s = hd ++ (hextolfp_scan n dec ind s).2.2.2 ∧ (∀ c ∈ hd, isHexByte c) ∧
      (hextolfp_scan n dec ind s).1 = n + hd.length ∧ (hextolfp_scan n dec ind s).1 ≤ 8 ∧
      (hextolfp_scan n dec ind s).2.1 = (dec * 16 ^ hd.length + hexVal hd) % 2 ^ 32 := by
  induction s generalizing n dec ind with
  | nil =>
    refine ⟨[], rfl, by simp, rfl, hn, ?_⟩
    simp only [hextolfp_scan, List.length_nil, pow_zero, mul_one, hexVal, List.foldl_nil, add_zero]
    exact (Nat.mod_eq_of_lt hdec).symm
  | cons c cs ih =>
    obtain ⟨hc, hcs⟩ := isCStr_cons hs
    rw [hextolfp_scan_cons]
    by_cases c1 : c ≠ 0 ∧ n < 8
    · rw [if_pos c1]
      by_cases hx : isHexByte c
      · obtain ⟨k, hk1, hk2⟩ := strchr_hex c hx
        rw [hk1]
        dsimp only
        obtain ⟨hd, e1, e2, e3, e4, e5⟩ := ih (n + 1)
          (((dec <<< 4) % 2 ^ 32 + (if k > 15 then k - 6 else k)) % 2 ^ 32) (some k) hcs
          (by omega) (Nat.mod_lt _ (by norm_num))
        refine ⟨c :: hd, ?_, ?_, ?_, e4, ?_⟩
        · rw [List.cons_append, ← e1]
        · intro x hxm
          rcases List.mem_cons.mp hxm with rfl | hxm
          · exact hx
          · exact e2 x hxm
        · rw [e3, List.length_cons]
          omega
        · rw [e5, hk2, hexVal_cons, List.length_cons, pow_succ 16 hd.length, hex_step_mod]
      · rw [strchr_not_hex c hx c1.1]
        dsimp only
        refine ⟨[], rfl, by simp, rfl, hn, ?_⟩
        simp only [List.length_nil, pow_zero, mul_one, hexVal, List.foldl_nil, add_zero]
        exact (Nat.mod_eq_of_lt hdec).symm
    · rw [if_neg c1]
      refine ⟨[], rfl, by simp, rfl, hn, ?_⟩
      simp only [List.length_nil, pow_zero, mul_one, hexVal, List.foldl_nil, add_zero]
      exact (Nat.mod_eq_of_lt hdec).symm

/-- A digit loop of `hextolfp` over a run of hexadecimal digits that fits. -/
theorem hextolfp_scan_append (hd rest : List Nat) (n dec : Nat) (ind : Option Nat)
    (h : ∀ c ∈ hd, isHexByte c) (hn : n + hd.length ≤ 8) (hdec : dec < 2 ^ 32) :
    ∃ ind2, (hd ≠ [] → ind2 ≠ none) ∧
      hextolfp_scan n dec ind (hd ++ rest) =
        hextolfp_scan (n + hd.length) ((dec * 16 ^ hd.length + hexVal hd) % 2 ^ 32) ind2 rest := by
  induction hd generalizing n dec ind with
  | nil =>
    refine ⟨ind, fun hh => absurd rfl hh, ?_⟩
    simp only [List.nil_append, List.length_nil, pow_zero, mul_one, hexVal, List.foldl_nil,
      add_zero]
    rw [Nat.mod_eq_of_lt hdec]
  | cons c cs ih =>
    have hx := h c (List.mem_cons_self _ _)
    have hc := isHexByte_lt hx
    simp only [List.length_cons] at hn
    obtain ⟨k, hk1, hk2⟩ := strchr_hex c hx
    have c1 : c ≠ 0 ∧ n < 8 := ⟨by omega, by omega⟩
    rw [List.cons_append, hextolfp_scan_cons, if_pos c1, hk1]
    dsimp only
    obtain ⟨ind2, i1, i2⟩ := ih (n + 1)
      (((dec <<< 4) % 2 ^ 32 + (if k > 15 then k - 6 else k)) % 2 ^ 32) (some k)
      (fun x hxm => h x (List.mem_cons_of_mem _ hxm)) (by omega) (Nat.mod_lt _ (by norm_num))
    by_cases hcs : cs = []
    · subst hcs
      refine ⟨some k, fun _ => by simp, ?_⟩
      rw [hk2, hexVal_cons, List.length_cons, pow_succ 16 ([] : List Nat).length, ← hex_step_mod,
        ← hk2]
      simp [hexVal]
    · refine ⟨ind2, fun _ => i1 hcs, ?_⟩
      rw [i2, hk2, hexVal_cons, List.length_cons, pow_succ 16 cs.length, hex_step_mod]
      congr 1
      omega

theorem hextolfp_scan_full (rest : List Nat) (dec : Nat) (ind : Option Nat) :
    hextolfp_scan 8 dec ind rest = (8, dec, ind, rest) := by
  cases rest with
  | nil => rfl
  | cons c cs =>
    rw [hextolfp_scan_cons, if_neg (by omega)]


theorem isHexByte_not_space {c : Nat} (h : isHexByte c) : ntp_isspace c = false := by
  have h2 := ntp_isspace_iff c (isHexByte_lt h).2
  simp only [isSpaceByte, isHexByte] at h h2
  cases hc : ntp_isspace c
  · rfl
  · have := h2.mp hc
    omega

theorem peek_hex_append (h1 : List Nat) (rest : List Nat) (hl : h1.length = 8)
    (hh : ∀ c ∈ h1, isHexByte c) : isHexByte (peek (h1 ++ rest)) := by
  cases h1 with
  | nil => simp at hl
  | cons c cs => exact hh c (List.mem_cons_self _ _)

theorem ne_nil_of_length_eight (h1 : List Nat) (hl : h1.length = 8) : h1 ≠ [] := by
  rintro rfl
  simp at hl

/-- From the form to success, with the stored value. -/
theorem hextolfp_of_form (s h1 h2 : List Nat) (lfp : l_fp) (hs : isCStr s)
    (hf : hextolfpForm s h1 h2) : hextolfp s lfp = (1, ⟨hexVal h1, hexVal h2⟩) := by
  obtain ⟨ws, dot, rest, rfl, hws, hl1, hh1, hdot, hl2, hh2, hend⟩ := hf
  have hrest_c : isCStr rest :=
    (isCStr_append (isCStr_append (isCStr_append (isCStr_append hs).2).2).2).2
  have hskip : skipSpaces (ws ++ (h1 ++ (dot ++ (h2 ++ rest)))) = h1 ++ (dot ++ (h2 ++ rest)) := by
    rw [skipSpaces_append ws _ (fun c hc => isSpaceByte_isspace (hws c hc))]
    exact skipSpaces_of_not_space _ (isHexByte_not_space (peek_hex_append h1 _ hl1 hh1))
  obtain ⟨i1, hi1, e1⟩ := hextolfp_scan_append h1 (dot ++ (h2 ++ rest)) 0 0 none hh1
    (by omega) (by norm_num)
  have hv1 : hexVal h1 < 2 ^ 32 := by
    have := hexVal_lt h1 hh1
    rw [hl1] at this
    norm_num at this ⊢
    exact this
  rw [zero_mul, zero_add, zero_add, hl1, Nat.mod_eq_of_lt hv1, hextolfp_scan_full] at e1
  have hcp : (if peek (dot ++ (h2 ++ rest)) = 46 then (dot ++ (h2 ++ rest)).tail
      else dot ++ (h2 ++ rest)) = h2 ++ rest := by
    rcases hdot with rfl | rfl
    · have hx := peek_hex_append h2 rest hl2 hh2
      have : peek ([] ++ (h2 ++ rest)) ≠ 46 := by
        rw [List.nil_append]
        simp only [isHexByte] at hx
        omega
      rw [if_neg this, List.nil_append]
    · rfl
  obtain ⟨i2, hi2, e2⟩ := hextolfp_scan_append h2 rest 0 0 i1 hh2 (by omega) (by norm_num)
  have hv2 : hexVal h2 < 2 ^ 32 := by
    have := hexVal_lt h2 hh2
    rw [hl2] at this
    norm_num at this ⊢
    exact this
  rw [zero_mul, zero_add, zero_add, hl2, Nat.mod_eq_of_lt hv2, hextolfp_scan_full] at e2
  have hi1n := hi1 (ne_nil_of_length_eight h1 hl1)
  have hi2n := hi2 (ne_nil_of_length_eight h2 hl2)
  unfold hextolfp
  dsimp only
  rw [hskip, e1]
  dsimp only
  rw [hcp, e2]
  dsimp only
  have c1 : ¬ (8 < 8 ∨ i1 = none) := by
    rintro (h | h)
    · omega
    · exact hi1n h
  have c2 : ¬ (8 < 8 ∨ i2 = none) := by
    rintro (h | h)
    · omega
    · exact hi2n h
  rw [if_neg c1, if_neg c2, if_neg (peek_of_numberEnds rest hrest_c hend)]

theorem hexVal_eight (hd : List Nat) (hl : hd.length = 8) (hh : ∀ c ∈ hd, isHexByte c) :
    (0 * 16 ^ hd.length + hexVal hd) % 2 ^ 32 = hexVal hd := by
  have hv := hexVal_lt hd hh
  rw [hl] at hv
  rw [zero_mul, zero_add]
  apply Nat.mod_eq_of_lt
  norm_num at hv ⊢
  exact hv

/-- The second half of `hextolfp`, from the second digit loop on. -/
theorem hextolfp_second_half (cp : List Nat) (i1 : Option Nat) (d1 : Nat) (lfp v : l_fp)
    (hcp : isCStr cp)
    (h : (if (hextolfp_scan 0 0 i1 cp).1 < 8 ∨ (hextolfp_scan 0 0 i1 cp).2.2.1 = none then (0, lfp)
        else if peek (hextolfp_scan 0 0 i1 cp).2.2.2 ≠ 0 ∧
            ¬ ntp_isspace (peek (hextolfp_scan 0 0 i1 cp).2.2.2) = true then (0, lfp)
        else (1, (⟨d1, (hextolfp_scan 0 0 i1 cp).2.1⟩ : l_fp))) = (1, v)) :
    ∃ h2 rest, cp = h2 ++ rest ∧ h2.length = 8 ∧ (∀ c ∈ h2, isHexByte c) ∧ numberEnds rest ∧
      v = ⟨d1, hexVal h2⟩ := by
  obtain ⟨hd2, b1, b2, b3, b4, b5⟩ := hextolfp_scan_spec cp 0 0 i1 hcp (by omega) (by norm_num)
  have hR2_c : isCStr (hextolfp_scan 0 0 i1 cp).2.2.2 := by
    have := hcp
    rw [b1] at this
    exact (isCStr_append this).2
  split_ifs at h with c1 c2
  · simp at h
  · simp at h
  · have hl2 : hd2.length = 8 := by
      have : ¬ (hextolfp_scan 0 0 i1 cp).1 < 8 := fun hh => c1 (Or.inl hh)
      omega
    simp only [Prod.mk.injEq, true_and] at h
    refine ⟨hd2, _, b1, hl2, b2, numberEnds_of_peek _ hR2_c c2, ?_⟩
    rw [← h, b5, hexVal_eight hd2 hl2 b2]

/-- From success to the form. -/
theorem hextolfp_form_of_success (s : List Nat) (lfp v : l_fp) (hs : isCStr s)
    (h : hextolfp s lfp = (1, v)) :
    ∃ h1 h2, hextolfpForm s h1 h2 ∧ v = ⟨hexVal h1, hexVal h2⟩ := by
  obtain ⟨ws, hws1, hws2, hws3⟩ := skipSpaces_spec s
  have hws_c : isCStr ws := by
    have := hs
    rw [hws1] at this
    exact (isCStr_append this).1
  have hX_c : isCStr (skipSpaces s) := by
    have := hs
    rw [hws1] at this
    exact (isCStr_append this).2
  have hwsB := allSpaceByte_of_isspace ws hws_c hws2
  unfold hextolfp at h
  dsimp only at h
  generalize skipSpaces s = X at *
  obtain ⟨hd1, a1, a2, a3, a4, a5⟩ := hextolfp_scan_spec X 0 0 none hX_c (by omega) (by norm_num)
  have hR1_c : isCStr (hextolfp_scan 0 0 none X).2.2.2 := by
    have := hX_c
    rw [a1] at this
    exact (isCStr_append this).2
  generalize hextolfp_scan 0 0 none X = r1 at *
  obtain ⟨n1, d1, i1, R1⟩ := r1
  dsimp only at h a1 a3 a4 a5 hR1_c
  by_cases c1 : n1 < 8 ∨ i1 = none
  · rw [if_pos c1] at h
    simp at h
  · rw [if_neg c1] at h
    have hl1 : hd1.length = 8 := by
      have : ¬ n1 < 8 := fun hh => c1 (Or.inl hh)
      omega
    have hd1v : d1 = hexVal hd1 := by rw [a5, hexVal_eight hd1 hl1 a2]
    by_cases h46 : peek R1 = 46
    · rw [if_pos h46] at h
      have hR1 : R1 = 46 :: R1.tail := by
        have := cons_of_peek_ne_zero R1 (by omega)
        rw [h46] at this
        exact this
      have hT_c : isCStr R1.tail := by
        have := hR1_c
        rw [hR1] at this
        exact (isCStr_cons this).2
      obtain ⟨h2, rest, e, hl2, hh2, hend, hv⟩ := hextolfp_second_half R1.tail i1 d1 lfp v hT_c h
      refine ⟨hd1, h2, ⟨ws, [46], rest, ?_, hwsB, hl1, a2, Or.inr rfl, hl2, hh2, hend⟩, ?_⟩
      · rw [List.singleton_append, ← e, ← hR1, ← a1]
        exact hws1
      · rw [hv, hd1v]
    · rw [if_neg h46] at h
      obtain ⟨h2, rest, e, hl2, hh2, hend, hv⟩ := hextolfp_second_half R1 i1 d1 lfp v hR1_c h
      refine ⟨hd1, h2, ⟨ws, [], rest, ?_, hwsB, hl1, a2, Or.inl rfl, hl2, hh2, hend⟩, ?_⟩
      · rw [List.nil_append, ← e, ← a1]
        exact hws1
      · rw [hv, hd1v]

/-- `hextolfp` returns 0 with `*lfp` untouched, or 1. -/
theorem hextolfp_total (s : List Nat) (lfp : l_fp) :
    hextolfp s lfp = (0, lfp) ∨ ∃ v, hextolfp s lfp = (1, v) := by
  unfold hextolfp
  dsimp only
  split_ifs
  all_goals first
    | exact Or.inl rfl
    | exact Or.inr ⟨_, rfl⟩

/-! ### Formatter facts -/

theorem get?_eq_cell (cbuf : List Nat) (i : Nat) (h : i < cbuf.length) :
    cbuf.get? i = some (cell cbuf i) := by
  simp [cell, List.getD, List.get?_eq_getElem?, List.getElem?_eq_getElem h]

theorem wr_eq (cbuf : List Nat) (k v : Nat) (h : k < cbuf.length) :
    wr cbuf k v = some (cbuf.set k v) := by
  simp [wr, h]

theorem cell_set (cbuf : List Nat) (k v i : Nat) (h : k < cbuf.length) :
    cell (cbuf.set k v) i = if i = k then v else cell cbuf i := by
  simp only [cell, List.getD_eq_getElem?_getD, List.getElem?_set]
  by_cases hik : i = k
  · subst hik
    simp [h]
  · have : ¬ k = i := fun e => hik e.symm
    simp [hik, this]

theorem bufVal_set_ge (cbuf : List Nat) (k v n : Nat) (h : k < cbuf.length) (hk : n ≤ k) :
    bufVal (cbuf.set k v) n = bufVal cbuf n := by
  induction n with
  | zero => rfl
  | succ n ih =>
    simp only [bufVal]
    rw [ih (by omega), cell_set cbuf k v n h, if_neg (by omega)]

theorem bufVal_set_lt (cbuf : List Nat) (k v n : Nat) (h : k < cbuf.length) (hk : k < n)
    (h0 : cell cbuf k = 0) :
    bufVal (cbuf.set k v) n = bufVal cbuf n + v * 10 ^ (n - 1 - k) := by
  induction n with
  | zero => omega
  | succ n ih =>
    simp only [bufVal]
    by_cases hkn : k = n
    · subst hkn
      rw [bufVal_set_ge cbuf k v k h (le_refl _), cell_set cbuf k v k h, if_pos rfl, h0]
      simp
    · rw [ih (by omega), cell_set cbuf k v n h, if_neg (fun e => hkn e.symm)]
      have : n + 1 - 1 - k = (n - 1 - k) + 1 := by omega
      rw [this, pow_succ]
      ring

theorem bufVal_zero (cbuf : List Nat) (n : Nat) (h : ∀ i < n, cell cbuf i = 0) :
    bufVal cbuf n = 0 := by
  induction n with
  | zero => rfl
  | succ n ih =>
    simp only [bufVal]
    rw [ih (fun i hi => h i (by omega)), h n (by omega)]

theorem bufVal_add (cbuf : List Nat) (n m : Nat) (h : ∀ i, n ≤ i → i < n + m → cell cbuf i = 0) :
    bufVal cbuf (n + m) = bufVal cbuf n * 10 ^ m := by
  induction m with
  | zero => simp
  | succ m ih =>
    rw [← Nat.add_assoc]
    simp only [bufVal]
    rw [ih (fun i h1 h2 => h i h1 (by omega)), h (n + m) (by omega) (by omega), pow_succ]
    ring

theorem bufVal_lt (cbuf : List Nat) (n : Nat) (h : ∀ i < n, cell cbuf i < 10) :
    bufVal cbuf n < 10 ^ n := by
  induction n with
  | zero => simp [bufVal]
  | succ n ih =>
    simp only [bufVal]
    have h1 := ih (fun i hi => h i (by omega))
    have h2 := h n (by omega)
    rw [pow_succ]
    omega

theorem cell_replicate (n i : Nat) : cell (List.replicate n 0) i = 0 := by
  simp only [cell, List.getD_eq_getElem?_getD]
  by_cases h : i < n
  · simp [List.getElem?_replicate, h]
  · simp [List.getElem?_replicate, h]

/-- The rounding step adds one to the number held by the first `tp` cells. -/
theorem carryUp_spec (tp : Nat) : ∀ cbuf : List Nat, tp ≤ cbuf.length →
    (∀ i < tp, cell cbuf i < 10) → bufVal cbuf tp + 1 < 10 ^ tp →
    ∃ cbuf2 tp2, carryUp cbuf tp = some (cbuf2, tp2) ∧ tp2 < tp ∧
      cbuf2.length = cbuf.length ∧ bufVal cbuf2 tp = bufVal cbuf tp + 1 ∧
      (∀ i, tp ≤ i → cell cbuf2 i = cell cbuf i) ∧ (∀ i < tp2, cell cbuf2 i = cell cbuf i) ∧
      (∀ i < tp, cell cbuf2 i < 10) ∧ cell cbuf2 tp2 ≠ 0 := by
  induction tp with
  | zero =>
    intro cbuf _ _ h
    simp [bufVal] at h
  | succ tp ih =>
    intro cbuf hlen hdig hval
    have hl : tp < cbuf.length := by omega
    have hx : cell cbuf tp < 10 := hdig tp (by omega)
    simp only [carryUp]
    rw [get?_eq_cell cbuf tp hl, Option.some_bind]
    by_cases h9 : (cell cbuf tp + 1) % 256 ≥ 10
    · have hx9 : cell cbuf tp = 9 := by omega
      rw [if_pos h9, wr_eq cbuf tp 0 hl, Option.some_bind]
      have hlen2 : (cbuf.set tp 0).length = cbuf.length := List.length_set _ _ _
      have hval2 : bufVal (cbuf.set tp 0) tp + 1 < 10 ^ tp := by
        rw [bufVal_set_ge cbuf tp 0 tp hl (le_refl _)]
        simp only [bufVal] at hval
        rw [pow_succ, hx9] at hval
        omega
      obtain ⟨c2, t2, e, h1, h2, h3, h4, h5, h6, h7⟩ := ih (cbuf.set tp 0) (by omega)
        (fun i hi => by
          rw [cell_set cbuf tp 0 i hl, if_neg (by omega)]
          exact hdig i (by omega)) hval2
      refine ⟨c2, t2, e, by omega, by omega, ?_, ?_, ?_, ?_, h7⟩
      · simp only [bufVal]
        rw [h3, bufVal_set_ge cbuf tp 0 tp hl (le_refl _), h4 tp (le_refl _),
          cell_set cbuf tp 0 tp hl, if_pos rfl, hx9]
        omega
      · intro i hi
        rw [h4 i (by omega), cell_set cbuf tp 0 i hl, if_neg (by omega)]
      · intro i hi
        rw [h5 i hi, cell_set cbuf tp 0 i hl, if_neg (by omega)]
      · intro i hi
        by_cases hit : i < tp
        · exact h6 i hit
        · have : i = tp := by omega
          subst this
          rw [h4 i (le_refl _), cell_set cbuf i 0 i hl, if_pos rfl]
          norm_num
    · have hx1 : (cell cbuf tp + 1) % 256 = cell cbuf tp + 1 := by omega
      rw [if_neg h9, hx1, wr_eq cbuf tp _ hl, Option.some_bind]
      refine ⟨_, tp, rfl, by omega, List.length_set _ _ _, ?_, ?_, ?_, ?_, ?_⟩
      · simp only [bufVal]
        rw [bufVal_set_ge cbuf tp _ tp hl (le_refl _), cell_set cbuf tp _ tp hl, if_pos rfl]
        omega
      · intro i hi
        rw [cell_set cbuf tp _ i hl, if_neg (by omega)]
      · intro i hi
        rw [cell_set cbuf tp _ i hl, if_neg (by omega)]
      · intro i hi
        rw [cell_set cbuf tp _ i hl]
        split_ifs
        · omega
        · exact hdig i hi
      · rw [cell_set cbuf tp _ tp hl, if_pos rfl]
        omega

theorem IntInv_step (fpi w : Nat) (cbuf : List Nat) (cp : Nat) (h : IntInv fpi w cbuf cp)
    (hw : w ≠ 0) :
    cp ≠ 0 ∧ cp - 1 < cbuf.length ∧ IntInv fpi (w / 10) (cbuf.set (cp - 1) (w % 10)) (cp - 1) := by
  obtain ⟨h1, h2, h3, h4, h5, h6, h7⟩ := h
  have hcp : cp ≠ 0 := by
    rintro rfl
    simp at h7
    exact hw h7
  have hl : cp - 1 < cbuf.length := by omega
  refine ⟨hcp, hl, ?_, by omega, ?_, ?_, ?_, ?_, ?_⟩
  · rw [List.length_set]
    exact h1
  · intro i hi
    rw [cell_set cbuf _ _ i hl, if_neg (by omega)]
    exact h3 i (by omega)
  · intro i hi
    rw [cell_set cbuf _ _ i hl, if_neg (by omega)]
    exact h4 i hi
  · intro i
    rw [cell_set cbuf _ _ i hl]
    split_ifs
    · omega
    · exact h5 i
  · rw [bufVal_set_lt cbuf (cp - 1) (w % 10) 10 hl (by omega) (h3 _ (by omega))]
    have e1 : 10 - 1 - (cp - 1) = 10 - cp := by omega
    have e2 : 10 - (cp - 1) = (10 - cp) + 1 := by omega
    rw [e1, e2, pow_succ, ← h6]
    have e3 : w = 10 * (w / 10) + w % 10 := (Nat.div_add_mod w 10).symm
    conv_rhs => rw [e3]
    ring
  · have e : cp = (cp - 1) + 1 := by omega
    rw [e, pow_succ] at h7
    exact Nat.div_lt_of_lt_mul (by rw [Nat.mul_comm]; exact h7)

theorem and_high_ne_zero (x : Nat) (hx : x < 2 ^ 32) : x &&& 0xffff0000 ≠ 0 ↔ 65536 ≤ x := by
  constructor
  · intro h
    by_contra hlt
    apply h
    have e : x = x &&& 0xffff := by
      rw [and_ffff]
      omega
    rw [e, Nat.and_assoc]
    have : (0xffff : Nat) &&& 0xffff0000 = 0 := by decide
    rw [this]
    simp
  · intro h hz
    have := and_high_shr16 x
    rw [hz] at this
    simp only [Nat.zero_shiftRight] at this
    omega

theorem dolfptoa_int32_spec (fpi : Nat) : ∀ fuel w cbuf cp, IntInv fpi w cbuf cp → 65536 ≤ w →
    w < 2 ^ 32 → w < 10 ^ fuel →
    ∃ w2 cbuf2 cp2, dolfptoa_int32 fuel w cbuf cp = some (w2, cbuf2, cp2) ∧
      IntInv fpi w2 cbuf2 cp2 ∧ w2 < 65536 := by
  intro fuel
  induction fuel with
  | zero =>
    intro w cbuf cp _ h1 _ h3
    simp at h3
    omega
  | succ fuel ih =>
    intro w cbuf cp hinv h1 h2 h3
    obtain ⟨hcp, hl, hinv2⟩ := IntInv_step fpi w cbuf cp hinv (by omega)
    have hdig : ((w + 2 ^ 32 - (((w / 10) <<< 3) % 2 ^ 32 + ((w / 10) <<< 1) % 2 ^ 32) % 2 ^ 32)
        % 2 ^ 32) % 256 = w % 10 := by
      simp only [Nat.shiftLeft_eq]
      norm_num at *
      omega
    simp only [dolfptoa_int32]
    rw [if_neg hcp, hdig, wr_eq _ _ _ hl, Option.some_bind]
    by_cases hc : (w / 10) &&& 0xffff0000 ≠ 0
    · rw [if_pos hc]
      have h65 := (and_high_ne_zero (w / 10) (by omega)).mp hc
      exact ih (w / 10) _ _ hinv2 h65 (by omega)
        (by rw [pow_succ] at h3; exact Nat.div_lt_of_lt_mul (by rw [Nat.mul_comm]; exact h3))
    · rw [if_neg hc]
      refine ⟨_, _, _, rfl, hinv2, ?_⟩
      by_contra hge
      exact hc ((and_high_ne_zero (w / 10) (by omega)).mpr (by omega))

theorem dolfptoa_int16_spec (fpi : Nat) : ∀ fuel w cbuf cp, IntInv fpi w cbuf cp → w ≠ 0 →
    w < 2 ^ 16 → w < 10 ^ fuel →
    ∃ cbuf2 cp2, dolfptoa_int16 fuel w cbuf cp = some (cbuf2, cp2) ∧ IntInv fpi 0 cbuf2 cp2 := by
  intro fuel
  induction fuel with
  | zero =>
    intro w cbuf cp _ h1 _ h3
    simp at h3
    omega
  | succ fuel ih =>
    intro w cbuf cp hinv h1 h2 h3
    obtain ⟨hcp, hl, hinv2⟩ := IntInv_step fpi w cbuf cp hinv h1
    have hs : (w / 10) % 2 ^ 16 = w / 10 := by
      norm_num at *
      omega
    have hdig : ((w + 2 ^ 32 - (((w / 10) <<< 3) + ((w / 10) <<< 1))) % 2 ^ 16) % 256
        = w % 10 := by
      simp only [Nat.shiftLeft_eq]
      norm_num at *
      omega
    simp only [dolfptoa_int16]
    rw [if_neg hcp, hs, hdig, wr_eq _ _ _ hl, Option.some_bind]
    by_cases hc : w / 10 ≠ 0
    · rw [if_pos hc]
      exact ih (w / 10) _ _ hinv2 hc (by norm_num at *; omega)
        (by rw [pow_succ] at h3; exact Nat.div_lt_of_lt_mul (by rw [Nat.mul_comm]; exact h3))
    · rw [if_neg hc]
      have hz : w / 10 = 0 := not_not.mp hc
      rw [hz] at hinv2
      exact ⟨_, _, rfl, hinv2⟩

/-- The integer part of `dolfptoa`: afterwards cells `0 .. 9` hold `fpi`. -/
theorem dolfptoa_int_spec (fpi : Nat) (hf : fpi < 2 ^ 32) :
    ∃ cbuf cp,
      ((if fpi &&& 0xffff0000 ≠ 0 then dolfptoa_int32 32 fpi (List.replicate 24 0) 10
        else some (fpi, List.replicate 24 0, 10)).bind fun r =>
        (if r.1 ≠ 0 then dolfptoa_int16 16 (r.1 % 2 ^ 16) r.2.1 r.2.2
          else some (r.2.1, r.2.2))) = some (cbuf, cp) ∧
      IntInv fpi 0 cbuf cp := by
  have h0 : IntInv fpi fpi (List.replicate 24 0) 10 := by
    refine ⟨by simp, le_refl _, fun i _ => cell_replicate 24 i, fun i _ => cell_replicate 24 i,
      fun i => by rw [cell_replicate]; norm_num, ?_, by norm_num at *; omega⟩
    rw [bufVal_zero _ 10 (fun i _ => cell_replicate 24 i)]
    simp
  have second : ∀ w cbuf cp, IntInv fpi w cbuf cp → w < 65536 →
      ∃ cbuf2 cp2, (if w ≠ 0 then dolfptoa_int16 16 (w % 2 ^ 16) cbuf cp
        else some (cbuf, cp)) = some (cbuf2, cp2) ∧ IntInv fpi 0 cbuf2 cp2 := by
    intro w cbuf cp hinv hw
    by_cases hz : w ≠ 0
    · rw [if_pos hz]
      have e : w % 2 ^ 16 = w := Nat.mod_eq_of_lt (by norm_num; omega)
      rw [e]
      exact dolfptoa_int16_spec fpi 16 w cbuf cp hinv hz (by norm_num; omega)
        (by norm_num; omega)
    · rw [if_neg hz]
      have hz0 : w = 0 := not_not.mp hz
      rw [hz0] at hinv
      exact ⟨cbuf, cp, rfl, hinv⟩
  by_cases hc : fpi &&& 0xffff0000 ≠ 0
  · rw [if_pos hc]
    obtain ⟨w2, c2, p2, e, hinv, hw⟩ := dolfptoa_int32_spec fpi 32 fpi _ 10 h0
      ((and_high_ne_zero fpi hf).mp hc) hf (by norm_num at *; omega)
    rw [e, Option.some_bind]
    exact second w2 c2 p2 hinv hw
  · rw [if_neg hc, Option.some_bind]
    refine second fpi _ 10 h0 ?_
    by_contra hge
    exact hc ((and_high_ne_zero fpi hf).mpr (by omega))

theorem or_one_of_even (x : Nat) (h : x % 2 = 0) : x ||| 1 = x + 1 := by
  have := @Nat.mul_add_lt_is_or 1 1 (by norm_num) (x / 2)
  have e : 2 ^ 1 * (x / 2) = x := by omega
  rw [e] at this
  exact this.symm

/-- `M_LSHIFT` doubles the 64-bit pair modulo `2 ^ 64`. -/
theorem M_LSHIFT_spec (v_i v_f : Nat) (hf : v_f < 2 ^ 32) :
    (M_LSHIFT v_i v_f).1 = (2 * v_i + v_f / 2 ^ 31) % 2 ^ 32 ∧
    (M_LSHIFT v_i v_f).2 = (2 * v_f) % 2 ^ 32 := by
  simp only [M_LSHIFT, Nat.shiftLeft_eq, and_80000000_ne_zero]
  have he : (v_i * 2 ^ 1) % 2 ^ 32 % 2 = 0 := by omega
  split_ifs with c
  · rw [or_one_of_even _ he]
    norm_num at *
    omega
  · norm_num at *
    omega

theorem M_LSHIFT_val (v_i v_f k : Nat) (hf : v_f < 2 ^ 32) (hi : v_i < 2 ^ 31)
    (hv : v_i * 2 ^ 32 + v_f = k) :
    (M_LSHIFT v_i v_f).1 * 2 ^ 32 + (M_LSHIFT v_i v_f).2 = 2 * k ∧
    (M_LSHIFT v_i v_f).2 < 2 ^ 32 := by
  obtain ⟨h1, h2⟩ := M_LSHIFT_spec v_i v_f hf
  rw [h1, h2]
  norm_num at *
  omega

/-- One pass of the fraction loop of `dolfptoa` multiplies the fraction by ten. -/
theorem times_ten (uf : Nat) (h : uf < 2 ^ 32) :
    L_ADD (L_LSHIFT (L_LSHIFT (L_LSHIFT ⟨0, uf⟩))) (L_LSHIFT ⟨0, uf⟩) =
      ⟨(10 * uf) / 2 ^ 32, (10 * uf) % 2 ^ 32⟩ := by
  simp only [L_ADD, L_LSHIFT]
  obtain ⟨e1, l1⟩ := M_LSHIFT_val 0 uf uf h (by norm_num) (by simp)
  generalize (M_LSHIFT 0 uf).1 = i1 at *
  generalize (M_LSHIFT 0 uf).2 = f1 at *
  obtain ⟨e2, l2⟩ := M_LSHIFT_val i1 f1 (2 * uf) l1 (by norm_num at *; omega) e1
  generalize (M_LSHIFT i1 f1).1 = i2 at *
  generalize (M_LSHIFT i1 f1).2 = f2 at *
  obtain ⟨e3, l3⟩ := M_LSHIFT_val i2 f2 (2 * (2 * uf)) l2 (by norm_num at *; omega) e2
  generalize (M_LSHIFT i2 f2).1 = i3 at *
  generalize (M_LSHIFT i2 f2).2 = f3 at *
  obtain ⟨a1, a2⟩ := M_ADD_spec i3 f3 i1 f1 l3 l1
  rw [a1, a2]
  have hsum : (i3 + i1) * 2 ^ 32 + (f3 + f1) = 10 * uf := by omega
  have hU : 10 * uf < 10 * 2 ^ 32 := by omega
  have hS : f3 + f1 < 2 * 2 ^ 32 := by omega
  clear a1 a2 e1 e2 e3 l1 l2 l3 h
  generalize i3 + i1 = I at *
  generalize f3 + f1 = S at *
  generalize 10 * uf = U at *
  congr 1
  · norm_num at *
    omega
  · norm_num at *
    omega

theorem dolfptoa_frac_spec (X cp : Nat) (hcp : cp ≤ 10) :
    ∀ (dec : Nat) (work : l_fp) (cbuf : List Nat) (cpend : Nat),
    FracInv X cp work.l_uf cbuf cpend → cpend + dec ≤ 22 →
    ∃ (dleft : Nat) (work2 : l_fp) (cbuf2 : List Nat) (cpend2 : Nat),
      dolfptoa_frac dec work cbuf cpend = some (dleft, work2, cbuf2, cpend2) ∧
      FracInv X cp work2.l_uf cbuf2 cpend2 ∧ cpend2 + dleft = cpend + dec ∧
      (dleft ≠ 0 → work2.l_uf = 0) := by
  intro dec
  induction dec with
  | zero =>
    intro work cbuf cpend hinv _
    exact ⟨0, work, cbuf, cpend, rfl, hinv, rfl, fun h => absurd rfl h⟩
  | succ dec ih =>
    intro work cbuf cpend hinv hle
    obtain ⟨h1, h2, h3, h4, h5, h6, h7⟩ := hinv
    have hl : cpend < cbuf.length := by omega
    have hdg : (10 * work.l_uf) / 2 ^ 32 < 10 := by
      norm_num at *
      omega
    have hinv2 : FracInv X cp ((10 * work.l_uf) % 2 ^ 32)
        (cbuf.set cpend ((10 * work.l_uf) / 2 ^ 32)) (cpend + 1) := by
      refine ⟨by rw [List.length_set]; exact h1, by omega, ?_, ?_, ?_, ?_,
        Nat.mod_lt _ (by norm_num)⟩
      · intro i hi
        rw [cell_set cbuf _ _ i hl, if_neg (by omega)]
        exact h3 i (by omega)
      · intro i hi
        rw [cell_set cbuf _ _ i hl, if_neg (by omega)]
        exact h4 i hi
      · intro i
        rw [cell_set cbuf _ _ i hl]
        split_ifs
        · exact hdg
        · exact h5 i
      · simp only [bufVal]
        rw [bufVal_set_ge cbuf _ _ cpend hl (le_refl _), cell_set cbuf _ _ cpend hl, if_pos rfl]
        have e : cpend + 1 - 10 = (cpend - 10) + 1 := by omega
        have e2 : X * 10 ^ (cpend - 10 + 1) = 10 * (X * 10 ^ (cpend - 10)) := by
          rw [pow_succ 10 (cpend - 10)]
          ring
        rw [e, e2, ← h6]
        have hdm := Nat.div_add_mod (10 * work.l_uf) (2 ^ 32)
        generalize (10 * work.l_uf) / 2 ^ 32 = q at *
        generalize (10 * work.l_uf) % 2 ^ 32 = r at *
        omega
    simp only [dolfptoa_frac]
    rw [times_ten work.l_uf h7]
    dsimp only
    have hmod : (10 * work.l_uf) / 2 ^ 32 % 256 = (10 * work.l_uf) / 2 ^ 32 := by omega
    rw [hmod, wr_eq _ _ _ hl, Option.some_bind]
    by_cases hz : (10 * work.l_uf) % 2 ^ 32 = 0
    · rw [if_pos hz]
      exact ⟨dec, _, _, _, rfl, hinv2, by omega, fun _ => hz⟩
    · rw [if_neg hz]
      obtain ⟨dl, w2, c2, e2, he, hi2, hsum, hbrk⟩ :=
        ih ⟨(10 * work.l_uf) / 2 ^ 32, (10 * work.l_uf) % 2 ^ 32⟩ _ (cpend + 1) hinv2 (by omega)
      exact ⟨dl, w2, c2, e2, he, hi2, by omega, hbrk⟩

theorem digitsOf_length (cbuf : List Nat) (lo n : Nat) : (digitsOf cbuf lo n).length = n := by
  induction n generalizing lo with
  | zero => rfl
  | succ n ih => simp [digitsOf, ih]

theorem digitsOf_append (cbuf : List Nat) (lo m n : Nat) :
    digitsOf cbuf lo (m + n) = digitsOf cbuf lo m ++ digitsOf cbuf (lo + m) n := by
  induction m generalizing lo with
  | zero => simp [digitsOf]
  | succ m ih =>
    have e : m + 1 + n = (m + n) + 1 := by omega
    rw [e]
    simp only [digitsOf, List.cons_append]
    rw [ih (lo + 1)]
    have e2 : lo + 1 + m = lo + (m + 1) := by omega
    rw [e2]

theorem digitsOf_isDigit (cbuf : List Nat) (lo n : Nat) (h : ∀ i, cell cbuf i < 10) :
    ∀ c ∈ digitsOf cbuf lo n, isDigitByte c := by
  induction n generalizing lo with
  | zero => simp [digitsOf]
  | succ n ih =>
    intro c hc
    simp only [digitsOf, List.mem_cons] at hc
    rcases hc with rfl | hc
    · have := h lo
      simp only [isDigitByte]
      omega
    · exact ih (lo + 1) c hc

theorem bufVal_digitsOf (cbuf : List Nat) (lo n : Nat) :
    bufVal cbuf (lo + n) = bufVal cbuf lo * 10 ^ n + decVal (digitsOf cbuf lo n) := by
  induction n generalizing lo with
  | zero => simp [digitsOf, decVal]
  | succ n ih =>
    have e : lo + (n + 1) = (lo + 1) + n := by omega
    rw [e, ih (lo + 1)]
    simp only [digitsOf, bufVal]
    rw [decVal_cons, digitsOf_length, pow_succ]
    have : cell cbuf lo + 48 - 48 = cell cbuf lo := by omega
    rw [this]
    ring

/-- The output loop once past the decimal point. -/
theorem emitDigits_after (cbuf : List Nat) (cpdec cpend : Nat) (hd : ∀ i, cell cbuf i < 10)
    (hlen : cpend ≤ cbuf.length) : ∀ (fuel cp n : Nat), cpdec < cp → cp + n = cpend → n ≤ fuel →
    emitDigits cbuf cpdec cpend fuel cp = some (digitsOf cbuf cp n) := by
  intro fuel
  induction fuel with
  | zero =>
    intro cp n _ h2 h3
    have : n = 0 := by omega
    subst this
    simp [emitDigits, digitsOf]
    omega
  | succ fuel ih =>
    intro cp n h1 h2 h3
    cases n with
    | zero =>
      simp [emitDigits, digitsOf]
      omega
    | succ n =>
      have hlt : cp < cpend := by omega
      simp only [emitDigits]
      rw [if_pos hlt, get?_eq_cell cbuf cp (by omega), Option.some_bind,
        ih (cp + 1) n (by omega) (by omega) (by omega), Option.some_bind, if_neg (by omega)]
      have := hd cp
      have e : (cell cbuf cp + 48) % 256 = cell cbuf cp + 48 := by omega
      rw [e]
      rfl

/-- The output loop from the integer digits on. -/
theorem emitDigits_before (cbuf : List Nat) (cpdec cpend : Nat) (hd : ∀ i, cell cbuf i < 10)
    (hlen : cpend ≤ cbuf.length) : ∀ (fuel cp m n : Nat), cp + m = cpdec → cpdec + n = cpend →
    m + n ≤ fuel →
    emitDigits cbuf cpdec cpend fuel cp =
      some (digitsOf cbuf cp m ++ (if n = 0 then [] else 46 :: digitsOf cbuf cpdec n)) := by
  intro fuel
  induction fuel with
  | zero =>
    intro cp m n h1 h2 h3
    have hm : m = 0 := by omega
    have hn : n = 0 := by omega
    subst hm hn
    simp [emitDigits, digitsOf]
    omega
  | succ fuel ih =>
    intro cp m n h1 h2 h3
    cases m with
    | zero =>
      have hcp : cp = cpdec := by omega
      subst hcp
      cases n with
      | zero =>
        simp [emitDigits, digitsOf]
        omega
      | succ n =>
        have hlt : cp < cpend := by omega
        simp only [emitDigits]
        rw [if_pos hlt, get?_eq_cell cbuf cp (by omega), Option.some_bind,
          emitDigits_after cbuf cp cpend hd hlen fuel (cp + 1) n (by omega) (by omega) (by omega),
          Option.some_bind]
        have := hd cp
        have e : (cell cbuf cp + 48) % 256 = cell cbuf cp + 48 := by omega
        rw [e]
        simp [digitsOf]
    | succ m =>
      have hlt : cp < cpend := by omega
      simp only [emitDigits]
      rw [if_pos hlt, get?_eq_cell cbuf cp (by omega), Option.some_bind,
        ih (cp + 1) m n (by omega) h2 (by omega), Option.some_bind, if_neg (by omega)]
      have := hd cp
      have e : (cell cbuf cp + 48) % 256 = cell cbuf cp + 48 := by omega
      rw [e]
      simp [digitsOf]

/-- The leading-zero loop of `dolfptoa`. -/
theorem dolfptoa_strip_spec (cbuf : List Nat) (cpdec : Nat) (hlen : cpdec ≤ cbuf.length) :
    ∀ (fuel cp : Nat), cp ≤ cpdec → cpdec - cp < fuel →
    ∃ cp2, dolfptoa_strip cbuf cpdec fuel cp = some cp2 ∧ cp ≤ cp2 ∧ cp2 ≤ cpdec ∧
      (∀ i, cp ≤ i → i < cp2 → cell cbuf i = 0) ∧ (cp2 < cpdec → cell cbuf cp2 ≠ 0) := by
  intro fuel
  induction fuel with
  | zero =>
    intro cp _ h
    omega
  | succ fuel ih =>
    intro cp h1 h2
    simp only [dolfptoa_strip]
    by_cases hlt : cp < cpdec
    · rw [if_pos hlt, get?_eq_cell cbuf cp (by omega), Option.some_bind]
      by_cases hz : cell cbuf cp ≠ 0
      · rw [if_pos hz]
        exact ⟨cp, rfl, le_refl _, h1, fun i a b => by omega, fun _ => hz⟩
      · rw [if_neg hz]
        obtain ⟨cp2, e, a1, a2, a3, a4⟩ := ih (cp + 1) (by omega) (by omega)
        refine ⟨cp2, e, by omega, a2, ?_, a4⟩
        intro i hi1 hi2
        by_cases hic : i = cp
        · subst hic
          exact not_not.mp hz
        · exact a3 i (by omega) hi2
    · rw [if_neg hlt]
      exact ⟨cp, rfl, le_refl _, h1, fun i a b => by omega, fun h => absurd h hlt⟩

/-- The output part of `dolfptoa` in seconds mode. -/
theorem dolfptoa_output (N d : Nat) (cbuf : List Nat) (cp : Nat) (hd : d ≤ 12)
    (h : FinalInv N d cbuf cp) :
    ∃ ip fp : List Nat,
      ((dolfptoa_strip cbuf 10 24 cp).bind fun cp =>
        (emitDigits cbuf 10 (10 + d) 24 (if cp = 10 then cp - 1 else cp)).bind fun out =>
          some (([] : List Nat) ++ out)) = some (ip ++ (if d = 0 then [] else 46 :: fp)) ∧
      fp.length = d ∧ (∀ c ∈ ip, isDigitByte c) ∧ (∀ c ∈ fp, isDigitByte c) ∧ ip ≠ [] ∧
      (1 < ip.length → ip.head? ≠ some 48) ∧ decVal (ip ++ fp) = N := by
  obtain ⟨h1, h2, h3, h4, h5⟩ := h
  obtain ⟨cp2, e, a1, a2, a3, a4⟩ := dolfptoa_strip_spec cbuf 10 (by omega) 24 cp h2 (by omega)
  rw [e, Option.some_bind]
  have hz : ∀ i < cp2, cell cbuf i = 0 := by
    intro i hi
    by_cases hic : i < cp
    · exact h3 i hic
    · exact a3 i (by omega) hi
  generalize hcp3 : (if cp2 = 10 then cp2 - 1 else cp2) = cp3
  have hcp3le : cp3 ≤ 9 := by
    rw [← hcp3]
    split_ifs <;> omega
  have hz3 : ∀ i < cp3, cell cbuf i = 0 := by
    intro i hi
    apply hz
    rw [← hcp3] at hi
    split_ifs at hi <;> omega
  have hm : cp3 + (10 - cp3) = 10 := by omega
  rw [emitDigits_before cbuf 10 (10 + d) h4 (by omega) 24 cp3 (10 - cp3) d hm rfl (by omega),
    Option.some_bind, List.nil_append]
  refine ⟨digitsOf cbuf cp3 (10 - cp3), digitsOf cbuf 10 d, rfl, digitsOf_length _ _ _,
    digitsOf_isDigit _ _ _ h4, digitsOf_isDigit _ _ _ h4, ?_, ?_, ?_⟩
  · intro hnil
    have := congrArg List.length hnil
    rw [digitsOf_length] at this
    simp at this
    omega
  · intro hlen
    rw [digitsOf_length] at hlen
    have e1 : 10 - cp3 = (10 - cp3 - 1) + 1 := by omega
    rw [e1]
    simp only [digitsOf, List.head?_cons, ne_eq, Option.some.injEq]
    have hne : cp2 ≠ 10 := by
      intro h10
      rw [if_pos h10] at hcp3
      omega
    rw [if_neg hne] at hcp3
    subst hcp3
    have := a4 (by omega)
    omega
  · have hcat : digitsOf cbuf cp3 (10 - cp3) ++ digitsOf cbuf 10 d =
        digitsOf cbuf cp3 (10 - cp3 + d) := by
      rw [digitsOf_append, hm]
    rw [hcat]
    have hv := bufVal_digitsOf cbuf cp3 (10 - cp3 + d)
    rw [bufVal_zero cbuf cp3 hz3, zero_mul, zero_add] at hv
    rw [← hv, ← h5]
    congr 1
    omega

theorem round_div (B uf : Nat) (h : uf < 2 ^ 32) :
    (B * 2 ^ 32 + uf + 2 ^ 31) / 2 ^ 32 = if 2 ^ 31 ≤ uf then B + 1 else B := by
  split_ifs <;> norm_num at * <;> omega

/-- The fraction and rounding part of `dolfptoa`: afterwards the buffer holds
`X * 10^d / 2^32` rounded half up, `X = fpi * 2^32 + fpv`. -/
theorem dolfptoa_fraction (fpi fpv d : Nat) (cbuf : List Nat) (cp : Nat) (hi : fpi < 2 ^ 32)
    (hv : fpv < 2 ^ 32) (hd : d ≤ 12) (hinv : IntInv fpi 0 cbuf cp) :
    ∃ (cbuf2 : List Nat) (cp2 cpend2 dleft : Nat),
      (if fpv ≠ 0 then
        (dolfptoa_frac d ⟨0, fpv⟩ cbuf 10).bind fun f =>
          (if f.2.1.l_uf &&& 0x80000000 ≠ 0 then
              (carryUp f.2.2.1 f.2.2.2).bind fun q =>
                some (q.1, if q.2 < cp then q.2 else cp)
            else some (f.2.2.1, cp)).bind fun q =>
          some (q.1, q.2, f.2.2.2, f.1)
      else some (cbuf, cp, 10, d)) = some (cbuf2, cp2, cpend2, dleft) ∧
      cpend2 + dleft = 10 + d ∧
      FinalInv (((fpi * 2 ^ 32 + fpv) * 10 ^ d + 2 ^ 31) / 2 ^ 32) d cbuf2 cp2 := by
  obtain ⟨i1, i2, i3, i4, i5, i6, i7⟩ := hinv
  rw [zero_mul, zero_add] at i6
  by_cases hz : fpv ≠ 0
  · rw [if_pos hz]
    have hf0 : FracInv (fpi * 2 ^ 32 + fpv) cp (⟨0, fpv⟩ : l_fp).l_uf cbuf 10 := by
      refine ⟨i1, le_refl _, i4, i3, i5, ?_, hv⟩
      rw [i6]
      simp
    obtain ⟨dleft, w2, c2, e2, he, ⟨f1, f2, f3, f4, f5, f6, f7⟩, hsum, hbrk⟩ :=
      dolfptoa_frac_spec (fpi * 2 ^ 32 + fpv) cp i2 d ⟨0, fpv⟩ cbuf 10 hf0 (by omega)
    rw [he, Option.some_bind]
    dsimp only
    -- the value in the buffer stays below `10 ^ cpend`
    have hX : fpi * 2 ^ 32 + fpv < 2 ^ 64 := by norm_num at *; omega
    have hP : 0 < 10 ^ (e2 - 10) := pow_pos (by norm_num) _
    have hXP : (fpi * 2 ^ 32 + fpv) * 10 ^ (e2 - 10) < 2 ^ 64 * 10 ^ (e2 - 10) :=
      Nat.mul_lt_mul_of_pos_right hX hP
    have hpow : (10 : Nat) ^ e2 = 10 ^ 10 * 10 ^ (e2 - 10) := by
      rw [← pow_add]
      congr 1
      omega
    have hB : bufVal c2 e2 + 1 < 10 ^ e2 := by
      rw [hpow]
      generalize (fpi * 2 ^ 32 + fpv) * 10 ^ (e2 - 10) = XP at *
      generalize (10 : Nat) ^ (e2 - 10) = P at *
      norm_num at *
      omega
    have hdsplit : (10 : Nat) ^ d = 10 ^ (e2 - 10) * 10 ^ dleft := by
      rw [← pow_add]
      congr 1
      omega
    by_cases hr : w2.l_uf &&& 0x80000000 ≠ 0
    · -- rounding up
      rw [if_pos hr]
      have hge : 2 ^ 31 ≤ w2.l_uf := by
        have := (and_80000000_ne_zero w2.l_uf).mp hr
        norm_num at *
        omega
      have hdl : dleft = 0 := by
        by_contra hne
        have := hbrk hne
        omega
      obtain ⟨c3, tp, ec, t1, t2, t3, t4, t5, t6, t7⟩ :=
        carryUp_spec e2 c2 (by omega) (fun i _ => f5 i) hB
      rw [ec, Option.some_bind, Option.some_bind]
      dsimp only
      refine ⟨c3, (if tp < cp then tp else cp), e2, dleft, rfl, hsum, by omega,
        by split_ifs <;> omega, ?_, ?_, ?_⟩
      · intro i hi
        have hitp : i < tp := by split_ifs at hi <;> omega
        have hicp : i < cp := by split_ifs at hi <;> omega
        rw [t5 i hitp]
        exact f4 i hicp
      · intro i
        by_cases hie : i < e2
        · exact t6 i hie
        · rw [t4 i (by omega)]
          exact f5 i
      · have he2 : e2 = 10 + d := by omega
        rw [← he2, t3]
        have hd0 : e2 - 10 = d := by omega
        rw [hd0] at f6
        rw [← f6, round_div _ _ f7, if_pos hge]
    · -- no rounding
      rw [if_neg hr, Option.some_bind]
      have hlt : ¬ 2 ^ 31 ≤ w2.l_uf := by
        intro hge
        apply hr
        apply (and_80000000_ne_zero w2.l_uf).mpr
        norm_num at *
        omega
      refine ⟨_, _, _, _, rfl, hsum, f1, i2, f4, f5, ?_⟩
      have he2 : 10 + d = e2 + dleft := by omega
      rw [he2, bufVal_add c2 e2 dleft (fun i hi1 _ => f3 i hi1), hdsplit, ← Nat.mul_assoc, ← f6]
      by_cases hdl : dleft = 0
      · subst hdl
        rw [pow_zero, mul_one, mul_one, round_div _ _ f7, if_neg hlt]
      · rw [hbrk hdl, add_zero]
        have e3 : bufVal c2 e2 * 2 ^ 32 * 10 ^ dleft = (bufVal c2 e2 * 10 ^ dleft) * 2 ^ 32 := by
          ring
        rw [e3]
        have := round_div (bufVal c2 e2 * 10 ^ dleft) 0 (by norm_num)
        rw [add_zero] at this
        rw [this, if_neg (by norm_num)]
  · rw [if_neg hz]
    have hz0 : fpv = 0 := not_not.mp hz
    refine ⟨_, _, _, _, rfl, rfl, i1, i2, i3, i5, ?_⟩
    rw [bufVal_add cbuf 10 d (fun i hi1 _ => i4 i hi1), i6, hz0, add_zero]
    have e3 : fpi * 2 ^ 32 * 10 ^ d = (fpi * 10 ^ d) * 2 ^ 32 := by ring
    rw [e3]
    have := round_div (fpi * 10 ^ d) 0 (by norm_num)
    rw [add_zero] at this
    rw [this, if_neg (by norm_num)]

theorem and_ffffffff (x : Nat) (h : x < 2 ^ 32) : x &&& 0xffffffff = x := by
  have := Nat.and_pow_two_sub_one_eq_mod x 32
  norm_num at this
  rw [this]
  exact Nat.mod_eq_of_lt (by norm_num at h; exact h)

theorem seconds_dec (ndec : Int) :
    (if (if ndec < 0 then (0 : Int) else ndec) > 12 then (12 : Int)
      else (if ndec < 0 then 0 else ndec)).toNat = (min (max ndec 0) 12).toNat ∧
    (min (max ndec 0) 12).toNat ≤ 12 := by
  split_ifs <;> omega

/-! ### Restart of the WWV receiver -/

namespace Wwv

theorem and_and_mask (x a b : Nat) (h : a &&& b = b) : (x &&& a) &&& b = x &&& b := by
  rw [Nat.and_assoc, h]

theorem or_and_mask (x a b : Nat) (h : a &&& b = 0) : (x ||| a) &&& b = x &&& b := by
  rw [Nat.and_comm, Nat.and_or_distrib_left, Nat.and_comm b a, h, Nat.or_zero, Nat.and_comm]

/-- `wwv_newchan` changes no status bit outside `SELV`, `SELH` and `METRIC`, and
leaves `watch` alone. -/
theorem wwv_newchan_status (up : wwvunit) (r : wwvunit × Bool) (b : Nat)
    (h1 : compl (SELV ||| SELH) &&& b = b) (h2 : compl METRIC &&& b = b)
    (h3 : METRIC &&& b = 0) (h4 : SELV &&& b = 0) (h5 : SELH &&& b = 0)
    (h : wwv_newchan up = some r) :
    r.1.status &&& b = up.status &&& b ∧ r.1.watch = up.watch := by
  unfold wwv_newchan at h
  cases hs : wwv_newchan_scan up.mitig NCHAN 0 (0, none, 0) with
  | none => rw [hs] at h; simp at h
  | some st =>
    rw [hs, Option.some_bind] at h
    dsimp only at h
    split_ifs at h with c1 c2
    · simp only [Option.some.injEq] at h
      subst h
      dsimp only
      rw [and_and_mask _ _ _ h2, and_and_mask _ _ _ h1]
      exact ⟨rfl, rfl⟩
    · simp only [Option.some.injEq] at h
      subst h
      dsimp only
      rw [and_and_mask _ _ _ h1]
      exact ⟨rfl, rfl⟩
    · cases hsp : st.2.1 with
      | none => rw [hsp] at h; simp at h
      | some s =>
        rw [hsp, Option.some_bind] at h
        split_ifs at h with d1 d2
        all_goals
          simp only [Option.some.injEq] at h
          subst h
          dsimp only
          first
            | (rw [or_and_mask _ _ _ h4, or_and_mask _ _ _ h3, and_and_mask _ _ _ h1]
               exact ⟨rfl, rfl⟩)
            | (rw [or_and_mask _ _ _ h5, or_and_mask _ _ _ h3, and_and_mask _ _ _ h1]
               exact ⟨rfl, rfl⟩)
            | (rw [or_and_mask _ _ _ h3, and_and_mask _ _ _ h1]
               exact ⟨rfl, rfl⟩)

theorem wwv_newchan_scan_inv (mitig : List chan) :
    ∀ n i st, (st.2.1 = none → st.1 = 0) → n + i ≤ mitig.length →
      ∃ st2, wwv_newchan_scan mitig n i st = some st2 ∧ (st2.2.1 = none → st2.1 = 0) := by
  intro n
  induction n with
  | zero => intro i st h _; exact ⟨st, rfl, h⟩
  | succ n ih =>
    intro i st h hl
    have hi : i < mitig.length := by omega
    simp only [wwv_newchan_scan, List.get?_eq_getElem?, List.getElem?_eq_getElem hi,
      Option.some_bind]
    apply ih
    · unfold wwv_newchan_step
      dsimp only
      split_ifs <;> simp_all
    · omega

theorem wwv_newchan_total (up : wwvunit) (hm : NCHAN ≤ up.mitig.length) :
    ∃ r, wwv_newchan up = some r := by
  obtain ⟨st, hst, hinv⟩ := wwv_newchan_scan_inv up.mitig NCHAN 0 (0, none, 0) (fun _ => rfl)
    (by omega)
  unfold wwv_newchan
  rw [hst, Option.some_bind]
  dsimp only
  split_ifs with c1 c2
  · exact ⟨_, rfl⟩
  · exact ⟨_, rfl⟩
  · cases hsp : st.2.1 with
    | none =>
      have := hinv hsp
      rw [this] at c1
      exact absurd (by norm_num [MTHR]) c1
    | some s =>
      rw [Option.some_bind]
      exact ⟨_, rfl⟩

theorem sync3_update_some (wwv_snr : ℚ → ℚ → ℚ) (wwv_metric : sync → ℚ) (up : wwvunit)
    (ha : up.achan < up.mitig.length) :
    ∃ up1, sync3_update wwv_snr wwv_metric up = some up1 ∧ up1.status = up.status ∧
      up1.watch = up.watch ∧ up1.mitig.length = up.mitig.length := by
  unfold sync3_update
  rw [List.get?_eq_getElem?, List.getElem?_eq_getElem ha, Option.some_bind]
  exact ⟨_, rfl, rfl, rfl, by simp⟩

theorem newgame_mitig_eq :
    (List.range NCHAN).foldl (fun (m : List chan) i =>
      m.modify (fun cp =>
        { cp with
          gain := MAXGAIN / 2
          wwv := { cp.wwv with select := SELV, refid := refidText 86 (qsy.getD i 0) }
          wwvh := { cp.wwvh with select := SELH, refid := refidText 72 (qsy.getD i 0) } }) i)
      (List.replicate NCHAN chan.zero) = newgame_mitig := by
  decide

theorem newgame_scan :
    wwv_newchan_scan newgame_mitig NCHAN 0 (0, none, 0) = some (0, some ((3, false), SELV), 3) := by
  decide

theorem wwv_newgame_eq (up : wwvunit) :
    wwv_newgame up = some
      { up with
        errflg := if up.status ≠ 0 then 1 else up.errflg
        watch := 0
        status := 0
        alarm := 0
        avgint := MINAVG
        freq := 0
        gain := MAXGAIN / 2
        mitig := newgame_mitig
        dchan := DCHAN
        schan := DCHAN } := by
  unfold wwv_newgame
  dsimp only
  rw [newgame_mitig_eq]
  unfold wwv_newchan
  dsimp only
  rw [newgame_scan, Option.some_bind]
  dsimp only
  have h1 : (0 : ℚ) < MTHR := by norm_num [MTHR]
  have h2 : (0 &&& compl (SELV ||| SELH)) = 0 := Nat.zero_and _
  have h3 : ((DCHAN + NCHAN - 1) % NCHAN + 1) % NCHAN = DCHAN := by decide
  rw [if_pos h1, h2, h3]
  simp only [Nat.zero_and, ne_eq, not_true_eq_false, if_false, Option.some_bind]
  by_cases hs : up.status = 0
  · simp [hs]
  · simp [hs]

end Wwv

/-! ### Burst decoder of the CHU receiver -/

namespace Chu

theorem chu_dist_loop_spec : ∀ (n t : Nat) (v : Int),
    chu_dist_loop n t v = v + n - 2 * popcount n t := by
  intro n
  induction n with
  | zero => intro t v; simp [chu_dist_loop, popcount]
  | succ n ih =>
    intro t v
    rw [chu_dist_loop, ih, popcount, Nat.shiftRight_eq_div_pow t 1, Nat.and_one_is_mod, pow_one]
    rcases Nat.mod_two_eq_zero_or_one t with h | h
    · rw [h, if_pos rfl]
      push_cast
      ring
    · rw [h, if_neg (by decide)]
      push_cast
      ring

theorem popcount_mod : ∀ (n t : Nat), popcount n (t % 2 ^ n) = popcount n t := by
  intro n
  induction n with
  | zero => intro t; rfl
  | succ n ih =>
    intro t
    rw [popcount, popcount, pow_succ', Nat.mod_mul_right_div_self, ih,
      Nat.mod_mod_of_dvd t (Dvd.intro _ rfl)]

theorem popcount_le : ∀ (n t : Nat), popcount n t ≤ n := by
  intro n
  induction n with
  | zero => intro t; simp [popcount]
  | succ n ih =>
    intro t
    rw [popcount]
    have := ih (t / 2)
    have := Nat.mod_lt t (show 0 < 2 by decide)
    omega

theorem popcount_countP : ∀ (n t : Nat),
    (List.range n).countP (fun i => t.testBit i) = popcount n t := by
  intro n
  induction n with
  | zero => intro t; rfl
  | succ n ih =>
    intro t
    rw [List.range_succ_eq_map, List.countP_cons, List.countP_map, popcount]
    have h : ((fun i => t.testBit i) ∘ Nat.succ) = fun i => (t / 2).testBit i := by
      funext i
      simp [Nat.testBit_succ]
    rw [h, ih]
    rcases Nat.mod_two_eq_zero_or_one t with h0 | h0
    · simp [Nat.testBit_zero, h0]
    · simp [Nat.testBit_zero, h0]
      omega

theorem chu_dist_eq (x y : Nat) : chu_dist x y = 8 - 2 * (popcount 8 (x ^^^ y) : Int) := by
  rw [chu_dist, chu_dist_loop_spec]
  push_cast
  ring

theorem chu_dist_le (x y : Nat) : chu_dist x y ≤ 8 := by
  rw [chu_dist_eq]
  omega

theorem chu_dist_ge (x y : Nat) : -8 ≤ chu_dist x y := by
  rw [chu_dist_eq]
  have := popcount_le 8 (x ^^^ y)
  omega

theorem chu_dist_inverse (x : Nat) : chu_dist x (x ^^^ 0xff) = -8 := by
  rw [chu_dist, ← Nat.xor_assoc, Nat.xor_self, Nat.zero_xor]
  decide

theorem chu_dist_bits (x y : Nat) :
    chu_dist x y = 8 - 2 * (popcount 8 ((x ^^^ y) &&& 0xff) : Int) ∧
    chu_dist x y =
      ((List.range 8).countP (fun i => x.testBit i = y.testBit i) : Int) -
        ((List.range 8).countP (fun i => x.testBit i ≠ y.testBit i) : Int) := by
  have hm : (x ^^^ y) &&& 0xff = (x ^^^ y) % 2 ^ 8 := Nat.and_pow_two_sub_one_eq_mod _ 8
  have hne : (List.range 8).countP (fun i => x.testBit i ≠ y.testBit i) = popcount 8 (x ^^^ y) := by
    rw [← popcount_countP]
    congr 1
    funext i
    rw [Nat.testBit_xor]
    cases x.testBit i <;> cases y.testBit i <;> rfl
  have hsum := List.length_eq_countP_add_countP (fun i => decide (x.testBit i = y.testBit i))
    (List.range 8)
  have hneg : (List.range 8).countP (fun i => ¬ (decide (x.testBit i = y.testBit i)) = true)
      = (List.range 8).countP (fun i => x.testBit i ≠ y.testBit i) := by
    congr 1
    funext i
    simp
  refine ⟨?_, ?_⟩
  · rw [hm, popcount_mod, chu_dist_eq]
  · rw [chu_dist_eq, hne]
    rw [hneg, hne, List.length_range] at hsum
    have : (List.range 8).countP (fun i => x.testBit i = y.testBit i) = 8 - popcount 8 (x ^^^ y) := by
      have h2 : (List.range 8).countP (fun i => decide (x.testBit i = y.testBit i)) =
          (List.range 8).countP (fun i => x.testBit i = y.testBit i) := rfl
      omega
    rw [this]
    have := popcount_le 8 (x ^^^ y)
    omega

theorem rdc_some (cbuf : List Nat) (i : Int) (h0 : 0 ≤ i) (h1 : i < cbuf.length) :
    rdc cbuf i = some (cell cbuf i.toNat) := by
  rw [rdc, if_pos h0]
  exact get?_eq_cell cbuf i.toNat (by omega)

theorem ndigits_le (b : Nat) : ∀ n v, ndigits b n v ≤ n + 1 := by
  intro n
  induction n with
  | zero => intro v; simp [ndigits]
  | succ n ih =>
    intro v
    rw [ndigits]
    split_ifs
    · omega
    · have := ih (v / b)
      omega

theorem ndigits_pos (b : Nat) : ∀ n v, 1 ≤ ndigits b n v := by
  intro n v
  cases n with
  | zero => simp [ndigits]
  | succ n =>
    rw [ndigits]
    split_ifs <;> omega

theorem lenX_status (v : Nat) : lenX 4 v ≤ 8 := by
  have := ndigits_le 16 7 v
  unfold lenX
  omega

theorem lenX_char (c : Nat) (h : c < 256) : lenX 2 c = 2 := by
  unfold lenX
  have h1 := ndigits_pos 16 7 c
  have h2 : ndigits 16 7 c ≤ 2 := by
    rw [ndigits]
    split_ifs
    · omega
    · rw [ndigits, if_pos (by omega)]
  omega

theorem lenD_le (w : Nat) (v : Int) (hw : w ≤ 11) : lenD w v ≤ 11 := by
  have := ndigits_le 10 9 v.natAbs
  unfold lenD
  split_ifs <;> omega

theorem lenD_two (v : Int) (h0 : -9 ≤ v) (h1 : v ≤ 99) : lenD 2 v = 2 := by
  unfold lenD
  have h2 := ndigits_pos 10 9 v.natAbs
  by_cases hv : v < 0
  · rw [if_pos hv, ndigits, if_pos (by omega)]
    rfl
  · rw [if_neg hv]
    have : ndigits 10 9 v.natAbs ≤ 2 := by
      rw [ndigits]
      split_ifs
      · omega
      · rw [ndigits, if_pos (by omega)]
    omega

theorem lenD_one (v : Nat) (h1 : v ≤ 9) : lenD 1 (v : Int) = 1 := by
  unfold lenD
  rw [if_neg (by omega), ndigits, if_pos (by omega)]
  rfl

theorem traceLoop_fits (cbuf : List Nat) (hc : ∀ c ∈ cbuf, c < 256) :
    ∀ n i cb chars, i + n ≤ cbuf.length → chars + 2 * n ≤ cb →
      traceLoop cbuf n i cb chars = some true := by
  intro n
  induction n with
  | zero => intro i cb chars _ _; rfl
  | succ n ih =>
    intro i cb chars hi hcb
    have hlt : i < cbuf.length := by omega
    rw [traceLoop, if_neg (by omega), get?_eq_cell cbuf i hlt, Option.some_bind]
    apply ih
    · omega
    · have hcell : cell cbuf i < 256 := by
        apply hc
        unfold cell
        rw [List.getD_eq_getElem?_getD, List.getElem?_eq_getElem hlt]
        exact List.getElem_mem hlt
      rw [lenX_char _ hcell]
      omega

theorem phaseVal_le (cbuf : List Nat) (nchar : Nat) (i : Int) : phaseVal cbuf nchar i ≤ 16 := by
  unfold phaseVal
  have := chu_dist_le (if i ≥ 0 then (cell cbuf (i + 4).toNat &&& 0xf) |||
    ((cell cbuf i.toNat &&& 0xf) <<< 4) else cell cbuf (i + 4).toNat &&& 0xf) 0x63
  have := chu_dist_le (if i + 9 < nchar then
    ((cell cbuf (i + 5).toNat &&& 0xf) <<< 4) ||| (cell cbuf (i + 9).toNat &&& 0xf)
    else (cell cbuf (i + 5).toNat &&& 0xf) <<< 4) 0x63
  omega

theorem chu_a_phase_some (cbuf : List Nat) (nchar : Nat) (hl : cbuf.length = 11)
    (i : Int) (h0 : -1 ≤ i) (h1 : i ≤ 1) (st : Int × Int) :
    chu_a_phase cbuf nchar i st =
      some (if phaseVal cbuf nchar i > st.1 then (phaseVal cbuf nchar i, i) else st) := by
  have r4 := rdc_some cbuf (i + 4) (by omega) (by omega)
  have r5 := rdc_some cbuf (i + 5) (by omega) (by omega)
  unfold chu_a_phase phaseVal
  by_cases hi : i ≥ 0
  · have r0 := rdc_some cbuf i (by omega) (by omega)
    by_cases h9 : i + 9 < nchar
    · have r9 := rdc_some cbuf (i + 9) (by omega) (by omega)
      simp only [r4, r5, r0, r9, if_pos hi, if_pos h9, Option.some_bind]
    · simp only [r4, r5, r0, if_pos hi, if_neg h9, Option.some_bind]
  · by_cases h9 : i + 9 < nchar
    · have r9 := rdc_some cbuf (i + 9) (by omega) (by omega)
      simp only [r4, r5, r9, if_neg hi, if_pos h9, Option.some_bind]
    · simp only [r4, r5, if_neg hi, if_neg h9, Option.some_bind]

theorem phase_inv (st : Int × Int) (v i : Int)
    (h : 0 ≤ st.1 ∧ st.1 ≤ 16 ∧ -1 ≤ st.2 ∧ st.2 ≤ 1) (hv : v ≤ 16) (h0 : -1 ≤ i) (h1 : i ≤ 1) :
    0 ≤ (if v > st.1 then (v, i) else st).1 ∧ (if v > st.1 then (v, i) else st).1 ≤ 16 ∧
      -1 ≤ (if v > st.1 then (v, i) else st).2 ∧ (if v > st.1 then (v, i) else st).2 ≤ 1 := by
  by_cases c : v > st.1
  · rw [if_pos c]
    dsimp only
    omega
  · rw [if_neg c]
    exact h

theorem chu_a_sync_eq (cbuf : List Nat) (nchar : Nat) (hl : cbuf.length = 11) :
    chu_a_sync cbuf nchar = some (syncVal cbuf nchar) := by
  unfold chu_a_sync syncVal
  rw [chu_a_phase_some cbuf nchar hl (-1) (by omega) (by omega), Option.some_bind,
    chu_a_phase_some cbuf nchar hl 0 (by omega) (by omega), Option.some_bind,
    chu_a_phase_some cbuf nchar hl 1 (by omega) (by omega)]

theorem syncVal_range (cbuf : List Nat) (nchar : Nat) :
    0 ≤ (syncVal cbuf nchar).1 ∧ (syncVal cbuf nchar).1 ≤ 16 ∧
      -1 ≤ (syncVal cbuf nchar).2 ∧ (syncVal cbuf nchar).2 ≤ 1 := by
  unfold syncVal
  exact phase_inv _ _ 1
    (phase_inv _ _ 0
      (phase_inv (0, 0) _ (-1) (by simp) (phaseVal_le _ _ _) (by omega) (by omega))
      (phaseVal_le _ _ _) (by omega) (by omega))
    (phaseVal_le _ _ _) (by omega) (by omega)

theorem chu_a_sync_some (cbuf : List Nat) (nchar : Nat) (hl : cbuf.length = 11) :
    ∃ s k : Int, chu_a_sync cbuf nchar = some (s, k) ∧ 0 ≤ s ∧ s ≤ 16 ∧ -1 ≤ k ∧ k ≤ 1 :=
  ⟨_, _, chu_a_sync_eq cbuf nchar hl, syncVal_range cbuf nchar⟩

theorem chu_a_second_eq (cbuf : List Nat) (nchar : Nat) (hl : cbuf.length = 11)
    (k : Int) (h0 : -1 ≤ k) (h1 : k ≤ 1) :
    chu_a_second cbuf nchar k = some (secondVal cbuf nchar k) := by
  unfold chu_a_second secondVal
  rw [rdc_some cbuf (k + 4) (by omega) (by omega), Option.some_bind]
  dsimp only
  by_cases c : (cell cbuf (k + 4).toNat >>> 4) &&& 0xf < 2 ∨
      (cell cbuf (k + 4).toNat >>> 4) &&& 0xf > 9 ∨ k + 9 ≥ nchar
  · rw [if_pos c, if_pos c]
  · rw [if_neg c, if_neg c, rdc_some cbuf (k + 9) (by omega) (by omega), Option.some_bind]

theorem secondVal_le (cbuf : List Nat) (nchar : Nat) (k : Int) : secondVal cbuf nchar k ≤ 9 := by
  unfold secondVal
  split_ifs <;> omega

theorem chu_a_second_some (cbuf : List Nat) (nchar : Nat) (hl : cbuf.length = 11)
    (k : Int) (h0 : -1 ≤ k) (h1 : k ≤ 1) :
    ∃ t, chu_a_second cbuf nchar k = some t ∧ t ≤ 9 :=
  ⟨_, chu_a_second_eq cbuf nchar hl k h0 h1, secondVal_le cbuf nchar k⟩

theorem chu_a_stamps_some (cstamp : List l_fp) (charstamp : l_fp) (nchar : Nat) (k : Int)
    (hc : nchar ≤ cstamp.length) :
    ∀ n i offset (tstamp : List l_fp) ntstamp, tstamp.length = MAXSTAGE → ntstamp < MAXSTAGE →
      ∃ ts nt, chu_a_stamps cstamp charstamp nchar k n i offset tstamp ntstamp = some (ts, nt) ∧
        ts.length = MAXSTAGE ∧ nt < MAXSTAGE := by
  intro n
  induction n with
  | zero => intro i offset tstamp ntstamp h1 h2; exact ⟨_, _, rfl, h1, h2⟩
  | succ n ih =>
    intro i offset tstamp ntstamp h1 h2
    rw [chu_a_stamps]
    by_cases c : i < nchar ∧ (i : Int) < k + 10
    · have hi : i < cstamp.length := by omega
      rw [if_pos c, List.get?_eq_getElem?, List.getElem?_eq_getElem hi, Option.some_bind,
        if_pos (by omega)]
      apply ih
      · rw [List.length_set]; exact h1
      · unfold MAXSTAGE at *
        split_ifs <;> omega
    · rw [if_neg c]
      exact ⟨_, _, rfl, h1, h2⟩

theorem chu_a_stash_some (cbuf : List Nat) :
    ∀ n j i decode, j + n ≤ cbuf.length → ∃ d, chu_a_stash cbuf n j i decode = some d := by
  intro n
  induction n with
  | zero => intro j i decode _; exact ⟨_, rfl⟩
  | succ n ih =>
    intro j i decode h
    rw [chu_a_stash]
    by_cases c : i < 0 ∨ i > 18
    · rw [if_pos c]
      exact ih _ _ _ (by omega)
    · rw [if_neg c, get?_eq_cell cbuf j (by omega), Option.some_bind]
      exact ih _ _ _ (by omega)

/-- The trace line of `chu_a` never fills `tbuf`. -/
theorem chu_a_trace (up : chuunit) (nchar : Nat) (hwf : up.wf) (hn : nchar ≤ 11) (s k : Int)
    (t : Nat) (hs0 : 0 ≤ s) (hs1 : s ≤ 16) (hk0 : -1 ≤ k) (hk1 : k ≤ 1) (ht : t ≤ 9) :
    traceLoop up.cbuf nchar 0 80
      (min (5 + lenX 4 up.status + 1 + 4 + 1 + lenD 2 nchar + 1 + lenD 2 up.burdist + 1 +
        lenD 2 k + 1 + lenD 2 s + 1 + lenD 1 t + 1) 79) = some true := by
  obtain ⟨h1, h2, _, _, _⟩ := hwf
  apply traceLoop_fits up.cbuf h2
  · rw [h1]; unfold BURST; omega
  · have a1 := lenX_status up.status
    have a2 := lenD_two nchar (by omega) (by omega)
    have a3 := lenD_le 2 up.burdist (by omega)
    have a4 := lenD_two k (by omega) (by omega)
    have a5 := lenD_two s (by omega) (by omega)
    have a6 := lenD_one t ht
    omega

/-- The trace line of `chu_b` never fills `tbuf`. -/
theorem chu_b_trace (up : chuunit) (nchar : Nat) (hwf : up.wf) (hn : nchar ≤ 11) :
    traceLoop up.cbuf nchar 0 80
      (min (5 + lenX 4 up.status + 1 + 4 + 1 + lenD 2 nchar + 1 + lenD 2 (-up.burdist) + 1) 79)
      = some true := by
  obtain ⟨h1, h2, _, _, _⟩ := hwf
  apply traceLoop_fits up.cbuf h2
  · rw [h1]; unfold BURST; omega
  · have a1 := lenX_status up.status
    have a2 := lenD_two nchar (by omega) (by omega)
    have a3 := lenD_le 2 (-up.burdist) (by omega)
    omega

/-- `chu_a` once the phase, the second number and the trace line are known. -/
theorem chu_a_unfold (up : chuunit) (nchar : Nat) (hwf : up.wf) (hn : nchar ≤ 11) (s k : Int)
    (t : Nat) (hs : chu_a_sync up.cbuf nchar = some (s, k)) (hs0 : 0 ≤ s) (hs1 : s ≤ 16)
    (hk0 : -1 ≤ k) (hk1 : k ≤ 1) (ht : chu_a_second up.cbuf nchar k = some t) (ht9 : t ≤ 9) :
    chu_a up nchar =
      if s < MINSYNC then some { up with syndist := s, status := up.status ||| AFRAME }
      else
        (if t = 0 then some { up with syndist := s, status := up.status ||| AFORMAT }
          else
            (chu_a_stamps up.cstamp up.charstamp nchar k nchar
              (if k < 0 then 0 else if k > 0 then 1 else 0)
              (if k < 0 then up.charstamp else ⟨30 + t, 0⟩) up.tstamp up.ntstamp).bind fun r =>
            some { up with
              syndist := s
              status := up.status ||| AVALID
              sec := 30 + t
              tstamp := r.1
              ntstamp := r.2
              decode := (chu_a_advance t t (up.decode, up.prevsec)).1
              prevsec := (chu_a_advance t t (up.decode, up.prevsec)).2 }).bind fun up =>
        (chu_a_stash up.cbuf nchar 0 (-(2 * k)) up.decode).bind fun decode =>
        some { up with decode := decode, burstcnt := up.burstcnt + 1 } := by
  have htr := chu_a_trace up nchar hwf hn s k t hs0 hs1 hk0 hk1 ht9
  unfold chu_a
  rw [hs, Option.some_bind]
  dsimp only
  rw [ht, Option.some_bind, htr, Option.some_bind]
  simp only [not_true_eq_false, if_false]

/-- `chu_a` returns, and leaves the burst distance alone. -/
theorem chu_a_burdist (up : chuunit) (nchar : Nat) (hwf : up.wf) (hn : nchar ≤ 11) :
    ∃ up2, chu_a up nchar = some up2 ∧ up2.burdist = up.burdist := by
  have hl : up.cbuf.length = 11 := hwf.1
  obtain ⟨s, k, hs, hs0, hs1, hk0, hk1⟩ := chu_a_sync_some up.cbuf nchar hl
  obtain ⟨t, ht, ht9⟩ := chu_a_second_some up.cbuf nchar hl k hk0 hk1
  rw [chu_a_unfold up nchar hwf hn s k t hs hs0 hs1 hk0 hk1 ht ht9]
  by_cases c1 : s < MINSYNC
  · rw [if_pos c1]
    exact ⟨_, rfl, rfl⟩
  · rw [if_neg c1]
    by_cases c2 : t = 0
    · rw [if_pos c2, Option.some_bind]
      dsimp only
      obtain ⟨d, hd⟩ := chu_a_stash_some up.cbuf nchar 0 (-(2 * k)) up.decode (by omega)
      rw [hd, Option.some_bind]
      exact ⟨_, rfl, rfl⟩
    · rw [if_neg c2]
      obtain ⟨ts, nt, hst, _, _⟩ := chu_a_stamps_some up.cstamp up.charstamp nchar k
        (by rw [hwf.2.2.1]; exact hn) nchar (if k < 0 then 0 else if k > 0 then 1 else 0)
        (if k < 0 then up.charstamp else ⟨30 + t, 0⟩) up.tstamp up.ntstamp hwf.2.2.2.1
        hwf.2.2.2.2
      rw [hst, Option.some_bind, Option.some_bind]
      dsimp only
      obtain ⟨d, hd⟩ := chu_a_stash_some up.cbuf nchar 0 (-(2 * k))
        (chu_a_advance t t (up.decode, up.prevsec)).1 (by omega)
      rw [hd, Option.some_bind]
      exact ⟨_, rfl, rfl⟩

/-- `chu_b` once the trace line is known. -/
theorem chu_b_unfold (up : chuunit) (nchar : Nat) (hwf : up.wf) (hn : nchar ≤ 11) :
    chu_b up nchar =
      if up.burdist > -40 then some { up with status := up.status ||| BFRAME }
      else some { up with year := (cell up.cbuf 3 <<< 8) ||| cell up.cbuf 2,
                          dst := cell up.cbuf 4 } := by
  have hl : up.cbuf.length = 11 := hwf.1
  unfold chu_b
  dsimp only
  rw [chu_b_trace up nchar hwf hn, Option.some_bind, get?_eq_cell up.cbuf 3 (by omega),
    get?_eq_cell up.cbuf 2 (by omega), get?_eq_cell up.cbuf 4 (by omega)]
  simp only [not_true_eq_false, if_false, Option.some_bind]

theorem chu_b_burdist (up : chuunit) (nchar : Nat) (hwf : up.wf) (hn : nchar ≤ 11) :
    ∃ up2, chu_b up nchar = some up2 ∧ up2.burdist = up.burdist := by
  rw [chu_b_unfold up nchar hwf hn]
  split_ifs
  · exact ⟨_, rfl, rfl⟩
  · exact ⟨_, rfl, rfl⟩

theorem chu_burst_loop_step (cbuf : List Nat) (ndx n i : Nat) (acc : Int)
    (hi : (i : Int) < (ndx : Int) - 5) (h1 : i + 5 < cbuf.length) :
    chu_burst_loop cbuf ndx (n + 1) i acc =
      chu_burst_loop cbuf ndx n (i + 1) (acc + chu_dist (cell cbuf i) (cell cbuf (i + 5))) := by
  rw [chu_burst_loop, if_pos hi, get?_eq_cell cbuf i (by omega), Option.some_bind,
    get?_eq_cell cbuf (i + 5) h1, Option.some_bind]

theorem chu_burst_loop_stop (cbuf : List Nat) (ndx n i : Nat) (acc : Int)
    (hi : ¬ (i : Int) < (ndx : Int) - 5) :
    chu_burst_loop cbuf ndx (n + 1) i acc = some acc := by
  rw [chu_burst_loop, if_neg hi]

theorem pairDist_four (cbuf : List Nat) :
    pairDist cbuf 4 = 0 + chu_dist (cell cbuf 0) (cell cbuf 5) +
      chu_dist (cell cbuf 1) (cell cbuf 6) + chu_dist (cell cbuf 2) (cell cbuf 7) +
      chu_dist (cell cbuf 3) (cell cbuf 8) := by
  simp [pairDist, List.range_succ]
  ring

theorem pairDist_five (cbuf : List Nat) :
    pairDist cbuf 5 = 0 + chu_dist (cell cbuf 0) (cell cbuf 5) +
      chu_dist (cell cbuf 1) (cell cbuf 6) + chu_dist (cell cbuf 2) (cell cbuf 7) +
      chu_dist (cell cbuf 3) (cell cbuf 8) + chu_dist (cell cbuf 4) (cell cbuf 9) := by
  simp [pairDist, List.range_succ]
  ring

theorem chu_burst_loop_spec (cbuf : List Nat) (ndx : Nat) (hl : cbuf.length = 11)
    (h9 : 9 ≤ ndx) :
    chu_burst_loop cbuf ndx 5 0 0 = some (pairDist cbuf (min 5 (ndx - 5))) := by
  by_cases h : ndx = 9
  · subst h
    rw [chu_burst_loop_step cbuf 9 4 0 _ (by omega) (by omega),
      chu_burst_loop_step cbuf 9 3 1 _ (by omega) (by omega),
      chu_burst_loop_step cbuf 9 2 2 _ (by omega) (by omega),
      chu_burst_loop_step cbuf 9 1 3 _ (by omega) (by omega),
      chu_burst_loop_stop cbuf 9 0 4 _ (by omega)]
    rw [show min 5 (9 - 5) = 4 from rfl, pairDist_four]
  · have hm : min 5 (ndx - 5) = 5 := by omega
    rw [chu_burst_loop_step cbuf ndx 4 0 _ (by omega) (by omega),
      chu_burst_loop_step cbuf ndx 3 1 _ (by omega) (by omega),
      chu_burst_loop_step cbuf ndx 2 2 _ (by omega) (by omega),
      chu_burst_loop_step cbuf ndx 1 3 _ (by omega) (by omega),
      chu_burst_loop_step cbuf ndx 0 4 _ (by omega) (by omega)]
    rw [hm, pairDist_five]
    rfl

theorem chu_burst_unfold (up : chuunit) (hwf : up.wf) (h9 : 9 ≤ up.ndx) :
    chu_burst up =
      if pairDist up.cbuf (min 5 (up.ndx - 5)) ≥ MINDIST then
        chu_a { up with burdist := pairDist up.cbuf (min 5 (up.ndx - 5)) } up.ndx
      else if pairDist up.cbuf (min 5 (up.ndx - 5)) ≤ -MINDIST then
        chu_b { up with burdist := pairDist up.cbuf (min 5 (up.ndx - 5)) } up.ndx
      else some { up with burdist := pairDist up.cbuf (min 5 (up.ndx - 5)),
                          status := up.status ||| NOISE } := by
  unfold chu_burst
  rw [if_neg (by unfold MINCHAR; omega), chu_burst_loop_spec up.cbuf up.ndx hwf.1 h9,
    Option.some_bind]

theorem pairDist_inverse (cbuf : List Nat) (n : Nat) (hn : n ≤ 5)
    (hinv : ∀ i, i < n → cell cbuf (i + 5) = cell cbuf i ^^^ 0xff) :
    pairDist cbuf n = -8 * n := by
  unfold pairDist
  induction n with
  | zero => simp
  | succ n ih =>
    rw [List.range_succ, List.map_append, List.sum_append, ih (by omega)
      (fun i hi => hinv i (by omega))]
    simp only [List.map_cons, List.map_nil, List.sum_cons, List.sum_nil]
    rw [hinv n (by omega), chu_dist_inverse]
    push_cast
    ring

theorem chu_a_stamps_count (cstamp : List l_fp) (charstamp : l_fp) (nchar : Nat) (k : Int)
    (hc : nchar ≤ cstamp.length) :
    ∀ n i offset (tstamp : List l_fp) ntstamp, tstamp.length = MAXSTAGE →
      ntstamp + n < MAXSTAGE → i + n ≤ nchar → ((i + n : Nat) : Int) ≤ k + 10 →
      ∃ ts, chu_a_stamps cstamp charstamp nchar k n i offset tstamp ntstamp
        = some (ts, ntstamp + n) := by
  intro n
  induction n with
  | zero => intro i offset tstamp ntstamp _ _ _ _; exact ⟨_, rfl⟩
  | succ n ih =>
    intro i offset tstamp ntstamp h1 h2 h3 h4
    have hi : i < cstamp.length := by omega
    have c : i < nchar ∧ (i : Int) < k + 10 := ⟨by omega, by omega⟩
    unfold MAXSTAGE at h1 h2
    rw [chu_a_stamps, if_pos c, List.get?_eq_getElem?, List.getElem?_eq_getElem hi,
      Option.some_bind, if_pos (by omega), if_pos (by unfold MAXSTAGE; omega)]
    obtain ⟨ts, hts⟩ := ih (i + 1) (L_ADD offset charstamp)
      (tstamp.set ntstamp (L_SUB cstamp[i] offset)) (ntstamp + 1)
      (by rw [List.length_set]; exact h1) (by unfold MAXSTAGE; omega) (by omega)
      (by push_cast at h4 ⊢; omega)
    exact ⟨ts, by rw [hts]; congr 2; omega⟩

theorem chu_a_stamps_spec (cstamp : List l_fp) (charstamp : l_fp) (nchar : Nat) (k : Int)
    (hc : nchar ≤ cstamp.length) :
    ∀ n i offset (tstamp : List l_fp) ntstamp, tstamp.length = MAXSTAGE →
      ntstamp + n < MAXSTAGE → i + n ≤ nchar → ((i + n : Nat) : Int) ≤ k + 10 →
      ∃ ts, chu_a_stamps cstamp charstamp nchar k n i offset tstamp ntstamp
          = some (ts, ntstamp + n) ∧
        (∀ j, j < n → ts[ntstamp + j]? =
          (cstamp[i + j]?).map fun cs => L_SUB cs ((fun o => L_ADD o charstamp)^[j] offset)) ∧
        (∀ m, m < ntstamp ∨ ntstamp + n ≤ m → ts[m]? = tstamp[m]?) := by
  intro n
  induction n with
  | zero =>
    intro i offset tstamp ntstamp _ _ _ _
    exact ⟨_, rfl, fun j hj => absurd hj (Nat.not_lt_zero j), fun m _ => rfl⟩
  | succ n ih =>
    intro i offset tstamp ntstamp h1 h2 h3 h4
    have hi : i < cstamp.length := by omega
    have c : i < nchar ∧ (i : Int) < k + 10 := ⟨by omega, by omega⟩
    have hnt : ntstamp < tstamp.length := by omega
    unfold MAXSTAGE at h1 h2
    rw [chu_a_stamps, if_pos c, List.get?_eq_getElem?, List.getElem?_eq_getElem hi,
      Option.some_bind, if_pos (by omega), if_pos (by unfold MAXSTAGE; omega)]
    obtain ⟨ts, hts, hw, hk⟩ := ih (i + 1) (L_ADD offset charstamp)
      (tstamp.set ntstamp (L_SUB cstamp[i] offset)) (ntstamp + 1)
      (by rw [List.length_set]; exact h1) (by unfold MAXSTAGE; omega) (by omega)
      (by push_cast at h4 ⊢; omega)
    refine ⟨ts, by rw [hts]; congr 2; omega, ?_, ?_⟩
    · intro j hj
      cases j with
      | zero =>
        rw [Nat.add_zero, Nat.add_zero, hk ntstamp (Or.inl (by omega)),
          List.getElem?_set_self hnt, List.getElem?_eq_getElem hi]
        rfl
      | succ j =>
        have := hw j (by omega)
        rw [show ntstamp + (j + 1) = ntstamp + 1 + j by omega,
          show i + (j + 1) = i + 1 + j by omega, this, Function.iterate_succ_apply]
    · intro m hm
      rw [hk m (by omega), List.getElem?_set_ne (by omega)]

theorem chu_dist_nibble : ∀ a, a < 16 → chu_dist a 0x63 ≤ 4 := by
  decide

theorem or_and_self (x b : Nat) : (x ||| b) &&& b = b := by
  apply Nat.eq_of_testBit_eq
  intro i
  rw [Nat.testBit_and, Nat.testBit_or]
  cases x.testBit i <;> cases b.testBit i <;> rfl

theorem and_15_lt (x : Nat) : x &&& 15 < 16 := by
  have := Nat.and_pow_two_sub_one_eq_mod x 4
  norm_num at this
  rw [this]
  exact Nat.mod_lt _ (by norm_num)

theorem chu_clear_wf (up : chuunit) (h : up.cbuf.length = BURST) (hc : ∀ c ∈ up.cbuf, c < 256)
    (h1 : up.cstamp.length = BURST) (h2 : up.tstamp.length = MAXSTAGE) : (chu_clear up).wf :=
  ⟨h, hc, h1, h2, by show (0 : Nat) < MAXSTAGE; decide⟩

/-- The phase search on a repeated burst framed by `6` and `3`. -/
theorem syncVal_framed (c0 c1 c2 c3 c4 x : Nat) (h6 : c0 &&& 0xf = 6) (h3 : c4 &&& 0xf = 3) :
    syncVal [c0, c1, c2, c3, c4, c0, c1, c2, c3, c4, x] 10 = (16, 0) := by
  have v0 : phaseVal [c0, c1, c2, c3, c4, c0, c1, c2, c3, c4, x] 10 0 = 16 := by
    unfold phaseVal
    rw [if_pos (by decide), if_pos (by decide)]
    show chu_dist (c4 &&& 0xf ||| (c0 &&& 0xf) <<< 4) 0x63 +
      chu_dist ((c0 &&& 0xf) <<< 4 ||| c4 &&& 0xf) 0x63 = 16
    rw [h6, h3]
    decide
  have v1 : phaseVal [c0, c1, c2, c3, c4, c0, c1, c2, c3, c4, x] 10 (-1) ≤ 12 := by
    unfold phaseVal
    rw [if_neg (by decide), if_pos (by decide)]
    show chu_dist (c3 &&& 0xf) 0x63 + chu_dist ((c4 &&& 0xf) <<< 4 ||| c3 &&& 0xf) 0x63 ≤ 12
    have a1 := chu_dist_nibble (c3 &&& 0xf) (and_15_lt c3)
    have a2 := chu_dist_le ((c4 &&& 0xf) <<< 4 ||| c3 &&& 0xf) 0x63
    omega
  have v2 := phaseVal_le [c0, c1, c2, c3, c4, c0, c1, c2, c3, c4, x] 10 1
  unfold syncVal
  rw [v0]
  generalize phaseVal [c0, c1, c2, c3, c4, c0, c1, c2, c3, c4, x] 10 (-1) = a at v1
  generalize phaseVal [c0, c1, c2, c3, c4, c0, c1, c2, c3, c4, x] 10 1 = b at v2
  dsimp only
  have hb : ¬ b > 16 := by omega
  by_cases ha : a > 0
  · have h16 : (16 : Int) > a := by omega
    simp only [ha, h16, hb, if_true, if_false]
  · have h16 : (16 : Int) > 0 := by omega
    simp only [ha, h16, hb, if_true, if_false]

theorem chu_major_row_scan (decode : List (List Nat)) (i d : Nat) (hd : d < 16)
    (hmax : ∀ j, j < 16 → j ≠ d → rowCount decode i j < rowCount decode i d) :
    ∀ n j st, j + n = 16 → (j ≤ d → st.1 < rowCount decode i d) →
      (d < j → st = (rowCount decode i d, d)) →
      chu_major_row decode i n j st = (rowCount decode i d, d) := by
  intro n
  induction n with
  | zero =>
    intro j st hj _ h2
    exact h2 (by omega)
  | succ n ih =>
    intro j st hj h1 h2
    rw [chu_major_row]
    apply ih
    · omega
    · intro hle
      have hjd : j < d := by omega
      have := hmax j (by omega) (by omega)
      have := h1 (by omega)
      unfold rowCount at *
      split_ifs <;> omega
    · intro hlt
      by_cases hjd : j = d
      · subst hjd
        have := h1 (le_refl _)
        unfold rowCount at *
        rw [if_pos (by omega)]
      · have hst := h2 (by omega)
        have := hmax j (by omega) hjd
        unfold rowCount at *
        rw [hst, if_neg (by dsimp only; omega)]

theorem chu_major_row_max (decode : List (List Nat)) (i d : Nat) (hd : d < 16)
    (hmax : ∀ j, j < 16 → j ≠ d → rowCount decode i j < rowCount decode i d) :
    chu_major_row decode i 16 0 (0, 0) = (rowCount decode i d, d) := by
  apply chu_major_row_scan decode i d hd hmax 16 0 (0, 0) (by omega)
  · intro _
    by_cases h0 : d = 0
    · have := hmax 1 (by omega) (by omega)
      show 0 < rowCount decode i d
      omega
    · have := hmax 0 (by omega) (fun h => h0 h.symm)
      show 0 < rowCount decode i d
      omega
  · intro h
    omega

theorem chu_major_rows_keep (decode : List (List Nat)) (burstcnt : Nat) :
    ∀ n i (st : Nat × Nat × List Nat) r, r < i →
      (chu_major_rows decode burstcnt n i st).2.2.getD r 0 = st.2.2.getD r 0 := by
  intro n
  induction n with
  | zero => intro i st r _; rfl
  | succ n ih =>
    intro i st r hr
    rw [chu_major_rows, ih (i + 1) _ r (by omega)]
    simp only [List.getD_eq_getElem?_getD, List.getElem?_set_ne (show i ≠ r by omega)]

theorem chu_major_rows_code (decode : List (List Nat)) (burstcnt : Nat) :
    ∀ n i (st : Nat × Nat × List Nat) r, i ≤ r → r < i + n → r < st.2.2.length →
      (chu_major_rows decode burstcnt n i st).2.2.getD r 0 =
        hexchar.getD (chu_major_row decode r 16 0 (0, 0)).2 0 := by
  intro n
  induction n with
  | zero => intro i st r h1 h2 _; omega
  | succ n ih =>
    intro i st r h1 h2 h3
    rw [chu_major_rows]
    by_cases hri : r = i
    · subst hri
      rw [chu_major_rows_keep decode burstcnt n (r + 1) _ r (by omega)]
      dsimp only
      rw [List.getD_eq_getElem?_getD, List.getElem?_set_self h3]
      rfl
    · apply ih
      · omega
      · omega
      · dsimp only
        rw [List.length_set]
        exact h3

end Chu

/-! ### IRIG decoder, WWV filters and clock digits -/

namespace Irig

theorem and_0xf (t : Nat) : t &&& 0xf = t % 16 := Nat.and_pow_two_sub_one_eq_mod t 4

theorem shr5 (t : Nat) : t >>> 5 = t / 32 := by
  rw [Nat.shiftRight_eq_div_pow]

theorem shr1 (t : Nat) : t >>> 1 = t / 2 := by
  rw [Nat.shiftRight_eq_div_pow]

theorem or_0x200 (t : Nat) (h : t < 512) : t ||| 0x200 = t + 512 := by
  have h9 : t < 2 ^ 9 := h
  have := Nat.mul_add_lt_is_or h9 1
  norm_num at this
  rw [Nat.lor_comm, ← this]
  omega

theorem irig_decode_bits_data (up : irigunit) (b : Nat) (hb : b < 2) (hr : up.bits < 1024) :
    irig_decode_bits up b = { up with bits := up.bits / 2 + 512 * b, lastbit := b } := by
  unfold irig_decode_bits
  have h2 : b ≠ BITP := by unfold BITP; omega
  by_cases h1 : b = BIT1
  · simp only [h1, if_true, shr1]
    rw [or_0x200 _ (by omega)]
    simp [BIT1]
  · have h0 : b = 0 := by unfold BIT1 at h1; omega
    simp [h0, BIT1, BITP, shr1]

theorem decode_run_cons (up : irigunit) (b : Nat) (l : List Nat) :
    decode_run up (b :: l) = decode_run (irig_decode up b) l := rfl

theorem decode_run_nil (up : irigunit) : decode_run up [] = up := rfl

theorem decode_run_append (up : irigunit) (l1 l2 : List Nat) :
    decode_run up (l1 ++ l2) = decode_run (decode_run up l1) l2 := by
  unfold decode_run
  rw [List.foldl_append]

theorem irig_decode_end_plain (up : irigunit) (hf : up.frmcnt % 10 ≠ 0) :
    irig_decode_end up = { up with frmcnt := (up.frmcnt + 1) % 100 } := by
  unfold irig_decode_end
  simp [SUBFLD, FIELD, hf]

theorem irig_decode_data (up : irigunit) (b : Nat) (hb : b < 2) (hr : up.bits < 1024)
    (hf : up.frmcnt % 10 ≠ 0) :
    irig_decode up b = withReg up (up.bits / 2 + 512 * b) b ((up.frmcnt + 1) % 100) := by
  unfold irig_decode
  rw [irig_decode_bits_data up b hb hr]
  exact irig_decode_end_plain _ hf

theorem withReg_withReg (up : irigunit) (a b c a1 b1 c1 : Nat) :
    withReg (withReg up a b c) a1 b1 c1 = withReg up a1 b1 c1 := rfl

theorem withReg_bits (up : irigunit) (a b c : Nat) : (withReg up a b c).bits = a := rfl

theorem withReg_lastbit (up : irigunit) (a b c : Nat) : (withReg up a b c).lastbit = b := rfl

theorem withReg_frmcnt (up : irigunit) (a b c : Nat) : (withReg up a b c).frmcnt = c := rfl

theorem irig_decode_bits_pi (up : irigunit) (hl : up.lastbit < 2) :
    irig_decode_bits up BITP = { up with bits := up.bits / 2, lastbit := BITP } := by
  unfold irig_decode_bits
  have h : ¬ up.lastbit = 2 := by omega
  simp [BITP, BIT1, shr1, h]

theorem irig_decode_bits_mark (up : irigunit) (hl : up.lastbit = BITP) (hf : up.frmcnt = 1) :
    irig_decode_bits up BITP =
      { up with bits := up.bits / 2, refstamp := up.prvstamp, lastbit := BITP } := by
  unfold irig_decode_bits
  cases up
  simp only at hl hf
  subst hl
  subst hf
  simp [BITP, BIT1, shr1]

/-- Nine data elements and the position identifier that closes their frame. -/
theorem sub_run (up : irigunit) (e0 e1 e2 e3 e4 e5 e6 e7 e8 : Nat) (rest : List Nat)
    (h0 : e0 < 2) (h1 : e1 < 2) (h2 : e2 < 2) (h3 : e3 < 2) (h4 : e4 < 2) (h5 : e5 < 2)
    (h6 : e6 < 2) (h7 : e7 < 2) (h8 : e8 < 2) (hr : up.bits < 1024)
    (hf : up.frmcnt % 10 = 1) :
    decode_run up (e0 :: e1 :: e2 :: e3 :: e4 :: e5 :: e6 :: e7 :: e8 :: BITP :: rest) =
      decode_run (irig_decode_end (withReg up
          (e0 + 2 * e1 + 4 * e2 + 8 * e3 + 16 * e4 + 32 * e5 + 64 * e6 + 128 * e7 + 256 * e8)
          BITP ((up.frmcnt + 9) % 100))) rest := by
  rw [decode_run_cons, irig_decode_data _ _ h0 hr (by omega)]
  rw [decode_run_cons, irig_decode_data _ _ h1 (by rw [withReg_bits]; omega)
    (by rw [withReg_frmcnt]; omega), withReg_withReg, withReg_bits, withReg_frmcnt]
  rw [decode_run_cons, irig_decode_data _ _ h2 (by rw [withReg_bits]; omega)
    (by rw [withReg_frmcnt]; omega), withReg_withReg, withReg_bits, withReg_frmcnt]
  rw [decode_run_cons, irig_decode_data _ _ h3 (by rw [withReg_bits]; omega)
    (by rw [withReg_frmcnt]; omega), withReg_withReg, withReg_bits, withReg_frmcnt]
  rw [decode_run_cons, irig_decode_data _ _ h4 (by rw [withReg_bits]; omega)
    (by rw [withReg_frmcnt]; omega), withReg_withReg, withReg_bits, withReg_frmcnt]
  rw [decode_run_cons, irig_decode_data _ _ h5 (by rw [withReg_bits]; omega)
    (by rw [withReg_frmcnt]; omega), withReg_withReg, withReg_bits, withReg_frmcnt]
  rw [decode_run_cons, irig_decode_data _ _ h6 (by rw [withReg_bits]; omega)
    (by rw [withReg_frmcnt]; omega), withReg_withReg, withReg_bits, withReg_frmcnt]
  rw [decode_run_cons, irig_decode_data _ _ h7 (by rw [withReg_bits]; omega)
    (by rw [withReg_frmcnt]; omega), withReg_withReg, withReg_bits, withReg_frmcnt]
  rw [decode_run_cons, irig_decode_data _ _ h8 (by rw [withReg_bits]; omega)
    (by rw [withReg_frmcnt]; omega), withReg_withReg, withReg_bits, withReg_frmcnt]
  rw [decode_run_cons]
  unfold irig_decode
  rw [irig_decode_bits_pi _ (by rw [withReg_lastbit]; omega)]
  have e : ∀ a b c, ({ withReg up a b c with bits := (withReg up a b c).bits / 2, lastbit := BITP } :
      irigunit) = withReg up (a / 2) BITP c := fun _ _ _ => rfl
  rw [e]
  have key : ∀ a a1 c c1 : Nat, a = a1 → c = c1 →
      decode_run (irig_decode_end (withReg up a BITP c)) rest =
        decode_run (irig_decode_end (withReg up a1 BITP c1)) rest := by
    intro a a1 c c1 h1 h2
    rw [h1, h2]
  apply key
  · omega
  · omega

theorem withReg_atField (u : irigunit) (tc : List Nat) (x r f a c : Nat) :
    withReg (atField u tc x r f) a BITP c = atField u tc x a c := rfl

theorem atField_bits (u : irigunit) (tc : List Nat) (x r f : Nat) :
    (atField u tc x r f).bits = r := rfl

theorem atField_frmcnt (u : irigunit) (tc : List Nat) (x r f : Nat) :
    (atField u tc x r f).frmcnt = f := rfl

theorem atField_timecode (u : irigunit) (tc : List Nat) (x r f : Nat) :
    (atField u tc x r f).timecode = tc := rfl

theorem irig_decode_end_field (u : irigunit) (tc : List Nat) (x r f : Nat)
    (hf : f % 10 = 0) (hf0 : f ≠ 0) (hx : 2 ≤ x) :
    irig_decode_end (atField u tc x r f) =
      atField u (writeDigits tc x (if f = 10 then r / 2 else r)) (x - 2) r ((f + 1) % 100) := by
  unfold irig_decode_end irig_decode_digits
  simp only [atField, SUBFLD, FIELD, hf, hf0, hx, if_true, if_false, and_0xf, shr1, shr5,
    writeDigits]
  by_cases h10 : f = 10
  · simp [h10, Nat.sub_sub]
  · simp [h10, Nat.sub_sub]

/-- A whole frame that is neither the first nor the last of the second. -/
theorem frame_run (u : irigunit) (tc : List Nat) (x r f : Nat)
    (e0 e1 e2 e3 e4 e5 e6 e7 e8 : Nat) (rest : List Nat)
    (h0 : e0 < 2) (h1 : e1 < 2) (h2 : e2 < 2) (h3 : e3 < 2) (h4 : e4 < 2) (h5 : e5 < 2)
    (h6 : e6 < 2) (h7 : e7 < 2) (h8 : e8 < 2) (hr : r < 1024)
    (hf : f % 10 = 1) (hgt : 10 < f) (hlt : f < 90) (hx : 2 ≤ x) :
    decode_run (atField u tc x r f)
        (e0 :: e1 :: e2 :: e3 :: e4 :: e5 :: e6 :: e7 :: e8 :: BITP :: rest) =
      decode_run (atField u
          (writeDigits tc x (e0 + 2 * e1 + 4 * e2 + 8 * e3 + 16 * e4 + 32 * e5 + 64 * e6 +
            128 * e7 + 256 * e8)) (x - 2)
          (e0 + 2 * e1 + 4 * e2 + 8 * e3 + 16 * e4 + 32 * e5 + 64 * e6 + 128 * e7 + 256 * e8)
          (f + 10)) rest := by
  rw [sub_run _ e0 e1 e2 e3 e4 e5 e6 e7 e8 rest h0 h1 h2 h3 h4 h5 h6 h7 h8
    (by rw [atField_bits]; exact hr) (by rw [atField_frmcnt]; exact hf)]
  rw [withReg_atField, atField_frmcnt]
  have q1 : (f + 9) % 100 = f + 9 := by omega
  rw [q1, irig_decode_end_field u tc x _ (f + 9) (by omega) (by omega) hx]
  have q2 : (f + 9 + 1) % 100 = f + 10 := by omega
  have q3 : ¬ f + 9 = 10 := by omega
  rw [q2, if_neg q3]

theorem skel_of_second (up : irigunit) :
    skel_of (irig_decode_second up) = ⟨decide (up.lastbit = BITP), up.frmcnt, 2 * SUBFLD, 0⟩ := by
  unfold irig_decode_second irig_decode_wind irig_decode_alarm irig_decode_fields skel_of
  dsimp only
  split_ifs <;> rfl

theorem skel_of_digits (up : irigunit) :
    skel_of (irig_decode_digits up) =
      ⟨decide (up.lastbit = BITP), up.frmcnt, if 2 ≤ up.xptr then up.xptr - 2 else up.xptr,
        up.errflg⟩ := by
  unfold irig_decode_digits skel_of
  dsimp only
  split_ifs <;> simp [Nat.sub_sub]

theorem skel_of_bits (up : irigunit) (bit : Nat) :
    skel_of (irig_decode_bits up bit) =
      ⟨decide (bit = BITP),
        if bit = BITP ∧ up.lastbit = BITP then 1 else up.frmcnt, up.xptr,
        if (bit = BITP ∧ up.lastbit = BITP) ∧ up.frmcnt ≠ 1 then up.errflg ||| IRIG_ERR_SYNCH
        else up.errflg⟩ := by
  unfold irig_decode_bits skel_of BIT1 BITP
  dsimp only
  by_cases h1 : bit = 1
  · subst h1
    simp
  · by_cases h2 : bit = 2
    · subst h2
      by_cases h3 : up.lastbit = 2
      · by_cases h4 : up.frmcnt = 1
        · simp [h3, h4]
        · simp [h3, h4]
      · simp [h3]
    · simp [h1, h2]

theorem skel_of_end (up : irigunit) :
    skel_of (irig_decode_end up) =
      if up.frmcnt % SUBFLD = 0 then
        if up.frmcnt = 0 then ⟨decide (up.lastbit = BITP), 1, 2 * SUBFLD, 0⟩
        else ⟨decide (up.lastbit = BITP), (up.frmcnt + 1) % FIELD,
          if 2 ≤ up.xptr then up.xptr - 2 else up.xptr, up.errflg⟩
      else ⟨decide (up.lastbit = BITP), (up.frmcnt + 1) % FIELD, up.xptr, up.errflg⟩ := by
  have hd := skel_of_digits up
  have hs := skel_of_second (irig_decode_digits up)
  have e1 : (irig_decode_digits up).frmcnt = up.frmcnt := congrArg skel.frmcnt hd
  have e2 : decide ((irig_decode_digits up).lastbit = BITP) = decide (up.lastbit = BITP) :=
    congrArg skel.lastP hd
  unfold irig_decode_end
  by_cases h1 : up.frmcnt % SUBFLD = 0
  · by_cases h2 : up.frmcnt = 0
    · have h3 : (irig_decode_digits up).frmcnt = 0 := by rw [e1, h2]
      simp only [h1, h2, h3, if_true]
      have := congrArg skel.lastP hs
      have := congrArg skel.xptr hs
      have := congrArg skel.errflg hs
      simp only [skel_of] at *
      simp_all [FIELD]
    · have h3 : ¬ (irig_decode_digits up).frmcnt = 0 := by rw [e1]; exact h2
      simp only [h1, h2, h3, if_true, if_false]
      have := congrArg skel.xptr hd
      have := congrArg skel.errflg hd
      simp only [skel_of] at *
      simp_all
  · simp only [h1, if_false]
    rfl

theorem skel_step (up : irigunit) (bit : Nat) :
    skel_of (irig_decode up bit) = skelStep (skel_of up) (decide (bit = BITP)) := by
  unfold irig_decode
  rw [skel_of_end]
  have hb := skel_of_bits up bit
  have e1 := congrArg skel.lastP hb
  have e2 := congrArg skel.frmcnt hb
  have e3 := congrArg skel.xptr hb
  have e4 := congrArg skel.errflg hb
  simp only [skel_of] at e1 e2 e3 e4
  rw [e1, e2, e3, e4]
  unfold skelStep skel_of
  by_cases h1 : bit = BITP <;> by_cases h2 : up.lastbit = BITP <;> simp [h1, h2]

theorem skel_run (l : List Nat) (up : irigunit) :
    skel_of (decode_run up l) =
      (l.map fun b => decide (b = BITP)).foldl skelStep (skel_of up) := by
  induction l generalizing up with
  | nil => rfl
  | cons b l ih => rw [decode_run_cons, ih, skel_step]; rfl

theorem irig_decode_bits_timecode (up : irigunit) (bit : Nat) :
    (irig_decode_bits up bit).timecode = up.timecode := by
  unfold irig_decode_bits BIT1 BITP
  dsimp only
  by_cases h1 : bit = 1
  · simp [h1]
  · by_cases h2 : bit = 2 ∧ up.lastbit = 2
    · by_cases h4 : up.frmcnt = 1
      · simp [h1, h2, h4]
      · simp [h1, h2, h4]
    · simp [h1, h2]

theorem irig_decode_second_timecode (up : irigunit) :
    (irig_decode_second up).timecode = up.timecode := by
  unfold irig_decode_second irig_decode_wind irig_decode_alarm irig_decode_fields
  dsimp only
  split_ifs <;> rfl

theorem irig_decode_second_bits (up : irigunit) :
    (irig_decode_second up).bits = up.bits := by
  unfold irig_decode_second irig_decode_wind irig_decode_alarm irig_decode_fields
  dsimp only
  split_ifs <;> rfl

theorem irig_decode_digits_length (up : irigunit) :
    (irig_decode_digits up).timecode.length = up.timecode.length := by
  unfold irig_decode_digits
  dsimp only
  split_ifs <;> simp

theorem irig_decode_digits_bits (up : irigunit) :
    (irig_decode_digits up).bits = up.bits := by
  unfold irig_decode_digits
  dsimp only
  split_ifs <;> rfl

theorem irig_decode_end_length (up : irigunit) :
    (irig_decode_end up).timecode.length = up.timecode.length := by
  unfold irig_decode_end
  dsimp only
  split_ifs
  · rw [irig_decode_second_timecode, irig_decode_digits_length]
  · rw [irig_decode_digits_length]
  · rfl

theorem irig_decode_end_bits (up : irigunit) :
    (irig_decode_end up).bits = up.bits := by
  unfold irig_decode_end
  dsimp only
  split_ifs
  · rw [irig_decode_second_bits, irig_decode_digits_bits]
  · rw [irig_decode_digits_bits]
  · rfl

theorem irig_decode_length (up : irigunit) (bit : Nat) :
    (irig_decode up bit).timecode.length = up.timecode.length := by
  unfold irig_decode
  rw [irig_decode_end_length, irig_decode_bits_timecode]

theorem irig_decode_bits_bits (up : irigunit) (bit : Nat) :
    (irig_decode_bits up bit).bits =
      if bit = 1 then up.bits >>> 1 ||| 0x200 else up.bits >>> 1 := by
  unfold irig_decode_bits BIT1 BITP
  dsimp only
  by_cases h1 : bit = 1
  · simp [h1]
  · by_cases h2 : bit = 2 ∧ up.lastbit = 2
    · by_cases h4 : up.frmcnt = 1
      · simp [h1, h2, h4]
      · simp [h1, h2, h4]
    · simp [h1, h2]

theorem irig_decode_bits_lt (up : irigunit) (bit : Nat) (h : up.bits < 1024) :
    (irig_decode up bit).bits < 1024 := by
  have h5 : up.bits >>> 1 < 512 := by rw [shr1]; omega
  have h6 := or_0x200 _ h5
  unfold irig_decode
  rw [irig_decode_end_bits, irig_decode_bits_bits]
  split_ifs <;> omega

theorem decode_run_length (l : List Nat) (up : irigunit) :
    (decode_run up l).timecode.length = up.timecode.length := by
  induction l generalizing up with
  | nil => rfl
  | cons b l ih => rw [decode_run_cons, ih, irig_decode_length]

theorem decode_run_bits_lt (l : List Nat) (up : irigunit) (h : up.bits < 1024) :
    (decode_run up l).bits < 1024 := by
  induction l generalizing up with
  | nil => exact h
  | cons b l ih => rw [decode_run_cons]; exact ih _ (irig_decode_bits_lt up b h)

theorem first_run (u : irigunit) (tc : List Nat) (x r : Nat)
    (e1 e2 e3 e4 e5 e6 e7 e8 : Nat) (rest : List Nat)
    (h1 : e1 < 2) (h2 : e2 < 2) (h3 : e3 < 2) (h4 : e4 < 2) (h5 : e5 < 2)
    (h6 : e6 < 2) (h7 : e7 < 2) (h8 : e8 < 2) (hr : r < 1024) (hx : 2 ≤ x) :
    decode_run (atField u tc x r 1)
        (BITP :: e1 :: e2 :: e3 :: e4 :: e5 :: e6 :: e7 :: e8 :: BITP :: rest) =
      decode_run (atField { u with refstamp := u.prvstamp }
          (writeDigits tc x (e1 + 2 * e2 + 4 * e3 + 8 * e4 + 16 * e5 + 32 * e6 + 64 * e7 +
            128 * e8)) (x - 2)
          (2 * e1 + 4 * e2 + 8 * e3 + 16 * e4 + 32 * e5 + 64 * e6 + 128 * e7 + 256 * e8)
          11) rest := by
  have m : irig_decode (atField u tc x r 1) BITP =
      atField { u with refstamp := u.prvstamp } tc x (r / 2) 2 := by
    unfold irig_decode
    rw [irig_decode_bits_mark _ rfl rfl]
    exact irig_decode_end_plain (atField { u with refstamp := u.prvstamp } tc x (r / 2) 1)
      (by rw [atField_frmcnt]; decide)
  rw [decode_run_cons, m]
  generalize ({ u with refstamp := u.prvstamp } : irigunit) = v
  have a : ∀ c q f, withReg (atField v tc x c 2) q BITP f = atField v tc x q f := fun _ _ _ => rfl
  rw [decode_run_cons, irig_decode_data _ _ h1 (by rw [atField_bits]; omega)
    (by rw [atField_frmcnt]; decide), atField_bits, atField_frmcnt]
  rw [decode_run_cons, irig_decode_data _ _ h2 (by rw [withReg_bits]; omega)
    (by rw [withReg_frmcnt]; decide), withReg_withReg, withReg_bits, withReg_frmcnt]
  rw [decode_run_cons, irig_decode_data _ _ h3 (by rw [withReg_bits]; omega)
    (by rw [withReg_frmcnt]; decide), withReg_withReg, withReg_bits, withReg_frmcnt]
  rw [decode_run_cons, irig_decode_data _ _ h4 (by rw [withReg_bits]; omega)
    (by rw [withReg_frmcnt]; decide), withReg_withReg, withReg_bits, withReg_frmcnt]
  rw [decode_run_cons, irig_decode_data _ _ h5 (by rw [withReg_bits]; omega)
    (by rw [withReg_frmcnt]; decide), withReg_withReg, withReg_bits, withReg_frmcnt]
  rw [decode_run_cons, irig_decode_data _ _ h6 (by rw [withReg_bits]; omega)
    (by rw [withReg_frmcnt]; decide), withReg_withReg, withReg_bits, withReg_frmcnt]
  rw [decode_run_cons, irig_decode_data _ _ h7 (by rw [withReg_bits]; omega)
    (by rw [withReg_frmcnt]; decide), withReg_withReg, withReg_bits, withReg_frmcnt]
  rw [decode_run_cons, irig_decode_data _ _ h8 (by rw [withReg_bits]; omega)
    (by rw [withReg_frmcnt]; decide), withReg_withReg, withReg_bits, withReg_frmcnt]
  rw [decode_run_cons]
  unfold irig_decode
  rw [irig_decode_bits_pi _ (by rw [withReg_lastbit]; omega)]
  have e : ∀ a b c, ({ withReg (atField v tc x (r / 2) 2) a b c with
      bits := (withReg (atField v tc x (r / 2) 2) a b c).bits / 2, lastbit := BITP } :
      irigunit) = atField v tc x (a / 2) c := fun _ _ _ => rfl
  rw [e]
  have q : ((((((((2 + 1) % 100 + 1) % 100 + 1) % 100 + 1) % 100 + 1) % 100 + 1) % 100 + 1) % 100 + 1) % 100 = 10 := by
    decide
  rw [q, irig_decode_end_field v tc x _ 10 (by decide) (by decide) hx]
  have key : ∀ a a1 c c1 : Nat, a = a1 → c = c1 →
      decode_run (atField v (writeDigits tc x a) (x - 2) c ((10 + 1) % 100)) rest =
        decode_run (atField v (writeDigits tc x a1) (x - 2) c1 11) rest := by
    intro a a1 c c1 h1 h2
    rw [h1, h2]
  rw [if_pos rfl]
  apply key
  · omega
  · omega

theorem irig_decode_end_zero (u : irigunit) (tc : List Nat) (x r : Nat) (hx : 2 ≤ x) :
    irig_decode_end (atField u tc x r 0) =
      { irig_decode_second (atField u (writeDigits tc x r) (x - 2) r 0) with frmcnt := 1 } := by
  have hs : ∀ v : irigunit, (irig_decode_second v).frmcnt = v.frmcnt := by
    intro v
    unfold irig_decode_second irig_decode_wind irig_decode_alarm irig_decode_fields
    dsimp only
    split_ifs <;> rfl
  have hd : irig_decode_digits (atField u tc x r 0) = atField u (writeDigits tc x r) (x - 2) r 0 := by
    unfold irig_decode_digits
    simp only [atField, hx, if_true, and_0xf, shr5, writeDigits, Nat.sub_sub]
    simp
  unfold irig_decode_end
  simp only [atField_frmcnt, SUBFLD, FIELD, Nat.zero_mod, if_true, hd]
  rw [hs]
  rfl

theorem last_run (u : irigunit) (tc : List Nat) (x r : Nat)
    (e0 e1 e2 e3 e4 e5 e6 e7 e8 : Nat) (rest : List Nat)
    (h0 : e0 < 2) (h1 : e1 < 2) (h2 : e2 < 2) (h3 : e3 < 2) (h4 : e4 < 2) (h5 : e5 < 2)
    (h6 : e6 < 2) (h7 : e7 < 2) (h8 : e8 < 2) (hr : r < 1024) (hx : 2 ≤ x) :
    decode_run (atField u tc x r 91)
        (e0 :: e1 :: e2 :: e3 :: e4 :: e5 :: e6 :: e7 :: e8 :: BITP :: rest) =
      decode_run { irig_decode_second (atField u
          (writeDigits tc x (e0 + 2 * e1 + 4 * e2 + 8 * e3 + 16 * e4 + 32 * e5 + 64 * e6 +
            128 * e7 + 256 * e8)) (x - 2)
          (e0 + 2 * e1 + 4 * e2 + 8 * e3 + 16 * e4 + 32 * e5 + 64 * e6 + 128 * e7 + 256 * e8)
          0) with frmcnt := 1 } rest := by
  rw [sub_run _ e0 e1 e2 e3 e4 e5 e6 e7 e8 rest h0 h1 h2 h3 h4 h5 h6 h7 h8
    (by rw [atField_bits]; exact hr) (by rw [atField_frmcnt])]
  rw [withReg_atField, atField_frmcnt]
  have q1 : (91 + 9) % 100 = 0 := by decide
  rw [q1, irig_decode_end_zero u tc x _ hx]

theorem writeDigits_bcd (tc : List Nat) (x a b : Nat) (ha : a < 16) (hb : b < 16) :
    writeDigits tc x (a + 32 * b) = writeBCD tc x a b := by
  unfold writeDigits writeBCD
  have h1 : (a + 32 * b) % 16 = a := by omega
  have h2 : (a + 32 * b) / 32 % 16 = b := by omega
  rw [h1, h2]

theorem bcd_run (u : irigunit) (tc : List Nat) (x r f a b : Nat) (ha : a < 16) (hb : b < 16)
    (hr : r < 1024) (hf : f % 10 = 1) (hgt : 10 < f) (hlt : f < 90) (hx : 2 ≤ x) :
    decode_run (atField u tc x r f) (bcdField a b) =
      atField u (writeBCD tc x a b) (x - 2) (a + 32 * b) (f + 10) := by
  have e : bcdField a b = a % 2 :: (a / 2 % 2) :: (a / 4 % 2) :: (a / 8 % 2) :: 0 ::
      (b % 2) :: (b / 2 % 2) :: (b / 4 % 2) :: (b / 8 % 2) :: BITP :: [] := rfl
  rw [e, frame_run u tc x r f _ _ _ _ _ _ _ _ _ [] (by omega) (by omega) (by omega) (by omega)
    (by omega) (by omega) (by omega) (by omega) (by omega) hr hf hgt hlt hx, decode_run_nil]
  have v : a % 2 + 2 * (a / 2 % 2) + 4 * (a / 4 % 2) + 8 * (a / 8 % 2) + 16 * 0 + 32 * (b % 2) +
      64 * (b / 2 % 2) + 128 * (b / 4 % 2) + 256 * (b / 8 % 2) = a + 32 * b := by omega
  rw [v, writeDigits_bcd tc x a b ha hb]

theorem first_bcd_run (u : irigunit) (tc : List Nat) (x r a b : Nat) (ha : a < 16) (hb : b < 8)
    (hr : r < 1024) (hx : 2 ≤ x) :
    decode_run (atField u tc x r 1) (firstField a b) =
      atField { u with refstamp := u.prvstamp } (writeBCD tc x a b) (x - 2)
        (2 * a + 64 * b) 11 := by
  have e : firstField a b = BITP :: (a % 2) :: (a / 2 % 2) :: (a / 4 % 2) :: (a / 8 % 2) :: 0 ::
      (b % 2) :: (b / 2 % 2) :: (b / 4 % 2) :: BITP :: [] := rfl
  rw [e, first_run u tc x r _ _ _ _ _ _ _ _ [] (by omega) (by omega) (by omega) (by omega)
    (by omega) (by omega) (by omega) (by omega) hr hx, decode_run_nil]
  have v : a % 2 + 2 * (a / 2 % 2) + 4 * (a / 4 % 2) + 8 * (a / 8 % 2) + 16 * 0 + 32 * (b % 2) +
      64 * (b / 2 % 2) + 128 * (b / 4 % 2) = a + 32 * b := by omega
  have w : 2 * (a % 2) + 4 * (a / 2 % 2) + 8 * (a / 4 % 2) + 16 * (a / 8 % 2) + 32 * 0 +
      64 * (b % 2) + 128 * (b / 2 % 2) + 256 * (b / 4 % 2) = 2 * a + 64 * b := by omega
  rw [v, w, writeDigits_bcd tc x a b ha (by omega)]

theorem last_bcd_run (u : irigunit) (tc : List Nat) (x r a b : Nat) (ha : a < 16) (hb : b < 16)
    (hr : r < 1024) (hx : 2 ≤ x) :
    decode_run (atField u tc x r 91) (bcdField a b) =
      { irig_decode_second (atField u (writeBCD tc x a b) (x - 2) (a + 32 * b) 0) with
        frmcnt := 1 } := by
  have e : bcdField a b = a % 2 :: (a / 2 % 2) :: (a / 4 % 2) :: (a / 8 % 2) :: 0 ::
      (b % 2) :: (b / 2 % 2) :: (b / 4 % 2) :: (b / 8 % 2) :: BITP :: [] := rfl
  rw [e, last_run u tc x r _ _ _ _ _ _ _ _ _ [] (by omega) (by omega) (by omega) (by omega)
    (by omega) (by omega) (by omega) (by omega) (by omega) hr hx, decode_run_nil]
  have v : a % 2 + 2 * (a / 2 % 2) + 4 * (a / 4 % 2) + 8 * (a / 8 % 2) + 16 * 0 + 32 * (b % 2) +
      64 * (b / 2 % 2) + 128 * (b / 4 % 2) + 256 * (b / 8 % 2) = a + 32 * b := by omega
  rw [v, writeDigits_bcd tc x a b ha hb]

theorem writeBCD_length (tc : List Nat) (x a b : Nat) :
    (writeBCD tc x a b).length = tc.length := by
  unfold writeBCD
  simp

theorem writeBCD_getD (tc : List Nat) (x a b i : Nat) (hx : 2 ≤ x) (hl : x ≤ tc.length) :
    (writeBCD tc x a b).getD i 0 =
      if i = x - 2 then hexchar.getD b 0
      else if i = x - 1 then hexchar.getD a 0 else tc.getD i 0 := by
  unfold writeBCD
  simp only [List.getD_eq_getElem?_getD, List.getElem?_set, List.length_set]
  by_cases h1 : i = x - 2
  · have : x - 2 < tc.length := by omega
    simp [h1, this]
  · by_cases h2 : i = x - 1
    · have : x - 1 < tc.length := by omega
      have h3 : ¬ x - 2 = x - 1 := by omega
      have h5 : ¬ x - 1 = x - 2 := by omega
      simp [h2, this, h3, h5]
    · have h3 : ¬ x - 2 = i := fun h => h1 h.symm
      have h4 : ¬ x - 1 = i := fun h => h2 h.symm
      simp [h1, h2, h3, h4]

theorem hexchar_digit (v : Nat) (h : v < 10) : ((hexchar.getD v 0 : Nat) : Int) - 0x30 = v := by
  interval_cases v <;> rfl

theorem irig_decode_second_fields (up : irigunit) :
    (irig_decode_second up).pp_year = tcdigit up 6 * 10 + tcdigit up 7 ∧
    (irig_decode_second up).pp_day = tcdigit up 11 * 100 + tcdigit up 12 * 10 + tcdigit up 13 ∧
    (irig_decode_second up).pp_hour = tcdigit up 14 * 10 + tcdigit up 15 ∧
    (irig_decode_second up).pp_minute = tcdigit up 16 * 10 + tcdigit up 17 ∧
    (irig_decode_second up).pp_second = tcdigit up 18 * 10 + tcdigit up 19 := by
  unfold irig_decode_second irig_decode_wind irig_decode_alarm irig_decode_fields
  dsimp only
  split_ifs <;> exact ⟨rfl, rfl, rfl, rfl, rfl⟩

theorem bcdField_pattern (a b : Nat) :
    (bcdField a b).map (fun e => decide (e = BITP)) =
      [false, false, false, false, false, false, false, false, false, true] := by
  have h : ∀ x : Nat, decide (x % 2 = BITP) = false := by
    intro x
    unfold BITP
    simp only [decide_eq_false_iff_not]
    omega
  simp only [bcdField, bcd4, List.cons_append, List.nil_append, List.map_cons, List.map_nil, h]
  rfl

theorem firstField_pattern (a b : Nat) :
    (firstField a b).map (fun e => decide (e = BITP)) =
      [true, false, false, false, false, false, false, false, false, true] := by
  have h : ∀ x : Nat, decide (x % 2 = BITP) = false := by
    intro x
    unfold BITP
    simp only [decide_eq_false_iff_not]
    omega
  simp only [firstField, bcd4, List.take, List.cons_append, List.nil_append, List.map_cons,
    List.map_nil, h]
  rfl

theorem irig_frame_pattern (year day hour minute second : Nat) :
    (irig_frame year day hour minute second).map (fun e => decide (e = BITP)) = piPattern := by
  unfold irig_frame
  simp only [List.map_append, bcdField_pattern, firstField_pattern]
  decide

set_option maxRecDepth 100000 in
theorem skel_frame_prefix :
    ∀ k, k ≤ 100 → ((piPattern.take k).foldl skelStep ⟨true, 1, 20, 0⟩).errflg = 0 := by
  decide

set_option maxRecDepth 100000 in
theorem skel_frame : piPattern.foldl skelStep ⟨true, 1, 20, 0⟩ = ⟨true, 1, 20, 0⟩ := by
  decide

set_option maxRecDepth 100000 in
theorem skel_fresh :
    (piPattern ++ piPattern).foldl skelStep (skel_of irig_start) = ⟨true, 1, 20, 0⟩ := by
  decide

theorem skel_of_insync (up : irigunit) (hs : InSync up) : skel_of up = ⟨true, 1, 20, 0⟩ := by
  obtain ⟨h1, h2, h3, _, _, h6⟩ := hs
  unfold skel_of
  rw [h1, h2, h3, h6]
  rfl

theorem insync_of_skel (up : irigunit) (hk : skel_of up = ⟨true, 1, 20, 0⟩)
    (hb : up.bits < 1024) (hl : up.timecode.length = 21) : InSync up := by
  have h1 := congrArg skel.lastP hk
  have h2 := congrArg skel.frmcnt hk
  have h3 := congrArg skel.xptr hk
  have h4 := congrArg skel.errflg hk
  simp only [skel_of, decide_eq_true_eq] at h1 h2 h3 h4
  exact ⟨h1, h2, h3, hb, hl, h4⟩

/-- A frame leaves a synchronised decoder synchronised. -/
theorem frame_keeps_sync (up : irigunit) (hs : InSync up) (year day hour minute second : Nat) :
    InSync (decode_run up (irig_frame year day hour minute second)) := by
  apply insync_of_skel
  · rw [skel_run, irig_frame_pattern, skel_of_insync up hs, skel_frame]
  · exact decode_run_bits_lt _ _ hs.2.2.2.1
  · rw [decode_run_length]; exact hs.2.2.2.2.1

/-- No flag is raised while a frame passes through a synchronised decoder. -/
theorem frame_no_flag (up : irigunit) (hs : InSync up) (year day hour minute second : Nat)
    (k : Nat) (hk : k ≤ 100) :
    (decode_run up ((irig_frame year day hour minute second).take k)).errflg = 0 := by
  have e : (decode_run up ((irig_frame year day hour minute second).take k)).errflg =
      (skel_of (decode_run up ((irig_frame year day hour minute second).take k))).errflg := rfl
  rw [e, skel_run, List.map_take, irig_frame_pattern, skel_of_insync up hs]
  exact skel_frame_prefix k hk

/-- A freshly started decoder is synchronised after two frames. -/
theorem fresh_sync (y1 d1 h1 m1 s1 y2 d2 h2 m2 s2 : Nat) :
    InSync (decode_run irig_start (irig_frame y1 d1 h1 m1 s1 ++ irig_frame y2 d2 h2 m2 s2)) := by
  apply insync_of_skel
  · rw [skel_run, List.map_append, irig_frame_pattern, irig_frame_pattern, skel_fresh]
  · exact decode_run_bits_lt _ _ (by decide)
  · rw [decode_run_length]; rfl

theorem last_bcd_fields (u : irigunit) (tc : List Nat) (x r a b : Nat) (ha : a < 16)
    (hb : b < 16) (hr : r < 1024) (hx : 2 ≤ x) (F : irigunit)
    (hF : F = decode_run (atField u tc x r 91) (bcdField a b)) (t : List Nat)
    (ht : t = writeBCD tc x a b) :
    F.pp_year = (((t.getD 6 0 : Nat) : Int) - 0x30) * 10 + (((t.getD 7 0 : Nat) : Int) - 0x30) ∧
    F.pp_day = (((t.getD 11 0 : Nat) : Int) - 0x30) * 100 +
      (((t.getD 12 0 : Nat) : Int) - 0x30) * 10 + (((t.getD 13 0 : Nat) : Int) - 0x30) ∧
    F.pp_hour = (((t.getD 14 0 : Nat) : Int) - 0x30) * 10 +
      (((t.getD 15 0 : Nat) : Int) - 0x30) ∧
    F.pp_minute = (((t.getD 16 0 : Nat) : Int) - 0x30) * 10 +
      (((t.getD 17 0 : Nat) : Int) - 0x30) ∧
    F.pp_second = (((t.getD 18 0 : Nat) : Int) - 0x30) * 10 +
      (((t.getD 19 0 : Nat) : Int) - 0x30) := by
  rw [hF, ht, last_bcd_run u tc x r a b ha hb hr hx]
  exact irig_decode_second_fields (atField u (writeBCD tc x a b) (x - 2) (a + 32 * b) 0)

theorem insync_atField (up : irigunit) (hs : InSync up) :
    up = atField up up.timecode 20 up.bits 1 := by
  obtain ⟨h1, h2, h3, _, _, _⟩ := hs
  cases up
  simp only [atField] at *
  subst h1
  subst h2
  subst h3
  rfl

set_option maxHeartbeats 1000000 in
/-- The fields decoded at the end of a frame that entered a synchronised decoder. -/
theorem frame_fields (up : irigunit) (hs : InSync up) (year day hour minute second : Nat)
    (hy : year < 100) (hd : day < 1000) (hh : hour < 100) (hm : minute < 100)
    (hsec : second < 80) :
    (decode_run up (irig_frame year day hour minute second)).pp_year = year ∧
    (decode_run up (irig_frame year day hour minute second)).pp_day = day ∧
    (decode_run up (irig_frame year day hour minute second)).pp_hour = hour ∧
    (decode_run up (irig_frame year day hour minute second)).pp_minute = minute ∧
    (decode_run up (irig_frame year day hour minute second)).pp_second = second := by
  have hb := hs.2.2.2.1
  have hlen : up.timecode.length = 21 := hs.2.2.2.2.1
  rw [insync_atField up hs]
  generalize up.timecode = tc at hlen
  generalize up.bits = r at hb
  unfold irig_frame
  simp only [decode_run_append]
  rw [first_bcd_run _ tc 20 r _ _ (by omega) (by omega) hb (by decide)]
  generalize ({ up with refstamp := up.prvstamp } : irigunit) = v
  rw [bcd_run _ _ _ _ 11 _ _ (by omega) (by omega) (by omega) (by decide) (by decide)
    (by decide) (by decide)]
  rw [bcd_run _ _ _ _ 21 _ _ (by omega) (by omega) (by omega) (by decide) (by decide)
    (by decide) (by decide)]
  rw [bcd_run _ _ _ _ 31 _ _ (by omega) (by omega) (by omega) (by decide) (by decide)
    (by decide) (by decide)]
  rw [bcd_run _ _ _ _ 41 _ _ (by omega) (by omega) (by omega) (by decide) (by decide)
    (by decide) (by decide)]
  rw [bcd_run _ _ _ _ 51 _ _ (by omega) (by omega) (by omega) (by decide) (by decide)
    (by decide) (by decide)]
  rw [bcd_run _ _ _ _ 61 _ _ (by omega) (by omega) (by omega) (by decide) (by decide)
    (by decide) (by decide)]
  rw [bcd_run _ _ _ _ 71 _ _ (by omega) (by omega) (by omega) (by decide) (by decide)
    (by decide) (by decide)]
  rw [bcd_run _ _ _ _ 81 _ _ (by omega) (by omega) (by omega) (by decide) (by decide)
    (by decide) (by decide)]
  simp only [Nat.reduceSub, Nat.reduceAdd, Nat.reduceMul]
  generalize hT : writeBCD _ 4 0 0 = T
  obtain ⟨g1, g2, g3, g4, g5⟩ := last_bcd_fields v T 2 0 0 0 (by omega) (by omega) (by omega)
    (by decide) (decode_run (atField v T 2 0 91) (bcdField 0 0)) rfl (writeBCD T 2 0 0) rfl
  rw [g1, g2, g3, g4, g5]
  subst hT
  have q1 := hexchar_digit (year % 10) (by omega)
  have q2 := hexchar_digit (year / 10) (by omega)
  have q3 := hexchar_digit (day % 10) (by omega)
  have q4 := hexchar_digit (day / 10 % 10) (by omega)
  have q5 := hexchar_digit (day / 100) (by omega)
  have q6 := hexchar_digit (hour % 10) (by omega)
  have q7 := hexchar_digit (hour / 10) (by omega)
  have q8 := hexchar_digit (minute % 10) (by omega)
  have q9 := hexchar_digit (minute / 10) (by omega)
  have q10 := hexchar_digit (second % 10) (by omega)
  have q11 := hexchar_digit (second / 10) (by omega)
  simp only [writeBCD_getD, writeBCD_length, hlen, Nat.reduceSub, Nat.reduceLeDiff,
    Nat.reduceEqDiff, reduceIte, q1, q2, q3, q4, q5, q6, q7, q8, q9, q10, q11]
  omega

theorem irig_baud_pll_dcycles (DTOLFP : ℚ → l_fp) (up : irigunit) :
    (irig_baud_pll DTOLFP up).dcycles = up.dcycles := by
  unfold irig_baud_pll
  dsimp only
  split_ifs <;> rfl

theorem lor_land_self (a b : Nat) : (a ||| b) &&& b = b := by
  apply Nat.eq_of_testBit_eq
  intro i
  simp only [Nat.testBit_and, Nat.testBit_or]
  cases a.testBit i <;> cases b.testBit i <;> rfl

theorem IRIG_E_ne_zero : (0 : ℚ) ≠ IRIG_E := by
  unfold IRIG_E
  norm_num

theorem IRIG_B_ne_IRIG_E : IRIG_B ≠ IRIG_E := by
  unfold IRIG_E IRIG_B
  norm_num

/-- Outside the IRIG-E branch `irig_rf` only counts: a non-negative `badcnt` never returns to
zero, so `irig_base` is not called. -/
theorem irig_rf_never (up : irigunit) (hf : up.fdelay ≠ IRIG_E) (hb : 0 ≤ up.badcnt) :
    irig_rf up = ({ up with badcnt := up.badcnt + 1 }, none) := by
  unfold irig_rf
  rw [if_neg hf]
  have : ¬ up.badcnt + 1 = 0 := by omega
  simp [this]

/-- In the IRIG-E branch every tenth sample is handed to `irig_base`. -/
theorem irig_rf_tenth (up : irigunit) (hf : up.fdelay = IRIG_E) (hb : 0 ≤ up.badcnt) :
    (irig_rf up).2 = if (up.badcnt + 1) % 10 = 0 then some Filter.irig_e else none := by
  unfold irig_rf
  rw [if_pos hf]
  have e : (up.badcnt + 1).tmod 10 = (up.badcnt + 1) % 10 := by
    rw [Int.tmod_eq_emod (by omega) (by decide)]
  dsimp only
  rw [e]
  split_ifs <;> rfl

/-- The value of a `float` is a rational whose denominator is a power of two, and `IRIG_E`
is not one: on a unit whose `fdelay` holds such a value `irig_rf` never hands a sample to
`irig_base` as IRIG-E. -/
theorem irig_rf_float (up : irigunit) (k : Nat) (h : up.fdelay.den = 2 ^ k) :
    (irig_rf up).2 ≠ some Filter.irig_e := by
  have hden : IRIG_E.den = 20000 := by decide!
  have hf : up.fdelay ≠ IRIG_E := by
    intro e
    rw [e, hden] at h
    have h5 : 5 ∣ 2 ^ k := ⟨4000, by rw [← h]⟩
    have := (Nat.Prime.dvd_of_dvd_pow (by norm_num) h5 : 5 ∣ 2)
    omega
  unfold irig_rf
  rw [if_neg hf]
  dsimp only
  split_ifs <;> simp

theorem skel_of_frmcnt (up : irigunit) : up.frmcnt = (skel_of up).frmcnt := rfl

set_option maxRecDepth 100000 in
theorem skel_frame_last : ((piPattern.take 99).foldl skelStep ⟨true, 1, 20, 0⟩).frmcnt = 0 := by
  decide

/-- The closing position identifier of a frame that entered a synchronised decoder is
processed with `frmcnt == 0`. -/
theorem frame_last_frmcnt (up : irigunit) (hs : InSync up) (year day hour minute second : Nat) :
    (decode_run up ((irig_frame year day hour minute second).take 99)).frmcnt = 0 := by
  rw [skel_of_frmcnt, skel_run, List.map_take, irig_frame_pattern, skel_of_insync up hs]
  exact skel_frame_last

end Irig

namespace Wwv

theorem median3_eq (a b c : Int) : median3 a b c = max (min a b) (min (max a b) c) := by
  unfold median3
  by_cases h1 : a ≤ b <;> by_cases h2 : b ≤ c <;> by_cases h3 : a ≤ c <;>
    simp [List.insertionSort, List.orderedInsert, h1, h2, h3] <;> omega

theorem wwv_endpoc_filter_eq (st : endpoc) (epopos : Int) (m0 m1 m2 : Int)
    (h : st.epoch_mf = [m0, m1, m2]) :
    (wwv_endpoc_filter st epopos).epoch_mf = [epopos, m0, m1] ∧
    (wwv_endpoc_filter st epopos).tepoch = median3 epopos m0 m1 := by
  rw [median3_eq]
  unfold wwv_endpoc_filter
  rw [h]
  simp only [List.getD_cons_zero, List.getD_cons_succ, List.set_cons_succ, List.set_cons_zero]
  split_ifs <;> refine ⟨rfl, ?_⟩ <;> simp only [List.getD_cons_zero, List.getD_cons_succ] <;> omega

theorem wwv_endpoc_passes (st : endpoc) (c : Nat × ℚ × ℚ × Int) (hc : passes c) :
    wwv_endpoc c.1 c.2.1 c.2.2.1 st c.2.2.2 =
      (c.1, wwv_endpoc_filter { st with scount := st.scount + 1 } c.2.2.2, true) := by
  unfold wwv_endpoc
  dsimp only
  rw [if_neg hc.1, if_neg hc.2]

theorem wwv_endpoc_run_cons (st : endpoc) (c : Nat × ℚ × ℚ × Int) (l : List (Nat × ℚ × ℚ × Int))
    (hc : passes c) :
    wwv_endpoc_run st (c :: l) =
      wwv_endpoc_run (wwv_endpoc_filter { st with scount := st.scount + 1 } c.2.2.2) l := by
  rw [wwv_endpoc_run, wwv_endpoc_passes st c hc]

theorem wwv_endpoc_run_shape (l : List (Nat × ℚ × ℚ × Int)) (st : endpoc) (m0 m1 m2 : Int)
    (hst : st.epoch_mf = [m0, m1, m2]) (hp : ∀ c ∈ l, passes c) :
    ∃ x0 x1 x2, (wwv_endpoc_run st l).epoch_mf = [x0, x1, x2] := by
  induction l generalizing st m0 m1 m2 with
  | nil => exact ⟨m0, m1, m2, hst⟩
  | cons c l ih =>
    rw [wwv_endpoc_run_cons st c l (hp c (List.mem_cons_self _ _))]
    exact ih _ c.2.2.2 m0 m1
      (wwv_endpoc_filter_eq { st with scount := st.scount + 1 } c.2.2.2 m0 m1 m2 hst).1
      (fun d hd => hp d (List.mem_cons_of_mem _ hd))

theorem wwv_endpoc_run_append (l1 l2 : List (Nat × ℚ × ℚ × Int)) (st : endpoc) :
    wwv_endpoc_run st (l1 ++ l2) = wwv_endpoc_run (wwv_endpoc_run st l1) l2 := by
  induction l1 generalizing st with
  | nil => rfl
  | cons c l ih => rw [List.cons_append, wwv_endpoc_run, wwv_endpoc_run, ih]

theorem wwv_endpoc_run_step (s : endpoc) (c : Nat × ℚ × ℚ × Int)
    (l : List (Nat × ℚ × ℚ × Int)) (x0 x1 x2 : Int) (hc : passes c)
    (hs : s.epoch_mf = [x0, x1, x2]) :
    ∃ s1 : endpoc, wwv_endpoc_run s (c :: l) = wwv_endpoc_run s1 l ∧
      s1.epoch_mf = [c.2.2.2, x0, x1] ∧ s1.tepoch = median3 c.2.2.2 x0 x1 :=
  ⟨_, wwv_endpoc_run_cons s c l hc,
    wwv_endpoc_filter_eq { s with scount := s.scount + 1 } c.2.2.2 x0 x1 x2 hs⟩

theorem gap_pos (m : Nat) : 1 ≤ gap m := by
  cases m with
  | zero => decide
  | succ m => simp only [gap]; omega

theorem gap_mono_succ (m : Nat) : gap m < gap (m + 1) := by
  have := gap_pos m
  simp only [gap]
  omega

theorem gap_mono {a b : Nat} (h : a ≤ b) : gap a ≤ gap b := by
  induction h with
  | refl => exact le_refl _
  | step _ ih => exact le_trans ih (le_of_lt (gap_mono_succ _))

theorem gap_19 : gap 19 = 1743392200 := by decide

theorem shell_gap_spec (n : Nat) (hn : n < 1743392200) :
    ∀ fuel m, gap m ≤ n → 20 ≤ m + fuel →
      ∃ k, shell_gap n fuel (gap m) = some (gap (k + 1)) ∧ gap k ≤ n ∧ n < gap (k + 1) ∧
        k < 19 := by
  intro fuel
  induction fuel with
  | zero =>
    intro m hm hf
    have := gap_mono (show 19 ≤ m by omega)
    rw [gap_19] at this
    omega
  | succ fuel ih =>
    intro m hm hf
    have hm19 : m < 19 := by
      by_contra hc
      have := gap_mono (show 19 ≤ m by omega)
      rw [gap_19] at this
      omega
    have hle : gap (m + 1) ≤ gap 19 := gap_mono (by omega)
    rw [gap_19] at hle
    have hg : gap (m + 1) = 3 * gap m + 1 := rfl
    have e : (3 * gap m + 1) % 2 ^ 32 = gap (m + 1) := by
      rw [hg]
      omega
    rw [shell_gap, e]
    by_cases h : gap (m + 1) ≤ n
    · rw [if_pos h]
      exact ih (m + 1) h (by omega)
    · rw [if_neg h]
      exact ⟨m, rfl, hm, by omega, hm19⟩

theorem set_swap_perm {α : Type} [DecidableEq α] (a : List α) (p q : Nat) (x v : α)
    (hp : p < a.length) (hq : q < a.length) (hpq : p ≠ q) (hx : a[q]? = some x) :
    ((a.set p x).set q v).Perm (a.set p v) := by
  rw [List.perm_iff_count]
  intro b
  have hq2 : q < (a.set p x).length := by rw [List.length_set]; exact hq
  rw [List.count_set _ _ _ _ hq2, List.count_set _ _ _ _ hp, List.count_set _ _ _ _ hp]
  have e1 : (a.set p x)[q] = x := by
    rw [List.getElem_set]
    rw [if_neg hpq]
    rw [List.getElem?_eq_getElem hq] at hx
    exact Option.some.inj hx
  rw [e1]
  split_ifs <;> omega

theorem set_self_eq {α : Type} (a : List α) (p : Nat) (v : α) (h : a[p]? = some v) :
    a.set p v = a := by
  apply List.ext_getElem?
  intro i
  rw [List.getElem?_set]
  by_cases hi : p = i
  · subst hi
    have hl : p < a.length := by
      by_contra hc
      rw [List.getElem?_eq_none (by omega)] at h
      exact absurd h (by simp)
    rw [if_pos rfl, if_pos hl, h]
  · rw [if_neg hi]

theorem shell_while_spec {α : Type} [LinearOrder α] (inc : Nat) (v : α) (hinc : 1 ≤ inc) :
    ∀ fuel (a : List α) (j : Nat), inc + 1 ≤ j → j ≤ a.length → a.length < 2 ^ 31 →
      j ≤ fuel →
      ∃ a1 j1, shell_while inc v fuel a j = some (a1, j1) ∧ a1.length = a.length ∧
        1 ≤ j1 ∧ j1 ≤ j ∧ (a1.set (j1 - 1) v).Perm (a.set (j - 1) v) := by
  intro fuel
  induction fuel with
  | zero => intro a j h1 _ _ h4; omega
  | succ fuel ih =>
    intro a j h1 h2 h3 h4
    have e1 : (j + 2 ^ 32 - inc - 1) % 2 ^ 32 = j - inc - 1 := by omega
    have e2 : (j + 2 ^ 32 - inc) % 2 ^ 32 = j - inc := by omega
    have hq : j - inc - 1 < a.length := by omega
    rw [shell_while, e1, List.getElem?_eq_getElem hq]
    dsimp only
    by_cases hx : a[j - inc - 1] > v
    · rw [if_pos hx]
      have hw : shell_wr a j a[j - inc - 1] = some (a.set (j - 1) a[j - inc - 1]) := by
        unfold shell_wr
        rw [if_pos ⟨by omega, by omega, by omega⟩]
      rw [hw]
      dsimp only
      rw [e2]
      have hsw : ((a.set (j - 1) a[j - inc - 1]).set (j - inc - 1) v).Perm (a.set (j - 1) v) :=
        set_swap_perm a (j - 1) (j - inc - 1) _ v (by omega) hq (by omega)
          (List.getElem?_eq_getElem hq)
      by_cases hb : j - inc ≤ inc
      · rw [if_pos hb]
        refine ⟨_, _, rfl, by rw [List.length_set], by omega, by omega, ?_⟩
        have : j - inc - 1 = j - inc - 1 := rfl
        exact hsw
      · rw [if_neg hb]
        obtain ⟨a1, j1, r1, r2, r3, r4, r5⟩ := ih (a.set (j - 1) a[j - inc - 1]) (j - inc)
          (by omega) (by rw [List.length_set]; omega) (by rw [List.length_set]; exact h3)
          (by omega)
        refine ⟨a1, j1, r1, by rw [r2, List.length_set], r3, by omega, r5.trans ?_⟩
        exact hsw
    · rw [if_neg hx]
      exact ⟨a, j, rfl, rfl, by omega, le_refl _, List.Perm.refl _⟩

theorem shell_for_spec {α : Type} [LinearOrder α] (n inc fuel : Nat) (hinc : 1 ≤ inc)
    (hn : n + 1 < 2 ^ 31) (hfuel : n ≤ fuel) :
    ∀ k (a : List α) (i : Nat), inc + 1 ≤ i → a.length = n → n + 2 ≤ i + k → 1 ≤ k →
      ∃ a1, shell_for n inc fuel k a i = some a1 ∧ a1.Perm a := by
  intro k
  induction k with
  | zero =>
    intro a i h1 h2 h3 h4
    omega
  | succ k ih =>
    intro a i h1 h2 h3 _
    rw [shell_for]
    by_cases hi : i ≤ n
    · rw [if_pos hi]
      have hr : shell_rd a i = some a[i - 1] := by
        unfold shell_rd
        rw [if_pos ⟨by omega, by omega⟩, List.getElem?_eq_getElem]
      rw [hr]
      dsimp only
      obtain ⟨a1, j1, r1, r2, r3, r4, r5⟩ := shell_while_spec inc a[i - 1] hinc fuel a i h1
        (by omega) (by omega) (by omega)
      rw [r1]
      dsimp only
      have hw : shell_wr a1 j1 a[i - 1] = some (a1.set (j1 - 1) a[i - 1]) := by
        unfold shell_wr
        rw [if_pos ⟨by omega, by omega, by omega⟩]
      rw [hw]
      dsimp only
      rw [if_pos (by omega)]
      obtain ⟨a2, s1, s2⟩ := ih (a1.set (j1 - 1) a[i - 1]) (i + 1) (by omega)
        (by rw [List.length_set]; omega) (by omega) (by omega)
      refine ⟨a2, s1, s2.trans (r5.trans ?_)⟩
      rw [set_self_eq a (i - 1) _ (List.getElem?_eq_getElem (by omega))]
    · rw [if_neg hi]
      exact ⟨a, rfl, List.Perm.refl _⟩

theorem shell_while_ins {α : Type} [LinearOrder α] (a0 : List α) (i : Nat) (v : α)
    (hi : i ≤ a0.length) (h31 : a0.length < 2 ^ 31) :
    ∀ fuel (a : List α) (j : Nat) (a1 : List α) (j1 : Nat),
      shell_while 1 v fuel a j = some (a1, j1) → 2 ≤ j → InsInv a0 i v a j →
      InsInv a0 i v a1 j1 ∧ 1 ≤ j1 ∧ (j1 = 1 ∨ ∃ y, a0[j1 - 2]? = some y ∧ y ≤ v) := by
  intro fuel
  induction fuel with
  | zero => intro a j a1 j1 h; simp [shell_while] at h
  | succ fuel ih =>
    intro a j a1 j1 h h2 hinv
    obtain ⟨hl, hji, i1, i2, i4⟩ := hinv
    have e1 : (j + 2 ^ 32 - 1 - 1) % 2 ^ 32 = j - 2 := by omega
    have e2 : (j + 2 ^ 32 - 1) % 2 ^ 32 = j - 1 := by omega
    have hq : j - 2 < a.length := by omega
    have hx0 : a0[j - 2]? = some a[j - 2] := by
      rw [← i1 (j - 2) (by omega), List.getElem?_eq_getElem hq]
    rw [shell_while, e1, List.getElem?_eq_getElem hq] at h
    dsimp only at h
    by_cases hx : a[j - 2] > v
    · rw [if_pos hx] at h
      have hw : shell_wr a j a[j - 2] = some (a.set (j - 1) a[j - 2]) := by
        unfold shell_wr
        rw [if_pos ⟨by omega, by omega, by omega⟩]
      rw [hw] at h
      dsimp only at h
      rw [e2] at h
      have hinv1 : InsInv a0 i v (a.set (j - 1) a[j - 2]) (j - 1) := by
        refine ⟨by rw [List.length_set]; exact hl, by omega, ?_, ?_, ?_⟩
        · intro p hp
          rw [List.getElem?_set, if_neg (by omega)]
          exact i1 p (by omega)
        · intro p hp1 hp2
          rw [List.getElem?_set]
          by_cases hpj : j - 1 = p
          · rw [if_pos hpj, if_pos (by omega), ← hpj]
            have : j - 1 - 1 = j - 2 := by omega
            rw [this, hx0]
          · rw [if_neg hpj]
            exact i2 p (by omega) hp2
        · intro p y hp1 hp2 hy
          by_cases hpj : p = j - 2
          · rw [hpj, hx0] at hy
            have := Option.some.inj hy
            rw [← this]
            exact hx
          · exact i4 p y (by omega) hp2 hy
      by_cases hb : j - 1 ≤ 1
      · rw [if_pos hb] at h
        have h' := Option.some.inj h
        have ha : a1 = a.set (j - 1) a[j - 2] := (congrArg Prod.fst h').symm
        have hj : j1 = j - 1 := (congrArg Prod.snd h').symm
        rw [ha, hj]
        exact ⟨hinv1, by omega, Or.inl (by omega)⟩
      · rw [if_neg hb] at h
        exact ih _ _ a1 j1 h (by omega) hinv1
    · rw [if_neg hx] at h
      have h' := Option.some.inj h
      have ha : a1 = a := (congrArg Prod.fst h').symm
      have hj : j1 = j := (congrArg Prod.snd h').symm
      rw [ha, hj]
      exact ⟨⟨hl, hji, i1, i2, i4⟩, by omega, Or.inr ⟨_, hx0, not_lt.mp hx⟩⟩

theorem ins_place {α : Type} [LinearOrder α] (a0 : List α) (i : Nat) (v : α) (a1 : List α)
    (j1 : Nat) (hi : i ≤ a0.length) (hs : SortedTo a0 (i - 1))
    (hinv : InsInv a0 i v a1 j1) (h1 : 1 ≤ j1)
    (hex : j1 = 1 ∨ ∃ y, a0[j1 - 2]? = some y ∧ y ≤ v) :
    SortedTo (a1.set (j1 - 1) v) i := by
  obtain ⟨hl, hji, i1, i2, i4⟩ := hinv
  have hb : ∀ p, p < i → (a1.set (j1 - 1) v)[p]? =
      if p + 1 < j1 then a0[p]? else if p + 1 = j1 then some v else a0[p - 1]? := by
    intro p hp
    rw [List.getElem?_set]
    by_cases c1 : p + 1 < j1
    · rw [if_neg (by omega), if_pos c1]
      exact i1 p c1
    · rw [if_neg c1]
      by_cases c2 : p + 1 = j1
      · rw [if_pos (by omega), if_pos (by omega), if_pos c2]
      · rw [if_neg (by omega), if_neg c2]
        exact i2 p (by omega) hp
  intro p q x y hpq hq hx hy
  rw [hb p (by omega)] at hx
  rw [hb q hq] at hy
  by_cases p1 : p + 1 < j1
  · rw [if_pos p1] at hx
    by_cases q1 : q + 1 < j1
    · rw [if_pos q1] at hy
      exact hs p q x y hpq (by omega) hx hy
    · rw [if_neg q1] at hy
      by_cases q2 : q + 1 = j1
      · rw [if_pos q2] at hy
        rcases hex with h | ⟨y0, hy0, hle⟩
        · omega
        · have := hs p (j1 - 2) x y0 (by omega) (by omega) hx hy0
          rw [← Option.some.inj hy]
          exact le_trans this hle
      · rw [if_neg q2] at hy
        exact hs p (q - 1) x y (by omega) (by omega) hx hy
  · rw [if_neg p1] at hx
    have q1 : ¬ q + 1 < j1 := by omega
    rw [if_neg q1] at hy
    by_cases p2 : p + 1 = j1
    · rw [if_pos p2] at hx
      by_cases q2 : q + 1 = j1
      · rw [if_pos q2] at hy
        rw [← Option.some.inj hx, ← Option.some.inj hy]
      · rw [if_neg q2] at hy
        rw [← Option.some.inj hx]
        exact le_of_lt (i4 (q - 1) y (by omega) (by omega) hy)
    · rw [if_neg p2] at hx
      have q2 : ¬ q + 1 = j1 := by omega
      rw [if_neg q2] at hy
      exact hs (p - 1) (q - 1) x y (by omega) (by omega) hx hy

theorem shell_for_sorted {α : Type} [LinearOrder α] (n fuel : Nat) (hn : n + 1 < 2 ^ 31) :
    ∀ k (a : List α) (i : Nat) (a1 : List α), shell_for n 1 fuel k a i = some a1 →
      2 ≤ i → i ≤ n + 1 → a.length = n → SortedTo a (i - 1) → SortedTo a1 n := by
  intro k
  induction k with
  | zero => intro a i a1 h; simp [shell_for] at h
  | succ k ih =>
    intro a i a1 h h2 hin hl hs
    rw [shell_for] at h
    by_cases hi : i ≤ n
    · rw [if_pos hi] at h
      have hr : shell_rd a i = some a[i - 1] := by
        unfold shell_rd
        rw [if_pos ⟨by omega, by omega⟩, List.getElem?_eq_getElem]
      rw [hr] at h
      dsimp only at h
      cases hw : shell_while 1 a[i - 1] fuel a i with
      | none => rw [hw] at h; simp at h
      | some r =>
        obtain ⟨a2, j2⟩ := r
        rw [hw] at h
        dsimp only at h
        have hinv0 : InsInv a i a[i - 1] a i :=
          ⟨rfl, le_refl _, fun _ _ => rfl, fun p h1 h2 => by omega,
            fun p y h1 h2 => by omega⟩
        obtain ⟨hinv, hj1, hex⟩ := shell_while_ins a i a[i - 1] (by omega) (by omega) fuel a i
          a2 j2 hw h2 hinv0
        have hw2 : shell_wr a2 j2 a[i - 1] = some (a2.set (j2 - 1) a[i - 1]) := by
          unfold shell_wr
          rw [if_pos ⟨hj1, by have := hinv.2.1; omega, by have := hinv.1; have := hinv.2.1; omega⟩]
        rw [hw2] at h
        dsimp only at h
        rw [if_pos (by omega)] at h
        have hsorted := ins_place a i a[i - 1] a2 j2 (by omega) hs hinv hj1 hex
        exact ih _ (i + 1) a1 h (by omega) (by omega)
          (by rw [List.length_set, hinv.1, hl]) hsorted
    · rw [if_neg hi] at h
      have : a1 = a := (Option.some.inj h).symm
      rw [this]
      have e : i - 1 = n := by omega
      rw [e] at hs
      exact hs

theorem sorted_of_sortedTo {α : Type} [LinearOrder α] (a : List α) (h : SortedTo a a.length) :
    a.Sorted (· ≤ ·) := by
  unfold List.Sorted
  rw [List.pairwise_iff_getElem]
  intro i j hi hj hij
  exact h i j a[i] a[j] (le_of_lt hij) hj (List.getElem?_eq_getElem hi)
    (List.getElem?_eq_getElem hj)

theorem shell_pass_spec {α : Type} [LinearOrder α] (n fuel : Nat) (h1 : 1 ≤ n)
    (hn : n + 1 < 2 ^ 31) (hfuel : n + 2 ≤ fuel) :
    ∀ m k (a : List α), a.length = n → gap m ≤ n → m + 1 ≤ k →
      ∃ a1, shell_pass n fuel k a (gap (m + 1)) = some a1 ∧ a1.Perm a ∧ SortedTo a1 n := by
  intro m
  induction m with
  | zero =>
    intro k a hl hg hk
    obtain ⟨k, rfl⟩ : ∃ k1, k = k1 + 1 := ⟨k - 1, by omega⟩
    have e3 : gap (0 + 1) / 3 = 1 := by decide
    rw [shell_pass, e3]
    obtain ⟨a1, r1, r2⟩ := shell_for_spec n 1 fuel (le_refl _) hn (by omega) fuel a 2 (by omega)
      hl (by omega) (by omega)
    have e4 : (1 + 1) % 2 ^ 32 = 2 := by decide
    rw [e4, r1]
    dsimp only
    rw [if_neg (by omega)]
    refine ⟨a1, rfl, r2, ?_⟩
    apply shell_for_sorted n fuel hn fuel a 2 a1 r1 (le_refl _) (by omega) hl
    intro p q x y hpq hq hx hy
    have hp0 : p = 0 := by omega
    have hq0 : q = 0 := by omega
    rw [hp0] at hx
    rw [hq0, hx] at hy
    rw [Option.some.inj hy]
  | succ m ih =>
    intro k a hl hg hk
    obtain ⟨k, rfl⟩ : ∃ k1, k = k1 + 1 := ⟨k - 1, by omega⟩
    have hg1 : gap (m + 1) = 3 * gap m + 1 := rfl
    have hg2 : gap (m + 1 + 1) = 3 * gap (m + 1) + 1 := rfl
    have hp := gap_pos m
    have e3 : gap (m + 1 + 1) / 3 = gap (m + 1) := by omega
    rw [shell_pass, e3]
    have e4 : (gap (m + 1) + 1) % 2 ^ 32 = gap (m + 1) + 1 := by omega
    obtain ⟨a1, r1, r2⟩ := shell_for_spec n (gap (m + 1)) fuel (by omega) hn (by omega) fuel a
      (gap (m + 1) + 1) (le_refl _) hl (by omega) (by omega)
    rw [e4, r1]
    dsimp only
    rw [if_pos (by omega)]
    obtain ⟨a2, s1, s2, s3⟩ := ih k a1 (by rw [r2.length_eq, hl]) (by omega) (by omega)
    exact ⟨a2, s1, s2.trans r2, s3⟩

theorem Shellsort_dbl_spec {α : Type} [LinearOrder α] (inp : List α) (n fuel : Nat)
    (hlen : inp.length = n) (h1 : 1 ≤ n) (hn : n < 1743392200) (hfuel : n + 20 ≤ fuel) :
    ∃ out, Shellsort_dbl fuel inp n = some out ∧ out.Sorted (· ≤ ·) ∧ out.Perm inp := by
  obtain ⟨k, g1, g2, g3, g4⟩ := shell_gap_spec n hn fuel 0 h1 (by omega)
  obtain ⟨out, p1, p2, p3⟩ := @shell_pass_spec α _ n fuel h1 (by omega) (by omega) k fuel
    inp hlen g2 (by omega)
  refine ⟨out, ?_, ?_, p2⟩
  · unfold Shellsort_dbl
    have : gap 0 = 1 := rfl
    rw [← this, g1, Option.some_bind, p1]
  · apply sorted_of_sortedTo
    rw [p2.length_eq, hlen]
    exact p3

theorem shell_gap_max : ∀ fuel inc, inc < 2 ^ 32 → shell_gap 4294967295 fuel inc = none := by
  intro fuel
  induction fuel with
  | zero => intro inc _; rfl
  | succ fuel ih =>
    intro inc _
    rw [shell_gap, if_pos (by omega)]
    exact ih _ (by omega)

theorem and63 (x : Nat) : x &&& 63 = x % 64 := Nat.and_pow_two_sub_one_eq_mod x 6

theorem wwv_process_offset_eq (up : wwvfilter) (lasttim : Nat) :
    wwv_process_offset up lasttim =
      { up with
        coderecv := (up.coderecv + 1) % 64
        filter := up.filter.set ((up.coderecv + 1) % 64) (sampleOf up.pdelay (up.timestamp, lasttim))
        codeproc := if (up.coderecv + 1) % 64 = up.codeproc then (up.codeproc + 1) % 64
          else up.codeproc } := by
  unfold wwv_process_offset sampleOf
  simp only [and63]
  split_ifs <;> rfl

/-- The filter after `n` pushes `ps` into an empty filter whose pointers stood at `c`. -/
theorem push_all_inv (up : wwvfilter) (c : Nat) (hwf : up.wf) (hr : up.coderecv = c)
    (hp : up.codeproc = c) (ps : List (l_fp × Nat)) :
    (push_all up ps).pdelay = up.pdelay ∧ (push_all up ps).filter.length = 64 ∧
    (push_all up ps).coderecv = (c + ps.length) % 64 ∧
    (push_all up ps).codeproc = (if ps.length < 64 then c else (c + ps.length + 1) % 64) ∧
    (push_all up ps).jitter = up.jitter ∧ (push_all up ps).disp = up.disp ∧
    ∀ k, k < ps.length → k < 64 →
      (push_all up ps).filter[(c + ps.length - k) % 64]? =
        (ps.map (sampleOf up.pdelay))[ps.length - 1 - k]? := by
  obtain ⟨hl, hc1, _⟩ := hwf
  induction ps using List.reverseRecOn with
  | nil =>
    refine ⟨rfl, hl, ?_, ?_, rfl, rfl, ?_⟩
    · simp only [push_all, List.foldl_nil, List.length_nil, hr]
      omega
    · simp only [push_all, List.foldl_nil, List.length_nil, hp]
      rfl
    · intro k hk
      simp at hk
  | append_singleton ps p ih =>
    obtain ⟨i1, i2, i3, i4, i5, i6, i7⟩ := ih
    have e : push_all up (ps ++ [p]) =
        wwv_process_offset { push_all up ps with timestamp := p.1 } p.2 := by
      unfold push_all
      rw [List.foldl_append]
      rfl
    rw [e, wwv_process_offset_eq]
    dsimp only
    rw [i3, i4]
    simp only [List.length_append, List.length_singleton]
    refine ⟨i1, by rw [List.length_set]; exact i2, by omega, ?_, i5, i6, ?_⟩
    · split_ifs <;> omega
    · intro k hk hk64
      rw [List.getElem?_set, i2]
      by_cases hk0 : k = 0
      · subst hk0
        rw [if_pos (by omega), if_pos (by omega)]
        rw [List.map_append, List.getElem?_append_right (by simp)]
        simp [i1]
      · rw [if_neg (by omega)]
        have := i7 (k - 1) (by omega) (by omega)
        have e2 : (c + (ps.length + 1) - k) % 64 = (c + ps.length - (k - 1)) % 64 := by
          congr 1
          omega
        rw [e2, this, List.map_append, List.getElem?_append_left (by simp; omega)]
        congr 1
        omega

theorem wwv_sample_drain_spec :
    ∀ fuel (up : wwvfilter) (off : List ℚ), up.filter.length = 64 → up.coderecv < 64 →
      up.codeproc < 64 → (up.coderecv + 64 - up.codeproc) % 64 < fuel →
      off.length + (up.coderecv + 64 - up.codeproc) % 64 ≤ 64 →
      wwv_sample_drain fuel up off =
        some ({ up with codeproc := up.coderecv },
          off ++ (List.range ((up.coderecv + 64 - up.codeproc) % 64)).map
            (fun t => up.filter.getD ((up.codeproc + 1 + t) % 64) 0)) := by
  intro fuel
  induction fuel with
  | zero => intro up off _ _ _ h; omega
  | succ fuel ih =>
    intro up off hl hr hp hf ho
    rw [wwv_sample_drain]
    by_cases hne : up.codeproc ≠ up.coderecv
    · rw [if_pos hne]
      dsimp only
      rw [and63]
      have hx : up.filter[(up.codeproc + 1) % 64]? =
          some (up.filter.getD ((up.codeproc + 1) % 64) 0) := by
        rw [List.getD_eq_getElem?_getD, List.getElem?_eq_getElem (by omega)]
        rfl
      rw [hx]
      dsimp only
      obtain ⟨d, hd⟩ : ∃ d, (up.coderecv + 64 - up.codeproc) % 64 = d + 1 :=
        ⟨(up.coderecv + 64 - up.codeproc) % 64 - 1, by omega⟩
      rw [if_pos (by omega)]
      have hd1 : (up.coderecv + 64 - (up.codeproc + 1) % 64) % 64 = d := by omega
      rw [ih { up with codeproc := (up.codeproc + 1) % 64 } _ hl hr (by dsimp only; omega)
        (by dsimp only; omega) (by rw [List.length_append]; dsimp only [List.length_singleton]; omega)]
      dsimp only
      rw [hd, hd1, List.range_succ_eq_map, List.map_cons, List.map_map, List.append_assoc]
      simp only [List.singleton_append, Nat.add_zero]
      have key : List.map (fun t => up.filter.getD (((up.codeproc + 1) % 64 + 1 + t) % 64) 0)
          (List.range d) =
          List.map ((fun t => up.filter.getD ((up.codeproc + 1 + t) % 64) 0) ∘ Nat.succ)
            (List.range d) := by
        apply List.map_congr_left
        intro t _
        simp only [Function.comp]
        congr 1
        omega
      rw [key]
    · rw [if_neg hne]
      have he : up.codeproc = up.coderecv := not_not.mp hne
      have h0 : (up.coderecv + 64 - up.codeproc) % 64 = 0 := by omega
      rw [h0]
      simp only [List.range_zero, List.map_nil, List.append_nil]
      cases up
      simp only at he
      subst he
      rfl

theorem wwv_sample_trim_spec (off : List ℚ) (m : Nat) (h31 : off.length < 2 ^ 31) :
    ∀ fuel (i j : Nat), i ≤ j → j ≤ off.length → m ≤ j - i → j - i - m < fuel →
      ∃ i1 j1, wwv_sample_trim off m fuel i j = some (i1, j1) ∧ i ≤ i1 ∧ i1 ≤ j1 ∧ j1 ≤ j ∧
        j1 - i1 = m := by
  intro fuel
  induction fuel with
  | zero => intro i j _ _ _ h; omega
  | succ fuel ih =>
    intro i j hij hj hm hf
    rw [wwv_sample_trim]
    have e1 : (j + 2 ^ 32 - i) % 2 ^ 32 = j - i := by omega
    rw [e1]
    by_cases hgt : j - i > m
    · rw [if_pos hgt]
      have e2 : ((j + i) % 2 ^ 32) >>> 1 = (j + i) / 2 := by
        rw [Nat.shiftRight_eq_div_pow]
        have : (j + i) % 2 ^ 32 = j + i := by omega
        rw [this]
      have e3 : (j + 2 ^ 32 - 1) % 2 ^ 32 = j - 1 := by omega
      have e4 : (i + 1) % 2 ^ 32 = i + 1 := by omega
      rw [e2, e3, e4, List.getElem?_eq_getElem (show (j + i) / 2 < off.length by omega),
        List.getElem?_eq_getElem (show j - 1 < off.length by omega),
        List.getElem?_eq_getElem (show i < off.length by omega)]
      dsimp only
      split_ifs
      · obtain ⟨i1, j1, r, r1, r2, r3, r4⟩ := ih (i + 1) j (by omega) hj (by omega) (by omega)
        exact ⟨i1, j1, r, by omega, r2, r3, r4⟩
      · obtain ⟨i1, j1, r, r1, r2, r3, r4⟩ := ih i (j - 1) (by omega) (by omega) (by omega)
          (by omega)
        exact ⟨i1, j1, r, r1, r2, by omega, r4⟩
    · rw [if_neg hgt]
      exact ⟨i, j, rfl, le_refl _, hij, le_refl _, by omega⟩

theorem wwv_sample_sum_spec (off : List ℚ) (i : Nat) :
    ∀ c k (s : ℚ × ℚ), k + c ≤ off.length → i ≤ k →
      ∃ jit, wwv_sample_sum off i c k s = some (s.1 + ((off.drop k).take c).sum, jit) := by
  intro c
  induction c with
  | zero =>
    intro k s _ _
    exact ⟨s.2, by simp [wwv_sample_sum]⟩
  | succ c ih =>
    intro k s hk hik
    have hlt : k < off.length := by omega
    have hd : off.drop k = off[k] :: off.drop (k + 1) := List.drop_eq_getElem_cons hlt
    rw [wwv_sample_sum, List.getElem?_eq_getElem hlt, hd, List.take_succ_cons, List.sum_cons]
    dsimp only
    by_cases hki : k > i
    · rw [if_pos hki, List.getElem?_eq_getElem (show k - 1 < off.length by omega)]
      dsimp only
      obtain ⟨jit, r⟩ := ih (k + 1) (s.1 + off[k], s.2 + (off[k] - off[k - 1]) * (off[k] - off[k - 1]))
        (by omega) (by omega)
      exact ⟨jit, by rw [r]; dsimp only; rw [add_assoc]⟩
    · rw [if_neg hki]
      obtain ⟨jit, r⟩ := ih (k + 1) (s.1 + off[k], s.2) (by omega) (by omega)
      exact ⟨jit, by rw [r]; dsimp only; rw [add_assoc]⟩

/-- A request on an empty filter returns 0 and leaves the unit as it was. -/
theorem wwv_sample_empty (sqrt : ℚ → ℚ) (fuel : Nat) (up : wwvfilter)
    (he : up.codeproc = up.coderecv) (hf : 1 ≤ fuel) :
    wwv_sample sqrt fuel up = some (up, 0, none) := by
  obtain ⟨fuel, rfl⟩ : ∃ f, fuel = f + 1 := ⟨fuel - 1, by omega⟩
  unfold wwv_sample
  rw [wwv_sample_drain, if_neg (by rw [he]; exact fun h => h rfl)]
  rfl

/-- A request on a filter with `d >= 1` samples waiting. -/
theorem wwv_sample_spec (sqrt : ℚ → ℚ) (fuel : Nat) (up : wwvfilter) (hwf : up.wf)
    (hd : 1 ≤ (up.coderecv + 64 - up.codeproc) % 64) (hf : 100 ≤ fuel) :
    ∃ (jitter : ℚ) (off : List ℚ) (i j : Nat),
      wwv_sample_drain fuel up [] = some ({ up with codeproc := up.coderecv },
        (List.range ((up.coderecv + 64 - up.codeproc) % 64)).map
          (fun t => up.filter.getD ((up.codeproc + 1 + t) % 64) 0)) ∧
      Shellsort_dbl fuel ((List.range ((up.coderecv + 64 - up.codeproc) % 64)).map
          (fun t => up.filter.getD ((up.codeproc + 1 + t) % 64) 0))
        ((up.coderecv + 64 - up.codeproc) % 64) = some off ∧
      off.Sorted (· ≤ ·) ∧
      off.Perm ((List.range ((up.coderecv + 64 - up.codeproc) % 64)).map
          (fun t => up.filter.getD ((up.codeproc + 1 + t) % 64) 0)) ∧
      wwv_sample_trim off ((up.coderecv + 64 - up.codeproc) % 64 -
          ((up.coderecv + 64 - up.codeproc) % 64 * 2) / 5) fuel 0
        ((up.coderecv + 64 - up.codeproc) % 64) = some (i, j) ∧
      i ≤ j ∧ j ≤ (up.coderecv + 64 - up.codeproc) % 64 ∧
      j - i = (up.coderecv + 64 - up.codeproc) % 64 -
          ((up.coderecv + 64 - up.codeproc) % 64 * 2) / 5 ∧
      wwv_sample sqrt fuel up = some ({ up with codeproc := up.coderecv, jitter := jitter },
        (up.coderecv + 64 - up.codeproc) % 64,
        some (((off.take j).drop i).sum / ((j - i : Nat) : ℚ))) := by
  obtain ⟨hl, hr, hp⟩ := hwf
  generalize hdd : (up.coderecv + 64 - up.codeproc) % 64 = d at *
  have hdr := wwv_sample_drain_spec fuel up [] hl hr hp (by omega)
    (by simp only [List.length_nil]; omega)
  rw [hdd, List.nil_append] at hdr
  generalize hraw : (List.range d).map (fun t => up.filter.getD ((up.codeproc + 1 + t) % 64) 0)
    = raw at *
  have hrl : raw.length = d := by rw [← hraw]; simp
  obtain ⟨off, s1, s2, s3⟩ := Shellsort_dbl_spec raw d fuel hrl hd (by omega) (by omega)
  have hol : off.length = d := by rw [s3.length_eq, hrl]
  obtain ⟨i, j, t1, t2, t3, t4, t5⟩ := wwv_sample_trim_spec off (d - d * 2 / 5)
    (by omega) fuel 0 d (by omega) (by omega) (by omega) (by omega)
  obtain ⟨jit, u1⟩ := wwv_sample_sum_spec off i (j - i) i (0, 0) (by omega) (le_refl _)
  refine ⟨((d - d * 2 / 5 : Nat) : ℚ) * sqrt (1 / (jit * ((d - d * 2 / 5 : Nat) : ℚ))),
    off, i, j, hdr, s1, s2, s3, t1, t3, t4, t5, ?_⟩
  unfold wwv_sample
  rw [hdr]
  dsimp only
  rw [hrl, if_neg (by omega), s1]
  dsimp only
  rw [t1]
  dsimp only
  rw [u1]
  dsimp only
  rw [zero_add, List.drop_take, t5]

/-- The samples waiting after `n` pushes into an empty filter are the last `min n 63` pushed,
in the order of the pushes. -/
theorem push_all_pending (up : wwvfilter) (hwf : up.wf) (he : up.codeproc = up.coderecv)
    (ps : List (l_fp × Nat)) :
    (push_all up ps).wf ∧
    ((push_all up ps).coderecv + 64 - (push_all up ps).codeproc) % 64 = min ps.length 63 ∧
    (List.range (min ps.length 63)).map
        (fun t => (push_all up ps).filter.getD (((push_all up ps).codeproc + 1 + t) % 64) 0) =
      (ps.map (sampleOf up.pdelay)).drop (ps.length - min ps.length 63) := by
  obtain ⟨i1, i2, i3, i4, _, _, i7⟩ := push_all_inv up up.coderecv hwf rfl he ps
  have hc := hwf.2.1
  have hp64 : (push_all up ps).codeproc < 64 := by
    rw [i4]
    split_ifs <;> omega
  refine ⟨⟨i2, by rw [i3]; omega, hp64⟩, ?_, ?_⟩
  · rw [i3, i4]
    split_ifs <;> omega
  · apply List.ext_getElem?
    intro t
    rw [List.getElem?_drop]
    by_cases ht : t < min ps.length 63
    · rw [List.getElem?_map, List.getElem?_range ht]
      simp only [Option.map_some']
      have hk := i7 (min ps.length 63 - 1 - t) (by omega) (by omega)
      have e1 : (up.coderecv + ps.length - (min ps.length 63 - 1 - t)) % 64 =
          ((push_all up ps).codeproc + 1 + t) % 64 := by
        rw [i4]
        split_ifs <;> omega
      have e2 : ps.length - 1 - (min ps.length 63 - 1 - t) = ps.length - min ps.length 63 + t := by
        omega
      rw [e1, e2] at hk
      rw [← hk, List.getD_eq_getElem?_getD, List.getElem?_eq_getElem (by rw [i2]; omega)]
      rfl
    · rw [List.getElem?_eq_none (by simp; omega), List.getElem?_eq_none (by simp; omega)]

set_option maxRecDepth 100000 in
theorem filter8_drain :
    wwv_sample_drain 100 filter8 [] =
      some ({ filter8 with codeproc := 8 },
        [1, 11 / 10, 12 / 10, 13 / 10, 100, -100, 15 / 10, 16 / 10]) := by
  decide!

set_option maxRecDepth 100000 in
theorem filter8_sort :
    Shellsort_dbl 100 [(1 : ℚ), 11 / 10, 12 / 10, 13 / 10, 100, -100, 15 / 10, 16 / 10] 8 =
      some sorted8 := by
  decide!

set_option maxRecDepth 100000 in
theorem filter8_trim : wwv_sample_trim sorted8 5 100 0 8 = some (1, 6) := by
  decide!

set_option maxRecDepth 100000 in
theorem filter8_trim_one : wwv_sample_trim sorted8 7 100 0 8 = some (1, 8) := by
  decide!

set_option maxRecDepth 100000 in
theorem filter8_trim_two : wwv_sample_trim sorted8 6 100 0 8 = some (1, 7) := by
  decide!

set_option maxRecDepth 100000 in
theorem filter8_sum :
    (wwv_sample_sum sorted8 1 5 1 (0, 0)).map (fun s => s.1) = some (61 / 10) := by
  decide!

theorem filter8_sample (sqrt : ℚ → ℚ) :
    (wwv_sample sqrt 100 filter8).map (fun r => r.2) = some (8, some (61 / 50)) := by
  have hs := filter8_sum
  cases h : wwv_sample_sum sorted8 1 5 1 (0, 0) with
  | none => rw [h] at hs; simp at hs
  | some s =>
    rw [h] at hs
    simp only [Option.map_some', Option.some.injEq] at hs
    unfold wwv_sample
    rw [filter8_drain]
    dsimp only
    have hlen : ([1, 11 / 10, 12 / 10, 13 / 10, 100, -100, 15 / 10, 16 / 10] : List ℚ).length
        = 8 := rfl
    have hm : 8 - 8 * 2 / 5 = 5 := rfl
    have h65 : 6 - 1 = 5 := rfl
    rw [hlen, if_neg (by decide), filter8_sort]
    dsimp only
    rw [hm, filter8_trim]
    dsimp only
    rw [h65, h]
    dsimp only
    rw [Option.map_some', hs]
    norm_num

theorem or_and_keep (s b i : Nat) (h : b &&& i = 0) : (s ||| b) &&& i = s &&& i := by
  apply Nat.eq_of_testBit_eq
  intro j
  have hj := congrArg (fun x => x.testBit j) h
  simp only [Nat.testBit_and, Nat.zero_testBit] at hj
  simp only [Nat.testBit_and, Nat.testBit_or]
  cases hs : s.testBit j <;> cases hb : b.testBit j <;> cases hi : i.testBit j <;> simp_all

theorem and_and_keep (s m i : Nat) (h : m &&& i = i) : (s &&& m) &&& i = s &&& i := by
  rw [Nat.and_assoc, h]

theorem compare_rsec (up : wwvclock) (vp : decvec) (ml : Int) :
    (wwv_corr4_compare up vp ml).1.rsec = up.rsec ∧
    (wwv_corr4_compare up vp ml).1.decvec = up.decvec := by
  unfold wwv_corr4_compare
  dsimp only
  split_ifs <;> simp

theorem compare_insync (up : wwvclock) (vp : decvec) (ml : Int) :
    (wwv_corr4_compare up vp ml).1.status &&& INSYNC = up.status &&& INSYNC := by
  unfold wwv_corr4_compare
  dsimp only
  split_ifs <;> first | rfl | exact or_and_keep _ _ _ (by decide)

theorem compare_bounded (up : wwvclock) (vp : decvec) (ml : Int)
    (h : 0 ≤ vp.count ∧ vp.count ≤ BCMP) :
    0 ≤ (wwv_corr4_compare up vp ml).2.count ∧ (wwv_corr4_compare up vp ml).2.count ≤ BCMP := by
  unfold wwv_corr4_compare
  unfold BCMP at *
  dsimp only
  split_ifs <;> simp_all <;> omega

theorem compare_digcnt (up : wwvclock) (vp : decvec) (ml : Int) :
    (wwv_corr4_compare up vp ml).1.digcnt = up.digcnt ∨
    ((wwv_corr4_compare up vp ml).1.digcnt = up.digcnt + 1 ∧
      (wwv_corr4_compare up vp ml).2.count = BCMP) := by
  unfold wwv_corr4_compare
  dsimp only
  split_ifs <;> simp_all

theorem wwv_corr4_spec (snr : ℚ → ℚ → ℚ) (up up1 : wwvclock) (k : Nat) (data : List ℚ)
    (tab : List (List ℚ)) (h : wwv_corr4 snr up k data tab = some up1) :
    ∃ c : Int, k < (counts up).length ∧ counts up1 = (counts up).set k c ∧
      ((0 ≤ (counts up).getD k 0 ∧ (counts up).getD k 0 ≤ BCMP) → 0 ≤ c ∧ c ≤ BCMP) ∧
      (up1.digcnt = up.digcnt ∨ (up1.digcnt = up.digcnt + 1 ∧ c = BCMP)) ∧
      up1.status &&& INSYNC = up.status &&& INSYNC ∧ up1.rsec = up.rsec := by
  unfold wwv_corr4 at h
  cases hv : up.decvec[k]? with
  | none => rw [hv] at h; exact Option.noConfusion h
  | some vp =>
    rw [hv] at h
    dsimp only at h
    cases hl : wwv_corr4_loop data tab 0 (vp.like, -MAXAMP, -MAXAMP, 0) with
    | none => rw [hl] at h; exact Option.noConfusion h
    | some r =>
      obtain ⟨like, topmax, nxtmax, mldigit⟩ := r
      rw [hl] at h
      dsimp only at h
      have h1 := Option.some.inj h
      obtain ⟨hk, hvk⟩ := List.getElem?_eq_some_iff.mp hv
      obtain ⟨vq, hvq⟩ : ∃ vq : decvec,
          vq = ⟨vp.radix, vp.digit, vp.count, topmax, snr topmax nxtmax, like⟩ := ⟨_, rfl⟩
      rw [← hvq] at h1
      have hcq : vq.count = vp.count := by rw [hvq]
      have hr := compare_rsec up vq mldigit
      have hi := compare_insync up vq mldigit
      have hd := compare_digcnt up vq mldigit
      have hb := compare_bounded up vq mldigit
      generalize wwv_corr4_compare up vq mldigit = r at h1 hr hi hd hb
      refine ⟨r.2.count, by simpa [counts] using hk, ?_, ?_, ?_, ?_, ?_⟩
      · rw [← h1]; simp [counts, hr.2, List.map_set]
      · intro hc
        apply hb
        rw [hcq]
        have : (counts up).getD k 0 = vp.count := by
          simp [counts, List.getD_eq_getElem?_getD, hv]
        rw [this] at hc
        exact hc
      · rw [← h1]; exact hd
      · rw [← h1]; exact hi
      · rw [← h1]; exact hr.1

theorem misc_keep (up : wwvclock) (nsec arg : Nat) :
    (wwv_rsec_misc up nsec arg).decvec = up.decvec ∧
    (wwv_rsec_misc up nsec arg).digcnt = up.digcnt ∧
    (wwv_rsec_misc up nsec arg).rsec = up.rsec ∧
    (wwv_rsec_misc up nsec arg).status &&& INSYNC = up.status &&& INSYNC := by
  unfold wwv_rsec_misc
  dsimp only
  split_ifs <;> refine ⟨rfl, rfl, rfl, ?_⟩ <;> first | rfl | exact or_and_keep _ _ _ (by decide)

theorem carryAt_frame (up : wwvclock) (k : Nat) : frame (carryAt up k).1 = frame up := by
  have hc : (carry (up.decvec.getD k default)).1.count = (up.decvec.getD k default).count := by
    unfold carry
    dsimp only
    split_ifs <;> rfl
  have : counts (carryAt up k).1 = counts up := by
    simp only [counts, carryAt, List.map_set, hc]
    by_cases hk : k < up.decvec.length
    · rw [List.getD_eq_getElem _ _ hk]
      apply List.ext_getElem (by simp)
      intro i h1 h2
      simp only [List.getElem_set, List.getElem_map]
      split_ifs with hik
      · subst hik; rfl
      · rfl
    · rw [List.set_eq_of_length_le (by simpa using hk)]
  simp only [frame, this]
  rfl

theorem carry_until_frame (target : Int) (k : Nat) :
    ∀ (fuel : Nat) (up up1 : wwvclock), carry_until target k fuel up = some up1 →
      frame up1 = frame up := by
  intro fuel
  induction fuel with
  | zero => intro up up1 h; exact Option.noConfusion h
  | succ f ih =>
    intro up up1 h
    unfold carry_until at h
    dsimp only at h
    split_ifs at h with ht
    · rw [ih _ _ h, carryAt_frame]
    · rw [← Option.some.inj h, carryAt_frame]

theorem carry_if_frame (r : wwvclock × Int) (k : Nat) : frame (carry_if r k).1 = frame r.1 := by
  unfold carry_if
  split_ifs
  · rw [carryAt_frame]
  · rfl

theorem wwv_tsec_year_frame (fuel : Nat) (up up1 : wwvclock)
    (h : wwv_tsec_year fuel up = some up1) : frame up1 = frame up := by
  unfold wwv_tsec_year at h
  cases h1 : carry_until 1 DA fuel up with
  | none => rw [h1] at h; exact Option.noConfusion h
  | some u1 =>
    rw [h1, Option.some_bind] at h
    cases h2 : carry_until 0 (DA + 1) fuel u1 with
    | none => rw [h2] at h; exact Option.noConfusion h
    | some u2 =>
      rw [h2, Option.some_bind] at h
      cases h3 : carry_until 0 (DA + 2) fuel u2 with
      | none => rw [h3] at h; exact Option.noConfusion h
      | some u3 =>
        rw [h3, Option.some_bind] at h
        rw [← Option.some.inj h, carry_if_frame, carryAt_frame,
          carry_until_frame _ _ _ _ _ h3, carry_until_frame _ _ _ _ _ h2,
          carry_until_frame _ _ _ _ _ h1]

theorem wwv_tsec_day_frame (isleap : Int) (fuel : Nat) (up up1 : wwvclock) (day : Int)
    (h : wwv_tsec_day isleap fuel up day = some up1) : frame up1 = frame up := by
  unfold wwv_tsec_day at h
  cases h1 : carry_until 0 HR fuel up with
  | none => rw [h1] at h; exact Option.noConfusion h
  | some u1 =>
    rw [h1, Option.some_bind] at h
    cases h2 : carry_until 0 (HR + 1) fuel u1 with
    | none => rw [h2] at h; exact Option.noConfusion h
    | some u2 =>
      rw [h2, Option.some_bind] at h
      dsimp only at h
      have e3 : frame (carry_if (carry_if (carryAt u2 DA) (DA + 1)) (DA + 2)).1 = frame up := by
        rw [carry_if_frame, carry_if_frame, carryAt_frame,
          carry_until_frame _ _ _ _ _ h2, carry_until_frame _ _ _ _ _ h1]
      by_cases hd : day + 1 ≠ (if isleap ≠ 0 then 365 else 366)
      · rw [if_pos hd] at h
        rw [← Option.some.inj h]; exact e3
      · rw [if_neg hd] at h
        rw [wwv_tsec_year_frame _ _ _ h]; exact e3

theorem wwv_tsec_frame (isleap : Int) (fuel : Nat) (up up1 : wwvclock)
    (h : wwv_tsec isleap fuel up = some up1) : frame up1 = frame up := by
  unfold wwv_tsec at h
  dsimp only at h
  have e3 : frame (carry_if (carry_if (carry_if (carryAt up MN) (MN + 1)) HR) (HR + 1)).1 =
      frame up := by
    rw [carry_if_frame, carry_if_frame, carry_if_frame, carryAt_frame]
  split_ifs at h
  · rw [← Option.some.inj h, carryAt_frame]
  · rw [← Option.some.inj h]; exact e3
  · rw [wwv_tsec_day_frame _ _ _ _ _ h]; exact e3

theorem wwv_rsec_cases (snr : ℚ → ℚ → ℚ) (isleap : Int) (fuel : Nat) (up up1 : wwvclock)
    (bit : ℚ) (h : wwv_rsec snr isleap fuel up bit = some up1) :
    up.rsec < 61 ∧
    ((Keep up up1 ∧ (progx.getD up.rsec (0, 0)).1 ∉ [DECIM2, DECIM3, DECIM6, DECIM9, MSC20]) ∨
     (Corr up up1 (progx.getD up.rsec (0, 0)).2 ∧
        (progx.getD up.rsec (0, 0)).1 ∈ [DECIM2, DECIM3, DECIM6, DECIM9]) ∨
     (Corr up up1 (YR + 1) ∧ (progx.getD up.rsec (0, 0)).1 = MSC20) ∨
     (((progx.getD up.rsec (0, 0)).1 = MIN1 ∨ (progx.getD up.rsec (0, 0)).1 = MIN2) ∧
        ∃ u1 : wwvclock, frame u1 = (counts up, up.digcnt, up.alarm, up.status &&& compl LEPSEC) ∧
          up1 = wwv_clock { u1 with rsec := 0 })) := by
  unfold wwv_rsec at h
  have hu1 : counts (wwv_rsec_tick up bit) = counts up ∧
      (wwv_rsec_tick up bit).digcnt = up.digcnt ∧ (wwv_rsec_tick up bit).status = up.status ∧
      (wwv_rsec_tick up bit).rsec = up.rsec + 1 ∧ (wwv_rsec_tick up bit).alarm = up.alarm :=
    ⟨rfl, rfl, rfl, rfl, rfl⟩
  generalize wwv_rsec_tick up bit = u0 at h hu1
  obtain ⟨hc0, hd0, hs0, hr0, ha0⟩ := hu1
  unfold wwv_rsec_switch at h
  cases hp : progx[up.rsec]? with
  | none => rw [hp] at h; exact Option.noConfusion h
  | some p =>
    obtain ⟨sw, arg⟩ := p
    rw [hp] at h
    dsimp only at h
    obtain ⟨hlt, hpe⟩ := List.getElem?_eq_some_iff.mp hp
    have hg : progx.getD up.rsec (0, 0) = (sw, arg) := by
      rw [List.getD_eq_getElem _ _ hlt, hpe]
    rw [hg]
    refine ⟨hlt, ?_⟩
    dsimp only
    have corr : ∀ k tab v, wwv_corr4 snr u0 k u0.bcddld tab = some v →
        ∃ c : Int, k < (counts up).length ∧ counts v = (counts up).set k c ∧
        ((0 ≤ (counts up).getD k 0 ∧ (counts up).getD k 0 ≤ BCMP) → 0 ≤ c ∧ c ≤ BCMP) ∧
        (v.digcnt = up.digcnt ∨ (v.digcnt = up.digcnt + 1 ∧ c = BCMP)) ∧
        v.status &&& INSYNC = up.status &&& INSYNC ∧ v.rsec = up.rsec + 1 := by
      intro k tab v hk
      obtain ⟨c, h1, h2, h3, h4, h5, h6⟩ := wwv_corr4_spec _ _ _ _ _ _ hk
      rw [hc0] at h1 h2 h3
      rw [hd0] at h4
      rw [hs0] at h5
      rw [hr0] at h6
      exact ⟨c, h1, h2, h3, h4, h5, h6⟩
    have keep0 : Keep up u0 := ⟨hc0, hd0, by rw [hs0], hr0⟩
    have keepm : ∀ a, Keep up (wwv_rsec_misc u0 up.rsec a) := by
      intro a
      obtain ⟨m1, m2, m3, m4⟩ := misc_keep u0 up.rsec a
      exact ⟨by rw [← hc0]; simp only [counts, m1], by rw [m2, hd0], by rw [m4, hs0],
        by rw [m3, hr0]⟩
    by_cases c1 : sw = IDLE
    · rw [if_pos c1] at h
      rw [← Option.some.inj h]
      exact Or.inl ⟨keep0, by rw [c1]; decide⟩
    rw [if_neg c1] at h
    by_cases c2 : sw = COEF1
    · rw [if_pos c2] at h
      rw [← Option.some.inj h]
      exact Or.inl ⟨keep0, by rw [c2]; decide⟩
    rw [if_neg c2] at h
    by_cases c3 : sw = COEF
    · rw [if_pos c3] at h
      refine Or.inl ⟨?_, by rw [c3]; decide⟩
      split_ifs at h <;> rw [← Option.some.inj h] <;> exact keep0
    rw [if_neg c3] at h
    by_cases c4 : sw = COEF2
    · rw [if_pos c4] at h
      rw [← Option.some.inj h]
      exact Or.inl ⟨keep0, by rw [c4]; decide⟩
    rw [if_neg c4] at h
    by_cases c5 : sw = DECIM2
    · rw [if_pos c5] at h
      exact Or.inr (Or.inl ⟨corr _ _ _ h, by rw [c5]; decide⟩)
    rw [if_neg c5] at h
    by_cases c6 : sw = DECIM3
    · rw [if_pos c6] at h
      exact Or.inr (Or.inl ⟨corr _ _ _ h, by rw [c6]; decide⟩)
    rw [if_neg c6] at h
    by_cases c7 : sw = DECIM6
    · rw [if_pos c7] at h
      exact Or.inr (Or.inl ⟨corr _ _ _ h, by rw [c7]; decide⟩)
    rw [if_neg c7] at h
    by_cases c8 : sw = DECIM9
    · rw [if_pos c8] at h
      exact Or.inr (Or.inl ⟨corr _ _ _ h, by rw [c8]; decide⟩)
    rw [if_neg c8] at h
    by_cases c9 : sw = MSC20
    · rw [if_pos c9] at h
      refine Or.inr (Or.inr (Or.inl ⟨?_, c9⟩))
      cases hv : wwv_corr4 snr u0 (YR + 1) u0.bcddld bcd9 with
      | none => rw [hv] at h; exact Option.noConfusion h
      | some v =>
        rw [hv, Option.map_some'] at h
        obtain ⟨c, h1, h2, h3, h4, h5, h6⟩ := corr _ _ _ hv
        obtain ⟨m1, m2, m3, m4⟩ := misc_keep v up.rsec arg
        rw [← Option.some.inj h]
        exact ⟨c, h1, by rw [← h2]; simp only [counts, m1], h3, by rw [m2]; exact h4,
          by rw [m4]; exact h5, by rw [m3]; exact h6⟩
    rw [if_neg c9] at h
    by_cases c10 : sw = MSCBIT
    · rw [if_pos c10] at h
      rw [← Option.some.inj h]
      exact Or.inl ⟨keepm _, by rw [c10]; decide⟩
    rw [if_neg c10] at h
    by_cases c11 : sw = MSC21
    · rw [if_pos c11] at h
      rw [← Option.some.inj h]
      refine Or.inl ⟨?_, by rw [c11]; decide⟩
      obtain ⟨k1, k2, k3, k4⟩ := keepm arg
      exact ⟨k1, k2, by rw [← k3]; exact and_and_keep _ _ _ (by decide), k4⟩
    rw [if_neg c11] at h
    by_cases c12 : sw = MIN1 ∧ u0.status &&& LEPSEC ≠ 0
    · rw [if_pos c12] at h
      rw [← Option.some.inj h]
      exact Or.inl ⟨keep0, by rw [c12.1]; decide⟩
    rw [if_neg c12] at h
    by_cases c13 : sw = MIN1 ∨ sw = MIN2
    · rw [if_pos c13] at h
      refine Or.inr (Or.inr (Or.inr ⟨c13, ?_⟩))
      cases hv : wwv_tsec isleap fuel { u0 with status := u0.status &&& compl LEPSEC } with
      | none => rw [hv] at h; exact Option.noConfusion h
      | some v =>
        rw [hv, Option.map_some'] at h
        refine ⟨v, ?_, (Option.some.inj h).symm⟩
        rw [wwv_tsec_frame _ _ _ _ hv]
        simp only [frame, counts, Prod.mk.injEq]
        exact ⟨hc0, hd0, ha0, by rw [hs0]⟩
    rw [if_neg c13] at h
    exact Option.noConfusion h

theorem progx_min : ∀ n, n < 59 → 2 ≤ n →
    (progx.getD n (0, 0)).1 ≠ MIN1 ∧ (progx.getD n (0, 0)).1 ≠ MIN2 := by
  decide

theorem progx_decim : ∀ n, n < 59 → 2 ≤ n →
    (progx.getD n (0, 0)).1 ∈ [DECIM2, DECIM3, DECIM6, DECIM9] →
      (progx.getD n (0, 0)).2 < 9 ∧ digsec.getD (progx.getD n (0, 0)).2 0 = n := by
  decide

theorem progx_msc20 : ∀ n, n < 59 → 2 ≤ n →
    (progx.getD n (0, 0)).1 = MSC20 → digsec.getD (YR + 1) 0 = n := by
  decide

theorem progx_other : ∀ n, n < 59 → 2 ≤ n →
    (progx.getD n (0, 0)).1 ∉ [DECIM2, DECIM3, DECIM6, DECIM9, MSC20] → n ∉ digsec := by
  decide

theorem progx_end : ∀ n, n < 61 → 59 ≤ n →
    (progx.getD n (0, 0)).1 ∉ [DECIM2, DECIM3, DECIM6, DECIM9, MSC20] ∧ n ∉ digsec := by
  decide

theorem digsec_inj : ∀ j, j < 9 → ∀ k, k < 9 → digsec.getD j 0 = digsec.getD k 0 → j = k := by
  decide

theorem digsec_mem : ∀ k, k < 9 → digsec.getD k 0 ∈ digsec := by
  decide

theorem counted_keep (up up1 : wwvclock) (n : Nat) (hc : counts up1 = counts up)
    (hn : n ∉ digsec) : counted up1 (n + 1) = counted up n := by
  unfold counted
  apply Finset.sum_congr rfl
  intro k hk
  have hk9 : k < 9 := Finset.mem_range.mp hk
  have hne : digsec.getD k 0 ≠ n := fun e => hn (e ▸ digsec_mem k hk9)
  unfold hit
  rw [hc]
  have : (digsec.getD k 0 < n + 1) ↔ (digsec.getD k 0 < n) := by
    constructor <;> intro h <;> omega
  exact if_congr (and_congr this Iff.rfl) rfl rfl

theorem counted_set (up up1 : wwvclock) (n k : Nat) (c : Int) (hk : k < 9)
    (hd : digsec.getD k 0 = n) (hl : k < (counts up).length)
    (hc : counts up1 = (counts up).set k c) :
    counted up1 (n + 1) = counted up n + (if c = BCMP then 1 else 0) := by
  unfold counted
  have : ∀ j ∈ Finset.range 9, hit up1 (n + 1) j =
      hit up n j + (if k = j then (if c = BCMP then 1 else 0) else 0) := by
    intro j hj
    have hj9 : j < 9 := Finset.mem_range.mp hj
    unfold hit
    rw [hc]
    by_cases hjk : k = j
    · subst hjk
      have e1 : ((counts up).set k c).getD k 0 = c := by
        rw [List.getD_eq_getElem _ _ (by simpa using hl)]
        simp
      rw [e1, hd, if_pos rfl]
      have e2 : ¬ (n < n ∧ (counts up).getD k 0 = BCMP) := fun h => by omega
      rw [if_neg e2]
      by_cases hcb : c = BCMP
      · rw [if_pos ⟨by omega, hcb⟩, if_pos hcb]
      · rw [if_neg (fun h => hcb h.2), if_neg hcb]
    · rw [if_neg hjk]
      have e1 : ((counts up).set k c).getD j 0 = (counts up).getD j 0 := by
        simp only [List.getD_eq_getElem?_getD]
        rw [List.getElem?_set_ne hjk]
      rw [e1]
      have hne : digsec.getD j 0 ≠ n := fun e => hjk (digsec_inj k hk j hj9 (hd.trans e.symm))
      have : (digsec.getD j 0 < n + 1) ↔ (digsec.getD j 0 < n) := by
        constructor <;> intro h <;> omega
      rw [Nat.add_zero]
      exact if_congr (and_congr this Iff.rfl) rfl rfl
  rw [Finset.sum_congr rfl this, Finset.sum_add_distrib, Finset.sum_ite_eq,
    if_pos (Finset.mem_range.mpr hk)]

theorem hit_le (up : wwvclock) (n k : Nat) : hit up n k ≤ 1 := by
  unfold hit
  split_ifs <;> omega

theorem counted_le (up : wwvclock) (n : Nat) : counted up n ≤ 9 := by
  unfold counted
  have := Finset.sum_le_sum (fun k (_ : k ∈ Finset.range 9) => hit_le up n k)
  simpa using this

theorem counted_full (up : wwvclock) (n : Nat) (h : 9 ≤ counted up n)
    (hl : (counts up).length = 9) : counts up = List.replicate 9 BCMP := by
  have all : ∀ k, k < 9 → (counts up).getD k 0 = BCMP := by
    intro k hk
    by_contra hne
    have h0 : hit up n k < 1 := by
      unfold hit
      rw [if_neg (fun h => hne h.2)]
      exact Nat.zero_lt_one
    have := Finset.sum_lt_sum (fun j (_ : j ∈ Finset.range 9) => hit_le up n j)
      ⟨k, Finset.mem_range.mpr hk, h0⟩
    simp only [Finset.sum_const, Finset.card_range, smul_eq_mul, mul_one] at this
    unfold counted at h
    omega
  apply List.ext_getElem (by simpa using hl)
  intro i h1 h2
  have := all i (by omega)
  rw [List.getD_eq_getElem _ _ h1] at this
  rw [List.getElem_replicate]
  exact this

theorem wwv_clock_insync (u : wwvclock) (h0 : u.status &&& INSYNC = 0)
    (h : (wwv_clock u).status &&& INSYNC ≠ 0) :
    9 ≤ u.digcnt ∧ (wwv_clock u).alarm = 0 ∧ (wwv_clock u).status &&& SSYNC ≠ 0 ∧
      counts (wwv_clock u) = counts u ∧ (wwv_clock u).digcnt = u.digcnt := by
  unfold wwv_clock at h ⊢
  dsimp only at h ⊢
  by_cases hs : u.status &&& SSYNC = 0
  · rw [if_pos hs] at h ⊢
    dsimp only at h ⊢
    exfalso
    have hne : ∀ a : Nat, (a ||| SYNERR) ≠ 0 := by
      intro a e
      have := congrArg (fun x => x.testBit 3) e
      simp [Nat.testBit_or, SYNERR] at this
      exact absurd this.2 (by decide)
    have hn2 : ∀ a : Nat, (a ||| NINERR) ≠ 0 := by
      intro a e
      have := congrArg (fun x => x.testBit 2) e
      simp [Nat.testBit_or, NINERR] at this
      exact absurd this.2 (by decide)
    split_ifs at h with q1 q2 q2
    · exact hn2 _ q2
    · exact h h0
    · exact hne _ q2
    · exact h h0
  · rw [if_neg hs] at h ⊢
    by_cases hd : u.digcnt < 9
    · rw [if_pos hd] at h ⊢
      exfalso
      dsimp only at h
      have hne : (u.alarm ||| NINERR) ≠ 0 := by
        intro e
        have := congrArg (fun x => x.testBit 2) e
        simp [Nat.testBit_or, NINERR] at this
        exact absurd this.2 (by decide)
      rw [if_neg hne] at h
      exact h h0
    · rw [if_neg hd] at h ⊢
      by_cases ha : u.alarm = 0
      · rw [if_pos ha] at h ⊢
        refine ⟨by omega, ha, ?_, rfl, rfl⟩
        dsimp only
        intro e
        apply hs
        apply Nat.eq_of_testBit_eq
        intro j
        have := congrArg (fun x => x.testBit j) e
        simp only [Nat.testBit_and, Nat.testBit_or, Nat.zero_testBit] at this ⊢
        cases hu : u.status.testBit j <;> simp_all
      · rw [if_neg ha] at h
        exact absurd h0 h

theorem wwv_clock_counts (u : wwvclock) :
    counts (wwv_clock u) = counts u ∧ (wwv_clock u).rsec = u.rsec := by
  unfold wwv_clock
  dsimp only
  split_ifs <;> exact ⟨rfl, rfl⟩

theorem wwv_rsec_dead (snr : ℚ → ℚ → ℚ) (isleap : Int) (fuel : Nat) (up : wwvclock) (bit : ℚ)
    (h : up.rsec = 0) : wwv_rsec snr isleap fuel up bit = none := by
  unfold wwv_rsec wwv_rsec_switch
  rw [h]
  rfl

theorem wwv_rsec_step_inv (snr : ℚ → ℚ → ℚ) (isleap : Int) (fuel : Nat) (up up1 : wwvclock)
    (bit : ℚ) (n : Nat) (hr : up.rsec = n) (h2 : 2 ≤ n) (hi : up.status &&& INSYNC = 0)
    (hd : up.digcnt ≤ (counted up n : Int)) (hl : (counts up).length = 9)
    (h : wwv_rsec snr isleap fuel up bit = some up1) :
    (up1.rsec = n + 1 ∧ up1.status &&& INSYNC = 0 ∧ up1.digcnt ≤ (counted up1 (n + 1) : Int) ∧
      (counts up1).length = 9) ∨
    (up1.rsec = 0 ∧ (up1.status &&& INSYNC ≠ 0 →
      up1.digcnt = 9 ∧ up1.alarm = 0 ∧ up1.status &&& SSYNC ≠ 0 ∧
        counts up1 = List.replicate 9 BCMP)) := by
  obtain ⟨hlt, hc⟩ := wwv_rsec_cases snr isleap fuel up up1 bit h
  rw [hr] at hlt hc
  have corr : ∀ k, k < 9 → digsec.getD k 0 = n → Corr up up1 k →
      (up1.rsec = n + 1 ∧ up1.status &&& INSYNC = 0 ∧
        up1.digcnt ≤ (counted up1 (n + 1) : Int) ∧ (counts up1).length = 9) := by
    intro k hk hdk hcorr
    obtain ⟨c, c1, c2, _, c4, c5, c6⟩ := hcorr
    have hs := counted_set up up1 n k c hk hdk c1 c2
    refine ⟨by rw [c6, hr], by rw [c5, hi], ?_, by rw [c2, List.length_set, hl]⟩
    rw [hs]
    push_cast
    rcases c4 with e | ⟨e, ec⟩
    · rw [e]
      split_ifs <;> omega
    · rw [e, if_pos ec]
      omega
  rcases hc with ⟨hk, hsw⟩ | ⟨hcorr, hsw⟩ | ⟨hcorr, hsw⟩ | ⟨hsw, u1, hf, hu⟩
  · left
    have hn : n ∉ digsec := by
      by_cases h59 : n < 59
      · exact progx_other n h59 h2 hsw
      · exact (progx_end n hlt (by omega)).2
    obtain ⟨k1, k2, k3, k4⟩ := hk
    refine ⟨by rw [k4, hr], by rw [k3, hi], ?_, by rw [k1, hl]⟩
    rw [counted_keep up up1 n k1 hn, k2]
    exact hd
  · left
    have h59 : n < 59 := by
      by_contra hge
      apply (progx_end n hlt (by omega)).1
      revert hsw
      generalize (progx.getD n (0, 0)).1 = sw
      intro hsw
      simp only [List.mem_cons, List.mem_singleton, List.not_mem_nil, or_false] at hsw ⊢
      tauto
    obtain ⟨p1, p2⟩ := progx_decim n h59 h2 hsw
    exact corr _ p1 p2 hcorr
  · left
    have h59 : n < 59 := by
      by_contra hge
      apply (progx_end n hlt (by omega)).1
      rw [hsw]
      decide
    exact corr _ (by decide) (progx_msc20 n h59 h2 hsw) hcorr
  · right
    have h59 : 59 ≤ n := by
      by_contra hlt59
      obtain ⟨m1, m2⟩ := progx_min n (by omega) h2
      rcases hsw with e | e
      · exact m1 e
      · exact m2 e
    have hcn : counted up n ≤ 9 := counted_le up n
    simp only [frame, Prod.mk.injEq] at hf
    obtain ⟨f1, f2, f3, f4⟩ := hf
    have f5 : counts ({ u1 with rsec := 0 } : wwvclock) = counts up := f1
    have f6 : ({ u1 with rsec := 0 } : wwvclock).digcnt = up.digcnt := f2
    have f7 : ({ u1 with rsec := 0 } : wwvclock).status &&& INSYNC = 0 := by
      show u1.status &&& INSYNC = 0
      rw [f4, and_and_keep _ _ _ (by decide), hi]
    have f8 : ({ u1 with rsec := 0 } : wwvclock).rsec = 0 := rfl
    generalize ({ u1 with rsec := 0 } : wwvclock) = u at hu f5 f6 f7 f8
    subst hu
    obtain ⟨_, w2⟩ := wwv_clock_counts u
    refine ⟨by rw [w2, f8], ?_⟩
    intro hset
    obtain ⟨g1, g2, g3, g4, g5⟩ := wwv_clock_insync u f7 hset
    rw [f6] at g1
    have hfull := counted_full up n (by omega) hl
    exact ⟨by rw [g5, f6]; omega, g2, g3, by rw [g4, f5, hfull]⟩

theorem wwv_rsec_run_inv (snr : ℚ → ℚ → ℚ) (isleap : Int) (fuel : Nat) (up1 : wwvclock) :
    ∀ (bits : List ℚ) (up : wwvclock) (n : Nat), up.rsec = n → 2 ≤ n →
      up.status &&& INSYNC = 0 → up.digcnt ≤ (counted up n : Int) → (counts up).length = 9 →
      wwv_rsec_run snr isleap fuel up bits = some up1 → up1.status &&& INSYNC ≠ 0 →
      up1.digcnt = 9 ∧ up1.alarm = 0 ∧ up1.status &&& SSYNC ≠ 0 ∧
        counts up1 = List.replicate 9 BCMP := by
  intro bits
  induction bits with
  | nil =>
    intro up n _ _ hi _ _ h hset
    unfold wwv_rsec_run at h
    rw [← Option.some.inj h] at hset
    exact absurd hi hset
  | cons bit rest ih =>
    intro up n hr h2 hi hd hl h hset
    unfold wwv_rsec_run at h
    cases hs : wwv_rsec snr isleap fuel up bit with
    | none => rw [hs] at h; exact Option.noConfusion h
    | some u =>
      rw [hs, Option.some_bind] at h
      rcases wwv_rsec_step_inv snr isleap fuel up u bit n hr h2 hi hd hl hs with
        ⟨s1, s2, s3, s4⟩ | ⟨s1, s2⟩
      · exact ih u (n + 1) s1 (by omega) s2 s3 s4 h hset
      · cases rest with
        | nil =>
          unfold wwv_rsec_run at h
          rw [← Option.some.inj h] at hset ⊢
          exact s2 hset
        | cons b r =>
          unfold wwv_rsec_run at h
          rw [wwv_rsec_dead snr isleap fuel u b s1] at h
          exact Option.noConfusion h

theorem wwv_rsec_bounded (snr : ℚ → ℚ → ℚ) (isleap : Int) (fuel : Nat) (up up1 : wwvclock)
    (bit : ℚ) (hb : Bounded up) (h : wwv_rsec snr isleap fuel up bit = some up1) :
    Bounded up1 := by
  obtain ⟨_, hc⟩ := wwv_rsec_cases snr isleap fuel up up1 bit h
  have corr : ∀ k, Corr up up1 k → Bounded up1 := by
    intro k hcorr
    obtain ⟨c, c1, c2, c3, _, _, _⟩ := hcorr
    have hk : 0 ≤ (counts up).getD k 0 ∧ (counts up).getD k 0 ≤ BCMP := by
      rw [List.getD_eq_getElem _ _ c1]
      exact hb _ (List.getElem_mem _)
    intro x hx
    rw [c2] at hx
    rcases List.mem_or_eq_of_mem_set hx with hx | hx
    · exact hb x hx
    · rw [hx]; exact c3 hk
  rcases hc with ⟨hk, _⟩ | ⟨hcorr, _⟩ | ⟨hcorr, _⟩ | ⟨_, u1, hf, hu⟩
  · intro x hx
    rw [hk.1] at hx
    exact hb x hx
  · exact corr _ hcorr
  · exact corr _ hcorr
  · simp only [frame, Prod.mk.injEq] at hf
    intro x hx
    rw [hu, (wwv_clock_counts _).1] at hx
    have : counts ({ u1 with rsec := 0 } : wwvclock) = counts u1 := rfl
    rw [this, hf.1] at hx
    exact hb x hx

theorem wwv_rsec_run_bounded (snr : ℚ → ℚ → ℚ) (isleap : Int) (fuel : Nat) (up1 : wwvclock) :
    ∀ (bits : List ℚ) (up : wwvclock), Bounded up →
      wwv_rsec_run snr isleap fuel up bits = some up1 → Bounded up1 := by
  intro bits
  induction bits with
  | nil =>
    intro up hb h
    unfold wwv_rsec_run at h
    rw [← Option.some.inj h]
    exact hb
  | cons bit rest ih =>
    intro up hb h
    unfold wwv_rsec_run at h
    cases hs : wwv_rsec snr isleap fuel up bit with
    | none => rw [hs] at h; exact Option.noConfusion h
    | some u =>
      rw [hs, Option.some_bind] at h
      exact ih u (wwv_rsec_bounded snr isleap fuel up u bit hb hs) h

theorem wwv_corr4_bounded (snr : ℚ → ℚ → ℚ) (up up1 : wwvclock) (k : Nat) (data : List ℚ)
    (tab : List (List ℚ)) (hb : Bounded up) (h : wwv_corr4 snr up k data tab = some up1) :
    Bounded up1 := by
  obtain ⟨c, c1, c2, c3, _, _, _⟩ := wwv_corr4_spec snr up up1 k data tab h
  have hk : 0 ≤ (counts up).getD k 0 ∧ (counts up).getD k 0 ≤ BCMP := by
    rw [List.getD_eq_getElem _ _ c1]
    exact hb _ (List.getElem_mem _)
  intro x hx
  rw [c2] at hx
  rcases List.mem_or_eq_of_mem_set hx with hx | hx
  · exact hb x hx
  · rw [hx]; exact c3 hk

theorem compare_gated (u : wwvclock) (vp : decvec) (ml : Int)
    (hg : ¬ (vp.digprb < BTHR ∨ vp.digsnr < BSNR)) :
    (vp.digit = ml →
      (wwv_corr4_compare u vp ml).2.count = (if vp.count < BCMP then vp.count + 1 else vp.count) ∧
      (wwv_corr4_compare u vp ml).2.digit = vp.digit ∧
      ((wwv_corr4_compare u vp ml).2.count = BCMP →
        (wwv_corr4_compare u vp ml).1.status = u.status ||| DSYNC ∧
        (wwv_corr4_compare u vp ml).1.digcnt = u.digcnt + 1) ∧
      ((wwv_corr4_compare u vp ml).2.count ≠ BCMP →
        (wwv_corr4_compare u vp ml).1.status = u.status ∧
        (wwv_corr4_compare u vp ml).1.digcnt = u.digcnt)) ∧
    (vp.digit ≠ ml →
      (wwv_corr4_compare u vp ml).2.count = (if vp.count > 0 then vp.count - 1 else vp.count) ∧
      (wwv_corr4_compare u vp ml).2.digit =
        (if (wwv_corr4_compare u vp ml).2.count = 0 then ml else vp.digit) ∧
      (wwv_corr4_compare u vp ml).1.status = u.status ∧
      (wwv_corr4_compare u vp ml).1.digcnt = u.digcnt) := by
  unfold wwv_corr4_compare
  rw [if_neg hg]
  dsimp only
  constructor
  · intro he
    rw [if_neg (not_not.mpr he)]
    by_cases h1 : vp.count < BCMP
    · rw [if_pos h1, if_pos h1]
      dsimp only
      by_cases h2 : vp.count + 1 = BCMP
      · rw [if_pos h2]
        exact ⟨rfl, rfl, fun _ => ⟨rfl, rfl⟩, fun h => absurd h2 h⟩
      · rw [if_neg h2]
        exact ⟨rfl, rfl, fun h => absurd h h2, fun _ => ⟨rfl, rfl⟩⟩
    · rw [if_neg h1, if_neg h1]
      by_cases h2 : vp.count = BCMP
      · rw [if_pos h2]
        exact ⟨rfl, rfl, fun _ => ⟨rfl, rfl⟩, fun h => absurd h2 h⟩
      · rw [if_neg h2]
        exact ⟨rfl, rfl, fun h => absurd h h2, fun _ => ⟨rfl, rfl⟩⟩
  · intro hne
    rw [if_pos hne]
    by_cases h1 : vp.count > 0
    · rw [if_pos h1, if_pos h1]
      dsimp only
      by_cases h2 : vp.count - 1 = 0
      · rw [if_pos h2]
        dsimp only
        rw [if_pos h2]
        exact ⟨rfl, rfl, rfl, rfl⟩
      · rw [if_neg h2]
        dsimp only
        rw [if_neg h2]
        exact ⟨rfl, rfl, rfl, rfl⟩
    · rw [if_neg h1, if_neg h1]
      by_cases h2 : vp.count = 0
      · rw [if_pos h2]
        dsimp only
        rw [if_pos h2]
        exact ⟨rfl, rfl, rfl, rfl⟩
      · rw [if_neg h2]
        rw [if_neg h2]
        exact ⟨rfl, rfl, rfl, rfl⟩

theorem compare_prb (u : wwvclock) (vp : decvec) (ml : Int) :
    (wwv_corr4_compare u vp ml).2.digprb = vp.digprb ∧
    (wwv_corr4_compare u vp ml).2.digsnr = vp.digsnr := by
  unfold wwv_corr4_compare
  dsimp only
  split_ifs <;> exact ⟨rfl, rfl⟩

theorem wwv_corr4_gated (snr : ℚ → ℚ → ℚ) (u v : wwvclock) (k : Nat) (data : List ℚ)
    (tab : List (List ℚ)) (h : wwv_corr4 snr u k data tab = some v) :
    ∃ (vp vq : decvec) (like : List ℚ) (top nxt : ℚ) (ml : Int),
      u.decvec[k]? = some vp ∧ v.decvec[k]? = some vq ∧
      wwv_corr4_loop data tab 0 (vp.like, -MAXAMP, -MAXAMP, 0) = some (like, top, nxt, ml) ∧
      vq.digprb = top ∧ vq.digsnr = snr top nxt ∧
      (¬ (top < BTHR ∨ snr top nxt < BSNR) →
        (vp.digit = ml →
          vq.count = (if vp.count < BCMP then vp.count + 1 else vp.count) ∧
          vq.digit = vp.digit ∧
          (vq.count = BCMP → v.status = u.status ||| DSYNC ∧ v.digcnt = u.digcnt + 1) ∧
          (vq.count ≠ BCMP → v.status = u.status ∧ v.digcnt = u.digcnt)) ∧
        (vp.digit ≠ ml →
          vq.count = (if vp.count > 0 then vp.count - 1 else vp.count) ∧
          vq.digit = (if vq.count = 0 then ml else vp.digit) ∧
          v.status = u.status ∧ v.digcnt = u.digcnt)) := by
  unfold wwv_corr4 at h
  cases hv : u.decvec[k]? with
  | none => rw [hv] at h; exact Option.noConfusion h
  | some vp =>
    rw [hv] at h
    dsimp only at h
    cases hl : wwv_corr4_loop data tab 0 (vp.like, -MAXAMP, -MAXAMP, 0) with
    | none => rw [hl] at h; exact Option.noConfusion h
    | some r =>
      obtain ⟨like, top, nxt, ml⟩ := r
      rw [hl] at h
      dsimp only at h
      have h1 := Option.some.inj h
      obtain ⟨hk, _⟩ := List.getElem?_eq_some_iff.mp hv
      obtain ⟨vq, hvq⟩ : ∃ vq : decvec,
          vq = ⟨vp.radix, vp.digit, vp.count, top, snr top nxt, like⟩ := ⟨_, rfl⟩
      rw [← hvq] at h1
      have q1 : vq.count = vp.count := by rw [hvq]
      have q2 : vq.digit = vp.digit := by rw [hvq]
      have q3 : vq.digprb = top := by rw [hvq]
      have q4 : vq.digsnr = snr top nxt := by rw [hvq]
      have hr := compare_rsec u vq ml
      have hp := compare_prb u vq ml
      have hg := compare_gated u vq ml
      rw [q1, q2, q3, q4] at hg
      rw [q3, q4] at hp
      generalize wwv_corr4_compare u vq ml = r at h1 hr hp hg
      refine ⟨vp, r.2, like, top, nxt, ml, rfl, ?_, hl, hp.1, hp.2, ?_⟩
      · rw [← h1]
        show (r.1.decvec.set k r.2)[k]? = some r.2
        rw [hr.2, List.getElem?_set_self hk]
      · intro hgate
        have hs : v.status = r.1.status := by rw [← h1]
        have hd : v.digcnt = r.1.digcnt := by rw [← h1]
        rw [hs, hd]
        exact hg hgate

theorem wwv_snr_quiet (f g : ℚ → ℚ) (s n : ℚ) (h : n ≤ 0) : wwv_snr f s n = wwv_snr g s n := by
  unfold wwv_snr
  rw [if_pos h, if_pos h]

theorem wwv_corr4_quiet (f g : ℚ → ℚ) (u : wwvclock) (k : Nat) (data : List ℚ)
    (tab : List (List ℚ)) (h : quiet k data tab u = true) :
    wwv_corr4 (wwv_snr f) u k data tab = wwv_corr4 (wwv_snr g) u k data tab := by
  unfold quiet at h
  unfold wwv_corr4
  cases hv : u.decvec[k]? with
  | none => rfl
  | some vp =>
    rw [hv] at h
    dsimp only at h ⊢
    cases hl : wwv_corr4_loop data tab 0 (vp.like, -MAXAMP, -MAXAMP, 0) with
    | none => rfl
    | some r =>
      obtain ⟨like, top, nxt, ml⟩ := r
      rw [hl] at h
      dsimp only at h ⊢
      rw [wwv_snr_quiet f g top nxt (of_decide_eq_true h)]

theorem wwv_corr4_run_quiet (f : ℚ → ℚ) (k : Nat) (data : List ℚ) (tab : List (List ℚ))
    (up : wwvclock) : ∀ n, (∀ i, i < n → quietRun k data tab up i = true) →
      wwv_corr4_run (wwv_snr f) k data tab up n =
        wwv_corr4_run (wwv_snr fun _ => 0) k data tab up n := by
  intro n
  induction n with
  | zero => intro _; rfl
  | succ n ih =>
    intro h
    unfold wwv_corr4_run
    rw [ih (fun i hi => h i (by omega))]
    have hq := h n (by omega)
    unfold quietRun at hq
    cases hr : wwv_corr4_run (wwv_snr fun _ => 0) k data tab up n with
    | none => rfl
    | some u =>
      rw [hr] at hq
      rw [Option.some_bind, Option.some_bind]
      exact wwv_corr4_quiet f _ u k data tab hq

end Wwv

/-! ### C1, C2: add, subtract, negate -/

/-- C1: for all 32-bit halves of `a` and `b`, `L_ADD(a, b)` followed by
`L_SUB(result, b)` gives back `a`, integer half and fraction half alike. -/
theorem L_ADD_L_SUB_roundtrip (a b : l_fp) (ha : a.wf) (hb : b.wf) :
    L_SUB (L_ADD a b) b = a := by
  obtain ⟨ai, af⟩ := a
  obtain ⟨bi, bf⟩ := b
  obtain ⟨hai, haf⟩ := ha
  obtain ⟨hbi, hbf⟩ := hb
  simp only at hai haf hbi hbf
  have hadd := M_ADD_spec ai af bi bf haf hbf
  have h2lt : (M_ADD ai af bi bf).2 < 2 ^ 32 := by
    rw [hadd.1]
    exact Nat.mod_lt _ (by norm_num)
  have hsub := M_SUB_spec (M_ADD ai af bi bf).1 (M_ADD ai af bi bf).2 bi bf h2lt hbi hbf
  apply l_fp_ext_of_toNat _ _ ⟨hsub.2.1, hsub.2.2⟩ ⟨hai, haf⟩
  simp only [L_SUB, L_ADD, l_fp.toNat]
  rw [hsub.1, hadd.1, hadd.2]
  norm_num at *
  omega

/-- The round trip of C1 at `a = 1.ffffffff`, `b = ffffffff.00000001`, where both
the fraction carry and the integer wrap occur. -/
theorem L_ADD_L_SUB_roundtrip_witness :
    (⟨1, 0xffffffff⟩ : l_fp).wf ∧ (⟨0xffffffff, 1⟩ : l_fp).wf ∧
    L_SUB (L_ADD ⟨1, 0xffffffff⟩ ⟨0xffffffff, 1⟩) ⟨0xffffffff, 1⟩ = ⟨1, 0xffffffff⟩ :=
  ⟨by decide, by decide, L_ADD_L_SUB_roundtrip _ _ (by decide) (by decide)⟩

/-- C2: `L_NEG` (that is `M_NEG` on the two halves) yields the 64-bit
two's-complement negation `(2^64 - v) mod 2^64` of the pair, and negating
twice returns `v` for every `v` other than the minimum `0x80000000:00000000`. -/
theorem L_NEG_twos_complement (v : l_fp) (hv : v.wf) :
    (L_NEG v).wf ∧ (L_NEG v).toNat = (2 ^ 64 - v.toNat) % 2 ^ 64 ∧
    (v ≠ ⟨0x80000000, 0⟩ → L_NEG (L_NEG v) = v) :=
  ⟨L_NEG_wf v hv, L_NEG_toNat v hv, fun _ => L_NEG_involutive v hv⟩

/-- C2 at `v = 5.40000000`: the negation is `fffffffa.c0000000`. -/
theorem L_NEG_twos_complement_witness :
    (⟨5, 0x40000000⟩ : l_fp).wf ∧
    ((L_NEG ⟨5, 0x40000000⟩).wf ∧
      (L_NEG ⟨5, 0x40000000⟩).toNat = (2 ^ 64 - (⟨5, 0x40000000⟩ : l_fp).toNat) % 2 ^ 64 ∧
      ((⟨5, 0x40000000⟩ : l_fp) ≠ ⟨0x80000000, 0⟩ →
        L_NEG (L_NEG ⟨5, 0x40000000⟩) = ⟨5, 0x40000000⟩)) :=
  ⟨by decide, L_NEG_twos_complement ⟨5, 0x40000000⟩ (by decide)⟩

/-! ### C3, C4: multiplication -/

/-- C3 (amended): when the product of the magnitudes is at least `2^32` (limb
`c[3]` of the 128-bit product is set), `mfp_mul` returns the maximum
`0x7fffffff:ffffffff` for a positive product and its negation
`0x80000000:00000001` for a negative one. -/
theorem mfp_mul_saturates (a b : l_fp) (ha : a.wf) (hb : b.wf)
    (hbig : 2 ^ 96 ≤ a.mag * b.mag) :
    (0 < a.toInt * b.toInt →
      mfp_mul a.l_ui a.l_uf b.l_ui b.l_uf = some (0x7fffffff, 0xffffffff)) ∧
    (a.toInt * b.toInt < 0 →
      mfp_mul a.l_ui a.l_uf b.l_ui b.l_uf = some (0x80000000, 1)) := by
  have h96 : a.mag * b.mag / 2 ^ 96 ≠ 0 := by
    have := Nat.div_pos hbig (by norm_num)
    omega
  rw [mfp_mul_core a b ha hb]
  simp only [h96, ne_eq, not_false_eq_true, if_true]
  constructor
  · intro hpos
    rcases mul_pos_iff.mp hpos with ⟨h1, h2⟩ | ⟨h1, h2⟩
    · have h1n : ¬ a.toInt < 0 := by omega
      have h2n : ¬ b.toInt < 0 := by omega
      simp [h1n, h2n]
    · simp [h1, h2]
  · intro hneg
    rcases mul_neg_iff.mp hneg with ⟨h1, h2⟩ | ⟨h1, h2⟩
    · have h1n : ¬ a.toInt < 0 := by omega
      simp only [h1n, h2, eq_iff_iff, false_iff, not_true_eq_false, not_false_eq_true, if_true]
      decide
    · have h2n : ¬ b.toInt < 0 := by omega
      simp only [h1, h2n, eq_iff_iff, true_iff, not_false_eq_true, if_true]
      decide

/-- The saturation of C3 at `-65536.0 * 65536.0`. -/
theorem mfp_mul_saturates_witness :
    (⟨0xffff0000, 0⟩ : l_fp).wf ∧ (⟨0x10000, 0⟩ : l_fp).wf ∧
    2 ^ 96 ≤ (⟨0xffff0000, 0⟩ : l_fp).mag * (⟨0x10000, 0⟩ : l_fp).mag ∧
    ((0 < (⟨0xffff0000, 0⟩ : l_fp).toInt * (⟨0x10000, 0⟩ : l_fp).toInt →
      mfp_mul 0xffff0000 0 0x10000 0 = some (0x7fffffff, 0xffffffff)) ∧
    ((⟨0xffff0000, 0⟩ : l_fp).toInt * (⟨0x10000, 0⟩ : l_fp).toInt < 0 →
      mfp_mul 0xffff0000 0 0x10000 0 = some (0x80000000, 1))) :=
  ⟨by decide, by decide, by decide,
    mfp_mul_saturates ⟨0xffff0000, 0⟩ ⟨0x10000, 0⟩ (by decide) (by decide) (by decide)⟩

/-- C3 fails as stated.  `-65536.0 * 65536.0 = -2^32` does not fit, and the result
is `0x80000000:00000001`, not the minimum `0x80000000:00000000`.
`65536.0 * 32768.0 = 2^31` is positive and does not fit either, and the result is
`0x80000000:00000000`, not the maximum `0x7fffffff:ffffffff`. -/
theorem mfp_mul_saturation_counterexample :
    (truncProd ⟨0xffff0000, 0⟩ ⟨0x10000, 0⟩ < -(2 ^ 63) ∧
      (⟨0xffff0000, 0⟩ : l_fp).toInt * (⟨0x10000, 0⟩ : l_fp).toInt < 0 ∧
      mfp_mul 0xffff0000 0 0x10000 0 = some (0x80000000, 1) ∧
      mfp_mul 0xffff0000 0 0x10000 0 ≠ some (0x80000000, 0)) ∧
    (2 ^ 63 ≤ truncProd ⟨0x10000, 0⟩ ⟨0x8000, 0⟩ ∧
      0 < (⟨0x10000, 0⟩ : l_fp).toInt * (⟨0x8000, 0⟩ : l_fp).toInt ∧
      mfp_mul 0x10000 0 0x8000 0 = some (0x80000000, 0) ∧
      mfp_mul 0x10000 0 0x8000 0 ≠ some (0x7fffffff, 0xffffffff)) := by
  decide

/-- C4 at `-1.5 * 2.25 = -3.375`: the result is `fffffffc.a0000000`. -/
theorem mfp_mul_exact_product_witness :
    (⟨0xfffffffe, 0x80000000⟩ : l_fp).wf ∧ (⟨2, 0x40000000⟩ : l_fp).wf ∧
    (-(2 ^ 63) ≤ truncProd ⟨0xfffffffe, 0x80000000⟩ ⟨2, 0x40000000⟩ ∧
      truncProd ⟨0xfffffffe, 0x80000000⟩ ⟨2, 0x40000000⟩ < 2 ^ 63) ∧
    ((∃ r : l_fp, mfp_mul 0xfffffffe 0x80000000 2 0x40000000 = some (r.l_ui, r.l_uf) ∧ r.wf ∧
        r.toInt = truncProd ⟨0xfffffffe, 0x80000000⟩ ⟨2, 0x40000000⟩) ∧
      mfp_mul_loop (limbs16 (⟨0xfffffffe, 0x80000000⟩ : l_fp).mag)
          (limbs16 (⟨2, 0x40000000⟩ : l_fp).mag) [0, 0, 0, 0, 0] =
        some [(⟨0xfffffffe, 0x80000000⟩ : l_fp).mag * (⟨2, 0x40000000⟩ : l_fp).mag % 2 ^ 32,
          (⟨0xfffffffe, 0x80000000⟩ : l_fp).mag * (⟨2, 0x40000000⟩ : l_fp).mag / 2 ^ 32 % 2 ^ 32,
          (⟨0xfffffffe, 0x80000000⟩ : l_fp).mag * (⟨2, 0x40000000⟩ : l_fp).mag / 2 ^ 64 % 2 ^ 32,
          (⟨0xfffffffe, 0x80000000⟩ : l_fp).mag * (⟨2, 0x40000000⟩ : l_fp).mag / 2 ^ 96 % 2 ^ 32,
          0]) :=
  ⟨by decide, by decide, by decide,
    mfp_mul_exact_product ⟨0xfffffffe, 0x80000000⟩ ⟨2, 0x40000000⟩ (by decide) (by decide)
      (by decide)⟩

/-! ### C5 .. C8: the parsers -/

/-- C5: on `digits . digits` with integer value `I < 2^32`, `atolfp` succeeds and
stores `l_ui = I`; with `n = min(number of fraction digits, 9)` and `F` the value
of the first nine fraction digits, `l_uf` is within less than half a unit of
`2^32 * F / 10^n`, hence the nearest integer; the digits after the ninth are
scanned without changing the result. -/
theorem atolfp_decimal_fraction (ds fs : List Nat) (lfp : l_fp)
    (hds : ∀ c ∈ ds, isDigitByte c) (hfs : ∀ c ∈ fs, isDigitByte c)
    (hI : decVal ds < 2 ^ 32) (hn : 1 ≤ fs.length) :
    ∃ uf, atolfp (ds ++ 46 :: fs) lfp = some (1, ⟨decVal ds, uf⟩) ∧ uf < 2 ^ 32 ∧
      2 * ((uf : Int) * 10 ^ (min fs.length 9) - 2 ^ 32 * (decVal (fs.take 9) : Int)).natAbs
        < 10 ^ (min fs.length 9) ∧
      atolfp (ds ++ 46 :: fs.take 9) lfp = atolfp (ds ++ 46 :: fs) lfp := by
  have htake : ∀ c ∈ fs.take 9, isDigitByte c := fun c hc => hfs c (List.mem_of_mem_take hc)
  have hfl : (fs.take 9).length = min fs.length 9 := by
    rw [List.length_take, Nat.min_comm]
  have hF : decVal (fs.take 9) < 10 ^ (min fs.length 9) := by
    have := decVal_lt (fs.take 9) htake
    rw [hfl] at this
    exact this
  have hk1 : 1 ≤ min fs.length 9 := Nat.le_min.mpr ⟨hn, by norm_num⟩
  have hk9 : min fs.length 9 ≤ 9 := Nat.min_le_right _ _
  obtain ⟨uf, h1, h2, h3⟩ :=
    atolfp_finish_frac (decVal ds) (min fs.length 9) (decVal (fs.take 9)) hk1 hk9 hF
  refine ⟨uf, ?_, h2, ?_, ?_⟩
  · rw [atolfp_digits_dot_digits ds fs lfp hds hfs hI]
    exact h1
  · push_cast at h3
    exact h3
  · rw [atolfp_digits_dot_digits ds fs lfp hds hfs hI,
      atolfp_digits_dot_digits ds (fs.take 9) lfp hds htake hI, List.take_take, hfl]
    simp

/-- C5 at `"12.5"`. -/
theorem atolfp_decimal_fraction_witness :
    (∀ c ∈ [49, 50], isDigitByte c) ∧ (∀ c ∈ [53], isDigitByte c) ∧
    decVal [49, 50] < 2 ^ 32 ∧ 1 ≤ [53].length ∧
    ∃ uf, atolfp ([49, 50] ++ 46 :: [53]) ⟨0, 0⟩ = some (1, ⟨decVal [49, 50], uf⟩) ∧ uf < 2 ^ 32 ∧
      2 * ((uf : Int) * 10 ^ (min [53].length 9) - 2 ^ 32 * (decVal ([53].take 9) : Int)).natAbs
        < 10 ^ (min [53].length 9) ∧
      atolfp ([49, 50] ++ 46 :: [53].take 9) ⟨0, 0⟩ = atolfp ([49, 50] ++ 46 :: [53]) ⟨0, 0⟩ :=
  ⟨by decide, by decide, by decide, by decide,
    atolfp_decimal_fraction [49, 50] [53] ⟨0, 0⟩ (by decide) (by decide) (by decide) (by decide)⟩

/-- C6 fails as stated: `atolfp` returns 1 on `"-+5"` (storing -5), on the lone
`"."` (storing 0) and on `"5 x"` (storing 5). -/
theorem atolfp_grammar_counterexample :
    atolfp [45, 43, 53] ⟨0, 0⟩ = some (1, ⟨0xfffffffb, 0⟩) ∧
    atolfp [46] ⟨0, 0⟩ = some (1, ⟨0, 0⟩) ∧
    atolfp [53, 32, 120] ⟨0, 0⟩ = some (1, ⟨5, 0⟩) := by
  decide

/-- C6 (amended): for a string that does not start, after optional whitespace,
with the sign pair `-+`, `atolfp` returns 1 exactly when the string has the form
`[whitespace][+ or -]` followed by digits, or by digits around a dot with either
side possibly empty, and then the end of the string or a whitespace byte (what
follows that byte is not looked at); otherwise it returns 0. -/
theorem atolfp_success_iff_form (s : List Nat) (lfp : l_fp) (hs : isCStr s)
    (hsign : ¬ ∃ ws r, (∀ c ∈ ws, isSpaceByte c) ∧ s = ws ++ 45 :: 43 :: r) :
    ((∃ v, atolfp s lfp = some (1, v)) ↔ atolfpForm s) ∧
    (¬ atolfpForm s → atolfp s lfp = some (0, lfp)) := by
  have hiff : (∃ v, atolfp s lfp = some (1, v)) ↔ atolfpForm s :=
    ⟨fun ⟨v, hv⟩ => atolfp_form_of_success s lfp v hs hsign hv,
      fun hf => atolfp_of_form s lfp hs hf⟩
  refine ⟨hiff, fun hnf => ?_⟩
  rcases atolfp_total s lfp with h | h
  · exact h
  · exact absurd (hiff.mp h) hnf

/-- C6 (amended) at `"5"`. -/
theorem atolfp_success_iff_form_witness :
    isCStr [53] ∧ (¬ ∃ ws r, (∀ c ∈ ws, isSpaceByte c) ∧ [53] = ws ++ 45 :: 43 :: r) ∧
    (((∃ v, atolfp [53] ⟨0, 0⟩ = some (1, v)) ↔ atolfpForm [53]) ∧
      (¬ atolfpForm [53] → atolfp [53] ⟨0, 0⟩ = some (0, ⟨0, 0⟩))) :=
  have hsign : ¬ ∃ ws r, (∀ c ∈ ws, isSpaceByte c) ∧ [53] = ws ++ 45 :: 43 :: r := by
    rintro ⟨ws, r, _, e⟩
    have := congrArg List.length e
    simp at this
    omega
  ⟨by decide, hsign, atolfp_success_iff_form [53] ⟨0, 0⟩ (by decide) hsign⟩

/-- C7 fails as stated: `hextolfp` returns 1 on the sixteen digits
`"0123456789abcdef"` without a dot, on `" 01234567.89abcdef"` with a leading
blank, and on `"01234567.89abcdef x"`. -/
theorem hextolfp_format_counterexample :
    hextolfp [48, 49, 50, 51, 52, 53, 54, 55, 56, 57, 97, 98, 99, 100, 101, 102] ⟨0, 0⟩
      = (1, ⟨0x01234567, 0x89abcdef⟩) ∧
    hextolfp [32, 48, 49, 50, 51, 52, 53, 54, 55, 46, 56, 57, 97, 98, 99, 100, 101, 102] ⟨0, 0⟩
      = (1, ⟨0x01234567, 0x89abcdef⟩) ∧
    hextolfp [48, 49, 50, 51, 52, 53, 54, 55, 46, 56, 57, 97, 98, 99, 100, 101, 102, 32, 120]
      ⟨0, 0⟩ = (1, ⟨0x01234567, 0x89abcdef⟩) := by
  decide

/-- C7 (amended): `hextolfp` returns 1 exactly for input made of optional
whitespace, exactly eight hexadecimal digits, an optional dot, exactly eight
hexadecimal digits, and then the end of the string or a whitespace byte; on
success `l_ui` is the value of the first eight digits and `l_uf` that of the last
eight; every other input, one with fewer than eight digits on either side
included, returns 0. -/
theorem hextolfp_success_iff_form (s : List Nat) (lfp v : l_fp) (hs : isCStr s) :
    (hextolfp s lfp = (1, v) ↔ ∃ h1 h2, hextolfpForm s h1 h2 ∧ v = ⟨hexVal h1, hexVal h2⟩) ∧
    ((¬ ∃ h1 h2, hextolfpForm s h1 h2) → hextolfp s lfp = (0, lfp)) := by
  have hiff : ∀ w, hextolfp s lfp = (1, w) ↔
      ∃ h1 h2, hextolfpForm s h1 h2 ∧ w = ⟨hexVal h1, hexVal h2⟩ := fun w =>
    ⟨fun h => hextolfp_form_of_success s lfp w hs h,
      fun ⟨h1, h2, hf, hw⟩ => hw ▸ hextolfp_of_form s h1 h2 lfp hs hf⟩
  refine ⟨hiff v, fun hnf => ?_⟩
  rcases hextolfp_total s lfp with h | ⟨w, h⟩
  · exact h
  · obtain ⟨h1, h2, hf, _⟩ := (hiff w).mp h
    exact absurd ⟨h1, h2, hf⟩ hnf

/-- C7 (amended) at `"0000000a.00000010"`. -/
theorem hextolfp_success_iff_form_witness :
    isCStr [48, 48, 48, 48, 48, 48, 48, 97, 46, 48, 48, 48, 48, 48, 48, 49, 48] ∧
    ((hextolfp [48, 48, 48, 48, 48, 48, 48, 97, 46, 48, 48, 48, 48, 48, 48, 49, 48] ⟨0, 0⟩
        = (1, ⟨10, 16⟩) ↔
      ∃ h1 h2, hextolfpForm [48, 48, 48, 48, 48, 48, 48, 97, 46, 48, 48, 48, 48, 48, 48, 49, 48]
        h1 h2 ∧ (⟨10, 16⟩ : l_fp) = ⟨hexVal h1, hexVal h2⟩) ∧
    ((¬ ∃ h1 h2, hextolfpForm [48, 48, 48, 48, 48, 48, 48, 97, 46, 48, 48, 48, 48, 48, 48, 49, 48]
        h1 h2) →
      hextolfp [48, 48, 48, 48, 48, 48, 48, 97, 46, 48, 48, 48, 48, 48, 48, 49, 48] ⟨0, 0⟩
        = (0, ⟨0, 0⟩))) :=
  ⟨by decide, hextolfp_success_iff_form _ ⟨0, 0⟩ ⟨10, 16⟩ (by decide)⟩

theorem atolfp_failure_unchanged (s : List Nat) (lfp v : l_fp)
    (h : atolfp s lfp = some (0, v)) : v = lfp := by
  rcases atolfp_total s lfp with h0 | ⟨w, h1⟩
  · rw [h0] at h
    simp only [Option.some.injEq, Prod.mk.injEq, true_and] at h
    exact h.symm
  · rw [h1] at h
    simp at h

theorem hextolfp_failure_unchanged (s : List Nat) (lfp : l_fp)
    (h : (hextolfp s lfp).1 = 0) : (hextolfp s lfp).2 = lfp := by
  rcases hextolfp_total s lfp with h0 | ⟨w, h1⟩
  · rw [h0]
  · rw [h1] at h
    simp at h

/-- Whenever `atolfp` or `hextolfp` returns 0, and whenever `mstolfp` returns 0 on a string
whose copy fits `buf[100]`, `*lfp` is what it was before the call. -/
theorem parsers_failure_leaves_lfp (s : List Nat) (lfp : l_fp) :
    (∀ v, atolfp s lfp = some (0, v) → v = lfp) ∧
    ((hextolfp s lfp).1 = 0 → (hextolfp s lfp).2 = lfp) ∧
    (∀ v, mstolfp s lfp = some (0, v) → v = lfp) := by
  refine ⟨fun v h => atolfp_failure_unchanged s lfp v h, hextolfp_failure_unchanged s lfp,
    fun v h => ?_⟩
  unfold mstolfp at h
  dsimp only at h
  split_ifs at h
  all_goals first
    | exact atolfp_failure_unchanged _ lfp v h
    | (simp only [Option.some.injEq, Prod.mk.injEq, true_and] at h
       exact h.symm)

set_option maxRecDepth 100000 in
/-- C8 fails on the code: `mstolfp` copies the digits of its argument into `buf[100]`
without a bound check.  For 120 digits followed by `x`, and already for 99, the copy with its
terminating NUL does not fit the buffer, so the call has no defined result, before the test
of the terminator that would return 0; for 98 digits followed by `x` the copy fits and the
call returns 0 with `*lfp` as it was. -/
theorem mstolfp_buffer_overrun :
    mstolfp (List.replicate 120 48 ++ [120]) ⟨7, 9⟩ = none ∧
    mstolfp (List.replicate 99 48 ++ [120]) ⟨7, 9⟩ = none ∧
    mstolfp (List.replicate 98 48 ++ [120]) ⟨7, 9⟩ = some (0, ⟨7, 9⟩) := by
  decide

/-! ### C9, C10: formatting -/

/-- C9: in seconds mode `dolfptoa` renders the sign, then `ip`, then (when the
digit count `d = min(max(ndec, 0), 12)` is not zero) a dot and exactly `d` fraction
digits `fp`; `ip` is not empty and has no leading zero unless it is a single
digit; and the number written, `ip fp` read as one decimal integer, is
`floor((fpi + fpv / 2^32) * 10^d + 1/2)`: the value rounded to `d` places, halves
up, with the carry taken into the integer part. -/
theorem dolfptoa_seconds_rounding (fpi fpv : Nat) (neg : Bool) (ndec : Int) (hi : fpi < 2 ^ 32)
    (hv : fpv < 2 ^ 32) :
    ∃ ip fp : List Nat,
      dolfptoa fpi fpv neg ndec false =
        some ((if neg then [45] else []) ++
          (ip ++ (if (min (max ndec 0) 12).toNat = 0 then [] else 46 :: fp))) ∧
      fp.length = (min (max ndec 0) 12).toNat ∧
      (∀ c ∈ ip, isDigitByte c) ∧ (∀ c ∈ fp, isDigitByte c) ∧ ip ≠ [] ∧
      (1 < ip.length → ip.head? ≠ some 48) ∧
      decVal (ip ++ fp) =
        ((fpi * 2 ^ 32 + fpv) * 10 ^ (min (max ndec 0) 12).toNat + 2 ^ 31) / 2 ^ 32 := by
  obtain ⟨hdec, hd12⟩ := seconds_dec ndec
  obtain ⟨cbuf, cp, eint, hinv⟩ := dolfptoa_int_spec fpi hi
  obtain ⟨cbuf2, cp2, cpend2, dleft, efrac, hsum, hfin⟩ :=
    dolfptoa_fraction fpi fpv (min (max ndec 0) 12).toNat cbuf cp hi hv hd12 hinv
  obtain ⟨ip, fp, eout, r1, r2, r3, r4, r5, r6⟩ :=
    dolfptoa_output _ (min (max ndec 0) 12).toNat cbuf2 cp2 hd12 hfin
  refine ⟨ip, fp, ?_, r1, r2, r3, r4, r5, r6⟩
  unfold dolfptoa
  simp only [and_ffffffff fpi hi, and_ffffffff fpv hv, Bool.false_eq_true, if_false, hdec]
  rw [← Option.bind_assoc, eint, Option.some_bind]
  dsimp only
  rw [efrac, Option.some_bind]
  dsimp only
  rw [hsum]
  cases hs : dolfptoa_strip cbuf2 10 24 cp2 with
  | none => rw [hs] at eout; simp at eout
  | some c =>
    rw [hs] at eout
    rw [Option.some_bind] at eout ⊢
    cases he : emitDigits cbuf2 10 (10 + (min (max ndec 0) 12).toNat) 24
        (if c = 10 then c - 1 else c) with
    | none => rw [he] at eout; simp at eout
    | some o =>
      rw [he] at eout
      rw [Option.some_bind] at eout ⊢
      rw [List.nil_append] at eout
      rw [Option.some.inj eout]

/-- C9 at 9 + (2^32 - 1)/2^32 with `ndec = 0`. -/
theorem dolfptoa_seconds_rounding_witness :
    ∃ ip fp : List Nat,
      dolfptoa 9 4294967295 false 0 false =
        some ((if false then [45] else []) ++
          (ip ++ (if (min (max (0 : Int) 0) 12).toNat = 0 then [] else 46 :: fp))) ∧
      fp.length = (min (max (0 : Int) 0) 12).toNat ∧
      (∀ c ∈ ip, isDigitByte c) ∧ (∀ c ∈ fp, isDigitByte c) ∧ ip ≠ [] ∧
      (1 < ip.length → ip.head? ≠ some 48) ∧
      decVal (ip ++ fp) =
        ((9 * 2 ^ 32 + 4294967295) * 10 ^ (min (max (0 : Int) 0) 12).toNat + 2 ^ 31) / 2 ^ 32 :=
  dolfptoa_seconds_rounding 9 4294967295 false 0 (by norm_num) (by norm_num)

/-- C10: `dofptoa` on 9 + 65535/65536 with `ndec = 0` in seconds mode returns the
string "0". The rounding carry is written to the cell before `cp`, and `cp` is
not moved back to it, so the leading digit is not printed. -/
theorem dofptoa_carry_dropped : dofptoa 0x9FFFF false 0 false = some [48] := by
  decide

/-- The long formatter on 9 + (2^32 - 1)/2^32 with `ndec = 0` returns "10": there
`cp` follows the carry. -/
theorem dolfptoa_carry_kept : dolfptoa 9 4294967295 false 0 false = some [49, 48] := by
  decide

/-! ### C11, C12: calendar -/

/-- C11: `caljulian` on day 0 (1 January 1900) stores year 1900 with
`yearday = 0` and `month = 0`, where `ntp_fp.h` documents both as counted from 1;
on day 1825 (31 December 1904) and on day 36889 (31 December 2000), the last day
of a leap year, it stores `yearday = 365`, `month = 0` and `monthday = 1`. -/
theorem caljulian_zero_based :
    caljulian 0 = ⟨1900, 0, 0, 1⟩ ∧ caljulian 1825 = ⟨1904, 365, 0, 1⟩ ∧
    caljulian 36889 = ⟨2000, 365, 0, 1⟩ := by
  decide

/-- C12: `ymd2yd` adds the leap day for the month index 2 only: for
`(2000, 3, 1)` it returns 91, the same as for `(2001, 3, 1)`, and for
`(2000, 11, 31)`, the last day of the leap year 2000, it returns 365. -/
theorem ymd2yd_leap_day_lost :
    ymd2yd 2000 3 1 = some 91 ∧ ymd2yd 2001 3 1 = some 91 ∧ ymd2yd 2000 11 31 = some 365 ∧
    ymd2yd 2000 2 1 = some 61 := by
  decide

/-! ### C13 .. C18: CHU bursts -/

namespace Chu

/-- C13 fails as stated: with nine characters in the buffer `chu_burst` adds up
four pairs only.  Here the tenth cell still holds `0x93`: the five pairs give 40,
the burst distance is 32. -/
theorem chu_burst_nine_counterexample :
    (chu_burst (unitWith burstA 9)).map
      (fun u => u.burdist) = some 32 ∧
    pairDist burstA 5 = 40 := by
  decide

/-- C13 (amended): `chu_dist(x, y)` is the number of equal bits minus the number
of differing bits among the 8 low bits, `8 - 2 * popcount((x ^ y) & 0xff)`; a
burst of fewer than 9 characters only raises `RUNT`; for a burst of `ndx >= 9`
characters `chu_burst` returns with the burst distance set to the sum of
`chu_dist(c[i], c[i + 5])` over the pairs `i < 5` with `i < ndx - 5`: five pairs
from 10 characters on, the first four for 9. -/
theorem chu_burst_distance (up : chuunit) (hwf : up.wf) (hn : up.ndx ≤ BURST) :
    (∀ x y : Nat,
      chu_dist x y = 8 - 2 * (popcount 8 ((x ^^^ y) &&& 0xff) : Int) ∧
      chu_dist x y =
        ((List.range 8).countP (fun i => x.testBit i = y.testBit i) : Int) -
          ((List.range 8).countP (fun i => x.testBit i ≠ y.testBit i) : Int)) ∧
    (up.ndx < 9 → chu_burst up = some { up with status := up.status ||| RUNT }) ∧
    (9 ≤ up.ndx → ∃ up2, chu_burst up = some up2 ∧
      up2.burdist = pairDist up.cbuf (min 5 (up.ndx - 5))) := by
  refine ⟨chu_dist_bits, fun h => ?_, fun h9 => ?_⟩
  · unfold chu_burst
    rw [if_pos (by unfold MINCHAR; omega)]
  · rw [chu_burst_unfold up hwf h9]
    have hwf2 : ({ up with burdist := pairDist up.cbuf (min 5 (up.ndx - 5)) } : chuunit).wf := hwf
    split_ifs
    · obtain ⟨u, hu, hb⟩ := chu_a_burdist _ up.ndx hwf2 hn
      exact ⟨u, hu, hb⟩
    · obtain ⟨u, hu, hb⟩ := chu_b_burdist _ up.ndx hwf2 hn
      exact ⟨u, hu, hb⟩
    · exact ⟨_, rfl, rfl⟩

/-- C13 (amended) at the ten characters `06 85 12 92 93 06 85 12 92 93`: all five
pairs agree, the burst distance is 40. -/
theorem chu_burst_distance_witness :
    (unitWith burstA 10).wf ∧ (unitWith burstA 10).ndx ≤ BURST ∧
    9 ≤ (unitWith burstA 10).ndx ∧
    pairDist (unitWith burstA 10).cbuf (min 5 ((unitWith burstA 10).ndx - 5)) = 40 ∧
    ∃ up2, chu_burst (unitWith burstA 10) = some up2 ∧
      up2.burdist = pairDist (unitWith burstA 10).cbuf (min 5 ((unitWith burstA 10).ndx - 5)) :=
  ⟨by decide, by decide, by decide, by decide,
    (chu_burst_distance (unitWith burstA 10) (by decide) (by decide)).2.2 (by decide)⟩

/-- On every burst of ten (or eleven) characters whose second five are the bit-inverses of
the first five, `chu_burst` finds the burst distance -40 and `chu_b` stores the characters
3 and 2 as they are in `year` and character 4 in `dst`; the status word is left as it was, so
`BVALID` is not set by that burst. -/
theorem chu_burst_perfect_b (up : chuunit) (hwf : up.wf) (h10 : 10 ≤ up.ndx)
    (h11 : up.ndx ≤ 11)
    (hinv : ∀ i, i < 5 → cell up.cbuf (i + 5) = cell up.cbuf i ^^^ 0xff) :
    ∃ up2, chu_burst up = some up2 ∧ up2.burdist = -40 ∧ up2.status = up.status ∧
      up2.year = (cell up.cbuf 3 <<< 8) ||| cell up.cbuf 2 ∧ up2.dst = cell up.cbuf 4 := by
  have hm : min 5 (up.ndx - 5) = 5 := by omega
  have hd := pairDist_inverse up.cbuf 5 (by omega) hinv
  rw [chu_burst_unfold up hwf (by omega), hm, hd]
  have hwf2 : ({ up with burdist := -8 * ((5 : Nat) : Int) } : chuunit).wf := hwf
  rw [if_neg (by decide), if_pos (by decide), chu_b_unfold _ up.ndx hwf2 h11]
  dsimp only
  rw [if_neg (by decide)]
  exact ⟨_, rfl, by show (-8 * ((5 : Nat) : Int)) = -40; decide, rfl, rfl, rfl⟩

/-- C14 fails on the code: for the ten characters `10 91 89 13 00 ef 6e 76 ec ff`, whose
second five are the exact bit-inverses of the first five, `chu_burst` finds the burst
distance -40 and `chu_b` takes the burst, but `BVALID` is clear afterwards and `year` is
`0x1389`, the characters 3 and 2 as received, not `0x1998`; the nine characters
`1091891300ef6e76ec` alone have burst distance -32 and are turned down with `BFRAME`, `year`
staying at its old value (here 0). -/
theorem chu_b_perfect_burst_not_valid :
    (chu_burst (unitWith burstB10 10)).map
        (fun u => (u.burdist, u.status &&& BVALID, u.year, u.dst))
      = some (-40, 0, 0x1389, 0) ∧
    (0x1389 : Nat) ≠ 0x1998 ∧
    (chu_burst (unitWith burstB 9)).map (fun u => (u.burdist, u.status, u.year, u.dst))
      = some (-32, BFRAME, 0, 0) := by
  decide

/-- C15: for a ten-character burst whose second five characters repeat the
first five, framed by the nibbles `6` (characters 0 and 5) and `3` (characters 4
and 9), with the seconds digit `s` in 2..9, the phase search of `chu_a` gives
the sync distance 16 at the alignment `k = 0`, and `chu_a`, run in a freshly
cleared minute, sets `AVALID`, sets `sec = 30 + s`, records exactly ten
timestamps and leaves `burstcnt = 1`: `ntstamp = 10`, cell `j < 10` of `tstamp`
holds the character timestamp `cstamp[j]` less the offset `30 + s` seconds
advanced `j` times by `charstamp`, and the cells from 10 on are as they
were. -/
theorem chu_a_ideal_burst (up0 : chuunit) (c0 c1 c2 c3 c4 x s : Nat)
    (hc : up0.cbuf = [c0, c1, c2, c3, c4, c0, c1, c2, c3, c4, x])
    (h256 : ∀ c ∈ up0.cbuf, c < 256) (hcs : up0.cstamp.length = BURST)
    (hts : up0.tstamp.length = MAXSTAGE)
    (h6 : c0 &&& 0xf = 6) (h3 : c4 &&& 0xf = 3) (hs : (c4 >>> 4) &&& 0xf = s)
    (hs2 : 2 ≤ s) (hs9 : s ≤ 9) :
    chu_a_sync (chu_clear up0).cbuf 10 = some (16, 0) ∧
    ∃ up2, chu_a (chu_clear up0) 10 = some up2 ∧ up2.syndist = 16 ∧
      up2.status &&& AVALID = AVALID ∧ up2.sec = 30 + s ∧ up2.ntstamp = 10 ∧
      up2.burstcnt = 1 ∧
      (∀ j, j < 10 → up2.tstamp[j]? =
        (up0.cstamp[j]?).map fun cs =>
          L_SUB cs ((fun o => L_ADD o up0.charstamp)^[j] ⟨30 + s, 0⟩)) ∧
      (∀ m, 10 ≤ m → up2.tstamp[m]? = up0.tstamp[m]?) := by
  have hl : up0.cbuf.length = BURST := by rw [hc]; rfl
  have hwf := chu_clear_wf up0 hl h256 hcs hts
  have hcb : (chu_clear up0).cbuf = [c0, c1, c2, c3, c4, c0, c1, c2, c3, c4, x] := hc
  have hsync : chu_a_sync (chu_clear up0).cbuf 10 = some (16, 0) := by
    rw [chu_a_sync_eq _ 10 hwf.1, hcb, syncVal_framed c0 c1 c2 c3 c4 x h6 h3]
  have hsec : chu_a_second (chu_clear up0).cbuf 10 0 = some s := by
    rw [chu_a_second_eq _ 10 hwf.1 0 (by omega) (by omega), hcb]
    unfold secondVal
    show some (if (c4 >>> 4) &&& 0xf < 2 ∨ (c4 >>> 4) &&& 0xf > 9 ∨ (0 : Int) + 9 ≥ (10 : Nat)
      then 0 else if (c4 >>> 4) &&& 0xf ≠ (c4 >>> 4) &&& 0xf then 0 else (c4 >>> 4) &&& 0xf)
      = some s
    rw [hs, if_neg (by omega), if_neg (by simp)]
  refine ⟨hsync, ?_⟩
  rw [chu_a_unfold (chu_clear up0) 10 hwf (by omega) 16 0 s hsync (by omega) (by omega)
    (by omega) (by omega) hsec hs9]
  rw [if_neg (by decide), if_neg (by omega)]
  obtain ⟨ts, hst, hw, hk⟩ := chu_a_stamps_spec (chu_clear up0).cstamp
    (chu_clear up0).charstamp 10 0
    (by rw [hwf.2.2.1]; decide) 10 0 ⟨30 + s, 0⟩ (chu_clear up0).tstamp 0 hwf.2.2.2.1
    (by decide) (by omega) (by decide)
  have hnt : (chu_clear up0).ntstamp = 0 := rfl
  rw [if_neg (by decide), if_neg (by decide), if_neg (by decide), hnt, hst, Option.some_bind,
    Option.some_bind]
  dsimp only
  obtain ⟨d, hd⟩ := chu_a_stash_some (chu_clear up0).cbuf 10 0 (-(2 * 0))
    (chu_a_advance s s ((chu_clear up0).decode, (chu_clear up0).prevsec)).1
    (by rw [hwf.1]; decide)
  rw [hd, Option.some_bind]
  refine ⟨_, rfl, rfl, or_and_self _ _, rfl, rfl, rfl, ?_, ?_⟩
  · intro j hj
    have := hw j hj
    rw [Nat.zero_add] at this
    exact this
  · intro m hm
    exact hk m (Or.inr (by omega))

/-- C15 at the burst `06 85 12 92 93 06 85 12 92 93`, second 39. -/
theorem chu_a_ideal_burst_witness :
    (unitWith burstA 10).cbuf = [0x06, 0x85, 0x12, 0x92, 0x93, 0x06, 0x85, 0x12, 0x92, 0x93, 0] ∧
    (∀ c ∈ (unitWith burstA 10).cbuf, c < 256) ∧ (unitWith burstA 10).cstamp.length = BURST ∧
    (unitWith burstA 10).tstamp.length = MAXSTAGE ∧ 0x06 &&& 0xf = 6 ∧ 0x93 &&& 0xf = 3 ∧
    (0x93 >>> 4) &&& 0xf = 9 ∧ 2 ≤ 9 ∧ 9 ≤ 9 ∧
    (chu_a_sync (chu_clear (unitWith burstA 10)).cbuf 10 = some (16, 0) ∧
      ∃ up2, chu_a (chu_clear (unitWith burstA 10)) 10 = some up2 ∧ up2.syndist = 16 ∧
        up2.status &&& AVALID = AVALID ∧ up2.sec = 30 + 9 ∧ up2.ntstamp = 10 ∧
        up2.burstcnt = 1 ∧
        (∀ j, j < 10 → up2.tstamp[j]? =
          ((unitWith burstA 10).cstamp[j]?).map fun cs =>
            L_SUB cs ((fun o => L_ADD o (unitWith burstA 10).charstamp)^[j] ⟨30 + 9, 0⟩)) ∧
        (∀ m, 10 ≤ m → up2.tstamp[m]? = (unitWith burstA 10).tstamp[m]?)) :=
  ⟨rfl, by decide, rfl, rfl, by decide, by decide, by decide, by decide, by decide,
    chu_a_ideal_burst (unitWith burstA 10) 0x06 0x85 0x12 0x92 0x93 0 9 rfl (by decide) rfl rfl
      (by decide) (by decide) (by decide) (by decide) (by decide)⟩

/-- C16: on the matrix left by the single burst `06851292930685129293`,
`chu_major` decodes the digits `0 5 8 2 1 2 9` of rows 1..7 but computes the
day, hour and minute from their character codes: day 5386, hour 549 and minute
557 instead of 58, 21 and 29. -/
theorem chu_major_character_codes :
    (chu_burst (unitWith burstA 10)).map
      (fun u => ((chu_major u).1.day, (chu_major u).1.hour, (chu_major u).1.min,
        chu_major_code u))
      = some (5386, 549, 557, [54, 48, 53, 56, 50, 49, 50, 57, 51, 0, 0]) := by
  decide

/-- C17 fails as stated: with `burstcnt = 4`, three of the counts of row 0 agree
on the digit 1, which is `ceil(4 / 2) + 1`, but five agree on the digit 2, and
`chu_major` decodes `2`. -/
theorem chu_major_quorum_counterexample :
    rowCount splitVote.decode 0 1 ≥ (splitVote.burstcnt + 1) / 2 + 1 ∧
    (chu_major_code splitVote).getD 0 0 = hexchar.getD 2 0 ∧
    hexchar.getD 2 0 ≠ hexchar.getD 1 0 := by
  decide

/-- C17 (amended): for every decoding matrix and every row `r` in 0..8, if more
than half of all the counts accumulated for row `r` (`decode[r][*]` together with
`decode[r + 10][*]`) agree on the digit `d`, then the digit `chu_major` decodes
for row `r` is `d`: `code[r] = hexchar[d]`. -/
theorem chu_major_majority (up : chuunit) (r d : Nat) (hr : r < 9) (hd : d < 16)
    (hmaj : ∑ j in Finset.range 16, rowCount up.decode r j < 2 * rowCount up.decode r d) :
    (chu_major_row up.decode r 16 0 (0, 0)).2 = d ∧
    (chu_major_code up).getD r 0 = hexchar.getD d 0 := by
  have hmax : ∀ j, j < 16 → j ≠ d → rowCount up.decode r j < rowCount up.decode r d := by
    intro j hj hjd
    have hsub : ({d, j} : Finset Nat) ⊆ Finset.range 16 := by
      intro x hx
      simp only [Finset.mem_insert, Finset.mem_singleton] at hx
      rcases hx with rfl | rfl <;> simp [hj, hd]
    have hle := Finset.sum_le_sum_of_subset (f := fun j => rowCount up.decode r j) hsub
    rw [Finset.sum_pair (fun h => hjd h.symm)] at hle
    dsimp only at hle
    omega
  have hrow := chu_major_row_max up.decode r d hd hmax
  refine ⟨by rw [hrow], ?_⟩
  unfold chu_major_code
  rw [chu_major_rows_code up.decode up.burstcnt 9 0 _ r (by omega) (by omega)
    (by simp; omega), hrow]

/-- C17 (amended) at row 0 of the matrix `splitVote`, digit 2. -/
theorem chu_major_majority_witness :
    0 < 9 ∧ 2 < 16 ∧
    ∑ j in Finset.range 16, rowCount splitVote.decode 0 j < 2 * rowCount splitVote.decode 0 2 ∧
    ((chu_major_row splitVote.decode 0 16 0 (0, 0)).2 = 2 ∧
      (chu_major_code splitVote).getD 0 0 = hexchar.getD 2 0) :=
  ⟨by decide, by decide, by decide,
    chu_major_majority splitVote 0 2 (by decide) (by decide) (by decide)⟩

/-- C18 fails as stated: on a well-framed burst (sync distance 16) with the
seconds digit 1, `chu_a` raises `AFORMAT` and records no timestamp, but it still
counts the burst: `burstcnt` becomes 1 and the decoding matrix changes. -/
theorem chu_a_aformat_counterexample :
    (chu_a (unitWith burstBadSecond 10) 10).map
      (fun u => (u.syndist, u.status, u.ntstamp, u.burstcnt,
        decide (u.decode = (unitWith burstBadSecond 10).decode), cellAt u.decode 0 6))
      = some (16, AFORMAT, 0, 1, false, 1) := by
  decide

/-- C18 (amended): when the phase search of `chu_a` finds a sync distance of at
least 8 at the alignment `k`, and the seconds digit (high digit of `cbuf[k + 4]`)
is outside 2..9, or its repetition at `cbuf[k + 9]` is missing or differs, then
`chu_a` raises `AFORMAT`, sets no other status bit, and leaves `ntstamp`, the
timestamps, `sec` and `prevsec` unchanged; the burst is not discarded: its
digits are stashed in the decoding matrix and `burstcnt` is incremented. -/
theorem chu_a_bad_second (up : chuunit) (nchar : Nat) (s k : Int) (hwf : up.wf)
    (hn : nchar ≤ 11) (hs : chu_a_sync up.cbuf nchar = some (s, k)) (h8 : 8 ≤ s)
    (hbad : (cell up.cbuf (k + 4).toNat >>> 4) &&& 0xf < 2 ∨
      (cell up.cbuf (k + 4).toNat >>> 4) &&& 0xf > 9 ∨ k + 9 ≥ nchar ∨
      (cell up.cbuf (k + 4).toNat >>> 4) &&& 0xf ≠ (cell up.cbuf (k + 9).toNat >>> 4) &&& 0xf) :
    ∃ up2, chu_a up nchar = some up2 ∧ up2.status = up.status ||| AFORMAT ∧
      up2.ntstamp = up.ntstamp ∧ up2.tstamp = up.tstamp ∧ up2.sec = up.sec ∧
      up2.prevsec = up.prevsec ∧ up2.burstcnt = up.burstcnt + 1 ∧
      chu_a_stash up.cbuf nchar 0 (-(2 * k)) up.decode = some up2.decode := by
  have hl : up.cbuf.length = 11 := hwf.1
  have hsv : syncVal up.cbuf nchar = (s, k) := by
    have := chu_a_sync_eq up.cbuf nchar hl
    rw [hs] at this
    exact (Option.some.inj this).symm
  have hr := syncVal_range up.cbuf nchar
  rw [hsv] at hr
  obtain ⟨hs0, hs1, hk0, hk1⟩ := hr
  have ht : secondVal up.cbuf nchar k = 0 := by
    unfold secondVal
    split_ifs with c1 c2
    · rfl
    · rfl
    · exfalso
      rcases hbad with h | h | h | h
      · exact c1 (Or.inl h)
      · exact c1 (Or.inr (Or.inl h))
      · exact c1 (Or.inr (Or.inr h))
      · exact c2 h
  have hsec := chu_a_second_eq up.cbuf nchar hl k hk0 hk1
  rw [ht] at hsec
  rw [chu_a_unfold up nchar hwf hn s k 0 hs hs0 hs1 hk0 hk1 hsec (by omega)]
  rw [if_neg (by unfold MINSYNC; omega), if_pos rfl, Option.some_bind]
  dsimp only
  obtain ⟨d, hd⟩ := chu_a_stash_some up.cbuf nchar 0 (-(2 * k)) up.decode (by omega)
  rw [hd, Option.some_bind]
  exact ⟨_, rfl, rfl, rfl, rfl, rfl, rfl, rfl, rfl⟩

/-- C18 (amended) at the burst `0685129213 0685129213`. -/
theorem chu_a_bad_second_witness :
    (unitWith burstBadSecond 10).wf ∧ 10 ≤ 11 ∧
    chu_a_sync (unitWith burstBadSecond 10).cbuf 10 = some (16, 0) ∧ (8 : Int) ≤ 16 ∧
    (cell (unitWith burstBadSecond 10).cbuf ((0 : Int) + 4).toNat >>> 4) &&& 0xf < 2 ∧
    ∃ up2, chu_a (unitWith burstBadSecond 10) 10 = some up2 ∧
      up2.status = (unitWith burstBadSecond 10).status ||| AFORMAT ∧
      up2.ntstamp = (unitWith burstBadSecond 10).ntstamp ∧
      up2.tstamp = (unitWith burstBadSecond 10).tstamp ∧
      up2.sec = (unitWith burstBadSecond 10).sec ∧
      up2.prevsec = (unitWith burstBadSecond 10).prevsec ∧
      up2.burstcnt = (unitWith burstBadSecond 10).burstcnt + 1 ∧
      chu_a_stash (unitWith burstBadSecond 10).cbuf 10 0 (-(2 * 0))
        (unitWith burstBadSecond 10).decode = some up2.decode :=
  ⟨by decide, by decide, by decide, by decide, by decide,
    chu_a_bad_second (unitWith burstBadSecond 10) 10 16 0 (by decide) (by decide) (by decide)
      (by decide) (Or.inl (by decide))⟩

end Chu

/-! ### C19, C20: WWV restart -/

namespace Wwv

/-- C19: the `SYNC3` case ends with `wwv_newgame(up); return;` exactly when
`INSYNC` is set and `watch > 2880`, or `INSYNC` is clear, `DSYNC` is set and
`watch > 40`, or both are clear and `watch > 15`.  In every other case it ends
with `wwv_newchan(up); break;`, and the bits `MSYNC`, `DSYNC` and `INSYNC` of
`status` (and `watch`) are what they were. -/
theorem wwv_rsec_SYNC3_restart (wwv_snr : ℚ → ℚ → ℚ) (wwv_metric : sync → ℚ) (up : wwvunit)
    (hm : up.mitig.length = NCHAN) (ha : up.achan < NCHAN) :
    ∃ up1, sync3_update wwv_snr wwv_metric up = some up1 ∧
      (((up.status &&& INSYNC ≠ 0 ∧ up.watch > 2880) ∨
          (up.status &&& INSYNC = 0 ∧ up.status &&& DSYNC ≠ 0 ∧ up.watch > 40) ∨
          (up.status &&& INSYNC = 0 ∧ up.status &&& DSYNC = 0 ∧ up.watch > 15)) →
        ∃ u, wwv_newgame up1 = some u ∧
          wwv_rsec_SYNC3 wwv_snr wwv_metric up = some (Exit.returned u)) ∧
      (¬ ((up.status &&& INSYNC ≠ 0 ∧ up.watch > 2880) ∨
          (up.status &&& INSYNC = 0 ∧ up.status &&& DSYNC ≠ 0 ∧ up.watch > 40) ∨
          (up.status &&& INSYNC = 0 ∧ up.status &&& DSYNC = 0 ∧ up.watch > 15)) →
        ∃ u b, wwv_newchan up1 = some (u, b) ∧
          wwv_rsec_SYNC3 wwv_snr wwv_metric up = some (Exit.break u) ∧
          u.status &&& MSYNC = up.status &&& MSYNC ∧ u.status &&& DSYNC = up.status &&& DSYNC ∧
          u.status &&& INSYNC = up.status &&& INSYNC ∧ u.watch = up.watch) := by
  obtain ⟨up1, h1, hst, hw, hl⟩ := sync3_update_some wwv_snr wwv_metric up (by omega)
  obtain ⟨⟨u, b⟩, hc⟩ := wwv_newchan_total up1 (by omega)
  have hgame := wwv_newgame_eq up1
  have hM := wwv_newchan_status up1 (u, b) MSYNC (by decide) (by decide) (by decide) (by decide)
    (by decide) hc
  have hD := wwv_newchan_status up1 (u, b) DSYNC (by decide) (by decide) (by decide) (by decide)
    (by decide) hc
  have hI := wwv_newchan_status up1 (u, b) INSYNC (by decide) (by decide) (by decide) (by decide)
    (by decide) hc
  rw [hst] at hM hD hI
  rw [hw] at hM
  have hbrk : ∀ x : Option Exit, x = (wwv_newchan up1).map (fun r => Exit.break r.1) →
      x = some (Exit.break u) := by
    intro x hx
    rw [hx, hc]
    rfl
  have hret : ∀ x : Option Exit, x = (wwv_newgame up1).map Exit.returned →
      ∃ u, wwv_newgame up1 = some u ∧ x = some (Exit.returned u) := by
    intro x hx
    rw [hx, hgame]
    exact ⟨_, rfl, rfl⟩
  have hP : PANIC = 2880 := by decide
  have hS : SYNCH = 40 := by decide
  have hT : DATA = 15 := by decide
  refine ⟨up1, h1, ?_, ?_⟩
  · intro hcond
    apply hret
    unfold wwv_rsec_SYNC3
    rw [h1, Option.some_bind, hst, hw, hP, hS, hT]
    rcases hcond with ⟨c1, c2⟩ | ⟨c1, c2, c3⟩ | ⟨c1, c2, c3⟩
    · rw [if_pos c1, if_pos c2]
    · rw [if_neg (by rw [c1]; simp), if_pos c2, if_pos c3]
    · rw [if_neg (by rw [c1]; simp), if_neg (by rw [c2]; simp), if_pos c3]
  · intro hcond
    refine ⟨u, b, hc, ?_, hM.1, hD.1, hI.1, hM.2⟩
    apply hbrk
    unfold wwv_rsec_SYNC3
    rw [h1, Option.some_bind, hst, hw, hP, hS, hT]
    by_cases c1 : up.status &&& INSYNC ≠ 0
    · have c2 : ¬ up.watch > 2880 := fun c => hcond (Or.inl ⟨c1, c⟩)
      rw [if_pos c1, if_neg c2]
    · have c1' : up.status &&& INSYNC = 0 := not_not.mp c1
      by_cases c2 : up.status &&& DSYNC ≠ 0
      · have c3 : ¬ up.watch > 40 := fun c => hcond (Or.inr (Or.inl ⟨c1', c2, c⟩))
        rw [if_neg c1, if_pos c2, if_neg c3]
      · have c3 : ¬ up.watch > 15 := fun c =>
          hcond (Or.inr (Or.inr ⟨c1', not_not.mp c2, c⟩))
        rw [if_neg c1, if_neg c2, if_neg c3]

/-- C19 at a unit with `DSYNC` lit, `INSYNC` dark and `watch = 41`: the case ends
in `wwv_newgame`. -/
theorem wwv_rsec_SYNC3_restart_witness :
    stalled.mitig.length = NCHAN ∧ stalled.achan < NCHAN ∧
    (stalled.status &&& INSYNC = 0 ∧ stalled.status &&& DSYNC ≠ 0 ∧ stalled.watch > 40) ∧
    ∃ up1 u, sync3_update (fun _ _ => 0) (fun _ => 0) stalled = some up1 ∧
      wwv_newgame up1 = some u ∧
      wwv_rsec_SYNC3 (fun _ _ => 0) (fun _ => 0) stalled = some (Exit.returned u) :=
  ⟨by decide, by decide, by decide,
    match wwv_rsec_SYNC3_restart (fun _ _ => 0) (fun _ => 0) stalled (by decide) (by decide) with
    | ⟨up1, h1, hyes, _⟩ =>
      match hyes (Or.inr (Or.inl (by decide))) with
      | ⟨u, hu, hr⟩ => ⟨up1, u, h1, hu, hr⟩⟩

/-- C20: `wwv_newgame` returns for every unit state, and afterwards `status`,
`watch` and `alarm` are 0, `avgint` is `MINAVG` (8), `freq` is 0, `gain` is
`MAXGAIN / 2` (8191), the data channel `dchan` is the default channel `DCHAN` (3),
and the metric, reachability register and count of both stations of each of the
`NCHAN` channels are zero. -/
theorem wwv_newgame_resets (up : wwvunit) :
    ∃ up2, wwv_newgame up = some up2 ∧ up2.status = 0 ∧ up2.watch = 0 ∧ up2.alarm = 0 ∧
      up2.avgint = MINAVG ∧ MINAVG = 8 ∧ up2.freq = 0 ∧ up2.gain = MAXGAIN / 2 ∧
      MAXGAIN / 2 = 8191 ∧ up2.dchan = DCHAN ∧ DCHAN = 3 ∧ up2.mitig.length = NCHAN ∧
      ∀ c ∈ up2.mitig, c.wwv.metric = 0 ∧ c.wwv.reach = 0 ∧ c.wwv.count = 0 ∧
        c.wwvh.metric = 0 ∧ c.wwvh.reach = 0 ∧ c.wwvh.count = 0 := by
  refine ⟨_, wwv_newgame_eq up, rfl, rfl, rfl, rfl, rfl, rfl, rfl, by decide, rfl, rfl, ?_, ?_⟩
  · show newgame_mitig.length = NCHAN
    decide
  · show ∀ c ∈ newgame_mitig, _
    decide

end Wwv

/-! ### C21 .. C30: IRIG decoder, WWV filters and clock digits -/

namespace Irig

/-- C21: `irig_baud` decodes the low eight bits of the data-cycle register `dcycles` as a
0 bit for 0x00 and 0x80, as a 1 bit for 0xc0, 0xe0 and 0xf0, and as a position identifier
for 0xf8, 0xfc and 0xfe, adding no error flag of its own to what `irig_decode` leaves; for
every other byte it decodes a 0 bit and then sets `IRIG_ERR_DECODE`. -/
theorem irig_baud_classification (DTOLFP : ℚ → l_fp) (up : irigunit) (bits : Int) :
    ((up.dcycles &&& 0xff = 0x00 ∨ up.dcycles &&& 0xff = 0x80) →
      irig_baud DTOLFP up bits = irig_decode (irig_baud_pll DTOLFP up) BIT0) ∧
    ((up.dcycles &&& 0xff = 0xc0 ∨ up.dcycles &&& 0xff = 0xe0 ∨ up.dcycles &&& 0xff = 0xf0) →
      irig_baud DTOLFP up bits = irig_decode (irig_baud_pll DTOLFP up) BIT1) ∧
    ((up.dcycles &&& 0xff = 0xf8 ∨ up.dcycles &&& 0xff = 0xfc ∨ up.dcycles &&& 0xff = 0xfe) →
      irig_baud DTOLFP up bits = irig_decode (irig_baud_pll DTOLFP up) BITP) ∧
    (up.dcycles &&& 0xff ∉ [0x00, 0x80, 0xc0, 0xe0, 0xf0, 0xf8, 0xfc, 0xfe] →
      irig_baud DTOLFP up bits =
        { irig_decode (irig_baud_pll DTOLFP up) BIT0 with
          errflg := (irig_decode (irig_baud_pll DTOLFP up) BIT0).errflg ||| IRIG_ERR_DECODE } ∧
      (irig_baud DTOLFP up bits).errflg &&& IRIG_ERR_DECODE = IRIG_ERR_DECODE) := by
  have hd := irig_baud_pll_dcycles DTOLFP up
  refine ⟨?_, ?_, ?_, ?_⟩
  · intro h
    unfold irig_baud
    dsimp only
    rw [hd, if_pos h]
  · intro h
    unfold irig_baud
    dsimp only
    rw [hd]
    have h0 : ¬ (up.dcycles &&& 0xff = 0x00 ∨ up.dcycles &&& 0xff = 0x80) := by omega
    rw [if_neg h0, if_pos h]
  · intro h
    unfold irig_baud
    dsimp only
    rw [hd]
    have h0 : ¬ (up.dcycles &&& 0xff = 0x00 ∨ up.dcycles &&& 0xff = 0x80) := by omega
    have h1 : ¬ (up.dcycles &&& 0xff = 0xc0 ∨ up.dcycles &&& 0xff = 0xe0 ∨
        up.dcycles &&& 0xff = 0xf0) := by omega
    rw [if_neg h0, if_neg h1, if_pos h]
  · intro h
    simp only [List.mem_cons, List.mem_singleton, List.not_mem_nil, or_false, not_or] at h
    have e : irig_baud DTOLFP up bits =
        { irig_decode (irig_baud_pll DTOLFP up) BIT0 with
          errflg := (irig_decode (irig_baud_pll DTOLFP up) BIT0).errflg ||| IRIG_ERR_DECODE } := by
      unfold irig_baud
      dsimp only
      rw [hd]
      have h0 : ¬ (up.dcycles &&& 0xff = 0x00 ∨ up.dcycles &&& 0xff = 0x80) := by omega
      have h1 : ¬ (up.dcycles &&& 0xff = 0xc0 ∨ up.dcycles &&& 0xff = 0xe0 ∨
          up.dcycles &&& 0xff = 0xf0) := by omega
      have h2 : ¬ (up.dcycles &&& 0xff = 0xf8 ∨ up.dcycles &&& 0xff = 0xfc ∨
          up.dcycles &&& 0xff = 0xfe) := by omega
      rw [if_neg h0, if_neg h1, if_neg h2]
    refine ⟨e, ?_⟩
    rw [e]
    exact lor_land_self _ _

/-- C21 at four registers: 0x80 is a 0 bit, 0x1c0 (low byte 0xc0) a 1 bit, 0xfe a position
identifier, and 0xff a 0 bit with `IRIG_ERR_DECODE`. -/
theorem irig_baud_classification_witness :
    irig_baud (fun _ => ⟨0, 0⟩) { irig_start with dcycles := 0x80 } 0 =
      irig_decode (irig_baud_pll (fun _ => ⟨0, 0⟩) { irig_start with dcycles := 0x80 }) BIT0 ∧
    irig_baud (fun _ => ⟨0, 0⟩) { irig_start with dcycles := 0x1c0 } 0 =
      irig_decode (irig_baud_pll (fun _ => ⟨0, 0⟩) { irig_start with dcycles := 0x1c0 }) BIT1 ∧
    irig_baud (fun _ => ⟨0, 0⟩) { irig_start with dcycles := 0xfe } 0 =
      irig_decode (irig_baud_pll (fun _ => ⟨0, 0⟩) { irig_start with dcycles := 0xfe }) BITP ∧
    (irig_baud (fun _ => ⟨0, 0⟩) { irig_start with dcycles := 0xff } 0).errflg &&&
      IRIG_ERR_DECODE = IRIG_ERR_DECODE :=
  ⟨(irig_baud_classification _ { irig_start with dcycles := 0x80 } 0).1 (Or.inr (by decide)),
    (irig_baud_classification _ { irig_start with dcycles := 0x1c0 } 0).2.1 (Or.inl (by decide)),
    (irig_baud_classification _ { irig_start with dcycles := 0xfe } 0).2.2.1
      (Or.inr (Or.inr (by decide))),
    ((irig_baud_classification _ { irig_start with dcycles := 0xff } 0).2.2.2 (by decide)).2⟩

set_option maxRecDepth 100000 in
/-- C22 as stated fails: a freshly started decoder fed two frames of 12:34:56 on day 153 of
year 24 decodes, at the end of the second frame, year 12, day 21 and 01:12:23, and raises
`IRIG_ERR_SYNCH` on the first element of the second frame; with the year in elements 50 to 58
the result is no better. -/
theorem irig_decode_two_frames_counterexample :
    ((decode_run irig_start (irig_frame 24 153 12 34 56 ++ irig_frame 24 153 12 34 56)).pp_year,
      (decode_run irig_start (irig_frame 24 153 12 34 56 ++ irig_frame 24 153 12 34 56)).pp_day,
      (decode_run irig_start (irig_frame 24 153 12 34 56 ++ irig_frame 24 153 12 34 56)).pp_hour,
      (decode_run irig_start (irig_frame 24 153 12 34 56 ++ irig_frame 24 153 12 34 56)).pp_minute,
      (decode_run irig_start (irig_frame 24 153 12 34 56 ++ irig_frame 24 153 12 34 56)).pp_second)
      = (12, 21, 1, 12, 23) ∧
    (decode_run irig_start (irig_frame 24 153 12 34 56 ++
      (irig_frame 24 153 12 34 56).take 1)).errflg &&& IRIG_ERR_SYNCH = IRIG_ERR_SYNCH ∧
    (decode_run irig_start
      (irig_frame_std 24 153 12 34 56 ++ irig_frame_std 24 153 12 34 56)).pp_year ≠ 24 := by
  decide

/-- C22 (amended): once the decoder is in frame synchronisation (the last element was a
position identifier, `frmcnt` is 1, `xptr` is 20, the register is below 2^10 and no flag is
up), feeding `irig_decode` the 100 code elements of a frame (position identifiers at 0, 9,
19, .., 99, BCD least significant bit first, the two-digit year in elements 60 to 63 and 65
to 68) processes the last element with `frmcnt == 0`, never raises `IRIG_ERR_SYNCH`, decodes
second, minute, hour, day and year as encoded and leaves the decoder synchronised.  A freshly
started decoder is synchronised after two frames, so it decodes the third. -/
theorem irig_decode_synchronised_frame (up : irigunit) (year day hour minute second : Nat)
    (hs : InSync up) (hy : year < 100) (hd1 : 1 ≤ day) (hd2 : day ≤ 366) (hh : hour < 24)
    (hm : minute < 60) (hsec : second < 60) :
    (decode_run up ((irig_frame year day hour minute second).take 99)).frmcnt = 0 ∧
    (∀ k, k ≤ 100 →
      (decode_run up ((irig_frame year day hour minute second).take k)).errflg &&&
        IRIG_ERR_SYNCH = 0) ∧
    (decode_run up (irig_frame year day hour minute second)).pp_second = second ∧
    (decode_run up (irig_frame year day hour minute second)).pp_minute = minute ∧
    (decode_run up (irig_frame year day hour minute second)).pp_hour = hour ∧
    (decode_run up (irig_frame year day hour minute second)).pp_day = day ∧
    (decode_run up (irig_frame year day hour minute second)).pp_year = year ∧
    InSync (decode_run up (irig_frame year day hour minute second)) ∧
    InSync (decode_run irig_start (irig_frame year day hour minute second ++
      irig_frame year day hour minute second)) ∧
    (decode_run irig_start (irig_frame year day hour minute second ++
      irig_frame year day hour minute second ++
      irig_frame year day hour minute second)).pp_second = second := by
  obtain ⟨f1, f2, f3, f4, f5⟩ := frame_fields up hs year day hour minute second hy
    (by omega) (by omega) (by omega) (by omega)
  have hfresh := fresh_sync year day hour minute second year day hour minute second
  refine ⟨frame_last_frmcnt up hs _ _ _ _ _, ?_, f5, f4, f3, f2, f1,
    frame_keeps_sync up hs _ _ _ _ _, hfresh, ?_⟩
  · intro k hk
    rw [frame_no_flag up hs _ _ _ _ _ k hk]
    rfl
  · rw [decode_run_append]
    exact (frame_fields _ hfresh year day hour minute second hy (by omega) (by omega) (by omega)
      (by omega)).2.2.2.2

set_option maxRecDepth 100000 in
/-- C22 at the example time, year 24, day 153, 12:34:56, entering the decoder in the
state two earlier frames leave it in. -/
theorem irig_decode_synchronised_frame_witness :
    (decode_run (decode_run irig_start
        (irig_frame 24 153 12 34 55 ++ irig_frame 24 153 12 34 55))
      (irig_frame 24 153 12 34 56)).pp_second = (56 : Nat) ∧
    (decode_run (decode_run irig_start
        (irig_frame 24 153 12 34 55 ++ irig_frame 24 153 12 34 55))
      (irig_frame 24 153 12 34 56)).pp_minute = (34 : Nat) ∧
    (decode_run (decode_run irig_start
        (irig_frame 24 153 12 34 55 ++ irig_frame 24 153 12 34 55))
      (irig_frame 24 153 12 34 56)).pp_hour = (12 : Nat) ∧
    (decode_run (decode_run irig_start
        (irig_frame 24 153 12 34 55 ++ irig_frame 24 153 12 34 55))
      (irig_frame 24 153 12 34 56)).pp_day = (153 : Nat) ∧
    (decode_run (decode_run irig_start
        (irig_frame 24 153 12 34 55 ++ irig_frame 24 153 12 34 55))
      (irig_frame 24 153 12 34 56)).pp_year = (24 : Nat) :=
  (irig_decode_synchronised_frame
    (decode_run irig_start (irig_frame 24 153 12 34 55 ++ irig_frame 24 153 12 34 55))
    24 153 12 34 56 (by decide) (by decide) (by decide) (by decide) (by decide) (by decide)
    (by decide)).2.2.1 |> fun h5 =>
  ⟨h5,
    (irig_decode_synchronised_frame
      (decode_run irig_start (irig_frame 24 153 12 34 55 ++ irig_frame 24 153 12 34 55))
      24 153 12 34 56 (by decide) (by decide) (by decide) (by decide) (by decide) (by decide)
      (by decide)).2.2.2.1,
    (irig_decode_synchronised_frame
      (decode_run irig_start (irig_frame 24 153 12 34 55 ++ irig_frame 24 153 12 34 55))
      24 153 12 34 56 (by decide) (by decide) (by decide) (by decide) (by decide) (by decide)
      (by decide)).2.2.2.2.1,
    (irig_decode_synchronised_frame
      (decode_run irig_start (irig_frame 24 153 12 34 55 ++ irig_frame 24 153 12 34 55))
      24 153 12 34 56 (by decide) (by decide) (by decide) (by decide) (by decide) (by decide)
      (by decide)).2.2.2.2.2.1,
    (irig_decode_synchronised_frame
      (decode_run irig_start (irig_frame 24 153 12 34 55 ++ irig_frame 24 153 12 34 55))
      24 153 12 34 56 (by decide) (by decide) (by decide) (by decide) (by decide) (by decide)
      (by decide)).2.2.2.2.2.2.1⟩

/-- C26 fails on the code: on the freshly initialised unit (`badcnt = 0`, `fdelay = 0`) the
first sample, and the second, are not handed to `irig_base`; nor is a sample of a unit on
which `irig_receive` has selected IRIG-B (`decim = 1`, `fdelay = IRIG_B`).  The counter is
incremented without the reduction modulo the decimation factor and then tested for zero. -/
theorem irig_rf_fresh_skips_base :
    (irig_rf irig_start).2 = none ∧ (irig_rf irig_start).1.badcnt = 1 ∧
    (irig_rf (irig_rf irig_start).1).2 = none ∧
    (irig_rf { irig_start with decim := 1, fdelay := IRIG_B }).2 = none := by
  have h0 : irig_start.fdelay ≠ IRIG_E := IRIG_E_ne_zero
  have e1 := irig_rf_never irig_start h0 (by decide)
  have e2 := irig_rf_never (irig_rf irig_start).1 (by rw [e1]; exact h0) (by rw [e1]; decide)
  have e3 := irig_rf_never { irig_start with decim := 1, fdelay := IRIG_B } IRIG_B_ne_IRIG_E
    (by decide)
  refine ⟨?_, ?_, ?_, ?_⟩
  · rw [e1]
  · rw [e1]; rfl
  · rw [e2]
  · rw [e3]

end Irig

namespace Wwv

/-- C27: when the amplitude and SNR gates and the station select let the calls through,
the candidate epoch `tepoch` that `wwv_endpoc` computes is the median of the three most
recent positions: the current one and the two before it, whatever their order and whichever
of them are equal.  On the first two calls the missing positions are the entries of the
filter as it stood (zero after the start). -/
theorem wwv_endpoc_median_of_three (st : endpoc) (m0 m1 m2 : Int)
    (hst : st.epoch_mf = [m0, m1, m2]) (l : List (Nat × ℚ × ℚ × Int)) (c2 c1 c0 : Nat × ℚ × ℚ × Int)
    (hl : ∀ c ∈ l, passes c) (h2 : passes c2) (h1 : passes c1) (h0 : passes c0) :
    (wwv_endpoc_run st (l ++ [c2, c1, c0])).tepoch = median3 c0.2.2.2 c1.2.2.2 c2.2.2.2 ∧
    (wwv_endpoc_run st [c1, c0]).tepoch = median3 c0.2.2.2 c1.2.2.2 m0 ∧
    (wwv_endpoc_run st [c0]).tepoch = median3 c0.2.2.2 m0 m1 ∧
    (wwv_endpoc c0.1 c0.2.1 c0.2.2.1 st c0.2.2.2).2.1.tepoch = median3 c0.2.2.2 m0 m1 := by
  have three : ∀ (s : endpoc) (x0 x1 x2 : Int), s.epoch_mf = [x0, x1, x2] →
      (wwv_endpoc_run s [c2, c1, c0]).tepoch = median3 c0.2.2.2 c1.2.2.2 c2.2.2.2 := by
    intro s x0 x1 x2 hs
    obtain ⟨s1, e1, a1, _⟩ := wwv_endpoc_run_step s c2 [c1, c0] x0 x1 x2 h2 hs
    obtain ⟨s2, e2, a2, _⟩ := wwv_endpoc_run_step s1 c1 [c0] _ _ _ h1 a1
    obtain ⟨s3, e3, _, a3⟩ := wwv_endpoc_run_step s2 c0 [] _ _ _ h0 a2
    rw [e1, e2, e3, wwv_endpoc_run]
    exact a3
  refine ⟨?_, ?_, ?_, ?_⟩
  · obtain ⟨x0, x1, x2, hx⟩ := wwv_endpoc_run_shape l st m0 m1 m2 hst hl
    rw [wwv_endpoc_run_append]
    exact three _ x0 x1 x2 hx
  · obtain ⟨s1, e1, a1, _⟩ := wwv_endpoc_run_step st c1 [c0] m0 m1 m2 h1 hst
    obtain ⟨s2, e2, _, a2⟩ := wwv_endpoc_run_step s1 c0 [] _ _ _ h0 a1
    rw [e1, e2, wwv_endpoc_run]
    exact a2
  · obtain ⟨s1, e1, _, a1⟩ := wwv_endpoc_run_step st c0 [] m0 m1 m2 h0 hst
    rw [e1, wwv_endpoc_run]
    exact a1
  · rw [wwv_endpoc_passes st c0 h0]
    exact (wwv_endpoc_filter_eq { st with scount := st.scount + 1 } c0.2.2.2 m0 m1 m2 hst).2

/-- C27 at a sequence with a tie and a spike: after the positions 7, 5, 5, 900, 5 the
candidate epochs are the medians of the last three. -/
theorem wwv_endpoc_median_of_three_witness :
    (wwv_endpoc_run endpoc.zero ([(SELV, 3000, 10, 7), (SELV, 3000, 10, 5)] ++
      [(SELV, 3000, 10, 5), (SELV, 3000, 10, 900), (SELV, 3000, 10, 5)])).tepoch =
      median3 5 900 5 ∧ median3 5 900 5 = 5 :=
  ⟨(wwv_endpoc_median_of_three endpoc.zero 0 0 0 rfl
      [(SELV, 3000, 10, 7), (SELV, 3000, 10, 5)]
      (SELV, 3000, 10, 5) (SELV, 3000, 10, 900) (SELV, 3000, 10, 5)
      (by
        intro c hc
        simp only [List.mem_cons, List.mem_singleton, List.not_mem_nil, or_false] at hc
        rcases hc with h | h <;> subst h <;> unfold passes STHR SSNR <;>
          exact ⟨by norm_num, by decide⟩)
      (by unfold passes STHR SSNR; exact ⟨by norm_num, by decide⟩)
      (by unfold passes STHR SSNR; exact ⟨by norm_num, by decide⟩)
      (by unfold passes STHR SSNR; exact ⟨by norm_num, by decide⟩)).1, by decide⟩

/-- C23: `wwv_process_offset` advances the put pointer `coderecv` modulo 64, stores the
sample there and advances the get pointer `codeproc` only when put has caught up with it.
After the pushes `ps` into an empty filter one `wwv_sample` request drains exactly
`min n 63` samples, the most recent ones in push order, returns that count and leaves
put == get; a request on an empty filter returns 0 and changes no field of the unit. -/
theorem wwv_filter_ring (sqrt : ℚ → ℚ) (fuel : Nat) (up : wwvfilter) (ps : List (l_fp × Nat))
    (hwf : up.wf) (he : up.codeproc = up.coderecv) (hf : 100 ≤ fuel) :
    (∀ (u : wwvfilter) (lasttim : Nat),
      (wwv_process_offset u lasttim).coderecv = (u.coderecv + 1) % 64 ∧
      (wwv_process_offset u lasttim).filter =
        u.filter.set ((u.coderecv + 1) % 64) (sampleOf u.pdelay (u.timestamp, lasttim)) ∧
      (wwv_process_offset u lasttim).codeproc =
        (if (u.coderecv + 1) % 64 = u.codeproc then (u.codeproc + 1) % 64 else u.codeproc)) ∧
    (∃ up1, wwv_sample_drain fuel (push_all up ps) [] =
        some (up1, (ps.map (sampleOf up.pdelay)).drop (ps.length - min ps.length 63)) ∧
      up1.codeproc = up1.coderecv) ∧
    (∃ up1 offs, wwv_sample sqrt fuel (push_all up ps) = some (up1, min ps.length 63, offs) ∧
      up1.codeproc = up1.coderecv) ∧
    wwv_sample sqrt fuel up = some (up, 0, none) := by
  obtain ⟨pw, pd, pl⟩ := push_all_pending up hwf he ps
  have hdrain := wwv_sample_drain_spec fuel (push_all up ps) [] pw.1 pw.2.1 pw.2.2
    (by rw [pd]; omega) (by rw [pd]; simp only [List.length_nil]; omega)
  rw [pd, pl, List.nil_append] at hdrain
  refine ⟨?_, ⟨_, hdrain, rfl⟩, ?_, wwv_sample_empty sqrt fuel up he (by omega)⟩
  · intro u lasttim
    rw [wwv_process_offset_eq]
    exact ⟨rfl, rfl, rfl⟩
  · by_cases h0 : min ps.length 63 = 0
    · have hemp : (push_all up ps).codeproc = (push_all up ps).coderecv := by
        have := pw.2.1
        have := pw.2.2
        omega
      rw [h0]
      exact ⟨_, _, wwv_sample_empty sqrt fuel _ hemp (by omega), hemp⟩
    · obtain ⟨jit, off, i, j, _, _, _, _, _, _, _, _, r⟩ :=
        wwv_sample_spec sqrt fuel (push_all up ps) pw (by rw [pd]; omega) hf
      rw [pd] at r
      exact ⟨_, _, r, rfl⟩

/-- C23 on an empty filter and on two pushes: the request on the empty filter returns 0 and
leaves the unit as it was, and after two pushes the drain hands back those two samples. -/
theorem wwv_filter_ring_witness :
    wwv_sample (fun x => x) 100 filter0 = some (filter0, 0, none) ∧
    ∃ up1, wwv_sample_drain 100 (push_all filter0 [(⟨0, 0⟩, 1), (⟨0, 0⟩, 2)]) [] =
        some (up1, ([(⟨0, 0⟩, 1), (⟨0, 0⟩, 2)].map (sampleOf filter0.pdelay)).drop
          (([(⟨0, 0⟩, 1), (⟨0, 0⟩, 2)] : List (l_fp × Nat)).length -
            min ([(⟨0, 0⟩, 1), (⟨0, 0⟩, 2)] : List (l_fp × Nat)).length 63)) ∧
      up1.codeproc = up1.coderecv :=
  ⟨(wwv_filter_ring (fun x => x) 100 filter0 [(⟨0, 0⟩, 1), (⟨0, 0⟩, 2)] (by decide) rfl
      (by decide)).2.2.2,
    (wwv_filter_ring (fun x => x) 100 filter0 [(⟨0, 0⟩, 1), (⟨0, 0⟩, 2)] (by decide) rfl
      (by decide)).2.1⟩

/-- C24 as stated fails: for the eight samples of the example the trimming loop stops with
the window [1, 6) of five samples, more than 3 * 8 / 5; already a single sample is kept
whole. -/
theorem wwv_sample_window_counterexample :
    wwv_sample_trim sorted8 (8 - 8 * 2 / 5) 100 0 8 = some (1, 6) ∧ ¬ (6 - 1) * 5 ≤ 3 * 8 ∧
    wwv_sample_trim [(0 : ℚ)] (1 - 1 * 2 / 5) 100 0 1 = some (0, 1) ∧ ¬ (1 - 0) * 5 ≤ 3 * 1 :=
  ⟨filter8_trim, by decide, by decide!, by decide⟩

/-- C24 (amended): for `n` in 1..63 waiting samples `wwv_sample` sorts them and its trimming
loop stops with a contiguous window [i, j) of the sorted array whose size is exactly
`n - 2n/5`, the least whole number not below 3n/5; the offset it computes is the sum of the
samples of the window divided by their number.  For the samples 1.0, 1.1, 1.2, 1.3, 100,
-100, 1.5, 1.6 the first rejection is -100, the second 100, and the offset is 1.22. -/
theorem wwv_sample_trimmed_mean (sqrt : ℚ → ℚ) (fuel : Nat) (up : wwvfilter) (hwf : up.wf)
    (hd : 1 ≤ (up.coderecv + 64 - up.codeproc) % 64) (hf : 100 ≤ fuel) :
    (∃ (jitter : ℚ) (off : List ℚ) (i j : Nat),
      Shellsort_dbl fuel ((List.range ((up.coderecv + 64 - up.codeproc) % 64)).map
          (fun t => up.filter.getD ((up.codeproc + 1 + t) % 64) 0))
        ((up.coderecv + 64 - up.codeproc) % 64) = some off ∧
      off.Sorted (· ≤ ·) ∧
      wwv_sample_trim off ((up.coderecv + 64 - up.codeproc) % 64 -
          ((up.coderecv + 64 - up.codeproc) % 64 * 2) / 5) fuel 0
        ((up.coderecv + 64 - up.codeproc) % 64) = some (i, j) ∧
      i ≤ j ∧ j ≤ (up.coderecv + 64 - up.codeproc) % 64 ∧
      j - i = (up.coderecv + 64 - up.codeproc) % 64 -
          ((up.coderecv + 64 - up.codeproc) % 64 * 2) / 5 ∧
      3 * ((up.coderecv + 64 - up.codeproc) % 64) ≤ 5 * (j - i) ∧
      5 * (j - i) < 3 * ((up.coderecv + 64 - up.codeproc) % 64) + 5 ∧
      wwv_sample sqrt fuel up = some ({ up with codeproc := up.coderecv, jitter := jitter },
        (up.coderecv + 64 - up.codeproc) % 64,
        some (((off.take j).drop i).sum / ((j - i : Nat) : ℚ)))) ∧
    wwv_sample_trim sorted8 7 100 0 8 = some (1, 8) ∧
    wwv_sample_trim sorted8 6 100 0 8 = some (1, 7) ∧
    (wwv_sample sqrt 100 filter8).map (fun r => r.2) = some (8, some (61 / 50)) ∧
    (11 : ℚ) / 10 ≤ 61 / 50 ∧ (61 : ℚ) / 50 ≤ 15 / 10 := by
  obtain ⟨jit, off, i, j, _, r2, r3, _, r5, r6, r7, r8, r9⟩ := wwv_sample_spec sqrt fuel up hwf hd hf
  refine ⟨⟨jit, off, i, j, r2, r3, r5, r6, r7, r8, by omega, by omega, r9⟩, filter8_trim_one,
    filter8_trim_two, filter8_sample sqrt, by norm_num, by norm_num⟩

/-- C24 on the filter holding the eight samples of the example. -/
theorem wwv_sample_trimmed_mean_witness :
    (wwv_sample (fun x => x) 100 filter8).map (fun r => r.2) = some (8, some (61 / 50)) :=
  (wwv_sample_trimmed_mean (fun x => x) 100 filter8 (by decide) (by decide) (by decide)).2.2.2.1

/-- C25 as stated fails: on an array of 2^32 - 1 values the first loop of `Shellsort_dbl`
never ends, because `inc <= n` holds for every 32-bit `inc`. -/
theorem Shellsort_dbl_huge_counterexample :
    ¬ ∃ fuel out, Shellsort_dbl fuel (List.replicate 4294967295 (0 : ℚ)) 4294967295 = some out := by
  rintro ⟨fuel, out, h⟩
  unfold Shellsort_dbl at h
  rw [shell_gap_max fuel 1 (by decide), Option.none_bind] at h
  exact Option.noConfusion h

/-- C25 (amended): for every array of `n` values from a total order with
`1 <= n < 1743392200` (so that the gap `3 * inc + 1` stays below 2^32), `Shellsort_dbl`
ends (any fuel of at least `n + 20` rounds per loop is enough) without reading or writing
outside the array, and leaves it sorted in ascending order and a permutation of its
input. -/
theorem Shellsort_dbl_sorts {α : Type} [LinearOrder α] (inp : List α) (n fuel : Nat)
    (hlen : inp.length = n) (h1 : 1 ≤ n) (hn : n < 1743392200) (hfuel : n + 20 ≤ fuel) :
    ∃ out, Shellsort_dbl fuel inp n = some out ∧ out.Sorted (· ≤ ·) ∧ out.Perm inp :=
  Shellsort_dbl_spec inp n fuel hlen h1 hn hfuel

/-- C25 on seven numbers. -/
theorem Shellsort_dbl_sorts_witness :
    ∃ out, Shellsort_dbl 27 [5, 3, 9, 1, 1, 8, 2] 7 = some out ∧ out.Sorted (· ≤ ·) ∧
      out.Perm [5, 3, 9, 1, 1, 8, 2] :=
  Shellsort_dbl_sorts [5, 3, 9, 1, 1, 8, 2] 7 27 rfl (by decide) (by decide) (by decide)

/-- C28: in `wwv_corr4`, when the likelihood gates pass (`digprb >= BTHR` and
`digsnr >= BSNR`): if the maximum-likelihood digit equals the stored digit, `count` goes up by
one unless it is `BCMP = 3` already, and when it then equals 3, `DSYNC` is set and `digcnt`
goes up by one; if the digits differ, `count` goes down by one unless it is 0 already, and
the stored digit is replaced by the maximum-likelihood digit exactly when `count` is then 0.
`0 <= count <= 3` is kept by `wwv_corr4` and by every second 2 to 60 of `wwv_rsec`.  In a
minute run from second 2 with `digcnt = 0` (as second 1 leaves it) and `INSYNC` clear, if
`INSYNC` is set afterwards then `digcnt = 9`, `alarm = 0`, `SSYNC` is set and all nine counts
are 3. -/
theorem wwv_corr4_count_and_insync (snr : ℚ → ℚ → ℚ) (isleap : Int) (fuel : Nat)
    (up up1 : wwvclock) (bits : List ℚ) (hb : Bounded up)
    (hrun : wwv_rsec_run snr isleap fuel up bits = some up1) :
    (∀ (u v : wwvclock) (k : Nat) (data : List ℚ) (tab : List (List ℚ)),
      wwv_corr4 snr u k data tab = some v →
      ∃ (vp vq : decvec) (like : List ℚ) (top nxt : ℚ) (ml : Int),
        u.decvec[k]? = some vp ∧ v.decvec[k]? = some vq ∧
        wwv_corr4_loop data tab 0 (vp.like, -MAXAMP, -MAXAMP, 0) = some (like, top, nxt, ml) ∧
        vq.digprb = top ∧ vq.digsnr = snr top nxt ∧
        (¬ (top < BTHR ∨ snr top nxt < BSNR) →
          (vp.digit = ml →
            vq.count = (if vp.count < BCMP then vp.count + 1 else vp.count) ∧
            vq.digit = vp.digit ∧
            (vq.count = BCMP → v.status = u.status ||| DSYNC ∧ v.digcnt = u.digcnt + 1) ∧
            (vq.count ≠ BCMP → v.status = u.status ∧ v.digcnt = u.digcnt)) ∧
          (vp.digit ≠ ml →
            vq.count = (if vp.count > 0 then vp.count - 1 else vp.count) ∧
            vq.digit = (if vq.count = 0 then ml else vp.digit) ∧
            v.status = u.status ∧ v.digcnt = u.digcnt))) ∧
    (∀ (v : wwvclock) (k : Nat) (data : List ℚ) (tab : List (List ℚ)),
      wwv_corr4 snr up k data tab = some v → Bounded v) ∧
    Bounded up1 ∧
    (up.rsec = 2 → up.digcnt = 0 → up.decvec.length = 9 → up.status &&& INSYNC = 0 →
      up1.status &&& INSYNC ≠ 0 →
      up1.digcnt = 9 ∧ up1.alarm = 0 ∧ up1.status &&& SSYNC ≠ 0 ∧
        counts up1 = List.replicate 9 BCMP) := by
  refine ⟨fun u v k data tab h => wwv_corr4_gated snr u v k data tab h,
    fun v k data tab h => wwv_corr4_bounded snr up v k data tab hb h,
    wwv_rsec_run_bounded snr isleap fuel up1 bits up hb hrun, ?_⟩
  intro hr hd hl hi hset
  refine wwv_rsec_run_inv snr isleap fuel up1 bits up 2 hr (le_refl 2) hi ?_ ?_ hrun hset
  · rw [hd]; exact Int.natCast_nonneg _
  · simpa [counts] using hl

/-- C28 on a minute of zero bits at full amplitude, entered at second 2 with all nine counts
at 3, `digcnt = 0` and `INSYNC` clear: `INSYNC` is set at the end of the minute, with
`digcnt = 9`, no alarm and all nine counts at 3. -/
theorem wwv_corr4_count_and_insync_witness :
    Bounded clock_locked ∧ clock_locked.status &&& INSYNC = 0 ∧
      clock_locked_next.status &&& INSYNC ≠ 0 ∧ Bounded clock_locked_next ∧
      clock_locked_next.digcnt = 9 ∧ clock_locked_next.alarm = 0 ∧
      counts clock_locked_next = List.replicate 9 BCMP :=
  have h := wwv_corr4_count_and_insync (wwv_snr fun x => x) 0 0 clock_locked clock_locked_next
    (List.replicate 58 (-6000)) (by decide) (by decide!)
  have h4 := h.2.2.2 rfl rfl rfl (by decide) (by decide!)
  ⟨by decide, by decide, by decide!, h.2.2.1, h4.1, h4.2.1, h4.2.2.2⟩

/-- C29 fails on the code: the table `bcd6` of the minute tens holds seven code vectors
(digits 0 to 6) while `wwv_start` gives that position the radix 6.  On the decoding matrix
that `wwv_start` leaves, five calls of `wwv_corr4` on the minute tens with the data
0, 6000, 6000, 0 (the code vector of 6) store the digit 6, which is not below the radix 6;
`carry` then makes it 7 and then 8 and does not wrap it to 0.  `to_dB` is not called on the
way. -/
theorem wwv_corr4_minute_tens_beyond_radix (to_dB : ℚ → ℚ) :
    ((wwv_corr4_run (wwv_snr to_dB) (MN + 1) [0, 6000, 6000, 0] bcd6
        { clock_start with status := DSYNC } 5).map fun u =>
      ((u.decvec.getD (MN + 1) default).radix, (u.decvec.getD (MN + 1) default).digit,
        (carry (u.decvec.getD (MN + 1) default)).2,
        (carry (carry (u.decvec.getD (MN + 1) default)).1).2)) = some (6, 6, 7, 8) := by
  rw [wwv_corr4_run_quiet to_dB (MN + 1) [0, 6000, 6000, 0] bcd6 _ 5 (by decide!)]
  decide!

/-- C30 fails on the code where the local `isleap` of `wwv_tsec`, which is never assigned, is
read as nonzero: at 23:59 on day 364 of year 24 with `DSYNC` set the digits afterwards are
00:00 on day 001 of year 25, not day 365 of year 24.  Read as zero, the same call gives 00:00
on day 365 of year 24. -/
theorem wwv_tsec_day_364_rolls_year :
    (wwv_tsec 1 10 (clock_at DSYNC 9 5 3 2 4 6 3 4 2)).map digits =
      some [0, 0, 0, 0, 1, 0, 0, 5, 2] ∧
    (wwv_tsec 0 10 (clock_at DSYNC 9 5 3 2 4 6 3 4 2)).map digits =
      some [0, 0, 0, 0, 5, 6, 3, 4, 2] := by
  decide!

end Wwv

end Refclock
